import Mathlib

/-!
# Marlin entropy codec: block framing and the experimental `MarlinWiP` codec

Shallow embedding of `src/compress.cc` (`TCompress`) and, from
`src/marlinlib/marlin.hpp`, of the `MarlinWiP` dictionary construction (`updateConf`,
`Alphabet`, `buildTree`, `buildChapterWords`, `arrangeAndFuse`, `buildDictionary`), of the
`MarlinWiP` encoder / decoder and of the dispatch of `Marlin2018Simple::Decoder`.

Conventions of the embedding

* `TSource` is fixed to `uint8_t` (`sizeof(TSource) = 1`), so `nBytes = nElements`.
* A destination view is a flat byte memory `Mem` addressed by the offset from the
  pointer the caller passed in, together with its capacity.  A store through a
  pointer beyond the capacity lands in the same flat memory, so such stores stay
  visible.
* A source view is the list of its bytes.  `TCompress::compressMarlin8` and
  `TCompress::compressMarlinFast` dereference `src.start` before testing the length;
  the byte that follows the block in memory is the parameter `past`.
* `ssize_t` results are `Int`, `size_t` values are `Nat`.
* A `double` that holds a probability or a configuration value is a rational number; the
  dictionary construction is embedded over exact arithmetic.
* A tree of nodes linked by `std::shared_ptr` is a value of an inductive type and a pointer
  into it is a path from the root; the element `std::priority_queue::top()` returns is chosen
  by a parameter of the model.
-/

namespace Marlin

/-! ## Byte memory -/

/-- Flat byte memory behind a destination pointer: offset to byte. -/
abbrev Mem := Nat → Nat

/-- One byte store `p[a] = v`. -/
def store (m : Mem) (a v : Nat) : Mem := fun x => if x = a then v else m x

/-- Consecutive byte stores, `memcpy(p + a, bytes, |bytes|)`. -/
def storeBytes (m : Mem) (a : Nat) : List Nat → Mem
  | [] => m
  | b :: bs => storeBytes (store m a b) (a + 1) bs

/-- Little-endian bytes of the `w`-byte unsigned integer `v mod 2^(8w)`. -/
def leBytes : Nat → Nat → List Nat
  | 0, _ => []
  | w + 1, v => (v % 256) :: leBytes w (v / 256)

/-- Store of a `w`-byte unsigned integer through a reinterpreted pointer (x86, little endian). -/
def storeLE (m : Mem) (a w v : Nat) : Mem := storeBytes m a (leBytes w v)

/-- Little-endian value of a byte group, the `uint64_t` load of eight source bytes. -/
def load64 : List Nat → Nat
  | [] => 0
  | b :: bs => b + 256 * load64 bs

/-- The bytes `m[a], ..., m[a+n-1]`. -/
def readBytes (m : Mem) (a n : Nat) : List Nat := (List.range n).map (fun i => m (a + i))

/-- An empty destination buffer (all bytes zero). -/
def zeroMem : Mem := fun _ => 0

/-! ## `TMarlin` members used by `TCompress` -/

/-- Modelled from the spec: the members of `TMarlin<TSource,MarlinIdx>` that `TCompress`
reads (`marlin.h` is not among the sources).  `K`, `O`, `shift` are the codeword bits,
overlap bits and residual shift; `idxBytes` is `sizeof(CompressorTableIdx)`;
`marlinAlphabet` lists the `sourceSymbol` of every kept alphabet entry; `words` is the
dictionary of Marlin-symbol words; `compressorTable` is the array behind
`compressorTablePointer`. -/
structure TMarlin where
  K : Nat
  O : Nat
  shift : Nat
  idxBytes : Nat
  marlinAlphabet : List Nat
  words : List (List Nat)
  compressorTable : Nat → Nat

/-- `FLAG_NEXT_WORD = 1UL << (8*sizeof(CompressorTableIdx) - 1)`. -/
def FLAG_NEXT_WORD (p : TMarlin) : Nat := 1 <<< (8 * p.idxBytes - 1)

/-- `unrepresentedSymbolToken = marlinAlphabet.size()`. -/
def unrepresentedSymbolToken (p : TMarlin) : Nat := p.marlinAlphabet.length

/-- The `source2marlin` array: filled with the token, then
`source2marlin[marlinAlphabet[i].sourceSymbol >> shift] = i` for `i` ascending. -/
def source2marlin (p : TMarlin) : Nat → Nat :=
  (List.range p.marlinAlphabet.length).foldl
    (fun f i => store f (p.marlinAlphabet.getD i 0 >>> p.shift) i)
    (fun _ => unrepresentedSymbolToken p)

/-- `JumpTable::operator()`: the cell `table[(word & ((1<<wordStride)-1)) + (nextLetter << wordStride)]`
with `wordStride = K + O`. -/
def jump (p : TMarlin) (word nextLetter : Nat) : Nat :=
  p.compressorTable ((word &&& ((1 <<< (p.K + p.O)) - 1)) + (nextLetter <<< (p.K + p.O)))

/-- The search for the word that sets up the machine state: the first `i < 2^K` with
`words[i].size() == 1 and words[i].front() == ms`, and `0` when there is none. -/
def initialWord (p : TMarlin) (ms : Nat) : Nat :=
  ((List.range (1 <<< p.K)).find?
    (fun i => (p.words.getD i []).length == 1 && (p.words.getD i []).head? == some ms)).getD 0

/-- Marlin symbol of a source byte and whether it is unrepresented: the token is replaced by
symbol 0 and the position is pushed on `unrepresentedSymbols`. -/
def classify (p : TMarlin) (ss inPos : Nat) (rare : List Nat) : Nat × List Nat :=
  if source2marlin p (ss >>> p.shift) = unrepresentedSymbolToken p then (0, rare ++ [inPos])
  else (source2marlin p (ss >>> p.shift), rare)

/-! ## `TCompress::compressMarlin8` -/

/-- The `while (in<src.end)` loop of `compressMarlin8` and the final flush.  `inPos` is
`in - src.start`, `out` the output cursor, `j` the state.  Result: return value, memory,
`unrepresentedSymbols`. -/
def compressMarlin8Loop (p : TMarlin) (dstStart : Nat) (dstEnd : Int) :
    List Nat → Nat → Nat → Nat → Mem → List Nat → Int × Mem × List Nat
  | [], _, out, j, mem, rare =>
      (((out + 1 : Nat) : Int) - (dstStart : Int), store mem out (j % 256), rare)
  | ss :: rest, inPos, out, j, mem, rare =>
      let c := classify p ss inPos rare
      let mem1 := store mem out (j % 256)
      let j1 := jump p j c.1
      let out1 := if j1 &&& FLAG_NEXT_WORD p ≠ 0 then out + 1 else out
      if dstEnd - (out1 : Int) < 16 then (-1, mem1, c.2)
      else compressMarlin8Loop p dstStart dstEnd rest (inPos + 1) out1 j1 mem1 c.2

/-- `TCompress::compressMarlin8(src, dst, unrepresentedSymbols)` with
`dst = [dstStart, dstEnd)`.  The first byte is read before any length test, so an empty
`src` reads `past`. -/
def compressMarlin8 (p : TMarlin) (src : List Nat) (past : Nat) (mem : Mem)
    (dstStart : Nat) (dstEnd : Int) (rare : List Nat) : Int × Mem × List Nat :=
  let c := classify p (src.headD past) 0 rare
  compressMarlin8Loop p dstStart dstEnd src.tail 1 dstStart (initialWord p c.1) mem c.2

/-! ## `TCompress::compressMarlinFast` -/

/-- The drain loops `while (valueBits > thr) { *out++ = value >> 24; value <<= 8; valueBits -= 8; }`
on the 32-bit register; `fuel` bounds the iterations. -/
def drain (thr : Int) : Nat → Nat → Int → Nat → Mem → Nat × Int × Nat × Mem
  | 0, value, bits, out, mem => (value, bits, out, mem)
  | fuel + 1, value, bits, out, mem =>
      if bits > thr then
        drain thr fuel ((value <<< 8) % 2 ^ 32) (bits - 8) (out + 1) (store mem out (value >>> 24))
      else (value, bits, out, mem)

/-- Folding a codeword into the register:
`value |= ((j | FLAG_NEXT_WORD) ^ FLAG_NEXT_WORD) << (32 - K - valueBits)` in `uint32_t`
(`K + valueBits <= 32` at both call sites when `K <= 24`). -/
def foldCode (p : TMarlin) (value : Nat) (bits : Int) (j : Nat) : Nat :=
  (value ||| (((j ||| FLAG_NEXT_WORD p) ^^^ FLAG_NEXT_WORD p) <<< (32 - p.K - bits.toNat))) % 2 ^ 32

/-- The `while (in<src.end)` loop of `compressMarlinFast` and the final flush. -/
def compressMarlinFastLoop (p : TMarlin) (dstStart : Nat) (dstEnd : Int) :
    List Nat → Nat → Nat → Nat → Nat → Int → Mem → List Nat → Int × Mem × List Nat
  | [], _, out, j, value, bits, mem, rare =>
      let v := foldCode p value bits j
      let d := drain 0 (bits + p.K).toNat v (bits + p.K) out mem
      ((d.2.2.1 : Int) - (dstStart : Int), d.2.2.2, rare)
  | ss :: rest, inPos, out, j, value, bits, mem, rare =>
      if dstEnd - (out : Int) < 16 then (-1, mem, rare)
      else
        let c := classify p ss inPos rare
        let j1 := jump p j c.1
        let vb : Nat × Int :=
          if j1 &&& FLAG_NEXT_WORD p ≠ 0 then (foldCode p value bits j, bits + p.K) else (value, bits)
        let d := drain 8 vb.2.toNat vb.1 vb.2 out mem
        compressMarlinFastLoop p dstStart dstEnd rest (inPos + 1) d.2.2.1 j1 d.1 d.2.1 d.2.2.2 c.2

/-- `TCompress::compressMarlinFast(src, dst, unrepresentedSymbols)`. -/
def compressMarlinFast (p : TMarlin) (src : List Nat) (past : Nat) (mem : Mem)
    (dstStart : Nat) (dstEnd : Int) (rare : List Nat) : Int × Mem × List Nat :=
  let c := classify p (src.headD past) 0 rare
  compressMarlinFastLoop p dstStart dstEnd src.tail 1 dstStart (initialWord p c.1) 0 0 mem c.2

/-! ## `TCompress::shift8` -/

/-- Modelled from the spec: the BMI2 intrinsic `_pext_u64(v, mask)`, which gathers the bits of
`v` selected by `mask` into the low bits of the result, lowest first. -/
def pext_u64 (v mask : Nat) : Nat :=
  ((List.range 64).foldl
    (fun (acc : Nat × Nat) i =>
      if mask.testBit i then (acc.1 ||| ((if v.testBit i then 1 else 0) <<< acc.2), acc.2 + 1)
      else acc)
    (0, 0)).1

/-- The mask of `shift8`: `mask |= ((1ULL<<shift)-1) << (8ULL*i)` for `i < 8`. -/
def shiftMask (shift : Nat) : Nat :=
  (List.range 8).foldl (fun mask i => mask ||| ((((1 <<< shift) - 1) <<< (8 * i)) % 2 ^ 64)) 0

/-- `TCompress::shift8(src, dst)`: every group of eight source bytes is stored as one 64-bit
word `_pext_u64(group, mask)` at `o8`, then `o8 += shift`.  Result: memory and final `o8`.
The only caller passes a view whose length is a multiple of 8. -/
def shift8 (p : TMarlin) : List Nat → Mem → Nat → Mem × Nat
  | b0 :: b1 :: b2 :: b3 :: b4 :: b5 :: b6 :: b7 :: rest, mem, o8 =>
      shift8 p rest
        (storeLE mem o8 8 (pext_u64 (load64 [b0, b1, b2, b3, b4, b5, b6, b7]) (shiftMask p.shift)))
        (o8 + p.shift)
  | _, mem, o8 => (mem, o8)

/-! ## `TCompress::compress` -/

/-- The single-symbol test: `for (i=0; i<n and src[i]==src[0]; i++) count++`. -/
def constantCount (src : List Nat) : Nat :=
  (src.takeWhile (fun x => x == src.headD 0)).length

/-- The padding loop `while (src.nBytes() % 8 != 0) { *dst.start++ = *src.start++; padding++; }`.
Result: remaining source, `padding` (also the new `dst.start`), memory. -/
def padLoop : List Nat → Nat → Mem → List Nat × Nat × Mem
  | [], padding, mem => ([], padding, mem)
  | b :: bs, padding, mem =>
      if (b :: bs).length % 8 ≠ 0 then padLoop bs (padding + 1) (store mem padding b)
      else (b :: bs, padding, mem)

/-- Width in bytes of the offset field as computed for `unrepresentedSize`:
`n < 0x100 ? 1 : n < 0x10000 ? 2 : n < 0x100000000 ? 4 : 8`. -/
def offsetWidth (n : Nat) : Nat :=
  if n < 0x100 then 1 else if n < 0x10000 then 2 else if n < 0x100000000 then 4 else 8

/-- One iteration of the loop that encodes the unrepresented symbols: the offset `s` through
a `uint8_t`/`uint16_t`/`uint32_t`/`uint64_t` pointer chosen by `src.nElements()`, then the
source byte `src.start[s]`. -/
def writeRareEntry (src : List Nat) (past : Nat) (mem : Mem) (pos s : Nat) : Mem × Nat :=
  let r : Mem × Nat :=
    if src.length < 0x100 then (storeLE mem pos 1 s, pos + 1)
    else if src.length < 0x10000 then (storeLE mem pos 2 s, pos + 2)
    else if src.length < 0x100000000 then (storeLE mem pos 4 s, pos + 4)
    else (storeLE mem pos 8 s, pos + 8)
  (store r.1 r.2 (src.getD s past), r.2 + 1)

/-- The loop `for (auto &s : unrepresentedSymbols)`. -/
def writeRare (src : List Nat) (past : Nat) : List Nat → Mem → Nat → Mem × Nat
  | [], mem, pos => (mem, pos)
  | s :: ss, mem, pos =>
      writeRare src past ss (writeRareEntry src past mem pos s).1 (writeRareEntry src past mem pos s).2

/-- The Marlin loop selected by `compress`: `compressMarlin8` when `K == 8`, else
`compressMarlinFast`, on the view `[dst.start+1, dst.end-residualSize)`. -/
def marlinStage (p : TMarlin) (src : List Nat) (past : Nat) (mem : Mem) (dstStart cap : Nat) :
    Int × Mem × List Nat :=
  if p.K = 8 then
    compressMarlin8 p src past mem (dstStart + 1) ((cap : Int) - ((src.length * p.shift / 8 : Nat) : Int)) []
  else
    compressMarlinFast p src past mem (dstStart + 1) ((cap : Int) - ((src.length * p.shift / 8 : Nat) : Int)) []

/-- The test that sends the block to raw storage:
`marlinSize < 0 or unrepresentedSymbols.size() > 255 or
 1 + marlinSize + unrepresentedSize + residualSize > src.nBytes()`. -/
def storeRaw (p : TMarlin) (src : List Nat) (marlinSize : Int) (rare : List Nat) : Bool :=
  decide (marlinSize < 0) || decide (rare.length > 255) ||
    decide (1 + marlinSize.toNat + rare.length * (1 + offsetWidth src.length) + src.length * p.shift / 8
      > src.length)

/-- The tail of `compress` after the padding loop: `src` is the 8-aligned remainder,
`padding` the number of bytes already copied (and the current `dst.start`). -/
def compressAligned (p : TMarlin) (src : List Nat) (past : Nat) (padding : Nat) (mem : Mem)
    (cap : Nat) : Int × Mem :=
  let residualSize := src.length * p.shift / 8
  let m := marlinStage p src past (store mem padding 0) padding cap
  let unrepresentedSize := m.2.2.length * (1 + offsetWidth src.length)
  if storeRaw p src m.1 m.2.2 then
    (((padding + src.length : Nat) : Int), storeBytes m.2.1 padding src)
  else
    let mem1 := store m.2.1 padding (m.2.2.length % 256)
    let r := writeRare src past m.2.2 mem1 (padding + 1 + m.1.toNat)
    (((padding + 1 + m.1.toNat + unrepresentedSize + residualSize : Nat) : Int),
      (shift8 p src r.1 r.2).1)

/-- `TCompress::compress(src, dst)`; `dst` has `cap` bytes.  Result: return value and memory. -/
def compress (p : TMarlin) (src : List Nat) (past : Nat) (dst : Mem) (cap : Nat) : Int × Mem :=
  if cap < src.length then (-1, dst)
  else if src.length = 0 then (0, dst)
  else if constantCount src = src.length then (1, store dst 0 (src.headD 0))
  else
    let pl := padLoop src 0 dst
    compressAligned p pl.1 past pl.2.1 pl.2.2 cap

/-- Outcome of the Marlin loop inside `compress` for a block that passed the three early
exits: `(marlinSize, memory, unrepresentedSymbols)`. -/
def marlinResult (p : TMarlin) (src : List Nat) (past : Nat) (dst : Mem) (cap : Nat) :
    Int × Mem × List Nat :=
  marlinStage p (padLoop src 0 dst).1 past
    (store (padLoop src 0 dst).2.2 (padLoop src 0 dst).2.1 0) (padLoop src 0 dst).2.1 cap

/-- Whether `compress`, on a block that passed its three early exits, ends in the raw-storage
branch: `storeRaw` evaluated on the 8-aligned remainder and the outcome of the Marlin loop. -/
def takesRawPath (p : TMarlin) (src : List Nat) (past : Nat) (dst : Mem) (cap : Nat) : Bool :=
  storeRaw p (padLoop src 0 dst).1 (marlinResult p src past dst cap).1
    (marlinResult p src past dst cap).2.2

/-- The residual plane of a block: the bytes `shift8` emits into a fresh buffer. -/
def residualPlane (p : TMarlin) (src : List Nat) : List Nat :=
  readBytes (shift8 p src (fun _ => 0) 0).1 0 (src.length * p.shift / 8)

/-- The offset width in the words of the specification, by the size `N` of the original block:
1 if `N < 2^8`, 2 if `N < 2^16`, 4 if `N < 2^32`, 8 otherwise. -/
def specOffsetWidth (N : Nat) : Nat :=
  if N < 2 ^ 8 then 1 else if N < 2 ^ 16 then 2 else if N < 2 ^ 32 then 4 else 8

/-- Positions `start, start+1, ...` of the bytes of a block whose high-bit group is not in the
kept alphabet (`source2marlin[b >> shift]` is the token), in input order. -/
def rareFrom (p : TMarlin) : List Nat → Nat → List Nat
  | [], _ => []
  | x :: xs, i =>
      if source2marlin p (x >>> p.shift) = unrepresentedSymbolToken p then i :: rareFrom p xs (i + 1)
      else rareFrom p xs (i + 1)

/-! ## `TCompress::buildCompressorTable` -/

/-- The map lookup `positions[k]` after the initialisation loop
`positions[k][words[i]] = i` over the chapter `k*2^K <= i < (k+1)*2^K`: the last index of
the chapter holding the word, if any. -/
def position (p : TMarlin) (k : Nat) (w : List Nat) : Option Nat :=
  ((List.range (1 <<< p.K)).map (fun i => k * (1 <<< p.K) + i)).reverse.find?
    (fun i => p.words.getD i [] == w)

/-- Index of the cell `jump(table, word, nextLetter)`. -/
def cell (p : TMarlin) (word nextLetter : Nat) : Nat :=
  (word &&& ((1 <<< (p.K + p.O)) - 1)) + (nextLetter <<< (p.K + p.O))

/-- `alphaStride = std::ceil(std::log2(nAlpha))`: the least `s` with `nAlpha <= 2^s`. -/
def alphaStride (nAlpha : Nat) : Nat :=
  ((List.range (nAlpha + 1)).find? (fun s => decide (nAlpha ≤ 2 ^ s))).getD 0

/-- `JumpTable::initTable`: `(1<<wordStride)*(1<<alphaStride)` cells holding
`CompressorTableIdx(-1)`, for `JumpTable jump(K, O, unrepresentedSymbolToken+1)`. -/
def initTable (p : TMarlin) : List Nat :=
  List.replicate ((1 <<< (p.K + p.O)) * (1 <<< alphaStride (unrepresentedSymbolToken p + 1)))
    (2 ^ (8 * p.idxBytes) - 1)

/-- The inner loop `while (word.size() > 1)` that links a word to its parents; the word is
given reversed (last symbol first).  `none` is the `runtime_error` "This word has no parent". -/
def linkWord (p : TMarlin) (k : Nat) : List Nat → Nat → List Nat → Option (List Nat)
  | last :: r :: rs, wordIdx, t =>
      match position p k (r :: rs).reverse with
      | none => none
      | some parentIdx =>
          linkWord p k (r :: rs) parentIdx
            (t.set (cell p parentIdx (last % 256)) (wordIdx % 2 ^ (8 * p.idxBytes)))
  | _, _, t => some t

/-- Indices of the dictionary in the order of the nested loops over chapters and words:
pairs `(k, i)` with `k*2^K <= i < (k+1)*2^K`. -/
def allIndices (p : TMarlin) : List (Nat × Nat) :=
  (List.range (1 <<< p.O)).flatMap
    (fun k => (List.range (1 <<< p.K)).map (fun i => (k, k * (1 <<< p.K) + i)))

/-- The fallback for one position `i`: every cell `(i, j)`, `j < A`, still holding
`CompressorTableIdx(-1)` becomes `positions[i % NumChapters][Word(1,j)] + FLAG_NEXT_WORD`
(a missing key of the map reads as 0). -/
def fallbackRow (p : TMarlin) (i : Nat) (t : List Nat) : List Nat :=
  (List.range p.marlinAlphabet.length).foldl
    (fun t j =>
      if t.getD (cell p i j) 0 = 2 ^ (8 * p.idxBytes) - 1 then
        t.set (cell p i j)
          (((position p (i % (1 <<< p.O)) [j]).getD 0 + FLAG_NEXT_WORD p) % 2 ^ (8 * p.idxBytes))
      else t)
    t

/-- `TCompress::buildCompressorTable()`: all cells start as `CompressorTableIdx(-1)`, every
word is linked to its parents, the remaining cells get the fallback. -/
def buildCompressorTable (p : TMarlin) : Option (List Nat) :=
  ((allIndices p).foldlM
      (fun t ki => linkWord p ki.1 (p.words.getD ki.2 []).reverse ki.2 t)
      (initTable p)).map
    (fun t => (allIndices p).foldl (fun t ki => fallbackRow p ki.2 t) t)

/-! ## A small codec used for the concrete evaluations -/

/-- A dictionary of 16 words over 8 Marlin symbols (`K = 4`, one chapter): the eight
one-symbol words followed by extensions of the most probable symbols. -/
def demoWords : List (List Nat) :=
  [[0], [1], [2], [3], [4], [5], [6], [7],
   [0, 0], [0, 1], [0, 2], [1, 0], [0, 0, 0], [0, 0, 1], [0, 1, 0], [0, 0, 0, 0]]

/-- The codec around `demoWords` before its compressor table is built: shift 4, source
symbols `0x00, 0x10, ..., 0x70` kept, 16-bit table cells. -/
def demoBase : TMarlin where
  K := 4
  O := 0
  shift := 4
  idxBytes := 2
  marlinAlphabet := [0x00, 0x10, 0x20, 0x30, 0x40, 0x50, 0x60, 0x70]
  words := demoWords
  compressorTable := fun _ => 0

/-- The compressor table of `demoBase`, row `j` holding the cells `(i, j)` for `i < 16`.
Row 8 is the column of the unrepresented-symbol token and rows 9 to 15 the rest of the
`2^alphaStride` symbol range; the builder leaves them at `CompressorTableIdx(-1)`. -/
def demoTable : List Nat :=
  [
   8, 11, 0x8000, 0x8000, 0x8000, 0x8000, 0x8000, 0x8000, 12, 14, 0x8000, 0x8000, 15, 0x8000, 0x8000, 0x8000,
   9, 0x8001, 0x8001, 0x8001, 0x8001, 0x8001, 0x8001, 0x8001, 13, 0x8001, 0x8001, 0x8001, 0x8001, 0x8001, 0x8001, 0x8001,
   10, 0x8002, 0x8002, 0x8002, 0x8002, 0x8002, 0x8002, 0x8002, 0x8002, 0x8002, 0x8002, 0x8002, 0x8002, 0x8002, 0x8002, 0x8002,
   0x8003, 0x8003, 0x8003, 0x8003, 0x8003, 0x8003, 0x8003, 0x8003, 0x8003, 0x8003, 0x8003, 0x8003, 0x8003, 0x8003, 0x8003, 0x8003,
   0x8004, 0x8004, 0x8004, 0x8004, 0x8004, 0x8004, 0x8004, 0x8004, 0x8004, 0x8004, 0x8004, 0x8004, 0x8004, 0x8004, 0x8004, 0x8004,
   0x8005, 0x8005, 0x8005, 0x8005, 0x8005, 0x8005, 0x8005, 0x8005, 0x8005, 0x8005, 0x8005, 0x8005, 0x8005, 0x8005, 0x8005, 0x8005,
   0x8006, 0x8006, 0x8006, 0x8006, 0x8006, 0x8006, 0x8006, 0x8006, 0x8006, 0x8006, 0x8006, 0x8006, 0x8006, 0x8006, 0x8006, 0x8006,
   0x8007, 0x8007, 0x8007, 0x8007, 0x8007, 0x8007, 0x8007, 0x8007, 0x8007, 0x8007, 0x8007, 0x8007, 0x8007, 0x8007, 0x8007, 0x8007,
   0xFFFF, 0xFFFF, 0xFFFF, 0xFFFF, 0xFFFF, 0xFFFF, 0xFFFF, 0xFFFF, 0xFFFF, 0xFFFF, 0xFFFF, 0xFFFF, 0xFFFF, 0xFFFF, 0xFFFF, 0xFFFF,
   0xFFFF, 0xFFFF, 0xFFFF, 0xFFFF, 0xFFFF, 0xFFFF, 0xFFFF, 0xFFFF, 0xFFFF, 0xFFFF, 0xFFFF, 0xFFFF, 0xFFFF, 0xFFFF, 0xFFFF, 0xFFFF,
   0xFFFF, 0xFFFF, 0xFFFF, 0xFFFF, 0xFFFF, 0xFFFF, 0xFFFF, 0xFFFF, 0xFFFF, 0xFFFF, 0xFFFF, 0xFFFF, 0xFFFF, 0xFFFF, 0xFFFF, 0xFFFF,
   0xFFFF, 0xFFFF, 0xFFFF, 0xFFFF, 0xFFFF, 0xFFFF, 0xFFFF, 0xFFFF, 0xFFFF, 0xFFFF, 0xFFFF, 0xFFFF, 0xFFFF, 0xFFFF, 0xFFFF, 0xFFFF,
   0xFFFF, 0xFFFF, 0xFFFF, 0xFFFF, 0xFFFF, 0xFFFF, 0xFFFF, 0xFFFF, 0xFFFF, 0xFFFF, 0xFFFF, 0xFFFF, 0xFFFF, 0xFFFF, 0xFFFF, 0xFFFF,
   0xFFFF, 0xFFFF, 0xFFFF, 0xFFFF, 0xFFFF, 0xFFFF, 0xFFFF, 0xFFFF, 0xFFFF, 0xFFFF, 0xFFFF, 0xFFFF, 0xFFFF, 0xFFFF, 0xFFFF, 0xFFFF,
   0xFFFF, 0xFFFF, 0xFFFF, 0xFFFF, 0xFFFF, 0xFFFF, 0xFFFF, 0xFFFF, 0xFFFF, 0xFFFF, 0xFFFF, 0xFFFF, 0xFFFF, 0xFFFF, 0xFFFF, 0xFFFF,
   0xFFFF, 0xFFFF, 0xFFFF, 0xFFFF, 0xFFFF, 0xFFFF, 0xFFFF, 0xFFFF, 0xFFFF, 0xFFFF, 0xFFFF, 0xFFFF, 0xFFFF, 0xFFFF, 0xFFFF, 0xFFFF]

/-- The codec around `demoWords` with its compressor table. -/
def demoMarlin : TMarlin :=
  { demoBase with compressorTable := fun i => demoTable.getD i 0 }

/-- A block of 18 bytes: two padding bytes, then 16 bytes of which the one at offset 3 of the
aligned remainder (`0x94`) is not in the kept alphabet. -/
def demoBlock : List Nat :=
  [5, 6, 0x03, 0x05, 0x0F, 0x94, 1, 2, 3, 4, 0x11, 0x22, 0x33, 0x44, 0x05, 0x06, 0x07, 0x08]

/-- A non-constant block of 8 bytes whose Marlin-coded form is 8 bytes long. -/
def demoTightBlock : List Nat := [0x10, 0x10, 0x10, 0x10, 0, 0, 0, 0]

/-- A block of 8 bytes whose last byte is not in the kept alphabet. -/
def demoLateRareBlock : List Nat := [0x10, 0, 0, 0, 0, 0, 0, 0x94]

/-! ## `MarlinWiP`: dictionary, encoder, decoder, codec (`marlinlib/marlin.hpp`) -/

/-- The members of a constructed `MarlinWiP::Dictionary` that `Encoder` and `Decoder` read:
`K`, `O`, `alphabet.shift`, `maxWordSize`, the `sourceSymbol` of every entry of
`alphabet.marlinSymbols`, and `words` (each word a vector of source symbols).  The encoder
and the decoder are embedded over any such dictionary; the construction itself is embedded
further down (`buildDictionary`). -/
structure WiPDictionary where
  K : Nat
  O : Nat
  shift : Nat
  maxWordSize : Nat
  marlinSymbols : List Nat
  words : List (List Nat)

/-- `Encoder::FLAG_NEXT_WORD = 1UL << (8*sizeof(JumpIdx)-1)` with `JumpIdx = uint32_t`. -/
def wipFlag : Nat := 1 <<< 31

/-- `Encoder::nMarlinSymbols`. -/
def nMarlinSymbols (d : WiPDictionary) : Nat := d.marlinSymbols.length

/-- `Encoder::Source2JumpTable(ss)`: the array `Source2JumpTableShifted`, filled with
`nMarlinSymbols` (as `uint8_t`) and then set to `i` at `marlinSymbols[i].sourceSymbol >> shift`,
read at `ss >> shift`. -/
def Source2JumpTable (d : WiPDictionary) (ss : Nat) : Nat :=
  (List.range d.marlinSymbols.length).foldl
    (fun f i => store f (d.marlinSymbols.getD i 0 >>> d.shift) i)
    (fun _ => nMarlinSymbols d % 256) (ss >>> d.shift)

/-- Index of `Encoder::JumpTable::operator()(word, nextLetter)`:
`(word & ((1<<wordStride)-1)) + nextLetter*((1<<wordStride)+unalignment)`. -/
def wipCell (d : WiPDictionary) (word nextLetter : Nat) : Nat :=
  (word &&& ((1 <<< (d.K + d.O)) - 1)) + nextLetter * ((1 <<< (d.K + d.O)) + 8)

/-- The initial `Encoder::JumpTable::table`: `((1<<wordStride)+unalignment)*(1<<alphaStride)`
cells holding `JumpIdx(-1)`. -/
def wipInitTable (d : WiPDictionary) : List Nat :=
  List.replicate (((1 <<< (d.K + d.O)) + 8) * (1 <<< alphaStride (nMarlinSymbols d))) (2 ^ 32 - 1)

/-- The map lookup `positions[k]` of the `Encoder` constructor: the last index of section `k`
holding the word. -/
def wipPosition (d : WiPDictionary) (k : Nat) (w : List Nat) : Option Nat :=
  ((List.range (1 <<< d.K)).map (fun i => k * (1 <<< d.K) + i)).reverse.find?
    (fun i => d.words.getD i [] == w)

/-- The loop `while (not word.empty())` of the `Encoder` constructor on the reversed word;
`none` is the `runtime_error`. -/
def wipLinkWord (d : WiPDictionary) (k : Nat) : List Nat → Nat → List Nat → Option (List Nat)
  | last :: rs, wordIdx, t =>
      match wipPosition d k rs.reverse with
      | none => none
      | some parentIdx =>
          wipLinkWord d k rs parentIdx
            (t.set (wipCell d parentIdx (Source2JumpTable d last)) (wordIdx % 2 ^ 32))
  | [], _, t => some t

/-- Pairs `(k, i)` in the order of the nested loops over sections and words. -/
def wipIndices (d : WiPDictionary) : List (Nat × Nat) :=
  (List.range (1 <<< d.O)).flatMap
    (fun k => (List.range (1 <<< d.K)).map (fun i => (k, k * (1 <<< d.K) + i)))

/-- The "link between inner dictionaries" for position `i`. -/
def wipFallbackRow (d : WiPDictionary) (i : Nat) (t : List Nat) : List Nat :=
  (List.range d.marlinSymbols.length).foldl
    (fun t j =>
      if t.getD (wipCell d i j) 0 = 2 ^ 32 - 1 then
        t.set (wipCell d i j)
          (((wipPosition d (i % (1 <<< d.O)) [d.marlinSymbols.getD j 0]).getD 0 + wipFlag) % 2 ^ 32)
      else t)
    t

/-- The jump table the `Encoder` constructor builds. -/
def wipJumpTable (d : WiPDictionary) : Option (List Nat) :=
  ((wipIndices d).foldlM
      (fun t ki => wipLinkWord d ki.1 (d.words.getD ki.2 []).reverse ki.2 t)
      (wipInitTable d)).map
    (fun t => (wipIndices d).foldl (fun t ki => wipFallbackRow d ki.2 t) t)

/-- The Marlin loop of `Encoder::operator()`:
`while (i8<i8end and maxTargetSize>8)`.  State: remaining input, `maxTargetSize`, `j`, `o8`,
memory. -/
def wipEncodeLoop (d : WiPDictionary) (tbl : List Nat) :
    List Nat → Int → Nat → Nat → Mem → Int × Nat × Nat × Mem
  | [], mts, j, o8, mem => (mts, j, o8, mem)
  | ss :: rest, mts, j, o8, mem =>
      if mts > 8 then
        if Source2JumpTable d ss = nMarlinSymbols d then
          let a : Nat × Mem := if j ≠ 0 then (o8 + 1, store mem o8 (j % 256)) else (o8, mem)
          wipEncodeLoop d tbl rest (mts - 3) 0 (a.1 + 2)
            (store (store a.2 a.1 0) (a.1 + 1) (((ss >>> d.shift) <<< d.shift) % 256))
        else
          let j1 := tbl.getD (wipCell d j (Source2JumpTable d ss)) 0
          if j1 &&& wipFlag ≠ 0 then
            wipEncodeLoop d tbl rest (mts - 1) j1 (o8 + 1) (store mem o8 (j % 256))
          else wipEncodeLoop d tbl rest mts j1 o8 mem
      else (mts, j, o8, mem)

/-- The residual loop of `Encoder::operator()` (the same code as `TCompress::shift8`). -/
def wipEncodeResiduals (shift : Nat) : List Nat → Mem → Nat → Mem × Nat
  | b0 :: b1 :: b2 :: b3 :: b4 :: b5 :: b6 :: b7 :: rest, mem, o8 =>
      wipEncodeResiduals shift rest
        (storeLE mem o8 8 (pext_u64 (load64 [b0, b1, b2, b3, b4, b5, b6, b7]) (shiftMask shift)))
        (o8 + shift)
  | _, mem, o8 => (mem, o8)

/-- `Encoder::operator()(i8start, i8end, o8start, o8end)` on an output buffer of `cap` bytes.
`none`: a failed `assert` or the `runtime_error` of the constructor.  Result: returned size
and memory. -/
def wipEncoder (d : WiPDictionary) (input : List Nat) (cap : Nat) (mem : Mem) : Option (Nat × Mem) :=
  match wipJumpTable d with
  | none => none
  | some tbl =>
    if cap < input.length then none
    else if input.length % 8 ≠ 0 then none
    else if input.length = 0 then some (0, mem)
    else if (input.tail.dropWhile (fun x => x == input.headD 0)).length = 0 then
      some (1, store mem 0 (input.headD 0))
    else
      let r := wipEncodeLoop d tbl input
        ((input.length : Int) - ((input.length * d.shift / 8 : Nat) : Int)) 0 0 mem
      let f : Nat × Mem := if r.2.1 ≠ 0 then (r.2.2.1 + 1, store r.2.2.2 r.2.2.1 (r.2.1 % 256))
        else (r.2.2.1, r.2.2.2)
      if r.1 ≤ 8 then some (input.length, storeBytes f.2 0 input)
      else if d.shift ≠ 0 then
        some ((wipEncodeResiduals d.shift input f.2 f.1).2, (wipEncodeResiduals d.shift input f.2 f.1).1)
      else some (f.1, f.2)

/-- The table the `Decoder` constructor fills: for every word `maxWordSize` symbol bytes
(zero padded) followed by the word length. -/
def decoderTable (d : WiPDictionary) : List Nat :=
  d.words.flatMap (fun w =>
    (List.range d.maxWordSize).map (fun j => if w.length > j then w.getD j 0 else 0)
      ++ [w.length % 256])

/-- `Decoder::mostCommonSourceSymbol`. -/
def mostCommonSourceSymbol (d : WiPDictionary) : Nat := d.marlinSymbols.headD 0

/-- The length field `v >> ((sizeof(T)-1)*8)` of the record `((const T *)D)[key]`. -/
def recordLength (d : WiPDictionary) (tBytes key : Nat) : Nat :=
  (decoderTable d).getD (key * tBytes + (tBytes - 1)) 0

/-- The bytes of the record `((const T *)D)[key]`. -/
def recordBytes (d : WiPDictionary) (tBytes key : Nat) : List Nat :=
  (List.range tBytes).map (fun t => (decoderTable d).getD (key * tBytes + t) 0)

/-- Modelled from the spec: the BMI2 intrinsic `_pdep_u64(v, mask)`, which scatters the low
bits of `v` to the bit positions selected by `mask`, lowest first. -/
def pdep_u64 (v mask : Nat) : Nat :=
  ((List.range 64).foldl
    (fun (acc : Nat × Nat) i =>
      if mask.testBit i then (acc.1 ||| ((if v.testBit acc.2 then 1 else 0) <<< i), acc.2 + 1)
      else acc)
    (0, 0)).1

/-- One table lookup of the unrolled loop of `decode8`:
`T v = D[(value>>s) & overlappingMask]; *((T *)o8) = v & clearSizeMask; o8 += v >> ((sizeof(T)-1)*8)`
with `clearSizeMask = 0`. -/
def fastLookup (d : WiPDictionary) (tBytes CO : Nat) (value s : Nat) (o8 : Nat) (mem : Mem) :
    Nat × Mem :=
  (o8 + recordLength d tBytes ((value >>> s) &&& ((1 <<< (8 + CO)) - 1)),
    storeBytes mem o8 (List.replicate tBytes 0))

/-- The four lookups of one iteration of the unrolled loop of `decode8`, on
`value>>24`, `value>>16`, `value>>8`, `value`. -/
def fastStep (d : WiPDictionary) (tBytes CO : Nat) (value : Nat) (o8 : Nat) (mem : Mem) : Nat × Mem :=
  let a := fastLookup d tBytes CO value 24 o8 mem
  let b := fastLookup d tBytes CO value 16 a.1 a.2
  let c := fastLookup d tBytes CO value 8 b.1 b.2
  fastLookup d tBytes CO value 0 c.1 c.2

/-- The unrolled loop `while (i8<endMarlin-9)` of `decode8`: a 32-bit load,
`value = (value<<32) + v32`, four lookups; `fuel` bounds the iterations.
State: `i8`, `o8`, `value`, memory. -/
def decodeFast (d : WiPDictionary) (tBytes CO : Nat) (input : List Nat) (endMarlin : Int) :
    Nat → Nat → Nat → Nat → Mem → Nat × Nat × Nat × Mem
  | 0, i8, o8, value, mem => (i8, o8, value, mem)
  | fuel + 1, i8, o8, value, mem =>
      if (i8 : Int) < endMarlin - 9 then
        decodeFast d tBytes CO input endMarlin fuel (i8 + 4)
          (fastStep d tBytes CO
            (((value <<< 32) + load64 [input.getD i8 0, input.getD (i8 + 1) 0,
              input.getD (i8 + 2) 0, input.getD (i8 + 3) 0]) % 2 ^ 64) o8 mem).1
          (((value <<< 32) + load64 [input.getD i8 0, input.getD (i8 + 1) 0,
              input.getD (i8 + 2) 0, input.getD (i8 + 3) 0]) % 2 ^ 64)
          (fastStep d tBytes CO
            (((value <<< 32) + load64 [input.getD i8 0, input.getD (i8 + 1) 0,
              input.getD (i8 + 2) 0, input.getD (i8 + 3) 0]) % 2 ^ 64) o8 mem).2
      else (i8, o8, value, mem)

/-- The loop `while (i8<endMarlin)` of `decode8`; `fuel` bounds the iterations. -/
def decodeSlow (d : WiPDictionary) (tBytes CO : Nat) (input : List Nat) (endMarlin : Int) :
    Nat → Nat → Nat → Nat → Mem → Nat × Nat × Nat × Mem
  | 0, i8, o8, value, mem => (i8, o8, value, mem)
  | fuel + 1, i8, o8, value, mem =>
      if (i8 : Int) < endMarlin then
        if input.getD i8 0 = 0 then
          decodeSlow d tBytes CO input endMarlin fuel (i8 + 2) (o8 + 1) value
            (store mem o8 (input.getD (i8 + 1) 0))
        else
          let value1 := ((value <<< 8) + input.getD i8 0) % 2 ^ 64
          let key := value1 &&& ((1 <<< (8 + CO)) - 1)
          decodeSlow d tBytes CO input endMarlin fuel (i8 + 1) (o8 + recordLength d tBytes key) value1
            (storeBytes mem o8
              ((recordBytes d tBytes key).take (min (tBytes - 1) (recordLength d tBytes key))))
      else (i8, o8, value, mem)

/-- The residual loop of `decode8`: `*o64++ += _pdep_u64(*(const uint64_t *)i8, mask); i8 += shift`
over the `groups` 64-bit words of the output. -/
def decodeResiduals (shift : Nat) (input : List Nat) : Nat → Nat → Nat → Mem → Mem
  | 0, _, _, mem => mem
  | groups + 1, i8, o, mem =>
      decodeResiduals shift input groups (i8 + shift) (o + 8)
        (storeLE mem o 8
          ((load64 (readBytes mem o 8)
            + pdep_u64 (load64 ((List.range 8).map (fun t => input.getD (i8 + t) 0))) (shiftMask shift))
            % 2 ^ 64))

/-- `Decoder::decode8<T,CO>(i8start, i8end, o8start, o8end)` with `sizeof(T) = tBytes` and an
output of `n` bytes.  Result: the memory behind `o8start`. -/
def decode8 (d : WiPDictionary) (tBytes CO : Nat) (input : List Nat) (n : Nat) (mem : Mem) : Mem :=
  if input.length = n then storeBytes mem 0 input
  else if input.length = 1 then storeBytes mem 0 (List.replicate n (input.headD 0))
  else
    let mem1 := storeBytes mem 0 (List.replicate n (mostCommonSourceSymbol d))
    let endMarlin : Int := (input.length : Int) - ((n * d.shift / 8 : Nat) : Int)
    let f := decodeFast d tBytes CO input endMarlin input.length 0 0 0 mem1
    let s := decodeSlow d tBytes CO input endMarlin input.length f.1 f.2.1 f.2.2.1 f.2.2.2
    if d.shift ≠ 0 then decodeResiduals d.shift input (n / 8) s.1 0 s.2.2.2
    else s.2.2.2

/-- `Decoder::operator()`: `decode8<uint32_t,O>` for `maxWordSize == 3`, `decode8<uint64_t,O>`
for `maxWordSize == 7`, each for `O` in `0..4`; otherwise control reaches the end of the
function without decoding (`none`). -/
def wipDecoder (d : WiPDictionary) (input : List Nat) (n : Nat) (mem : Mem) : Option Mem :=
  if d.maxWordSize = 3 ∧ d.O ≤ 4 then some (decode8 d 4 d.O input n mem)
  else if d.maxWordSize = 7 ∧ d.O ≤ 4 then some (decode8 d 8 d.O input n mem)
  else none

/-- `SingleDictionaryCodec::encode(in, out)` into a fresh vector `out`: the 32-bit input size,
then the encoder output, `out` resized to `4 + sz`. -/
def wipEncode (d : WiPDictionary) (input : List Nat) : Option (List Nat) :=
  (wipEncoder d input input.length zeroMem).map
    (fun r => leBytes 4 input.length ++ readBytes r.2 0 r.1)

/-- `SingleDictionaryCodec::decode(in, out)` into a fresh vector `out`: the size is read from
the first four bytes, `out` is resized to it and the decoder runs on the rest. -/
def wipDecode (d : WiPDictionary) (enc : List Nat) : Option (List Nat) :=
  (wipDecoder d (enc.drop 4) (load64 (enc.take 4)) zeroMem).map
    (fun m => readBytes m 0 (load64 (enc.take 4)))

/-- The key of the first table lookup of the unrolled loop of `decode8`:
`(value>>24) & overlappingMask` after `value = (value<<32) + v32` from `value = 0`. -/
def firstKey (CO : Nat) (input : List Nat) : Nat :=
  ((((0 <<< 32) + load64 [input.getD 0 0, input.getD (0 + 1) 0, input.getD (0 + 2) 0,
      input.getD (0 + 3) 0]) % 2 ^ 64) >>> 24) &&& ((1 <<< (8 + CO)) - 1)

/-- The dictionary `MarlinWiP::Dictionary` builds for the two-symbol PMF `[0.99, 0.01]` with
`K = 4`, `O = 0`, `S = 0`, `maxWordSize = 3`: in every round of `buildTree` the
leaf `0^k` of the all-zero chain has probability above 0.75 while every other node stays below
0.14, so only that chain is extended until the 16 nodes exist; `arrangeAndFuse` keeps the
empty word first, then the words without children (`0^14`, `1`), then `0^1, ..., 0^13`.
`chainDict_built` checks the words against the embedding of `buildDictionary`. -/
def chainDict : WiPDictionary where
  K := 4
  O := 0
  shift := 0
  maxWordSize := 3
  marlinSymbols := [0, 1]
  words := [[], List.replicate 14 0, [1]] ++ (List.range 13).map (fun k => List.replicate (k + 1) 0)

/-- A block of 24 bytes over the two symbols: `1 0 0 0 0` four times, then `1 0 0 0`. -/
def chainBlock : List Nat :=
  [1, 0, 0, 0, 0, 1, 0, 0, 0, 0, 1, 0, 0, 0, 0, 1, 0, 0, 0, 0, 1, 0, 0, 0]

/-- The value `decode8` returns, `o8end-o8start` at each of its three `return` statements,
together with the memory behind `o8start`. -/
def decode8Result (d : WiPDictionary) (tBytes CO : Nat) (input : List Nat) (n : Nat) (mem : Mem) :
    Nat × Mem :=
  (n, decode8 d tBytes CO input n mem)

/-! ## `Marlin2018Simple::Decoder::operator()` -/

/-- The decode routines `Marlin2018Simple::Decoder::operator()` can select:
`decode12<T>` and `decodeA<T,N>`, with `sizeof(T)` as `tBytes`. -/
inductive DecodeRoutine where
  | decode12 (tBytes : Nat)
  | decodeA (tBytes n : Nat)
  deriving DecidableEq

/-- Width in bytes of the table record a routine copies per codeword: one `T` in `decode12<T>`
(`*((T *)o) = v`), `N` words of type `T` in `decodeA<T,N>` (length byte at `v[N*sizeof(T)-1]`). -/
def DecodeRoutine.recordWidth : DecodeRoutine → Nat
  | DecodeRoutine.decode12 t => t
  | DecodeRoutine.decodeA t n => n * t

/-- `Marlin2018Simple::Decoder::operator()`: the routine selected from `keySize` and
`maxWordSize+1` (a `size_t`), `none` for `throw std::runtime_error ("unsupported maxWordSize")`. -/
def marlin2018Dispatch (keySize maxWordSize : Nat) : Option DecodeRoutine :=
  if keySize = 12 ∧ (maxWordSize + 1) % 2 ^ 64 = 4 then some (DecodeRoutine.decode12 4)
  else if keySize = 12 ∧ (maxWordSize + 1) % 2 ^ 64 = 8 then some (DecodeRoutine.decode12 8)
  else if (maxWordSize + 1) % 2 ^ 64 = 4 then some (DecodeRoutine.decodeA 4 1)
  else if (maxWordSize + 1) % 2 ^ 64 = 8 then some (DecodeRoutine.decodeA 8 1)
  else if (maxWordSize + 1) % 2 ^ 64 = 16 then some (DecodeRoutine.decodeA 8 2)
  else if (maxWordSize + 1) % 2 ^ 64 = 32 then some (DecodeRoutine.decodeA 8 4)
  else if (maxWordSize + 1) % 2 ^ 64 = 64 then some (DecodeRoutine.decodeA 8 8)
  else if (maxWordSize + 1) % 2 ^ 64 = 128 then some (DecodeRoutine.decodeA 8 16)
  else if (maxWordSize + 1) % 2 ^ 64 = 256 then some (DecodeRoutine.decodeA 8 32)
  else if (maxWordSize + 1) % 2 ^ 64 = 512 then some (DecodeRoutine.decodeA 8 64)
  else none

/-! ## MarlinWiP::Dictionary::updateConf (marlin.hpp)

The configuration is a `std::map<std::string, double>`. It is modelled as an association list
with at most one entry per key; a `double` holding a configuration value is a rational number.
`Dictionary(symbols, conf).efficiency`, which the two parameter sweeps consult, is a parameter
`eff` of the model. -/

/-- A `std::map<std::string, double>`. -/
abbrev Conf := List (String × ℚ)

/-- Models `conf.count(key)`. -/
def confCount (conf : Conf) (key : String) : Bool :=
  conf.any (fun e => e.1 == key)

/-- Models `conf.at(key)`; `none` stands for `std::out_of_range`. -/
def confAt (conf : Conf) (key : String) : Option ℚ :=
  (conf.find? (fun e => e.1 == key)).map Prod.snd

/-- Models `conf.emplace(key, v)`: nothing happens when the key is present. -/
def emplace (conf : Conf) (key : String) (v : ℚ) : Conf :=
  if confCount conf key then conf else conf ++ [(key, v)]

/-- Models `conf[key] = v`. -/
def assign (conf : Conf) (key : String) (v : ℚ) : Conf :=
  if confCount conf key then conf.map (fun e => if e.1 == key then (key, v) else e)
  else conf ++ [(key, v)]

/-- Models `size_t(x)` for a configuration value `x` (truncation; negative values, undefined
in C++, give 0). -/
def toSizeT (x : ℚ) : Nat :=
  (Int.toNat (Rat.floor x)) % 2 ^ 64

/-- Models `1U << n`: a 32-bit unsigned shift (a count of 32 or more, undefined in C++, gives
the truncated mathematical value). -/
def shl1U (n : Nat) : Nat :=
  (1 <<< n) % 2 ^ 32

/-- The loop `for (int s=1; s<6; s++)` of `updateConf`, over the remaining values of `s`. -/
def sweepShift (eff : Conf → ℚ) : List Nat → Conf → ℚ → Conf
  | [], conf, _ => conf
  | s :: rest, conf, best =>
      let conf1 := assign conf "S" (s : ℚ)
      let e := eff conf1
      if e ≤ best then assign conf1 "S" ((s : ℚ) - 1)
      else sweepShift eff rest conf1 e

/-- The block `if (not conf.count("S"))` of `updateConf`. -/
def chooseShift (eff : Conf → ℚ) (conf : Conf) : Conf :=
  if confCount conf "S" then conf
  else
    let conf0 := assign conf "S" 0
    sweepShift eff [1, 2, 3, 4, 5] conf0 (eff conf0)

/-- The block `if (not conf.count("maxWordSize"))` of `updateConf`. -/
def chooseMaxWordSize (eff : Conf → ℚ) (conf : Conf) : Conf :=
  if confCount conf "maxWordSize" then conf
  else
    let c15 := assign conf "maxWordSize" 15
    let e15 := eff c15
    let c7 := assign c15 "maxWordSize" 7
    let e7 := eff c7
    let c3 := assign c7 "maxWordSize" 3
    let e3 := eff c3
    let c := if e7 > (10001 / 10000 : ℚ) * e3 then assign c3 "maxWordSize" 7 else c3
    if e15 > (10001 / 10000 : ℚ) * e7 then assign c "maxWordSize" 15 else c

/-- The first five `emplace` calls of `updateConf`, whose values are constants. -/
def emplaceConstants (conf : Conf) : Conf :=
  let c1 := emplace conf "K" 8
  let c2 := emplace c1 "O" 2
  let c3 := emplace c2 "debug" 1
  let c4 := emplace c3 "purgeProbabilityThreshold" (1 / 100000)
  emplace c4 "iterations" 3

/-- The `emplace` calls of `updateConf`, in source order; the last two read `O` and `K` back
from the map. -/
def emplaceDefaults (conf : Conf) : Conf :=
  let c5 := emplaceConstants conf
  let c6 := emplace c5 "minMarlinSymbols"
    ((max (shl1U (toSizeT ((confAt c5 "O").getD 0))) 8 : Nat) : ℚ)
  emplace c6 "maxMarlinSymbols"
    (((shl1U (toSizeT ((confAt c6 "K").getD 0)) + (2 ^ 32 - 1)) % 2 ^ 32 : Nat) : ℚ)

/-- Models `MarlinWiP::Dictionary::updateConf`. -/
def updateConf (eff : Conf → ℚ) (conf : Conf) : Conf :=
  chooseMaxWordSize eff (chooseShift eff (emplaceDefaults conf))

/-! ## MarlinWiP::Dictionary::Alphabet (marlin.hpp)

The PMF is a `std::map<SourceSymbol, double>`, modelled as a list of (symbol, probability)
pairs; probabilities are rational numbers. -/

/-- Models `Alphabet::SymbolAndProbability`. -/
structure SymbolAndProbability where
  sourceSymbol : Nat
  p : ℚ
  deriving DecidableEq

/-- Models `SymbolAndProbability::operator<`: descending in probability, then ascending in
symbol index. -/
def SymbolAndProbability.lt (lhs rhs : SymbolAndProbability) : Bool :=
  if lhs.p ≠ rhs.p then decide (lhs.p > rhs.p)
  else decide (lhs.sourceSymbol < rhs.sourceSymbol)

/-- The map `symbolsShifted` of the constructor, in key order: one entry for every value
`g = symbol >> shift` some symbol of the PMF takes, holding the sum of their probabilities. -/
def symbolsShifted (symbols : List (Nat × ℚ)) (shift : Nat) : List (Nat × ℚ) :=
  (List.range 256).filterMap (fun g =>
    if symbols.any (fun s => s.1 >>> shift == g) then
      some (g, ((symbols.filter (fun s => s.1 >>> shift == g)).map Prod.snd).sum)
    else none)

/-- The vector `marlinSymbols` before it is sorted: entry `SourceSymbol(g << shift)` for
every group `g`. -/
def groupedSymbols (symbols : List (Nat × ℚ)) (shift : Nat) : List SymbolAndProbability :=
  (symbolsShifted symbols shift).map (fun e => ⟨(e.1 <<< shift) % 256, e.2⟩)

/-- Models `std::stable_sort(marlinSymbols.begin(), marlinSymbols.end())`: a stable insertion
sort by `operator<`. -/
def sortSymbols (l : List SymbolAndProbability) : List SymbolAndProbability :=
  l.insertionSort (fun a b => SymbolAndProbability.lt b a = false)

/-- The trimming loop of the constructor, on the vector in reverse order (its head is
`marlinSymbols.back()`); returns the reversed kept vector and `rareSymbolProbability`. -/
def trimTail (minMarlinSymbols maxMarlinSymbols purgeProbabilityThreshold : ℚ) :
    List SymbolAndProbability → ℚ → List SymbolAndProbability × ℚ
  | [], rare => ([], rare)
  | s :: rest, rare =>
      if ((rest.length + 1 : Nat) : ℚ) > minMarlinSymbols ∧
          (((rest.length + 1 : Nat) : ℚ) > maxMarlinSymbols ∨
            rare < purgeProbabilityThreshold) then
        trimTail minMarlinSymbols maxMarlinSymbols purgeProbabilityThreshold rest (rare + s.p)
      else (s :: rest, rare)

/-- Models the data members of `MarlinWiP::Dictionary::Alphabet` the dictionary uses. -/
structure Alphabet where
  shift : Nat
  rareSymbolProbability : ℚ
  marlinSymbols : List SymbolAndProbability

/-- Models the body of the constructor `Alphabet::Alphabet`, the configuration values already
read. -/
def mkAlphabet (symbols : List (Nat × ℚ)) (shift : Nat)
    (minMarlinSymbols maxMarlinSymbols purgeProbabilityThreshold : ℚ) : Alphabet :=
  let r := trimTail minMarlinSymbols maxMarlinSymbols purgeProbabilityThreshold
    (sortSymbols (groupedSymbols symbols shift)).reverse 0
  { shift := shift, rareSymbolProbability := r.2, marlinSymbols := r.1.reverse }

/-- Models `Alphabet::Alphabet(symbols, conf)`; `none` stands for the `std::out_of_range` of
`conf.at`. -/
def Alphabet.construct (symbols : List (Nat × ℚ)) (conf : Conf) : Option Alphabet :=
  match confAt conf "S", confAt conf "minMarlinSymbols", confAt conf "maxMarlinSymbols",
      confAt conf "purgeProbabilityThreshold" with
  | some s, some mn, some mx, some pg => some (mkAlphabet symbols (toSizeT s) mn mx pg)
  | _, _, _, _ => none

/-- Number of set bits of `mask` below bit position `n`: the position in the result of
`_pext_u64` that bit `n` of the source is moved to. -/
def maskRank (mask n : Nat) : Nat :=
  ((List.range n).filter (fun i => mask.testBit i)).length

/-! ## MarlinWiP::Dictionary: buildTree, buildChapterWords, arrangeAndFuse, buildDictionary

Probabilities are rational numbers. A tree of `Node`s linked by `std::shared_ptr` is a value of
the inductive type `Node`; a pointer to a node of the tree under construction is the path
(list of child indices) from the root to it. `std::priority_queue` is a list of such paths;
which element `top()` returns is decided by a parameter `pick` of the model, because `buildTree`
changes `root->p` while the root is inside the queue, so that the order in which a binary heap
returns the elements depends on its implementation. -/

/-- Models `struct Node : std::vector<SNode> { double p; size_t sz; }`. -/
inductive Node where
  | mk (p : ℚ) (sz : Nat) (children : List Node)

/-- The member `p` of a node. -/
def Node.p : Node → ℚ
  | Node.mk p _ _ => p

/-- The member `sz` of a node. -/
def Node.sz : Node → Nat
  | Node.mk _ sz _ => sz

/-- The children of a node (the vector the node derives from). -/
def Node.children : Node → List Node
  | Node.mk _ _ cs => cs

/-- The node a path points to. -/
def nodeAt : Node → List Nat → Option Node
  | n, [] => some n
  | n, i :: rest =>
      match n.children.get? i with
      | some c => nodeAt c rest
      | none => none

/-- The tree after the node a path points to is replaced by `f` of it. -/
def modifyAt (f : Node → Node) : Node → List Nat → Node
  | n, [] => f n
  | n, i :: rest =>
      match n.children.get? i with
      | some c => Node.mk n.p n.sz (n.children.set i (modifyAt f c rest))
      | none => n

mutual
/-- Sum of `p` over all nodes of a tree. -/
def Node.total : Node → ℚ
  | Node.mk p _ cs => p + totalList cs
/-- Sum of `p` over all nodes of a list of trees. -/
def totalList : List Node → ℚ
  | [] => 0
  | c :: cs => c.total + totalList cs
end

mutual
/-- The renormalisation pass at the end of `buildTree`: `p *= factor` at every node. -/
def Node.scale (factor : ℚ) : Node → Node
  | Node.mk p sz cs => Node.mk (p * factor) sz (scaleList factor cs)
/-- The renormalisation pass on a list of trees. -/
def scaleList (factor : ℚ) : List Node → List Node
  | [] => []
  | c :: cs => c.scale factor :: scaleList factor cs
end

/-- The normalisation factor of `buildTree`: `factor = 1e-10; for (p : Pstates) factor += p`. -/
def normFactor (Pstates : List ℚ) : ℚ :=
  Pstates.foldl (fun factor p => factor + p) (1 / 10000000000)

/-- The state probabilities after the three normalisation loops of `buildTree`: division by
`factor`, then values within `0.0001` of 1 set to 1, then values within `0.0001` of 0 set
to 0. -/
def normalizePstates (Pstates : List ℚ) : List ℚ :=
  ((Pstates.map (fun p => p / normFactor Pstates)).map
    (fun p => if |p - 1| < 1 / 10000 then 1 else p)).map
    (fun p => if |p - 0| < 1 / 10000 then 0 else p)

/-- The vector `PN` of `buildTree`: `PN[i]` is the probability of the Marlin symbols `i` and
above, the rare symbols included. -/
def PN : List ℚ → ℚ → List ℚ
  | [], _ => []
  | [p], rare => [p + rare]
  | p :: q :: rest, rare => (p + (PN (q :: rest) rare).headD 0) :: PN (q :: rest) rare

/-- The vector `Pchild` of `buildTree`: `Pchild[i] = marlinSymbols[i].p / PN[i]`. -/
def Pchild (a : Alphabet) : List ℚ :=
  List.zipWith (fun s pn => s.p / pn) a.marlinSymbols
    (PN (a.marlinSymbols.map (fun s => s.p)) a.rareSymbolProbability)

/-- The children the initialisation of `buildTree` gives the root: child `c` has
`p = (sum over t <= c of Pstates[t]/PN[t]) * marlinSymbols[c].p` and `sz = 1`. -/
def initialChildren (a : Alphabet) (Pstates : List ℚ) : List Node :=
  (List.range a.marlinSymbols.length).map (fun c =>
    Node.mk
      (((List.range (c + 1)).map (fun t =>
          Pstates.getD t 0 /
            (PN (a.marlinSymbols.map (fun s => s.p)) a.rareSymbolProbability).getD t 0)).sum *
        ((a.marlinSymbols.map (fun s => s.p)).getD c 0))
      1 [])

/-- The state of the growing loop of `buildTree`: the tree, the queue and `retiredNodes`. -/
structure TreeState where
  root : Node
  pq : List (List Nat)
  retiredNodes : Nat

/-- The state after the initialisation of `buildTree`: the root keeps `1` minus what its
children got; the queue holds the root and the children in the order they were pushed. -/
def initialState (a : Alphabet) (Pstates : List ℚ) : TreeState :=
  { root := Node.mk ((initialChildren a Pstates).foldl (fun p c => p - c.p) 1) 0
      (initialChildren a Pstates)
    pq := [] :: (List.range a.marlinSymbols.length).map (fun c => [c])
    retiredNodes := 0 }

/-- The split of the growing loop: the node gets a new last child with
`p = node->p * Pchild[node->size()]` and `sz = node->sz + 1`, and gives that `p` away. -/
def splitNode (pchild : List ℚ) (n : Node) : Node :=
  Node.mk (n.p - n.p * pchild.getD n.children.length 0) n.sz
    (n.children ++ [Node.mk (n.p * pchild.getD n.children.length 0) (n.sz + 1) []])

/-- The growing loop of `buildTree`, at most `fuel` iterations. `pick fuel root pq` is the
position in the queue of the element `pq.top()` returns. -/
def growLoop (a : Alphabet) (K maxWordSize : Nat) (pick : Nat → Node → List (List Nat) → Nat) :
    Nat → TreeState → TreeState
  | 0, st => st
  | fuel + 1, st =>
      if st.pq ≠ [] ∧ st.pq.length + st.retiredNodes < shl1U K then
        let i := pick fuel st.root st.pq % st.pq.length
        let path := st.pq.getD i []
        let retired : TreeState :=
          { root := st.root, pq := st.pq.eraseIdx i, retiredNodes := st.retiredNodes + 1 }
        match nodeAt st.root path with
        | none => growLoop a K maxWordSize pick fuel retired
        | some node =>
            if node.sz ≥ maxWordSize ∧ node.children.isEmpty = false then
              growLoop a K maxWordSize pick fuel retired
            else if node.sz = 255 then growLoop a K maxWordSize pick fuel retired
            else if node.children.length = a.marlinSymbols.length then
              growLoop a K maxWordSize pick fuel retired
            else
              growLoop a K maxWordSize pick fuel
                { root := modifyAt (splitNode (Pchild a)) st.root path
                  pq := st.pq.eraseIdx i ++ [path ++ [node.children.length], path]
                  retiredNodes := st.retiredNodes }
      else st

/-- Models `Dictionary::buildTree(Pstates)`. The growing loop gets `2 * 2^K + 1` iterations,
which is more than it can use. -/
def buildTree (a : Alphabet) (K maxWordSize : Nat) (pick : Nat → Node → List (List Nat) → Nat)
    (Pstates : List ℚ) : Node :=
  (growLoop a K maxWordSize pick (2 * shl1U K + 1)
    (initialState a (normalizePstates Pstates))).root.scale (normFactor Pstates)

/-- Models `struct Word : std::vector<SourceSymbol> { double p; MarlinSymbol state; }`. -/
structure Word where
  symbols : List Nat
  p : ℚ
  state : Nat
  deriving DecidableEq

mutual
/-- The words `buildChapterWords` emits from the moment it pops the pair `(n, w)` until the
stack is back to what was below that pair: `w` itself, then, the children being pushed in
order and popped last first, the words below the last child, ..., the first child. -/
def wordsFrom (syms : List Nat) : Node → Word → List Word
  | Node.mk _ _ cs, w => w :: childWords syms cs 0 w
/-- The words emitted for the children `cs` of a node with word `w`, `cs` starting at child
index `i`. -/
def childWords (syms : List Nat) : List Node → Nat → Word → List Word
  | [], _, _ => []
  | c :: cs, i, w =>
      childWords syms cs (i + 1) w ++
        wordsFrom syms c
          { symbols := w.symbols ++ [syms.getD i 0], p := c.p, state := c.children.length % 256 }
end

/-- Models `Dictionary::buildChapterWords(root)`. -/
def buildChapterWords (a : Alphabet) (root : Node) : List Word :=
  wordsFrom (a.marlinSymbols.map (fun s => s.sourceSymbol)) root
    { symbols := [], p := root.p, state := 0 }

/-- The comparison `lhs < rhs` of two `std::vector<SourceSymbol>` (lexicographic). -/
def lexLt : List Nat → List Nat → Bool
  | _, [] => false
  | [], _ :: _ => true
  | x :: xs, y :: ys => if x < y then true else if y < x then false else lexLt xs ys

/-- The comparator `cmp` of `arrangeAndFuse`: by state, then by descending probability when
the probabilities differ by more than `1e-10` relative to their sum, then as vectors. -/
def wordCmp (lhs rhs : Word) : Bool :=
  if lhs.state ≠ rhs.state then decide (lhs.state < rhs.state)
  else if |lhs.p - rhs.p| / (lhs.p + rhs.p) > 1 / 10000000000 then decide (lhs.p > rhs.p)
  else lexLt lhs.symbols rhs.symbols

/-- Models `std::stable_sort(sortedDictionary.begin()+1, sortedDictionary.end(), cmp)`: the
first word stays, the others are sorted by a stable insertion sort. -/
def sortTail : List Word → List Word
  | [] => []
  | w :: ws => w :: ws.insertionSort (fun x y => wordCmp y x = false)

/-- The placement loop of `arrangeAndFuse` over the remaining sorted words, with the loop
variables `j`, `k` and the vector `w`; a store past the end of `w` changes nothing. -/
def placeWords (O : Nat) : List Word → Nat → Nat → List Word → List Word
  | [], _, _, w => w
  | x :: xs, j, k, w =>
      if j ≥ w.length then placeWords O xs (k + 1 + shl1U O) (k + 1) (w.set (k + 1) x)
      else placeWords O xs (j + shl1U O) k (w.set j x)

/-- The value-initialised word `Word()`: no symbols, `p = 0`, `state = 0`. -/
def emptyWord : Word := { symbols := [], p := 0, state := 0 }

/-- Models `Dictionary::arrangeAndFuse(chapters)`. -/
def arrangeAndFuse (a : Alphabet) (K O : Nat) (chapters : List Node) : List Word :=
  chapters.flatMap (fun chapter =>
    placeWords O (sortTail (buildChapterWords a chapter)) 0 0
      (List.replicate (shl1U K) emptyWord))

/-- The statement `Pstates[k][s] += p`; an index outside the vectors (an out-of-bounds write
in the source) changes nothing. -/
def addState (Pstates : List (List ℚ)) (k s : Nat) (p : ℚ) : List (List ℚ) :=
  if s < (Pstates.getD k []).length then
    Pstates.set k ((Pstates.getD k []).set s ((Pstates.getD k []).getD s 0 + p))
  else Pstates

/-- The loop `for i: Pstates[i % (1U<<O)][ret[i].state] += ret[i].p` over the words from
index `i` on. -/
def accumulateStates (O : Nat) : List Word → Nat → List (List ℚ) → List (List ℚ)
  | [], _, Pstates => Pstates
  | w :: ws, i, Pstates =>
      accumulateStates O ws (i + 1) (addState Pstates (i % shl1U O) w.state w.p)

/-- The block "updating state probabilities" of `buildDictionary`. -/
def updatePstates (a : Alphabet) (O : Nat) (ret : List Word) : List (List ℚ) :=
  accumulateStates O ret 0
    (List.replicate (shl1U O) (List.replicate a.marlinSymbols.length 0))

/-- One tree per chapter: `for k: dictionaries.push_back(buildTree(Pstates[k]))`. `call` is the
number of `buildTree` calls made before. -/
def buildTrees (a : Alphabet) (K maxWordSize : Nat)
    (pick : Nat → Nat → Node → List (List Nat) → Nat) (call : Nat)
    (Pstates : List (List ℚ)) : List Node :=
  Pstates.enum.map (fun kp => buildTree a K maxWordSize (pick (call + kp.1)) kp.2)

/-- The loop `while (iterations--)` of `buildDictionary`. -/
def iterateDictionary (a : Alphabet) (K O maxWordSize : Nat)
    (pick : Nat → Nat → Node → List (List Nat) → Nat) : Nat → Nat → List Word → List Word
  | 0, _, ret => ret
  | iterations + 1, call, ret =>
      iterateDictionary a K O maxWordSize pick iterations (call + shl1U O)
        (arrangeAndFuse a K O
          (buildTrees a K maxWordSize pick call (updatePstates a O ret)))

/-- Models `Dictionary::buildDictionary()`. `pick call fuel root pq` is the position in the
queue of the element `pq.top()` returns in the `call`-th `buildTree`. -/
def buildDictionary (a : Alphabet) (K O maxWordSize iterations : Nat)
    (pick : Nat → Nat → Node → List (List Nat) → Nat) : List Word :=
  iterateDictionary a K O maxWordSize pick iterations (shl1U O)
    (arrangeAndFuse a K O
      (buildTrees a K maxWordSize pick 0
        (List.replicate (shl1U O)
          ((List.replicate a.marlinSymbols.length (0 : ℚ)).set 0 (1 / (shl1U O : ℚ))))))

/-- The choice of a valid max-heap: the position of the first queue element of largest `p`. -/
def pickMax (root : Node) (pq : List (List Nat)) : Nat :=
  (pq.enum.foldl
    (fun (best : Option (Nat × ℚ)) ip =>
      match best with
      | none => some (ip.1, ((nodeAt root ip.2).map Node.p).getD 0)
      | some b =>
          if b.2 < ((nodeAt root ip.2).map Node.p).getD 0 then
            some (ip.1, ((nodeAt root ip.2).map Node.p).getD 0)
          else some b)
    none).elim 0 Prod.fst

mutual
/-- Number of nodes of a tree. -/
def Node.count : Node → Nat
  | Node.mk _ _ cs => 1 + countList cs
/-- Number of nodes of a list of trees. -/
def countList : List Node → Nat
  | [] => 0
  | c :: cs => c.count + countList cs
end

/-- The word `buildChapterWords` forms for the node `node` that `path` leads to, below a node
whose word is `w0`. -/
def pathWord (syms : List Nat) (w0 : Word) (path : List Nat) (node : Node) : Word :=
  if path = [] then w0
  else
    { symbols := w0.symbols ++ path.map (fun i => syms.getD i 0), p := node.p,
      state := node.children.length % 256 }

/-- The alphabet of the PMF `[0.99, 0.01]` under `K = 4`, `O = 0`, `S = 0` (so that
`minMarlinSymbols = 8`, `maxMarlinSymbols = 15`): both symbols are kept. -/
def chainAlphabet : Alphabet :=
  mkAlphabet [(0, 99 / 100), (1, 1 / 100)] 0 8 15 (1 / 100000)

/-- The dictionary `buildDictionary` returns for `chainAlphabet` with `K = 4`, `O = 0`,
`maxWordSize = 3` and 3 iterations, the queue returning a node of largest `p`. -/
def chainWords : List Word :=
  buildDictionary chainAlphabet 4 0 3 3 (fun _ _ => pickMax)

/-- A `TMarlin` codec around the words of `chainWords`. -/
def chainMarlin : TMarlin where
  K := 4
  O := 0
  shift := 0
  idxBytes := 2
  marlinAlphabet := [0, 1]
  words := chainWords.map (fun w => w.symbols)
  compressorTable := fun _ => 0

/-- The alphabet of the PMF `[0.6, 0.3, 0.1]` under `S = 0`, `minMarlinSymbols = 2`,
`maxMarlinSymbols = 7` (`K = 3`) and the default purge threshold: the symbols 0 and 1 are
kept, symbol 2 is rare. -/
def lossyAlphabet : Alphabet :=
  mkAlphabet [(0, 6 / 10), (1, 3 / 10), (2, 1 / 10)] 0 2 7 (1 / 100000)

/-- The Marlin symbol the state machine is fed for a source byte: `source2marlin[ss >> shift]`,
with the token of an unrepresented symbol replaced by symbol 0. -/
def marlinSymbol (p : TMarlin) (ss : Nat) : Nat := (classify p ss 0 []).1

/-! ## The start state as the specification words it -/

/-- The start state of the specification: the position of the one-symbol word `[MS 0]` in
chapter 0 (0 when chapter 0 has no such word, as a missing key of the map reads). -/
def specStartState (p : TMarlin) : Nat := (position p 0 [0]).getD 0

/-- The byte-aligned variant as the specification words it: `j` starts at `specStartState`
and every input byte, the first included, goes through the transition loop. -/
def specByteAligned (p : TMarlin) (src : List Nat) (mem : Mem)
    (dstStart : Nat) (dstEnd : Int) (rare : List Nat) : Int × Mem × List Nat :=
  compressMarlin8Loop p dstStart dstEnd src 0 dstStart (specStartState p) mem rare

/-! ## The grouping loop of the `Alphabet` constructor, statement by statement -/

/-- The statement `map[k] += v` on a `std::map<SourceSymbol, double>` kept as a list in
ascending key order: a missing key is first created with the value 0. -/
def mapAdd : List (Nat × ℚ) → Nat → ℚ → List (Nat × ℚ)
  | [], k, v => [(k, 0 + v)]
  | e :: rest, k, v =>
      if k < e.1 then (k, 0 + v) :: e :: rest
      else if k = e.1 then (e.1, e.2 + v) :: rest
      else e :: mapAdd rest k v

/-- The loop `for (auto &&symbol : symbols) symbolsShifted[symbol.first>>shift] += symbol.second`;
the key is converted to `SourceSymbol` (`uint8_t`). -/
def symbolsShiftedLoop (symbols : List (Nat × ℚ)) (shift : Nat) : List (Nat × ℚ) :=
  symbols.foldl (fun m s => mapAdd m ((s.1 >>> shift) % 256) s.2) []

/-! ## The compressor table between its two construction phases -/

/-- The table of `buildCompressorTable` after the loops that link each word to its
continuation and before the loops that fill the cells still holding `CompressorTableIdx(-1)`. -/
def linkedTable (p : TMarlin) : Option (List Nat) :=
  (allIndices p).foldlM
    (fun t ki => linkWord p ki.1 (p.words.getD ki.2 []).reverse ki.2 t)
    (initTable p)

/-! ## States, chapters and the bit register -/

/-- The index of a state: `(j | FLAG_NEXT_WORD) ^ FLAG_NEXT_WORD`, the state with its flag
cleared. -/
def stateIndex (p : TMarlin) (j : Nat) : Nat := (j ||| FLAG_NEXT_WORD p) ^^^ FLAG_NEXT_WORD p

/-- A compressor table keeps to the chapters: from every position `q`, on every Marlin symbol
`m`, the cell holds either a position of the chapter of `q` with the flag clear, or, with the
flag set, a position of the chapter `q mod 2^O`. -/
def ChapterTable (p : TMarlin) : Prop :=
  ∀ q m, q < 2 ^ (p.K + p.O) → m < p.marlinAlphabet.length →
    (jump p q m < 2 ^ (p.K + p.O) ∧ jump p q m / 2 ^ p.K = q / 2 ^ p.K) ∨
    (∃ q1, q1 < 2 ^ (p.K + p.O) ∧ jump p q m = q1 + FLAG_NEXT_WORD p ∧
      q1 / 2 ^ p.K = q % 2 ^ p.O)

/-- The bit register of `compressMarlinFast` is consistent with a state of chapter `c`: it
holds `bits` written bits at its top, zeros below, and every bit of `c` that is set is already
set in the low bits of the written part, where the chapter number will be OR-ed onto. -/
def RegisterOk (p : TMarlin) (c value : Nat) (bits : Int) : Prop :=
  0 ≤ bits ∧ bits ≤ 32 ∧ value < 2 ^ 32 ∧ value % 2 ^ (32 - bits.toNat) = 0 ∧
    ∀ b, b < bits.toNat → b < p.O → c.testBit b = true →
      value.testBit (32 - bits.toNat + b) = true

/-- The weaker property of a compressor table that makes the OR of a whole index harmless: a
flagged cell holds a position whose chapter number has no bit set outside the low `O` bits of
the position it is reached from. -/
def OverlapSafe (p : TMarlin) : Prop :=
  ∀ q m, q < 2 ^ (p.K + p.O) → m < p.marlinAlphabet.length →
    (jump p q m < 2 ^ (p.K + p.O) ∧ jump p q m / 2 ^ p.K = q / 2 ^ p.K) ∨
    (∃ q1, q1 < 2 ^ (p.K + p.O) ∧ jump p q m = q1 + FLAG_NEXT_WORD p ∧
      ∀ b, b < p.O → (q1 / 2 ^ p.K).testBit b = true → q.testBit b = true)

/-- Folding a codeword into the register as the specification words it: the low `K` bits of
the current codeword are OR-ed in below the bits already written. -/
def foldLowBits (p : TMarlin) (value : Nat) (bits : Int) (j : Nat) : Nat :=
  (value ||| ((j % 2 ^ p.K) <<< (32 - p.K - bits.toNat))) % 2 ^ 32

/-- The loop of the bit-packed variant as the specification words it: `compressMarlinFast`
with `foldLowBits` in the place of the OR of the whole index. -/
def specBitPackedLoop (p : TMarlin) (dstStart : Nat) (dstEnd : Int) :
    List Nat → Nat → Nat → Nat → Nat → Int → Mem → List Nat → Int × Mem × List Nat
  | [], _, out, j, value, bits, mem, rare =>
      let v := foldLowBits p value bits j
      let d := drain 0 (bits + p.K).toNat v (bits + p.K) out mem
      ((d.2.2.1 : Int) - (dstStart : Int), d.2.2.2, rare)
  | ss :: rest, inPos, out, j, value, bits, mem, rare =>
      if dstEnd - (out : Int) < 16 then (-1, mem, rare)
      else
        let c := classify p ss inPos rare
        let j1 := jump p j c.1
        let vb : Nat × Int :=
          if j1 &&& FLAG_NEXT_WORD p ≠ 0 then (foldLowBits p value bits j, bits + p.K)
          else (value, bits)
        let d := drain 8 vb.2.toNat vb.1 vb.2 out mem
        specBitPackedLoop p dstStart dstEnd rest (inPos + 1) d.2.2.1 j1 d.1 d.2.1 d.2.2.2 c.2

/-- The bit-packed variant as the specification words it. -/
def specBitPacked (p : TMarlin) (src : List Nat) (past : Nat) (mem : Mem)
    (dstStart : Nat) (dstEnd : Int) (rare : List Nat) : Int × Mem × List Nat :=
  let c := classify p (src.headD past) 0 rare
  specBitPackedLoop p dstStart dstEnd src.tail 1 dstStart (initialWord p c.1) 0 0 mem c.2

/-! ## A small codec with two chapters -/

/-- A dictionary with `K = 2`, `O = 1` over two Marlin symbols: chapter 0 is
`[0], [1], [0,0], [0,1]` and chapter 1 is `[0], [1], [0,0], [1,0]`. -/
def overlapWords : List (List Nat) :=
  [[0], [1], [0, 0], [0, 1], [0], [1], [0, 0], [1, 0]]

/-- The codec around `overlapWords` before its compressor table is built: shift 7, source
symbols `0x00` and `0x80` kept, 8-bit table cells. -/
def overlapBase : TMarlin where
  K := 2
  O := 1
  shift := 7
  idxBytes := 1
  marlinAlphabet := [0x00, 0x80]
  words := overlapWords
  compressorTable := fun _ => 0

/-- The compressor table of `overlapBase`, row `m` holding the cells `(q, m)` for `q < 8`;
rows 2 and 3 are the token column and the rest of the `2^alphaStride` symbol range. -/
def overlapTable : List Nat :=
  [2, 0x84, 0x80, 0x84, 6, 7, 0x80, 0x84,
   3, 0x85, 0x81, 0x85, 0x81, 0x85, 0x81, 0x85,
   0xFF, 0xFF, 0xFF, 0xFF, 0xFF, 0xFF, 0xFF, 0xFF,
   0xFF, 0xFF, 0xFF, 0xFF, 0xFF, 0xFF, 0xFF, 0xFF]

/-- The codec around `overlapWords` with its compressor table. -/
def overlapMarlin : TMarlin :=
  { overlapBase with compressorTable := fun i => overlapTable.getD i 0 }

/-! ## A codec with one-byte codewords -/

/-- The words of the first eight positions of `byteMarlin`: the four one-symbol words and the
extensions of `[0]`. -/
def byteWords : List (List Nat) := [[0], [1], [2], [3], [0, 0], [0, 1], [0, 2], [0, 3]]

/-- A codec with `K = 8`, `O = 0` over four Marlin symbols (source bytes 0 to 3, shift 0,
16-bit table cells) whose compressor table is given in closed form: from position 0, the word
`[0]`, the symbol `m` leads to position `4 + m`, the word `[0, m]`; from every other position
the symbol `m` ends the word and leads to position `m` with `FLAG_NEXT_WORD` set. -/
def byteMarlin : TMarlin where
  K := 8
  O := 0
  shift := 0
  idxBytes := 2
  marlinAlphabet := [0, 1, 2, 3]
  words := byteWords
  compressorTable := fun x => if x % 256 = 0 then 4 + x / 256 else x / 256 + 0x8000

/-! ## `TCompress::compressMarlinReference` -/

/-- The lookup in `wordMaps[c]` after the loop `wordMaps[i>>K][words[i]] = i&((1<<K)-1)` over
`i < words.size()`: the value stored for the last `i` with `i >> K = c` and `words[i] = w`. -/
def wordMapAt (p : TMarlin) (c : Nat) (w : List Nat) : Option Nat :=
  ((List.range p.words.length).reverse.find?
    (fun i => i >>> p.K == c && p.words.getD i [] == w)).map
    (fun i => i &&& ((1 <<< p.K) - 1))

/-- Models `wordMaps[c].count(w)`; `ins` lists the keys that `operator[]` has inserted since
the maps were filled. -/
def refCount (p : TMarlin) (ins : List (Nat × List Nat)) (c : Nat) (w : List Nat) : Bool :=
  (wordMapAt p c w).isSome || ins.contains (c, w)

/-- Models `wordMaps[c][w]`: the stored value, and 0 for a missing key, which `operator[]`
inserts. -/
def refLookup (p : TMarlin) (ins : List (Nat × List Nat)) (c : Nat) (w : List Nat) :
    Nat × List (Nat × List Nat) :=
  match wordMapAt p c w with
  | some v => (v, ins)
  | none => if ins.contains (c, w) then (0, ins) else (0, (c, w) :: ins)

/-- The lambda `emitWord` of `compressMarlinReference`: the new `value`, `valueBits`,
`chapter` and inserted keys (`word.clear()` is done by the caller). -/
def emitWord (p : TMarlin) (ins : List (Nat × List Nat)) (chapter : Nat) (word : List Nat)
    (value : Nat) (bits : Int) : Nat × Int × Nat × List (Nat × List Nat) :=
  let l := refLookup p ins chapter word
  ((value ||| (l.1 <<< (32 - p.K - bits.toNat))) % 2 ^ 32, bits + p.K,
    l.1 &&& ((1 <<< p.O) - 1), l.2)

/-- The `while (in<src.end)` loop of `compressMarlinReference` and the final flush. -/
def compressMarlinReferenceLoop (p : TMarlin) (dstStart : Nat) (dstEnd : Int) :
    List Nat → Nat → Nat → List Nat → Nat → Nat → Int → List (Nat × List Nat) → Mem →
      List Nat → Int × Mem × List Nat
  | [], _, out, word, chapter, value, bits, ins, mem, rare =>
      let e : Nat × Int × Nat × List (Nat × List Nat) :=
        if word.length ≠ 0 then emitWord p ins chapter word value bits
        else (value, bits, chapter, ins)
      let d := drain 0 e.2.1.toNat e.1 e.2.1 out mem
      ((d.2.2.1 : Int) - (dstStart : Int), d.2.2.2, rare)
  | ss :: rest, inPos, out, word, chapter, value, bits, ins, mem, rare =>
      if dstEnd - (out : Int) < 16 then (-1, mem, rare)
      else
        let c := classify p ss inPos rare
        let e : (Nat × Int × Nat × List (Nat × List Nat)) × List Nat :=
          if refCount p ins chapter (word ++ [c.1]) = false then
            (emitWord p ins chapter word value bits, [c.1])
          else ((value, bits, chapter, ins), word ++ [c.1])
        let d := drain 8 e.1.2.1.toNat e.1.1 e.1.2.1 out mem
        compressMarlinReferenceLoop p dstStart dstEnd rest (inPos + 1) d.2.2.1 e.2 e.1.2.2.1
          d.1 d.2.1 e.1.2.2.2 d.2.2.2 c.2

/-- `TCompress::compressMarlinReference(src, dst, unrepresentedSymbols)` with
`dst = [dstStart, dstEnd)`. -/
def compressMarlinReference (p : TMarlin) (src : List Nat) (mem : Mem)
    (dstStart : Nat) (dstEnd : Int) (rare : List Nat) : Int × Mem × List Nat :=
  compressMarlinReferenceLoop p dstStart dstEnd src 0 dstStart [] 0 0 0 [] mem rare

/-! ## The choices of `updateConf` as the specification words them -/

/-- The shift of the specification: the largest `S` in `{0..5}` that does not reduce the
estimated efficiency, i.e. with `e(s) >= e(s-1)` for all `1 <= s <= S`. -/
def specShiftChoice (e : Nat → ℚ) : Nat :=
  ((List.range 6).reverse.find?
    (fun S => (List.range S).all (fun s => decide (e (s + 1) ≥ e s)))).getD 0

/-- The word size of the specification: 7 only if `e(7) > 1.0001*e(3)`, 15 only if 7 was
selected and `e(15) > 1.0001*e(7)`, otherwise 3. -/
def specMaxWordSizeChoice (e3 e7 e15 : ℚ) : Nat :=
  if e7 > (10001 / 10000 : ℚ) * e3 then
    if e15 > (10001 / 10000 : ℚ) * e7 then 15 else 7
  else 3

/-! ## The trimming loop as the specification words it -/

/-- The trimming loop of the specification, on the vector in reverse order: the tail element
is removed while the kept set exceeds `minMarlin` and (exceeds `maxMarlin` or the current tail
element's probability is below `purgeThreshold`). -/
def specTrimTail (minMarlinSymbols maxMarlinSymbols purgeProbabilityThreshold : ℚ) :
    List SymbolAndProbability → ℚ → List SymbolAndProbability × ℚ
  | [], rare => ([], rare)
  | s :: rest, rare =>
      if ((rest.length + 1 : Nat) : ℚ) > minMarlinSymbols ∧
          (((rest.length + 1 : Nat) : ℚ) > maxMarlinSymbols ∨
            s.p < purgeProbabilityThreshold) then
        specTrimTail minMarlinSymbols maxMarlinSymbols purgeProbabilityThreshold rest
          (rare + s.p)
      else (s :: rest, rare)

/-- A PMF of nine equiprobable source symbols. -/
def ninePmf : List (Nat × ℚ) :=
  [(0, 1 / 9), (1, 1 / 9), (2, 1 / 9), (3, 1 / 9), (4, 1 / 9), (5, 1 / 9), (6, 1 / 9),
   (7, 1 / 9), (8, 1 / 9)]

/-- The indices `j` of the stores `w[j] = sortedDictionary[i++]` of the placement loop of
`arrangeAndFuse`, in the order of the stores, for `n` words and a vector of `size` slots, from
the loop variables `j` and `k`. -/
def placeIndices (O size : Nat) : Nat → Nat → Nat → List Nat
  | 0, _, _ => []
  | n + 1, j, k =>
      if j ≥ size then (k + 1) :: placeIndices O size n (k + 1 + shl1U O) (k + 1)
      else j :: placeIndices O size n (j + shl1U O) k

/-- The slot the specification gives to the word of sorted rank `r` of a chapter:
`(r mod 2^(K-O)) * 2^O + r div 2^(K-O)`. -/
def specSlot (K O r : Nat) : Nat := (r % 2 ^ (K - O)) * 2 ^ O + r / 2 ^ (K - O)

/-- A chapter tree with a root and two leaves, for the examples. -/
def twoLeafChapter : Node := Node.mk 1 0 [Node.mk (1 / 2) 1 [], Node.mk (1 / 4) 1 []]

/-! ## The image transformer: quantisation -/

/-- The quantisation step of `predict_and_quantize_direct<qs>` on one pixel: a shift for the
powers of two, the division `/= qs` otherwise, nothing for `qs = 1`. -/
def quantize (qs x : Nat) : Nat :=
  if qs > 1 then
    if qs = 2 then x >>> 1
    else if qs = 4 then x >>> 2
    else if qs = 8 then x >>> 3
    else if qs = 16 then x >>> 4
    else if qs = 32 then x >>> 5
    else x / qs
  else x

/-- The value `interval_count = (256 + header.qstep - 1) / header.qstep` of
`transform_inverse`, in 32-bit unsigned arithmetic. -/
def intervalCount (qstep : Nat) : Nat := ((256 + qstep + 2 ^ 32 - 1) % 2 ^ 32) / qstep

/-- The product `header.qstep * (interval_count - 1)` in 32-bit unsigned arithmetic. -/
def lastIntervalStart (qstep : Nat) : Nat :=
  (qstep * ((intervalCount qstep + 2 ^ 32 - 1) % 2 ^ 32)) % 2 ^ 32

/-- The value `size_last_qinterval = (const uint8_t) 256 - header.qstep * (interval_count - 1)`:
the cast applies to the literal `256`, which becomes 0, and the subtraction is 32-bit
unsigned. -/
def sizeLastQinterval (qstep : Nat) : Nat :=
  ((256 % 2 ^ 8) + 2 ^ 32 - lastIntervalStart qstep) % 2 ^ 32

/-- The value `first_element_last_interval = (const uint8_t) (qstep * (interval_count - 1))`. -/
def firstElementLastInterval (qstep : Nat) : Nat := lastIntervalStart qstep % 2 ^ 8

/-- The offset the dequantisation loop of `transform_inverse` adds to the value `v` it has just
multiplied by `qstep`: `offset_last_interval = (uint8_t) size_last_qinterval / 2` from
`first_element_last_interval` on and `offset = (uint8_t) qstep / 2` below it under midpoint
reconstruction, 0 otherwise. -/
def reconstructionOffset (qstep : Nat) (midpoint : Bool) (v : Nat) : Nat :=
  if v ≥ firstElementLastInterval qstep then
    (if midpoint then ((sizeLastQinterval qstep % 2 ^ 8) / 2) % 2 ^ 8 else 0)
  else (if midpoint then ((qstep % 2 ^ 8) / 2) % 2 ^ 8 else 0)

/-- One iteration of the dequantisation loop of `transform_inverse` on the 8-bit value `d`:
`data[i] = data[i] * qstep`, then the offset is added, both stores truncating to 8 bits. -/
def dequantize (qstep : Nat) (midpoint : Bool) (d : Nat) : Nat :=
  (((d * qstep) % 2 ^ 8) + reconstructionOffset qstep midpoint ((d * qstep) % 2 ^ 8)) % 2 ^ 8

/-! ## The image transformer: north prediction in blocks -/

/-- Modelled from the spec: the fields of `ImageMarlinHeader` that
`NorthPredictionUniformQuantizer` reads; `midpoint` stands for
`rectype == ReconstructionType::Midpoint`. -/
structure ImageMarlinHeader where
  rows : Nat
  cols : Nat
  channels : Nat
  blocksize : Nat
  qstep : Nat
  midpoint : Bool

/-- The values the loop variable takes in `for (size_t i = 0; i < n - bs + 1; i += bs)`, the
bound computed in `size_t` (for `1 ≤ bs`). -/
def blockStarts (n bs : Nat) : List Nat :=
  (List.range (((n + 2 ^ 64 - bs + 1) % 2 ^ 64 + bs - 1) / bs)).map (fun k => k * bs)

/-- The 8-bit difference `a - b` as it is stored into a `uint8_t`. -/
def sub8 (a b : Nat) : Nat := (a % 256 + 256 - b % 256) % 256

/-- The body of the block loops of `predict_and_quantize_direct` for the block with top left
pixel `(i, j)`: the state is the offset of the pointer `t` into `preprocessed`, the side
information and the preprocessed data. The top left pixel goes to the side information; the
first row is predicted from the left neighbour, the other rows from the row above. -/
def directBlock (original_data : Mem) (imgCols blocksize bcols i j : Nat)
    (st : Nat × Mem × Mem) : Nat × Mem × Mem :=
  let t := st.1
  let side := store st.2.1 ((i / blocksize) * bcols + j / blocksize) (original_data (i * imgCols + j))
  let pre0 := store st.2.2 t 0
  let pre1 := (List.range (blocksize - 1)).foldl
    (fun pre jj => store pre (t + 1 + jj)
      (sub8 (original_data (i * imgCols + j + 1 + jj)) (original_data (i * imgCols + j + jj))))
    pre0
  let pre2 := (List.range (blocksize - 1)).foldl
    (fun pre ii => (List.range blocksize).foldl
      (fun pre jj => store pre (t + 1 + (blocksize - 1) + ii * blocksize + jj)
        (sub8 (original_data ((i + (ii + 1)) * imgCols + j + jj))
          (original_data ((i + (ii + 1) - 1) * imgCols + j + jj))))
      pre)
    pre1
  (t + 1 + (blocksize - 1) + (blocksize - 1) * blocksize, side, pre2)

/-- Models `NorthPredictionUniformQuantizer::predict_and_quantize_direct<qs>`: the pixels are
quantised in place, then the blocks are visited row by row. As in the source, `imgCols` is
read from `header.rows`. The result is the side information and the preprocessed data. -/
def predict_and_quantize_direct (header : ImageMarlinHeader) (qs : Nat) (original_data : Mem)
    (side_information preprocessed : Mem) : Mem × Mem :=
  let bcols := (header.cols + header.blocksize - 1) / header.blocksize
  let imgRows := header.rows
  let imgCols := header.rows
  let blocksize := header.blocksize
  let quantized : Mem := fun a =>
    if a < header.rows * header.cols * header.channels then quantize qs (original_data a)
    else original_data a
  ((blockStarts imgRows blocksize).foldl
    (fun st i => (blockStarts imgCols blocksize).foldl
      (fun st j => directBlock quantized imgCols blocksize bcols i j st) st)
    (0, side_information, preprocessed)).2

/-- Models `NorthPredictionUniformQuantizer::transform_direct` for a header with the uniform
quantiser: `none` stands for the exceptions (more than one channel, `qstep` outside 1..8). -/
def transform_direct (header : ImageMarlinHeader) (original_data : Mem)
    (side_information preprocessed : Mem) : Option (Mem × Mem) :=
  if header.channels ≠ 1 then none
  else if header.qstep = 0 then none
  else if header.qstep ≤ 8 then
    some (predict_and_quantize_direct header header.qstep original_data side_information
      preprocessed)
  else none

/-- The body of the block loops of `transform_inverse` for the block with top left pixel
`(i, j)`: the state is the offset of the pointer `t` into the decoded data and the
reconstructed data. -/
def inverseBlock (side_information entropy_decoded_data : Mem) (imgCols bs bcols i j : Nat)
    (st : Nat × Mem) : Nat × Mem :=
  let t := st.1
  let rec0 := store st.2 (i * imgCols + j) (side_information ((i / bs) * bcols + j / bs))
  let rec1 := (List.range (bs - 1)).foldl
    (fun r jj => store r (i * imgCols + j + 1 + jj)
      ((entropy_decoded_data (t + 1 + jj) + r (i * imgCols + j + jj)) % 256))
    rec0
  let rec2 := (List.range (bs - 1)).foldl
    (fun r ii => (List.range bs).foldl
      (fun r jj => store r ((i + (ii + 1)) * imgCols + j + jj)
        ((r ((i + (ii + 1) - 1) * imgCols + j + jj)
          + entropy_decoded_data (t + 1 + (bs - 1) + ii * bs + jj)) % 256))
      r)
    rec1
  (t + 1 + (bs - 1) + (bs - 1) * bs, rec2)

/-- Models `NorthPredictionUniformQuantizer::transform_inverse`: the blocks are rebuilt row by
row, then every pixel is dequantised; `none` stands for the exception for more than one
channel. `reconstructedData` is the content of the vector after the `resize`. -/
def transform_inverse (header : ImageMarlinHeader) (entropy_decoded_data side_information : Mem)
    (reconstructedData : Mem) : Option Mem :=
  if header.channels ≠ 1 then none
  else
    let imgRows := header.rows
    let imgCols := header.cols
    let bs := header.blocksize
    let bcols := (header.cols + bs - 1) / bs
    let predicted := ((blockStarts imgRows bs).foldl
      (fun st i => (blockStarts imgCols bs).foldl
        (fun st j => inverseBlock side_information entropy_decoded_data imgCols bs bcols i j st)
        st)
      (0, reconstructedData)).2
    some (fun a =>
      if a < header.rows * header.cols * header.channels then
        dequantize header.qstep header.midpoint (predicted a)
      else predicted a)

/-- The round trip of the image coder on the transformer alone: `transform_direct` on buffers
of zeros, as `ImageMarlinCoder::compress` allocates them, then `transform_inverse` on its
results, into a vector of zeros. -/
def roundTrip (header : ImageMarlinHeader) (original_data : Mem) : Option Mem :=
  match transform_direct header original_data (fun _ => 0) (fun _ => 0) with
  | none => none
  | some (side, pre) => transform_inverse header pre side (fun _ => 0)

/-- The header of a 2 x 4 image in blocks of 2 x 2, one channel, `qstep = 1`. -/
def wideHeader : ImageMarlinHeader :=
  { rows := 2, cols := 4, channels := 1, blocksize := 2, qstep := 1, midpoint := false }

/-- The 2 x 4 image with the pixels 1, ..., 8 in row order. -/
def wideImage : Mem := fun a => [1, 2, 3, 4, 5, 6, 7, 8].getD a 0

/-! ## Marlin2018Simple: the dictionary and the decoder table -/

namespace Marlin2018Simple

/-- Models `Marlin2018Simple::SymbolAndProbability`. -/
structure SymbolAndProbability where
  symbol : Nat
  p : ℚ
  deriving DecidableEq

/-- Models `Marlin2018Simple::Dictionary::Node`: the children, `p`, `sz` and the flag
`erased`. -/
inductive Node where
  | mk (p : ℚ) (sz : Nat) (erased : Bool) (children : List Node)

/-- The member `p` of a node. -/
def Node.p : Node → ℚ
  | Node.mk p _ _ _ => p

/-- The member `sz` of a node. -/
def Node.sz : Node → Nat
  | Node.mk _ sz _ _ => sz

/-- The member `erased` of a node. -/
def Node.erased : Node → Bool
  | Node.mk _ _ e _ => e

/-- The children of a node (the vector the node derives from). -/
def Node.children : Node → List Node
  | Node.mk _ _ _ cs => cs

/-- The node a path points to. -/
def nodeAt : Node → List Nat → Option Node
  | n, [] => some n
  | n, i :: rest =>
      match n.children.get? i with
      | some c => nodeAt c rest
      | none => none

/-- The tree after the node a path points to is replaced by `f` of it. -/
def modifyAt (f : Node → Node) : Node → List Nat → Node
  | n, [] => f n
  | n, i :: rest =>
      match n.children.get? i with
      | some c => Node.mk n.p n.sz n.erased (n.children.set i (modifyAt f c rest))
      | none => n

mutual
/-- The last pass of `buildTree`: `p *= factor` at every node. -/
def Node.scale (factor : ℚ) : Node → Node
  | Node.mk p sz e cs => Node.mk (p * factor) sz e (scaleList factor cs)
/-- The last pass of `buildTree` on a list of trees. -/
def scaleList (factor : ℚ) : List Node → List Node
  | [] => []
  | c :: cs => c.scale factor :: scaleList factor cs
end

/-- The vector `PN` of `buildTree`: `PN[i]` is the probability of the symbols `i` and above. -/
def PN : List ℚ → List ℚ
  | [] => []
  | [p] => [p]
  | p :: q :: rest => (p + (PN (q :: rest)).headD 0) :: PN (q :: rest)

/-- The vector `Pchild` of `buildTree`: `Pchild[i] = alphabet[i].p / PN[i]`. -/
def Pchild (alphabet : List SymbolAndProbability) : List ℚ :=
  List.zipWith (fun s pn => s.p / pn) alphabet (PN (alphabet.map (fun s => s.p)))

/-- The state probabilities after the normalisation of `buildTree`: division by their sum
`factor`, then values within `0.0001` of 1 set to 1 and values within `0.0001` of 0 set to
0. -/
def normalizePstates (Pstates : List ℚ) : List ℚ :=
  ((Pstates.map (fun p => p / Pstates.foldl (fun factor p => factor + p) 0)).map
    (fun p => if |p - 1| < 1 / 10000 then 1 else p)).map
    (fun p => if |p - 0| < 1 / 10000 then 0 else p)

/-- The state of `buildTree`: the tree, the queue (a node is named by its path from the root)
and `retiredNodes`. -/
structure TreeState where
  root : Node
  pq : List (List Nat)
  retiredNodes : Nat

/-- The lambda `pushAndPrune` of `buildTree`, applied to the node at `path`: a node of the
victim dictionary, or with victims disabled, or with `p > ppThres` is queued when
`sz < maxWordSize` and counted as retired otherwise; any other node is marked erased and gives
its `p` to the root. -/
def pushAndPrune (maxWordSize : Nat) (isVictim enableVictimDict : Bool) (ppThres : ℚ)
    (st : TreeState) (path : List Nat) : TreeState :=
  match nodeAt st.root path with
  | none => st
  | some node =>
      if isVictim = true ∨ enableVictimDict = false ∨ node.p > ppThres then
        if node.sz < maxWordSize then
          { root := st.root, pq := st.pq ++ [path], retiredNodes := st.retiredNodes }
        else { root := st.root, pq := st.pq, retiredNodes := st.retiredNodes + 1 }
      else
        { root := modifyAt (fun r => Node.mk (r.p + node.p) r.sz r.erased r.children)
            (modifyAt (fun n => Node.mk n.p n.sz true n.children) st.root path) []
          pq := st.pq
          retiredNodes := st.retiredNodes }

/-- The initialisation loop of `buildTree` over the symbols `c` of the list: the root gets a
child with `p = (sum over t <= c of Pstates[t]/PN[t]) * alphabet[c].p` and `sz = 1`, which is
handed to `pushAndPrune`. -/
def initialChildren (alphabet : List SymbolAndProbability) (maxWordSize : Nat)
    (isVictim enableVictimDict : Bool) (ppThres : ℚ) (Pstates : List ℚ) :
    List Nat → TreeState → TreeState
  | [], st => st
  | c :: rest, st =>
      initialChildren alphabet maxWordSize isVictim enableVictimDict ppThres Pstates rest
        (pushAndPrune maxWordSize isVictim enableVictimDict ppThres
          { root := Node.mk st.root.p st.root.sz st.root.erased
              (st.root.children ++
                [Node.mk
                  (((List.range (c + 1)).map (fun t =>
                      Pstates.getD t 0 / (PN (alphabet.map (fun s => s.p))).getD t 0)).sum *
                    (alphabet.map (fun s => s.p)).getD c 0)
                  1 false []])
            pq := st.pq
            retiredNodes := st.retiredNodes }
          [st.root.children.length])

/-- The growing loop of `buildTree`, at most `fuel` iterations. `pick fuel root pq` is the
position in the queue of the element `pq.top()` returns. The popped node gets a child with
`p = node->p * Pchild[node->size()]` (0 when the index is past the end of `Pchild`); then the
node is handed back to `pushAndPrune` while it has fewer than `alphabet.size() - 1` children
(in `size_t`), and otherwise is erased and gets one more child, with `p = 0`. -/
def growLoop (alphabet : List SymbolAndProbability) (keySize maxWordSize : Nat)
    (isVictim enableVictimDict : Bool) (ppThres : ℚ)
    (pick : Nat → Node → List (List Nat) → Nat) : Nat → TreeState → TreeState
  | 0, st => st
  | fuel + 1, st =>
      if st.pq ≠ [] ∧ st.pq.length + st.retiredNodes < shl1U keySize then
        let i := pick fuel st.root st.pq % st.pq.length
        let path := st.pq.getD i []
        match nodeAt st.root path with
        | none =>
            growLoop alphabet keySize maxWordSize isVictim enableVictimDict ppThres pick fuel
              { root := st.root, pq := st.pq.eraseIdx i, retiredNodes := st.retiredNodes }
        | some node =>
            let p := node.p * (Pchild alphabet).getD node.children.length 0
            let st1 := pushAndPrune maxWordSize isVictim enableVictimDict ppThres
              { root := modifyAt (fun n => Node.mk (n.p - p) n.sz n.erased
                    (n.children ++ [Node.mk p (n.sz + 1) false []])) st.root path
                pq := st.pq.eraseIdx i
                retiredNodes := st.retiredNodes }
              (path ++ [node.children.length])
            if node.children.length + 1 < (alphabet.length + 2 ^ 64 - 1) % 2 ^ 64 then
              growLoop alphabet keySize maxWordSize isVictim enableVictimDict ppThres pick fuel
                (pushAndPrune maxWordSize isVictim enableVictimDict ppThres st1 path)
            else
              growLoop alphabet keySize maxWordSize isVictim enableVictimDict ppThres pick fuel
                (pushAndPrune maxWordSize isVictim enableVictimDict ppThres
                  { root := modifyAt (fun n => Node.mk 0 n.sz true
                        (n.children ++ [Node.mk 0 (n.sz + 1) false []])) st1.root path
                    pq := st1.pq
                    retiredNodes := st1.retiredNodes }
                  (path ++ [node.children.length + 1]))
      else st

/-- Models `Dictionary::buildTree(Pstates, isVictim)` with at most `fuel` iterations of the
growing loop: the root is erased and takes a place in the queue, the children of the root are
made, the tree is grown and every `p` is multiplied by the sum of the state probabilities. -/
def buildTree (alphabet : List SymbolAndProbability) (keySize maxWordSize : Nat)
    (enableVictimDict : Bool) (purgeProbabilityThreshold : ℚ)
    (pick : Nat → Node → List (List Nat) → Nat) (fuel : Nat) (Pstates : List ℚ)
    (isVictim : Bool) : Node :=
  (growLoop alphabet keySize maxWordSize isVictim enableVictimDict
    (purgeProbabilityThreshold / (shl1U keySize : ℚ)) pick fuel
    (initialChildren alphabet maxWordSize isVictim enableVictimDict
      (purgeProbabilityThreshold / (shl1U keySize : ℚ)) (normalizePstates Pstates)
      (List.range alphabet.length)
      { root := Node.mk 0 0 true [], pq := [[]], retiredNodes := 0 })).root.scale
    (Pstates.foldl (fun factor p => factor + p) 0)

mutual
/-- The words `buildWords` emits from the moment it pops the pair `(n, w)` until the stack is
back to what was below that pair: `w` itself unless the node is erased, then, the children
being pushed in order and popped last first, the words below the last child, ..., the first
child. -/
def wordsFrom (syms : List Nat) : Node → Word → List Word
  | Node.mk _ _ e cs, w => (if e = true then [] else [w]) ++ childWords syms cs 0 w
/-- The words emitted for the children `cs` of a node with word `w`, `cs` starting at child
index `i`; the symbol of a child index past the end of the alphabet reads as 0. -/
def childWords (syms : List Nat) : List Node → Nat → Word → List Word
  | [], _, _ => []
  | c :: cs, i, w =>
      childWords syms cs (i + 1) w ++
        wordsFrom syms c
          { symbols := w.symbols ++ [syms.getD i 0], p := c.p, state := c.children.length % 256 }
end

/-- Models `Dictionary::buildWords(root)`. -/
def buildWords (alphabet : List SymbolAndProbability) (root : Node) : List Word :=
  wordsFrom (alphabet.map (fun s => s.symbol)) root { symbols := [], p := root.p, state := 0 }

/-- The placement loop of `arrangeAndFuse` over the words not yet placed, at most `fuel`
iterations, with the loop variables `j`, `k` and the vector `w`: the slot `victimIdx` gets an
empty word with the `p` of the root and uses no word; a store past the end of `w` changes
nothing. The result is the words left over and the vector. -/
def placeLoop (overlap victimIdx : Nat) (rootP : ℚ) :
    Nat → List Word → Nat → Nat → List Word → List Word × List Word
  | 0, xs, _, _, w => (xs, w)
  | _ + 1, [], _, _, w => ([], w)
  | fuel + 1, x :: xs, j, k, w =>
      if victimIdx = (if j ≥ w.length then k + 1 else j) then
        placeLoop overlap victimIdx rootP fuel (x :: xs)
          ((if j ≥ w.length then k + 1 else j) + 2 ^ overlap) (if j ≥ w.length then k + 1 else k)
          (w.set (if j ≥ w.length then k + 1 else j) { symbols := [], p := rootP, state := 0 })
      else
        placeLoop overlap victimIdx rootP fuel xs
          ((if j ≥ w.length then k + 1 else j) + 2 ^ overlap) (if j ≥ w.length then k + 1 else k)
          (w.set (if j ≥ w.length then k + 1 else j) x)

/-- Models `Dictionary::arrangeAndFuse(nodes, victimIdx)`: per tree the words are sorted
(`shuffle` is the identity unless the configuration asks for `std::random_shuffle`) and placed
into `2^keySize` slots; the placement loop gets as many iterations as it can use. -/
def arrangeAndFuse (alphabet : List SymbolAndProbability) (keySize overlap : Nat)
    (shuffle : List Word → List Word) (nodes : List Node) (victimIdx : Nat) : List Word :=
  nodes.flatMap (fun node =>
    (placeLoop overlap victimIdx node.p
      ((shuffle ((buildWords alphabet node).insertionSort
        (fun x y => wordCmp y x = false))).length + victimIdx + 1)
      (shuffle ((buildWords alphabet node).insertionSort (fun x y => wordCmp y x = false)))
      0 0 (List.replicate (2 ^ keySize) emptyWord)).2)

/-- The block "find least probable subdictionary" of the constructor of `Dictionary`, over the
state probabilities from index `i` on. -/
def leastProbable : List (List ℚ) → Nat → ℚ → Nat → Nat
  | [], _, _, victim => victim
  | ps :: rest, i, minP, victim =>
      if ps.foldl (fun sumProb p => sumProb + p) 0 > minP then
        leastProbable rest (i + 1) minP victim
      else leastProbable rest (i + 1) (ps.foldl (fun sumProb p => sumProb + p) 0) i

/-- The parameters of `Dictionary` and the configuration it reads. `pick call` is the queue
order and `fuel call` the iteration bound of the `call`-th `buildTree`. -/
structure Parameters where
  alphabet : List SymbolAndProbability
  keySize : Nat
  overlap : Nat
  maxWordSize : Nat
  enableVictim : Bool
  purgeProbabilityThreshold : ℚ
  iterations : Nat
  shuffle : List Word → List Word
  pick : Nat → Nat → Node → List (List Nat) → Nat
  fuel : Nat → Nat

/-- One tree per subdictionary:
`for k: dictionaries.push_back(buildTree(Pstates[k], k==victimDictionary))`. `call` is the
number of `buildTree` calls made before. -/
def buildTrees (c : Parameters) (call : Nat) (Pstates : List (List ℚ)) (victim : Nat) :
    List Node :=
  Pstates.enum.map (fun kp =>
    buildTree c.alphabet c.keySize c.maxWordSize c.enableVictim c.purgeProbabilityThreshold
      (c.pick (call + kp.1)) (c.fuel (call + kp.1)) kp.2 (decide (kp.1 = victim)))

/-- The loop `while (iterations--)` of the constructor of `Dictionary`: the state
probabilities are recomputed from the words, the victim is chosen, the trees and the words
are rebuilt. -/
def iterateDictionary (c : Parameters) : Nat → Nat → Nat → List Word → List Word
  | 0, _, _, words => words
  | iterations + 1, call, victim, words =>
      iterateDictionary c iterations (call + 2 ^ c.overlap)
        (leastProbable
          (accumulateStates c.overlap words 0
            (List.replicate (2 ^ c.overlap) (List.replicate c.alphabet.length 0)))
          0 (11 / 10) victim)
        (arrangeAndFuse c.alphabet c.keySize c.overlap c.shuffle
          (buildTrees c call
            (accumulateStates c.overlap words 0
              (List.replicate (2 ^ c.overlap) (List.replicate c.alphabet.length 0)))
            (leastProbable
              (accumulateStates c.overlap words 0
                (List.replicate (2 ^ c.overlap) (List.replicate c.alphabet.length 0)))
              0 (11 / 10) victim))
          (leastProbable
            (accumulateStates c.overlap words 0
              (List.replicate (2 ^ c.overlap) (List.replicate c.alphabet.length 0)))
            0 (11 / 10) victim))

/-- Models the constructor `Dictionary(alphabet, keySize, overlap, maxWordSize)`: the words of
the dictionary. -/
def dictionary (c : Parameters) : List Word :=
  iterateDictionary c c.iterations (2 ^ c.overlap) 0
    (arrangeAndFuse c.alphabet c.keySize c.overlap c.shuffle
      (buildTrees c 0
        (List.replicate (2 ^ c.overlap)
          ((List.replicate c.alphabet.length (0 : ℚ)).set 0 (1 / (2 ^ c.overlap : ℚ))))
        0)
      0)

/-- The condition of `assert(dict[i].size()<=maxWordSize)` of the constructor of `Decoder`,
for every `i`. -/
def decoderAssertion (dict : List Word) (maxWordSize : Nat) : Bool :=
  dict.all (fun w => decide (w.symbols.length ≤ maxWordSize))

/-- The loop of the constructor of `Decoder` over the words from index `i` on: the length goes
to the last byte `d[maxWordSize]` of the record, then the symbols are stored from the start of
the record on. -/
def fillDecoderTable (maxWordSize : Nat) : List Word → Nat → Mem → Mem
  | [], _, table => table
  | w :: ws, i, table =>
      fillDecoderTable maxWordSize ws (i + 1)
        (storeBytes
          (store table (i * (maxWordSize + 1) + maxWordSize) (w.symbols.length % 256))
          (i * (maxWordSize + 1)) w.symbols)

/-- Models the table the constructor of `Decoder` builds (assertions off):
`dict.size() * (maxWordSize + 1)` bytes, zero before the loop. -/
def decoderTable (dict : List Word) (maxWordSize : Nat) : Mem :=
  fillDecoderTable maxWordSize dict 0 (fun _ => 0)

/-- The choice of a valid max-heap: the position of the first queue element of largest `p`. -/
def pickMax (root : Node) (pq : List (List Nat)) : Nat :=
  (pq.enum.foldl
    (fun (best : Option (Nat × ℚ)) ip =>
      match best with
      | none => some (ip.1, ((nodeAt root ip.2).map Node.p).getD 0)
      | some b =>
          if b.2 < ((nodeAt root ip.2).map Node.p).getD 0 then
            some (ip.1, ((nodeAt root ip.2).map Node.p).getD 0)
          else some b)
    none).elim 0 Prod.fst

mutual
/-- Every node of the tree has `sz` equal to its depth, the root of the tree being at depth
`d`, and no node is deeper than `M`. -/
def Node.fits (M : Nat) : Node → Nat → Bool
  | Node.mk _ sz _ cs, d => decide (sz = d) && decide (d ≤ M) && fitsList M cs (d + 1)
/-- The same for a list of trees with their roots at depth `d`. -/
def fitsList (M : Nat) : List Node → Nat → Bool
  | [], _ => true
  | c :: cs, d => c.fits M d && fitsList M cs d
end

/-- The alphabet of three symbols with the probabilities 1/2, 3/10 and 1/5. -/
def threeSymbols : List SymbolAndProbability := [⟨0, 1 / 2⟩, ⟨1, 3 / 10⟩, ⟨2, 1 / 5⟩]

/-- The parameters `keySize = 2`, `overlap = 0`, `maxWordSize = 0` for `threeSymbols`, under
the default configuration. -/
def zeroWordSize : Parameters :=
  { alphabet := threeSymbols, keySize := 2, overlap := 0, maxWordSize := 0,
    enableVictim := true, purgeProbabilityThreshold := 1 / 100, iterations := 5,
    shuffle := id, pick := fun _ _ => pickMax, fuel := fun _ => 16 }

/-- The parameters `keySize = 3`, `overlap = 0`, `maxWordSize = 2` for `threeSymbols`, with
one iteration. -/
def twoWordSize : Parameters :=
  { alphabet := threeSymbols, keySize := 3, overlap := 0, maxWordSize := 2,
    enableVictim := true, purgeProbabilityThreshold := 1 / 100, iterations := 1,
    shuffle := id, pick := fun _ _ => pickMax, fuel := fun _ => 16 }

end Marlin2018Simple

/-- The residual the specification gives the pixel in row `r`, column `c` of the block with
top left pixel `(i, j)`, in an image with rows of `W` pixels: 0 for the seed, the difference
mod 256 to the left neighbour in the first row, to the north neighbour elsewhere. -/
def specResidual (img : Mem) (W i j r c : Nat) : Nat :=
  if r = 0 then
    if c = 0 then 0 else sub8 (img (i * W + j + c)) (img (i * W + j + c - 1))
  else sub8 (img ((i + r) * W + j + c)) (img ((i + r - 1) * W + j + c))

/-- The header of a 4 x 4 image in blocks of 2 x 2, one channel, `qstep = 1`. -/
def squareHeader : ImageMarlinHeader :=
  { rows := 4, cols := 4, channels := 1, blocksize := 2, qstep := 1, midpoint := true }

/-- A 4 x 4 image: pixel `a` is `37 a + 11` mod 256. -/
def squareImage : Mem := fun a => (a * 37 + 11) % 256

/-! ## Memory lemmas -/

theorem store_same (m : Mem) (a v : Nat) : store m a v a = v := by simp [store]

theorem store_other (m : Mem) (a v x : Nat) (h : x ≠ a) : store m a v x = m x := by
  simp [store, h]

theorem storeBytes_below (bs : List Nat) (m : Mem) (a x : Nat) (h : x < a) :
    storeBytes m a bs x = m x := by
  induction bs generalizing m a with
  | nil => rfl
  | cons b bs ih =>
    simp only [storeBytes]
    rw [ih _ _ (by omega), store_other _ _ _ _ (by omega)]

theorem storeBytes_above (bs : List Nat) (m : Mem) (a x : Nat) (h : a + bs.length ≤ x) :
    storeBytes m a bs x = m x := by
  induction bs generalizing m a with
  | nil => rfl
  | cons b bs ih =>
    simp only [storeBytes]
    simp only [List.length_cons] at h
    rw [ih _ _ (by omega), store_other _ _ _ _ (by omega)]

theorem storeBytes_at (bs : List Nat) (m : Mem) (a i : Nat) (h : i < bs.length) :
    storeBytes m a bs (a + i) = bs.getD i 0 := by
  induction bs generalizing m a i with
  | nil => simp at h
  | cons b bs ih =>
    simp only [storeBytes]
    cases i with
    | zero =>
      show storeBytes (store m a b) (a + 1) bs a = b
      rw [storeBytes_below _ _ _ _ (by omega), store_same]
    | succ i =>
      have h2 : i < bs.length := by simpa using h
      have := ih (store m a b) (a + 1) i h2
      rw [show a + (i + 1) = a + 1 + i by omega, this]
      simp

theorem leBytes_length (w v : Nat) : (leBytes w v).length = w := by
  induction w generalizing v with
  | zero => rfl
  | succ w ih => simp [leBytes, ih]

theorem leBytes_getD (w v i : Nat) (h : i < w) : (leBytes w v).getD i 0 = (v / 256 ^ i) % 256 := by
  induction w generalizing v i with
  | zero => omega
  | succ w ih =>
    cases i with
    | zero => simp [leBytes]
    | succ i =>
      simp only [leBytes, List.getD_cons_succ]
      rw [ih _ _ (by omega), Nat.div_div_eq_div_mul, pow_succ, Nat.mul_comm]

theorem storeLE_below (m : Mem) (a w v x : Nat) (h : x < a) : storeLE m a w v x = m x :=
  storeBytes_below _ _ _ _ h

theorem storeLE_above (m : Mem) (a w v x : Nat) (h : a + w ≤ x) : storeLE m a w v x = m x :=
  storeBytes_above _ _ _ _ (by rw [leBytes_length]; exact h)

theorem storeLE_at (m : Mem) (a w v i : Nat) (h : i < w) :
    storeLE m a w v (a + i) = (v / 256 ^ i) % 256 := by
  unfold storeLE
  rw [storeBytes_at _ _ _ _ (by rw [leBytes_length]; exact h), leBytes_getD _ _ _ h]

theorem readBytes_eq (m : Mem) (a : Nat) (l : List Nat)
    (h : ∀ i, i < l.length → m (a + i) = l.getD i 0) : readBytes m a l.length = l := by
  apply List.ext_getElem
  · simp [readBytes]
  · intro i h1 h2
    simp only [readBytes, List.getElem_map, List.getElem_range]
    rw [h i h2, List.getD_eq_getElem _ _ h2]

theorem readBytes_length (m : Mem) (a n : Nat) : (readBytes m a n).length = n := by
  simp [readBytes]

theorem readBytes_getD (m : Mem) (a n i : Nat) (h : i < n) : (readBytes m a n).getD i 0 = m (a + i) := by
  rw [List.getD_eq_getElem _ _ (by rw [readBytes_length]; exact h)]
  simp [readBytes]

/-! ## Frame lemmas: which cells each stage can touch -/

theorem padLoop_eq (src : List Nat) (padding : Nat) (mem : Mem) :
    padLoop src padding mem =
      (src.drop (src.length % 8), padding + src.length % 8,
        storeBytes mem padding (src.take (src.length % 8))) := by
  induction src generalizing padding mem with
  | nil => rfl
  | cons b bs ih =>
    by_cases h : (b :: bs).length % 8 ≠ 0
    · rw [padLoop, if_pos h, ih]
      simp only [List.length_cons] at h ⊢
      have e : (bs.length + 1) % 8 = bs.length % 8 + 1 := by omega
      rw [e]
      simp only [List.drop_succ_cons, List.take_succ_cons, storeBytes]
      congr 2
      omega
    · rw [padLoop, if_neg h]
      have e : (b :: bs).length % 8 = 0 := by omega
      rw [e]
      rfl

theorem compressMarlin8Loop_frame (p : TMarlin) (dstStart : Nat) (dstEnd : Int) (src : List Nat)
    (inPos out j : Nat) (mem : Mem) (rare : List Nat) (x : Nat) (h : x < out) :
    (compressMarlin8Loop p dstStart dstEnd src inPos out j mem rare).2.1 x = mem x := by
  induction src generalizing inPos out j mem rare with
  | nil => simp only [compressMarlin8Loop]; exact store_other _ _ _ _ (by omega)
  | cons ss rest ih =>
    simp only [compressMarlin8Loop]
    split_ifs
    · exact store_other _ _ _ _ (by omega)
    · rw [ih _ _ _ _ _ (by omega)]
      exact store_other _ _ _ _ (by omega)
    · exact store_other _ _ _ _ (by omega)
    · rw [ih _ _ _ _ _ (by omega)]
      exact store_other _ _ _ _ (by omega)

theorem drain_frame (thr : Int) (fuel value : Nat) (bits : Int) (out : Nat) (mem : Mem) :
    out ≤ (drain thr fuel value bits out mem).2.2.1 ∧
      ∀ x, x < out → (drain thr fuel value bits out mem).2.2.2 x = mem x := by
  induction fuel generalizing value bits out mem with
  | zero => exact ⟨le_refl _, fun _ _ => rfl⟩
  | succ fuel ih =>
    simp only [drain]
    split
    · obtain ⟨h1, h2⟩ := ih ((value <<< 8) % 2 ^ 32) (bits - 8) (out + 1) (store mem out (value >>> 24))
      refine ⟨by omega, fun x hx => ?_⟩
      rw [h2 x (by omega)]
      exact store_other _ _ _ _ (by omega)
    · exact ⟨le_refl _, fun _ _ => rfl⟩

/-- The fuel `valueBits` given to `drain` suffices: the loop stops because its condition
`valueBits > thr` has become false. -/
theorem drain_done (thr : Int) (hthr : 0 ≤ thr) (fuel value : Nat) (bits : Int) (out : Nat)
    (mem : Mem) (hf : bits.toNat ≤ fuel) :
    (drain thr fuel value bits out mem).2.1 ≤ thr := by
  induction fuel generalizing value bits out mem with
  | zero =>
    show bits ≤ thr
    omega
  | succ fuel ih =>
    simp only [drain]
    split
    · exact ih _ _ _ _ (by omega)
    · show bits ≤ thr
      omega

theorem compressMarlinFastLoop_frame (p : TMarlin) (dstStart : Nat) (dstEnd : Int) (src : List Nat)
    (inPos out j value : Nat) (bits : Int) (mem : Mem) (rare : List Nat) (x : Nat) (h : x < out) :
    (compressMarlinFastLoop p dstStart dstEnd src inPos out j value bits mem rare).2.1 x = mem x := by
  induction src generalizing inPos out j value bits mem rare with
  | nil =>
    simp only [compressMarlinFastLoop]
    exact (drain_frame _ _ _ _ _ _).2 x h
  | cons ss rest ih =>
    simp only [compressMarlinFastLoop]
    split
    · rfl
    · rw [ih]
      · exact (drain_frame _ _ _ _ _ _).2 x h
      · exact lt_of_lt_of_le h (drain_frame _ _ _ _ _ _).1

theorem marlinStage_frame (p : TMarlin) (src : List Nat) (past : Nat) (mem : Mem)
    (dstStart cap x : Nat) (h : x ≤ dstStart) :
    (marlinStage p src past mem dstStart cap).2.1 x = mem x := by
  unfold marlinStage
  split
  · exact compressMarlin8Loop_frame _ _ _ _ _ _ _ _ _ _ (by omega)
  · exact compressMarlinFastLoop_frame _ _ _ _ _ _ _ _ _ _ _ _ (by omega)

theorem writeRareEntry_frame (src : List Nat) (past : Nat) (mem : Mem) (pos s : Nat) :
    pos ≤ (writeRareEntry src past mem pos s).2 ∧
      ∀ x, x < pos → (writeRareEntry src past mem pos s).1 x = mem x := by
  unfold writeRareEntry
  split_ifs <;> refine ⟨by simp only []; omega, fun x hx => ?_⟩ <;>
    (simp only []; rw [store_other _ _ _ _ (by omega), storeLE_below _ _ _ _ _ hx])

theorem writeRare_frame (src : List Nat) (past : Nat) (rare : List Nat) (mem : Mem) (pos : Nat) :
    pos ≤ (writeRare src past rare mem pos).2 ∧
      ∀ x, x < pos → (writeRare src past rare mem pos).1 x = mem x := by
  induction rare generalizing mem pos with
  | nil => exact ⟨le_refl _, fun _ _ => rfl⟩
  | cons s ss ih =>
    simp only [writeRare]
    obtain ⟨h1, h2⟩ := writeRareEntry_frame src past mem pos s
    obtain ⟨h3, h4⟩ := ih (writeRareEntry src past mem pos s).1 (writeRareEntry src past mem pos s).2
    exact ⟨le_trans h1 h3, fun x hx => by rw [h4 x (by omega), h2 x hx]⟩

theorem shift8_frame (p : TMarlin) (n : Nat) (src : List Nat) (hn : src.length ≤ n) (mem : Mem)
    (o8 x : Nat) (h : x < o8) : (shift8 p src mem o8).1 x = mem x := by
  induction n generalizing src mem o8 with
  | zero =>
    have : src = [] := List.length_eq_zero.mp (by omega)
    subst this
    rfl
  | succ n ih =>
    match src with
    | b0 :: b1 :: b2 :: b3 :: b4 :: b5 :: b6 :: b7 :: rest =>
      simp only [shift8]
      rw [ih rest (by simp only [List.length_cons] at hn; omega) _ _ (by omega)]
      exact storeLE_below _ _ _ _ _ h
    | [] => rfl
    | [_] => rfl
    | [_, _] => rfl
    | [_, _, _] => rfl
    | [_, _, _, _] => rfl
    | [_, _, _, _, _] => rfl
    | [_, _, _, _, _, _] => rfl
    | [_, _, _, _, _, _, _] => rfl

set_option maxRecDepth 100000 in
/-- The table of the demonstration codec is the one `buildCompressorTable` computes. -/
theorem demoTable_built : buildCompressorTable demoBase = some demoTable := by
  decide

theorem getD_default_irrel (l : List Nat) (i a b : Nat) (h : i < l.length) :
    l.getD i a = l.getD i b := by
  rw [List.getD_eq_getElem _ _ h, List.getD_eq_getElem _ _ h]

theorem getD_take_lt (l : List Nat) (k i : Nat) (h : i < k) : (l.take k).getD i 0 = l.getD i 0 := by
  simp only [List.getD_eq_getElem?_getD, List.getElem?_take_of_lt h]

theorem getD_drop_add (l : List Nat) (k i : Nat) : (l.drop k).getD i 0 = l.getD (k + i) 0 := by
  simp only [List.getD_eq_getElem?_getD, List.getElem?_drop]

theorem shift8_below (p : TMarlin) (src : List Nat) (mem : Mem) (o8 x : Nat) (h : x < o8) :
    (shift8 p src mem o8).1 x = mem x :=
  shift8_frame p src.length src (le_refl _) mem o8 x h

/-- Cells below `padding` are not touched by the part of `compress` that follows the padding
loop, on either path. -/
theorem compressAligned_below (p : TMarlin) (src : List Nat) (past padding : Nat) (mem : Mem)
    (cap x : Nat) (h : x < padding) : (compressAligned p src past padding mem cap).2 x = mem x := by
  unfold compressAligned
  simp only []
  split
  · simp only []
    rw [storeBytes_below _ _ _ _ h, marlinStage_frame _ _ _ _ _ _ _ (by omega),
      store_other _ _ _ _ (by omega)]
  · simp only []
    have hw := writeRare_frame src past
      (marlinStage p src past (store mem padding 0) padding cap).2.2
      (store (marlinStage p src past (store mem padding 0) padding cap).2.1 padding
        ((marlinStage p src past (store mem padding 0) padding cap).2.2.length % 256))
      (padding + 1 + (marlinStage p src past (store mem padding 0) padding cap).1.toNat)
    rw [shift8_below _ _ _ _ _ (by omega), hw.2 x (by omega), store_other _ _ _ _ (by omega),
      marlinStage_frame _ _ _ _ _ _ _ (by omega), store_other _ _ _ _ (by omega)]

/-- Reduction of `compress` to `compressAligned` once the early exits are passed. -/
theorem compress_eq_aligned (p : TMarlin) (src : List Nat) (past : Nat) (dst : Mem) (cap : Nat)
    (hcap : src.length ≤ cap) (hnc : constantCount src ≠ src.length) :
    compress p src past dst cap =
      compressAligned p (src.drop (src.length % 8)) past (src.length % 8)
        (storeBytes dst 0 (src.take (src.length % 8))) cap := by
  have hlen : src.length ≠ 0 := by
    intro h
    have : src = [] := List.length_eq_zero.mp h
    subst this
    exact hnc rfl
  unfold compress
  rw [if_neg (by omega), if_neg hlen, if_neg hnc]
  simp only [padLoop_eq, Nat.zero_add]

/-- The leading `N mod 8` destination bytes after `compress` are the leading source bytes. -/
theorem compress_padding_bytes (p : TMarlin) (src : List Nat) (past : Nat) (dst : Mem) (cap : Nat)
    (hcap : src.length ≤ cap) (hnc : constantCount src ≠ src.length) (i : Nat)
    (hi : i < src.length % 8) : (compress p src past dst cap).2 i = src.getD i 0 := by
  rw [compress_eq_aligned p src past dst cap hcap hnc, compressAligned_below _ _ _ _ _ _ _ hi]
  have hl : i < (src.take (src.length % 8)).length := by
    rw [List.length_take]
    have := Nat.mod_le src.length 8
    omega
  have := storeBytes_at (src.take (src.length % 8)) dst 0 i hl
  rw [Nat.zero_add] at this
  rw [this, getD_take_lt _ _ _ hi]

/-! ## Content of the rare table and of the residual plane -/

theorem writeRareEntry_eq (src : List Nat) (past : Nat) (mem : Mem) (pos s : Nat) :
    writeRareEntry src past mem pos s =
      (store (storeLE mem pos (offsetWidth src.length) s) (pos + offsetWidth src.length)
        (src.getD s past), pos + offsetWidth src.length + 1) := by
  unfold writeRareEntry offsetWidth
  split_ifs <;> rfl

theorem writeRare_pos (src : List Nat) (past : Nat) (rare : List Nat) (mem : Mem) (pos : Nat) :
    (writeRare src past rare mem pos).2 = pos + rare.length * (offsetWidth src.length + 1) := by
  induction rare generalizing mem pos with
  | nil => simp [writeRare]
  | cons s ss ih =>
    simp only [writeRare, ih, writeRareEntry_eq, List.length_cons, Nat.succ_mul]
    omega

theorem writeRare_entry (src : List Nat) (past : Nat) (rare : List Nat) (mem : Mem) (pos k : Nat)
    (hk : k < rare.length) :
    (∀ t, t < offsetWidth src.length →
        (writeRare src past rare mem pos).1 (pos + k * (offsetWidth src.length + 1) + t)
          = (rare.getD k 0 / 256 ^ t) % 256) ∧
      (writeRare src past rare mem pos).1
          (pos + k * (offsetWidth src.length + 1) + offsetWidth src.length)
        = src.getD (rare.getD k 0) past := by
  induction rare generalizing mem pos k with
  | nil => simp at hk
  | cons s ss ih =>
    simp only [writeRare]
    cases k with
    | zero =>
      have hf := writeRare_frame src past ss (writeRareEntry src past mem pos s).1
        (writeRareEntry src past mem pos s).2
      rw [writeRareEntry_eq] at hf ⊢
      simp only [Nat.zero_mul, Nat.add_zero, List.getD_cons_zero] at hf ⊢
      constructor
      · intro t ht
        rw [hf.2 _ (by omega), store_other _ _ _ _ (by omega), storeLE_at _ _ _ _ _ ht]
      · rw [hf.2 _ (by omega), store_same]
    | succ k =>
      have hk2 : k < ss.length := by simpa using hk
      have := ih (writeRareEntry src past mem pos s).1 (writeRareEntry src past mem pos s).2 k hk2
      rw [writeRareEntry_eq] at this ⊢
      simp only [List.getD_cons_succ, Nat.succ_mul] at this ⊢
      obtain ⟨h1, h2⟩ := this
      constructor
      · intro t ht
        have := h1 t ht
        rw [show pos + offsetWidth src.length + 1 + k * (offsetWidth src.length + 1) + t
            = pos + (k * (offsetWidth src.length + 1) + (offsetWidth src.length + 1)) + t by omega]
          at this
        exact this
      · rw [show pos + offsetWidth src.length + 1 + k * (offsetWidth src.length + 1)
              + offsetWidth src.length
            = pos + (k * (offsetWidth src.length + 1) + (offsetWidth src.length + 1))
              + offsetWidth src.length by omega] at h2
        exact h2

theorem shift8_cons8 (p : TMarlin) (b0 b1 b2 b3 b4 b5 b6 b7 : Nat) (rest : List Nat) (mem : Mem)
    (o8 : Nat) :
    shift8 p (b0 :: b1 :: b2 :: b3 :: b4 :: b5 :: b6 :: b7 :: rest) mem o8 =
      shift8 p rest
        (storeLE mem o8 8 (pext_u64 (load64 [b0, b1, b2, b3, b4, b5, b6, b7]) (shiftMask p.shift)))
        (o8 + p.shift) := by
  simp only [shift8]

theorem shift8_short (p : TMarlin) (src : List Nat) (h : src.length < 8) (mem : Mem) (o8 : Nat) :
    shift8 p src mem o8 = (mem, o8) := by
  match src with
  | _ :: _ :: _ :: _ :: _ :: _ :: _ :: _ :: rest => simp only [List.length_cons] at h; omega
  | [] => rfl
  | [_] => rfl
  | [_, _] => rfl
  | [_, _, _] => rfl
  | [_, _, _, _] => rfl
  | [_, _, _, _, _] => rfl
  | [_, _, _, _, _, _] => rfl
  | [_, _, _, _, _, _, _] => rfl

/-- The bytes of the plane do not depend on where `shift8` writes nor on what was there. -/
theorem shift8_reloc (p : TMarlin) (hS : p.shift ≤ 8) (n : Nat) (src : List Nat)
    (hn : src.length ≤ n) (mem mem2 : Mem) (o8 o82 i : Nat) (hi : i < src.length / 8 * p.shift) :
    (shift8 p src mem o8).1 (o8 + i) = (shift8 p src mem2 o82).1 (o82 + i) := by
  induction n generalizing src mem mem2 o8 o82 i with
  | zero =>
    have : src = [] := List.length_eq_zero.mp (by omega)
    subst this
    simp at hi
  | succ n ih =>
    by_cases hlen : src.length < 8
    · have : src.length / 8 = 0 := Nat.div_eq_of_lt hlen
      rw [this] at hi
      simp at hi
    · match src, hlen with
      | b0 :: b1 :: b2 :: b3 :: b4 :: b5 :: b6 :: b7 :: rest, _ =>
        rw [shift8_cons8, shift8_cons8]
        have hlr : (b0 :: b1 :: b2 :: b3 :: b4 :: b5 :: b6 :: b7 :: rest).length
            = rest.length + 8 := by simp
        rw [hlr, Nat.add_div_right _ (by norm_num), Nat.succ_mul] at hi
        by_cases hlt : i < p.shift
        · rw [shift8_below _ _ _ _ _ (by omega), shift8_below _ _ _ _ _ (by omega),
            storeLE_at _ _ _ _ _ (by omega), storeLE_at _ _ _ _ _ (by omega)]
        · have h1 := ih rest (by rw [hlr] at hn; omega)
            (storeLE mem o8 8 (pext_u64 (load64 [b0, b1, b2, b3, b4, b5, b6, b7]) (shiftMask p.shift)))
            (storeLE mem2 o82 8 (pext_u64 (load64 [b0, b1, b2, b3, b4, b5, b6, b7]) (shiftMask p.shift)))
            (o8 + p.shift) (o82 + p.shift) (i - p.shift) (by omega)
          rw [show o8 + p.shift + (i - p.shift) = o8 + i by omega,
            show o82 + p.shift + (i - p.shift) = o82 + i by omega] at h1
          exact h1
      | [], h => simp at h
      | [_], h => simp at h
      | [_, _], h => simp at h
      | [_, _, _], h => simp at h
      | [_, _, _, _], h => simp at h
      | [_, _, _, _, _], h => simp at h
      | [_, _, _, _, _, _], h => simp at h
      | [_, _, _, _, _, _, _], h => simp at h

theorem readBytes_congr (m m2 : Mem) (a a2 n : Nat) (h : ∀ i, i < n → m (a + i) = m2 (a2 + i)) :
    readBytes m a n = readBytes m2 a2 n := by
  unfold readBytes
  apply List.map_congr_left
  intro i hi
  exact h i (List.mem_range.mp hi)

theorem marlinResult_eq (p : TMarlin) (src : List Nat) (past : Nat) (dst : Mem) (cap : Nat) :
    marlinResult p src past dst cap =
      marlinStage p (src.drop (src.length % 8)) past
        (store (storeBytes dst 0 (src.take (src.length % 8))) (src.length % 8) 0)
        (src.length % 8) cap := by
  unfold marlinResult
  simp only [padLoop_eq, Nat.zero_add]

theorem takesRawPath_eq (p : TMarlin) (src : List Nat) (past : Nat) (dst : Mem) (cap : Nat) :
    takesRawPath p src past dst cap =
      storeRaw p (src.drop (src.length % 8)) (marlinResult p src past dst cap).1
        (marlinResult p src past dst cap).2.2 := by
  unfold takesRawPath
  simp only [padLoop_eq]

/-- What the negated raw-storage test gives: a non-negative Marlin size, at most 255 rare
symbols, and a total of at most the size of the aligned remainder. -/
theorem storeRaw_false (p : TMarlin) (src : List Nat) (marlinSize : Int) (rare : List Nat)
    (h : storeRaw p src marlinSize rare = false) :
    0 ≤ marlinSize ∧ rare.length ≤ 255 ∧
      1 + marlinSize.toNat + rare.length * (1 + offsetWidth src.length) + src.length * p.shift / 8
        ≤ src.length := by
  unfold storeRaw at h
  simp only [Bool.or_eq_false_iff, decide_eq_false_iff_not, not_lt] at h
  obtain ⟨⟨h1, h2⟩, h3⟩ := h
  exact ⟨h1, by omega, by omega⟩

/-- The value of `compress` on the Marlin-coded branch. -/
theorem compress_coded_eq (p : TMarlin) (src : List Nat) (past : Nat) (dst : Mem) (cap : Nat)
    (hcap : src.length ≤ cap) (hnc : constantCount src ≠ src.length)
    (hcoded : takesRawPath p src past dst cap = false) :
    compress p src past dst cap =
      (((src.length % 8 + 1 + (marlinResult p src past dst cap).1.toNat
          + (marlinResult p src past dst cap).2.2.length
            * (1 + offsetWidth (src.drop (src.length % 8)).length)
          + (src.drop (src.length % 8)).length * p.shift / 8 : Nat) : Int),
        (shift8 p (src.drop (src.length % 8))
          (writeRare (src.drop (src.length % 8)) past (marlinResult p src past dst cap).2.2
            (store (marlinResult p src past dst cap).2.1 (src.length % 8)
              ((marlinResult p src past dst cap).2.2.length % 256))
            (src.length % 8 + 1 + (marlinResult p src past dst cap).1.toNat)).1
          (writeRare (src.drop (src.length % 8)) past (marlinResult p src past dst cap).2.2
            (store (marlinResult p src past dst cap).2.1 (src.length % 8)
              ((marlinResult p src past dst cap).2.2.length % 256))
            (src.length % 8 + 1 + (marlinResult p src past dst cap).1.toNat)).2).1) := by
  rw [takesRawPath_eq, marlinResult_eq] at hcoded
  rw [compress_eq_aligned p src past dst cap hcap hnc, marlinResult_eq]
  unfold compressAligned
  simp only []
  rw [if_neg (by rw [hcoded]; simp)]

theorem drop_mod8_length (src : List Nat) : (src.drop (src.length % 8)).length % 8 = 0 := by
  rw [List.length_drop]
  omega

/-- Entry `k` of the rare table of a Marlin-coded block: the little-endian offset, then the
byte `src.start[offset]`. -/
theorem compress_coded_rare_entry (p : TMarlin) (src : List Nat) (past : Nat) (dst : Mem)
    (cap : Nat) (hcap : src.length ≤ cap) (hnc : constantCount src ≠ src.length)
    (hcoded : takesRawPath p src past dst cap = false) (k : Nat)
    (hk : k < (marlinResult p src past dst cap).2.2.length) :
    readBytes (compress p src past dst cap).2
          (src.length % 8 + 1 + (marlinResult p src past dst cap).1.toNat
            + k * (offsetWidth (src.drop (src.length % 8)).length + 1))
          (offsetWidth (src.drop (src.length % 8)).length)
        = leBytes (offsetWidth (src.drop (src.length % 8)).length)
            ((marlinResult p src past dst cap).2.2.getD k 0) ∧
      (compress p src past dst cap).2
          (src.length % 8 + 1 + (marlinResult p src past dst cap).1.toNat
            + k * (offsetWidth (src.drop (src.length % 8)).length + 1)
            + offsetWidth (src.drop (src.length % 8)).length)
        = (src.drop (src.length % 8)).getD ((marlinResult p src past dst cap).2.2.getD k 0) past := by
  have hval := compress_coded_eq p src past dst cap hcap hnc hcoded
  have hpos := writeRare_pos (src.drop (src.length % 8)) past (marlinResult p src past dst cap).2.2
    (store (marlinResult p src past dst cap).2.1 (src.length % 8)
      ((marlinResult p src past dst cap).2.2.length % 256))
    (src.length % 8 + 1 + (marlinResult p src past dst cap).1.toNat)
  have hent := writeRare_entry (src.drop (src.length % 8)) past
    (marlinResult p src past dst cap).2.2
    (store (marlinResult p src past dst cap).2.1 (src.length % 8)
      ((marlinResult p src past dst cap).2.2.length % 256))
    (src.length % 8 + 1 + (marlinResult p src past dst cap).1.toNat) k hk
  have hmul : (k + 1) * (offsetWidth (src.drop (src.length % 8)).length + 1)
      ≤ (marlinResult p src past dst cap).2.2.length
        * (offsetWidth (src.drop (src.length % 8)).length + 1) :=
    Nat.mul_le_mul_right _ hk
  rw [Nat.succ_mul] at hmul
  constructor
  · have hl := leBytes_length (offsetWidth (src.drop (src.length % 8)).length)
      ((marlinResult p src past dst cap).2.2.getD k 0)
    have := readBytes_eq (compress p src past dst cap).2
      (src.length % 8 + 1 + (marlinResult p src past dst cap).1.toNat
        + k * (offsetWidth (src.drop (src.length % 8)).length + 1))
      (leBytes (offsetWidth (src.drop (src.length % 8)).length)
        ((marlinResult p src past dst cap).2.2.getD k 0))
      (fun t ht => by
        rw [hl] at ht
        rw [hval]
        simp only []
        rw [shift8_below _ _ _ _ _ (by omega), hent.1 t ht, leBytes_getD _ _ _ ht])
    rw [hl] at this
    exact this
  · rw [hval]
    simp only []
    rw [shift8_below _ _ _ _ _ (by omega), hent.2]

/-! ## The recorded rare list -/

theorem classify_snd (p : TMarlin) (ss inPos : Nat) (rare : List Nat) :
    (classify p ss inPos rare).2 = rare ++ rareFrom p [ss] inPos := by
  unfold classify rareFrom
  split <;> simp [rareFrom]

theorem rareFrom_cons (p : TMarlin) (x : Nat) (xs : List Nat) (i : Nat) :
    rareFrom p (x :: xs) i = rareFrom p [x] i ++ rareFrom p xs (i + 1) := by
  simp only [rareFrom]
  split <;> simp

theorem compressMarlin8Loop_rare (p : TMarlin) (dstStart : Nat) (dstEnd : Int) (src : List Nat)
    (inPos out j : Nat) (mem : Mem) (rare : List Nat) (ho : dstStart ≤ out)
    (h : (compressMarlin8Loop p dstStart dstEnd src inPos out j mem rare).1 ≠ -1) :
    (compressMarlin8Loop p dstStart dstEnd src inPos out j mem rare).2.2
      = rare ++ rareFrom p src inPos := by
  induction src generalizing inPos out j mem rare with
  | nil => simp [compressMarlin8Loop, rareFrom]
  | cons ss rest ih =>
    simp only [compressMarlin8Loop] at h ⊢
    split_ifs at h ⊢ with h1 h2 h2
    · exact absurd rfl h
    · rw [ih _ _ _ _ _ (by omega) h, classify_snd, rareFrom_cons p ss rest, List.append_assoc]
    · exact absurd rfl h
    · rw [ih _ _ _ _ _ (by omega) h, classify_snd, rareFrom_cons p ss rest, List.append_assoc]

theorem compressMarlinFastLoop_rare (p : TMarlin) (dstStart : Nat) (dstEnd : Int) (src : List Nat)
    (inPos out j value : Nat) (bits : Int) (mem : Mem) (rare : List Nat)
    (h : (compressMarlinFastLoop p dstStart dstEnd src inPos out j value bits mem rare).1 ≠ -1) :
    (compressMarlinFastLoop p dstStart dstEnd src inPos out j value bits mem rare).2.2
      = rare ++ rareFrom p src inPos := by
  induction src generalizing inPos out j value bits mem rare with
  | nil => simp [compressMarlinFastLoop, rareFrom]
  | cons ss rest ih =>
    simp only [compressMarlinFastLoop] at h ⊢
    split_ifs at h ⊢ with h1 h2
    · exact absurd rfl h
    · rw [ih _ _ _ _ _ _ _ h, classify_snd, rareFrom_cons p ss rest, List.append_assoc]
    · rw [ih _ _ _ _ _ _ _ h, classify_snd, rareFrom_cons p ss rest, List.append_assoc]

theorem compressMarlin8_rare (p : TMarlin) (b : List Nat) (past : Nat) (mem : Mem) (dstStart : Nat)
    (dstEnd : Int) (hb : b ≠ [])
    (h : (compressMarlin8 p b past mem dstStart dstEnd []).1 ≠ -1) :
    (compressMarlin8 p b past mem dstStart dstEnd []).2.2 = rareFrom p b 0 := by
  cases b with
  | nil => exact absurd rfl hb
  | cons b0 rest =>
    unfold compressMarlin8 at h ⊢
    simp only [List.headD_cons, List.tail_cons] at h ⊢
    rw [compressMarlin8Loop_rare _ _ _ _ _ _ _ _ _ (le_refl _) h, classify_snd,
      rareFrom_cons p b0 rest, List.nil_append]

theorem compressMarlinFast_rare (p : TMarlin) (b : List Nat) (past : Nat) (mem : Mem)
    (dstStart : Nat) (dstEnd : Int) (hb : b ≠ [])
    (h : (compressMarlinFast p b past mem dstStart dstEnd []).1 ≠ -1) :
    (compressMarlinFast p b past mem dstStart dstEnd []).2.2 = rareFrom p b 0 := by
  cases b with
  | nil => exact absurd rfl hb
  | cons b0 rest =>
    unfold compressMarlinFast at h ⊢
    simp only [List.headD_cons, List.tail_cons] at h ⊢
    rw [compressMarlinFastLoop_rare _ _ _ _ _ _ _ _ _ _ _ h, classify_snd,
      rareFrom_cons p b0 rest, List.nil_append]

theorem rareFrom_mem (p : TMarlin) (l : List Nat) (s i : Nat) :
    i ∈ rareFrom p l s ↔
      s ≤ i ∧ i < s + l.length ∧
        source2marlin p (l.getD (i - s) 0 >>> p.shift) = unrepresentedSymbolToken p := by
  induction l generalizing s with
  | nil =>
    simp only [rareFrom, List.not_mem_nil, List.length_nil, false_iff]
    intro h
    omega
  | cons x xs ih =>
    have hsucc : s < i → (x :: xs).getD (i - s) 0 = xs.getD (i - (s + 1)) 0 := by
      intro hlt
      rw [show i - s = (i - (s + 1)) + 1 by omega, List.getD_cons_succ]
    have hzero : (x :: xs).getD (s - s) 0 = x := by
      rw [Nat.sub_self]; rfl
    simp only [rareFrom]
    split
    · rename_i hx
      simp only [List.mem_cons, ih, List.length_cons]
      constructor
      · rintro (h | ⟨h1, h2, h3⟩)
        · subst h
          exact ⟨le_refl _, by omega, by rw [hzero]; exact hx⟩
        · exact ⟨by omega, by omega, by rw [hsucc (by omega)]; exact h3⟩
      · rintro ⟨h1, h2, h3⟩
        by_cases he : i = s
        · exact Or.inl he
        · exact Or.inr ⟨by omega, by omega, by rw [← hsucc (by omega)]; exact h3⟩
    · rename_i hx
      simp only [ih, List.length_cons]
      constructor
      · rintro ⟨h1, h2, h3⟩
        exact ⟨by omega, by omega, by rw [hsucc (by omega)]; exact h3⟩
      · rintro ⟨h1, h2, h3⟩
        by_cases he : i = s
        · subst he
          rw [hzero] at h3
          exact absurd h3 hx
        · exact ⟨by omega, by omega, by rw [← hsucc (by omega)]; exact h3⟩

theorem rareFrom_pairwise (p : TMarlin) (l : List Nat) (s : Nat) :
    (rareFrom p l s).Pairwise (· < ·) := by
  induction l generalizing s with
  | nil => simp [rareFrom]
  | cons x xs ih =>
    simp only [rareFrom]
    split
    · rw [List.pairwise_cons]
      refine ⟨fun a ha => ?_, ih (s + 1)⟩
      have := (rareFrom_mem p xs (s + 1) a).mp ha
      omega
    · exact ih (s + 1)

theorem marlinStage_rare (p : TMarlin) (src : List Nat) (past : Nat) (mem : Mem)
    (dstStart cap : Nat) (hb : src ≠ [])
    (h : (marlinStage p src past mem dstStart cap).1 ≠ -1) :
    (marlinStage p src past mem dstStart cap).2.2 = rareFrom p src 0 := by
  unfold marlinStage at h ⊢
  split at h
  · rename_i hK
    rw [if_pos hK]
    exact compressMarlin8_rare _ _ _ _ _ _ hb h
  · rename_i hK
    rw [if_neg hK]
    exact compressMarlinFast_rare _ _ _ _ _ _ hb h

/-! ## Claims on `TCompress::compress` -/

/-- C2: for an empty block and any destination buffer, `compress` returns 0 and leaves the
destination memory as it was. -/
theorem compress_empty (p : TMarlin) (past : Nat) (dst : Mem) (cap : Nat) :
    compress p [] past dst cap = (0, dst) := by
  simp [compress]

theorem constantCount_of_all_eq (v : Nat) (src : List Nat) (h : ∀ x ∈ src, x = v) :
    constantCount src = src.length := by
  unfold constantCount
  have hd : src.headD 0 = v ∨ src = [] := by
    cases src with
    | nil => exact Or.inr rfl
    | cons a as => exact Or.inl (h a (List.mem_cons_self _ _))
  rcases hd with hd | hd
  · rw [hd, List.takeWhile_eq_self_iff.mpr]
    intro x hx
    simp [h x hx]
  · subst hd; rfl

/-- C3: for a non-empty block all of whose bytes equal `v` and a destination of capacity at
least the block length, `compress` returns 1, the first destination byte is `v`, and no other
destination byte changes. -/
theorem compress_constant (p : TMarlin) (src : List Nat) (v past : Nat) (dst : Mem) (cap : Nat)
    (hne : src ≠ []) (hv : ∀ x ∈ src, x = v) (hcap : src.length ≤ cap) :
    (compress p src past dst cap).1 = 1 ∧ (compress p src past dst cap).2 0 = v ∧
      ∀ x, x ≠ 0 → (compress p src past dst cap).2 x = dst x := by
  have hlen : src.length ≠ 0 := fun h => hne (List.length_eq_zero.mp h)
  have hhead : src.headD 0 = v := by
    cases src with
    | nil => exact absurd rfl hne
    | cons a as => exact hv a (List.mem_cons_self _ _)
  have hc : compress p src past dst cap = (1, store dst 0 v) := by
    unfold compress
    rw [if_neg (by omega), if_neg hlen, if_pos (constantCount_of_all_eq v src hv), hhead]
  rw [hc]
  exact ⟨rfl, store_same dst 0 v, fun x hx => store_other dst 0 v x hx⟩

/-- Witness of C3 on a block of five bytes `7`. -/
theorem compress_constant_witness :
    (compress demoMarlin [7, 7, 7, 7, 7] 0 (fun _ => 0) 5).1 = 1 ∧
      (compress demoMarlin [7, 7, 7, 7, 7] 0 (fun _ => 0) 5).2 0 = 7 ∧
      ∀ x, x ≠ 0 → (compress demoMarlin [7, 7, 7, 7, 7] 0 (fun _ => 0) 5).2 x = (fun _ => 0) x :=
  compress_constant demoMarlin [7, 7, 7, 7, 7] 7 0 (fun _ => 0) 5 (by decide) (by decide) (by decide)

theorem compressAligned_ne_neg_one (p : TMarlin) (src : List Nat) (past padding : Nat) (mem : Mem)
    (cap : Nat) : (compressAligned p src past padding mem cap).1 ≠ -1 := by
  unfold compressAligned
  simp only []
  split <;> (simp only []; omega)

/-- C4: when the destination capacity is smaller than the block, `compress` returns -1 and
leaves the destination memory as it was; when the capacity is at least the block length the
result is never -1. -/
theorem compress_insufficient (p : TMarlin) (src : List Nat) (past : Nat) (dst : Mem) (cap : Nat) :
    (cap < src.length → compress p src past dst cap = (-1, dst)) ∧
      (src.length ≤ cap → (compress p src past dst cap).1 ≠ -1) := by
  constructor
  · intro h
    unfold compress
    rw [if_pos h]
  · intro h
    unfold compress
    rw [if_neg (by omega)]
    split
    · simp
    · split
      · simp
      · exact compressAligned_ne_neg_one _ _ _ _ _ _

/-- Witness of C4: a three-byte block into a two-byte destination, and the same block into a
three-byte destination. -/
theorem compress_insufficient_witness :
    compress demoMarlin [1, 2, 3] 0 (fun _ => 0) 2 = (-1, fun _ => 0) ∧
      (compress demoMarlin [1, 2, 3] 0 (fun _ => 0) 3).1 ≠ -1 :=
  ⟨(compress_insufficient demoMarlin [1, 2, 3] 0 (fun _ => 0) 2).1 (by decide),
   (compress_insufficient demoMarlin [1, 2, 3] 0 (fun _ => 0) 3).2 (by decide)⟩

/-- C5: when `compress` takes the raw-storage path for a non-constant block of `N` bytes with
destination capacity at least `N`, it returns `N` and the first `N` destination bytes are the
`N` source bytes, the leading `N mod 8` padding bytes included. -/
theorem compress_raw (p : TMarlin) (src : List Nat) (past : Nat) (dst : Mem) (cap : Nat)
    (hcap : src.length ≤ cap) (hnc : constantCount src ≠ src.length)
    (hraw : takesRawPath p src past dst cap = true) :
    (compress p src past dst cap).1 = src.length ∧
      readBytes (compress p src past dst cap).2 0 src.length = src := by
  have hk : src.length % 8 ≤ src.length := Nat.mod_le _ _
  have hraw2 : storeRaw p (src.drop (src.length % 8))
      (marlinStage p (src.drop (src.length % 8)) past
        (store (storeBytes dst 0 (src.take (src.length % 8))) (src.length % 8) 0)
        (src.length % 8) cap).1
      (marlinStage p (src.drop (src.length % 8)) past
        (store (storeBytes dst 0 (src.take (src.length % 8))) (src.length % 8) 0)
        (src.length % 8) cap).2.2 = true := by
    have := hraw
    unfold takesRawPath marlinResult at this
    simpa only [padLoop_eq, Nat.zero_add] using this
  have hval : compress p src past dst cap =
      (((src.length % 8 + (src.drop (src.length % 8)).length : Nat) : Int),
        storeBytes (marlinStage p (src.drop (src.length % 8)) past
          (store (storeBytes dst 0 (src.take (src.length % 8))) (src.length % 8) 0)
          (src.length % 8) cap).2.1 (src.length % 8) (src.drop (src.length % 8))) := by
    rw [compress_eq_aligned p src past dst cap hcap hnc]
    unfold compressAligned
    simp only []
    rw [if_pos hraw2]
  constructor
  · rw [hval]
    simp only [List.length_drop]
    congr 1
    omega
  · apply readBytes_eq
    intro i hi
    rw [Nat.zero_add]
    by_cases hlt : i < src.length % 8
    · exact compress_padding_bytes p src past dst cap hcap hnc i hlt
    · rw [hval]
      simp only []
      have hl : i - src.length % 8 < (src.drop (src.length % 8)).length := by
        rw [List.length_drop]; omega
      have := storeBytes_at (src.drop (src.length % 8))
        (marlinStage p (src.drop (src.length % 8)) past
          (store (storeBytes dst 0 (src.take (src.length % 8))) (src.length % 8) 0)
          (src.length % 8) cap).2.1 (src.length % 8) (i - src.length % 8) hl
      rw [show src.length % 8 + (i - src.length % 8) = i by omega] at this
      rw [this, getD_drop_add, show src.length % 8 + (i - src.length % 8) = i by omega]

/-- Witness of C5: a ten-byte block holding an unrepresented byte, stored raw. -/
theorem compress_raw_witness :
    (compress demoMarlin [1, 2, 0x13, 0x15, 0x1F, 0x10, 1, 2, 3, 0x94] 0 (fun _ => 0xAA) 30).1
        = ([1, 2, 0x13, 0x15, 0x1F, 0x10, 1, 2, 3, 0x94] : List Nat).length ∧
      readBytes (compress demoMarlin [1, 2, 0x13, 0x15, 0x1F, 0x10, 1, 2, 3, 0x94] 0 (fun _ => 0xAA) 30).2
        0 ([1, 2, 0x13, 0x15, 0x1F, 0x10, 1, 2, 3, 0x94] : List Nat).length
        = [1, 2, 0x13, 0x15, 0x1F, 0x10, 1, 2, 3, 0x94] :=
  compress_raw demoMarlin [1, 2, 0x13, 0x15, 0x1F, 0x10, 1, 2, 3, 0x94] 0 (fun _ => 0xAA) 30
    (by decide) (by decide) (by decide)

/-- C7: for a non-constant block of `N` bytes and destination capacity at least `N`, the first
`N mod 8` bytes of the stream `compress` produces are the first `N mod 8` bytes of the block,
whichever path is taken (for `N` not divisible by 8 these are the padding bytes). -/
theorem compress_padding_verbatim (p : TMarlin) (src : List Nat) (past : Nat) (dst : Mem)
    (cap : Nat) (hcap : src.length ≤ cap) (hnc : constantCount src ≠ src.length) :
    readBytes (compress p src past dst cap).2 0 (src.length % 8) = src.take (src.length % 8) := by
  have hk : src.length % 8 ≤ src.length := Nat.mod_le _ _
  have hl : (src.take (src.length % 8)).length = src.length % 8 := by
    rw [List.length_take]; omega
  have := readBytes_eq (compress p src past dst cap).2 0 (src.take (src.length % 8))
    (fun i hi => by
      rw [hl] at hi
      rw [Nat.zero_add, compress_padding_bytes p src past dst cap hcap hnc i hi,
        getD_take_lt _ _ _ hi])
  rw [hl] at this
  exact this

/-- Witness of C7: a ten-byte block that is Marlin-coded after two padding bytes. -/
theorem compress_padding_verbatim_witness :
    readBytes (compress demoMarlin [5, 6, 0x13, 0x15, 0x1F, 0x10, 1, 2, 3, 4] 0 (fun _ => 0) 40).2 0
        (([5, 6, 0x13, 0x15, 0x1F, 0x10, 1, 2, 3, 4] : List Nat).length % 8)
      = ([5, 6, 0x13, 0x15, 0x1F, 0x10, 1, 2, 3, 4] : List Nat).take
        (([5, 6, 0x13, 0x15, 0x1F, 0x10, 1, 2, 3, 4] : List Nat).length % 8) :=
  compress_padding_verbatim demoMarlin [5, 6, 0x13, 0x15, 0x1F, 0x10, 1, 2, 3, 4] 0 (fun _ => 0) 40
    (by decide) (by decide)

/-- C8: for a block that `compress` Marlin-codes, with `padding = N mod 8` and `N'` the length
of the aligned remainder: the byte at offset `padding` is the number `r` of recorded rare
symbols; the `marlinSize` bytes after it are the bytes the Marlin loop wrote; then come `r`
entries made of the little-endian offset (of the width chosen for `N'`) and the source byte at
that offset; then the residual plane of `N'*S/8` bytes; and the returned length is
`padding + 1 + marlinSize + r*(offsetWidth+1) + N'*S/8`. -/
theorem compress_coded_layout (p : TMarlin) (src : List Nat) (past : Nat) (dst : Mem) (cap : Nat)
    (hcap : src.length ≤ cap) (hnc : constantCount src ≠ src.length) (hS : p.shift ≤ 8)
    (hcoded : takesRawPath p src past dst cap = false) :
    0 ≤ (marlinResult p src past dst cap).1 ∧
    (compress p src past dst cap).2 (src.length % 8) = (marlinResult p src past dst cap).2.2.length ∧
    readBytes (compress p src past dst cap).2 (src.length % 8 + 1)
        (marlinResult p src past dst cap).1.toNat
      = readBytes (marlinResult p src past dst cap).2.1 (src.length % 8 + 1)
        (marlinResult p src past dst cap).1.toNat ∧
    (∀ k, k < (marlinResult p src past dst cap).2.2.length →
      readBytes (compress p src past dst cap).2
          (src.length % 8 + 1 + (marlinResult p src past dst cap).1.toNat
            + k * (offsetWidth (src.drop (src.length % 8)).length + 1))
          (offsetWidth (src.drop (src.length % 8)).length)
        = leBytes (offsetWidth (src.drop (src.length % 8)).length)
            ((marlinResult p src past dst cap).2.2.getD k 0) ∧
      (compress p src past dst cap).2
          (src.length % 8 + 1 + (marlinResult p src past dst cap).1.toNat
            + k * (offsetWidth (src.drop (src.length % 8)).length + 1)
            + offsetWidth (src.drop (src.length % 8)).length)
        = (src.drop (src.length % 8)).getD ((marlinResult p src past dst cap).2.2.getD k 0) past) ∧
    readBytes (compress p src past dst cap).2
        (src.length % 8 + 1 + (marlinResult p src past dst cap).1.toNat
          + (marlinResult p src past dst cap).2.2.length
            * (offsetWidth (src.drop (src.length % 8)).length + 1))
        ((src.drop (src.length % 8)).length * p.shift / 8)
      = residualPlane p (src.drop (src.length % 8)) ∧
    (compress p src past dst cap).1
      = ((src.length % 8 + 1 + (marlinResult p src past dst cap).1.toNat
          + (marlinResult p src past dst cap).2.2.length
            * (offsetWidth (src.drop (src.length % 8)).length + 1)
          + (src.drop (src.length % 8)).length * p.shift / 8 : Nat) : Int) := by
  have hraw := hcoded
  rw [takesRawPath_eq] at hraw
  obtain ⟨hm0, hr255, _⟩ := storeRaw_false _ _ _ _ hraw
  have hval := compress_coded_eq p src past dst cap hcap hnc hcoded
  have hpos := writeRare_pos (src.drop (src.length % 8)) past (marlinResult p src past dst cap).2.2
    (store (marlinResult p src past dst cap).2.1 (src.length % 8)
      ((marlinResult p src past dst cap).2.2.length % 256))
    (src.length % 8 + 1 + (marlinResult p src past dst cap).1.toNat)
  have hfr := writeRare_frame (src.drop (src.length % 8)) past (marlinResult p src past dst cap).2.2
    (store (marlinResult p src past dst cap).2.1 (src.length % 8)
      ((marlinResult p src past dst cap).2.2.length % 256))
    (src.length % 8 + 1 + (marlinResult p src past dst cap).1.toNat)
  refine ⟨hm0, ?_, ?_, ?_, ?_, ?_⟩
  · rw [hval]
    simp only []
    rw [shift8_below _ _ _ _ _ (by omega), hfr.2 _ (by omega), store_same]
    exact Nat.mod_eq_of_lt (by omega)
  · apply readBytes_congr
    intro i hi
    rw [hval]
    simp only []
    rw [shift8_below _ _ _ _ _ (by omega), hfr.2 _ (by omega), store_other _ _ _ _ (by omega)]
  · intro k hk
    exact compress_coded_rare_entry p src past dst cap hcap hnc hcoded k hk
  · unfold residualPlane
    apply readBytes_congr
    intro i hi
    have h8 := drop_mod8_length src
    have hq : (src.drop (src.length % 8)).length * p.shift / 8
        = (src.drop (src.length % 8)).length / 8 * p.shift := by
      obtain ⟨q, hq⟩ := Nat.dvd_of_mod_eq_zero h8
      rw [hq, Nat.mul_assoc, Nat.mul_div_cancel_left _ (by norm_num : 0 < 8),
        Nat.mul_div_cancel_left _ (by norm_num : 0 < 8)]
    rw [hq] at hi
    rw [hval]
    simp only []
    rw [← hpos]
    exact shift8_reloc p hS _ _ (le_refl _) _ _ _ _ i hi
  · rw [hval]
    simp only []
    congr 1
    rw [Nat.add_comm 1 (offsetWidth _)]

/-- Witness of C8: `demoBlock` (18 bytes, capacity 40) is Marlin-coded with one rare symbol. -/
theorem compress_coded_layout_witness :
    (compress demoMarlin demoBlock 0 zeroMem 40).2 (demoBlock.length % 8) = 1 ∧
      (compress demoMarlin demoBlock 0 zeroMem 40).1 = 17 ∧
      readBytes (compress demoMarlin demoBlock 0 zeroMem 40).2 0 17
        = [5, 6, 1, 0xFF, 0x12, 0x34, 0xF0, 3, 0x94, 0x53, 0x4F, 0x21, 0x43, 0x21, 0x43, 0x65, 0x87] := by
  have h := compress_coded_layout demoMarlin demoBlock 0 zeroMem 40
    (by decide) (by decide) (by decide) (by decide)
  exact ⟨h.2.1.trans (by decide), h.2.2.2.2.2.trans (by decide), by decide⟩

/-- C9: the offset field of every rare-table entry has the width the block size `N` selects
(1 if `N < 2^8`, 2 if `N < 2^16`, 4 if `N < 2^32`, 8 otherwise): the width computed for
`unrepresentedSize` from the 8-aligned remainder is `specOffsetWidth N`, and the entry writer
stores the offset little-endian in that many bytes and advances by that width plus one. -/
theorem rare_offset_width (blk : List Nat) (past : Nat) (dst mem : Mem) (pos s : Nat) :
    offsetWidth (padLoop blk 0 dst).1.length = specOffsetWidth blk.length ∧
      (writeRareEntry (padLoop blk 0 dst).1 past mem pos s).2
        = pos + specOffsetWidth blk.length + 1 ∧
      readBytes (writeRareEntry (padLoop blk 0 dst).1 past mem pos s).1 pos
          (specOffsetWidth blk.length)
        = leBytes (specOffsetWidth blk.length) s := by
  have hw : offsetWidth (padLoop blk 0 dst).1.length = specOffsetWidth blk.length := by
    rw [padLoop_eq]
    simp only [List.length_drop]
    unfold offsetWidth specOffsetWidth
    norm_num
    split_ifs <;> omega
  refine ⟨hw, ?_, ?_⟩
  · rw [writeRareEntry_eq, hw]
  · rw [writeRareEntry_eq, hw]
    have hl := leBytes_length (specOffsetWidth blk.length) s
    have := readBytes_eq
      (store (storeLE mem pos (specOffsetWidth blk.length) s) (pos + specOffsetWidth blk.length)
        ((padLoop blk 0 dst).1.getD s past)) pos (leBytes (specOffsetWidth blk.length) s)
      (fun t ht => by
        rw [hl] at ht
        rw [store_other _ _ _ _ (by omega), storeLE_at _ _ _ _ _ ht, leBytes_getD _ _ _ ht])
    rw [hl] at this
    exact this

/-- What the raw-storage test does guarantee: a Marlin-coded result is at most as long as the
block (the test is `>`, so equality is not excluded). -/
theorem compress_coded_le (p : TMarlin) (src : List Nat) (past : Nat) (dst : Mem) (cap : Nat)
    (hcap : src.length ≤ cap) (hnc : constantCount src ≠ src.length)
    (hcoded : takesRawPath p src past dst cap = false) :
    (compress p src past dst cap).1 ≤ (src.length : Int) := by
  have hraw := hcoded
  rw [takesRawPath_eq] at hraw
  obtain ⟨_, _, htot⟩ := storeRaw_false _ _ _ _ hraw
  rw [compress_coded_eq p src past dst cap hcap hnc hcoded]
  simp only []
  have hl : (src.drop (src.length % 8)).length = src.length - src.length % 8 := List.length_drop _ _
  have hk : src.length % 8 ≤ src.length := Nat.mod_le _ _
  exact_mod_cast (by omega : src.length % 8 + 1 + (marlinResult p src past dst cap).1.toNat
    + (marlinResult p src past dst cap).2.2.length
      * (1 + offsetWidth (src.drop (src.length % 8)).length)
    + (src.drop (src.length % 8)).length * p.shift / 8 ≤ src.length)

/-- C6 (the code at the failing input): `demoTightBlock` is a non-constant block of 8 bytes
whose encoded size `1 + 3 + 0 + 4` equals 8; `compress` does not store it raw but returns 8
with the Marlin-coded bytes, so a Marlin-coded result is not always shorter than the block. -/
theorem compress_coded_not_shorter :
    constantCount demoTightBlock ≠ demoTightBlock.length ∧
      takesRawPath demoMarlin demoTightBlock 0 zeroMem 32 = false ∧
      (compress demoMarlin demoTightBlock 0 zeroMem 32).1 = demoTightBlock.length ∧
      readBytes (compress demoMarlin demoTightBlock 0 zeroMem 32).2 0 8
        = [0, 0x11, 0x1B, 0xC0, 0, 0, 0, 0] := by
  decide

/-- C10 fails as stated: on `demoLateRareBlock` with the view `[1, 4)` that `compress` passes
for capacity 8, both Marlin loops abort with -1 after the first iteration, and position 7,
whose byte `0x94` is not in the kept alphabet, is missing from the recorded list. -/
theorem rare_list_partial_on_abort :
    (compressMarlin8 demoMarlin demoLateRareBlock 0 zeroMem 1 4 []).1 = -1 ∧
      7 ∉ (compressMarlin8 demoMarlin demoLateRareBlock 0 zeroMem 1 4 []).2.2 ∧
      (compressMarlinFast demoMarlin demoLateRareBlock 0 zeroMem 1 4 []).1 = -1 ∧
      7 ∉ (compressMarlinFast demoMarlin demoLateRareBlock 0 zeroMem 1 4 []).2.2 ∧
      7 < demoLateRareBlock.length ∧
      source2marlin demoMarlin (demoLateRareBlock.getD 7 0 >>> demoMarlin.shift)
        = unrepresentedSymbolToken demoMarlin := by
  decide

/-- C10 (amended): for a non-empty block on which `compressMarlin8` (or `compressMarlinFast`)
does not abort, the recorded rare list holds exactly the positions `i` with
`source2marlin[b[i] >> S] = A`, in strictly increasing order (so each once); and in a block
that `compress` Marlin-codes, every recorded offset lies in the aligned remainder, its byte is
such an unrepresented one, and the rare table stores that source byte for it. -/
theorem rare_list_exact (p : TMarlin) (b : List Nat) (past : Nat) (mem : Mem) (dstStart : Nat)
    (dstEnd : Int) (src : List Nat) (dst : Mem) (cap : Nat) :
    (b ≠ [] → (compressMarlin8 p b past mem dstStart dstEnd []).1 ≠ -1 →
      (∀ i, i ∈ (compressMarlin8 p b past mem dstStart dstEnd []).2.2 ↔
        i < b.length ∧ source2marlin p (b.getD i 0 >>> p.shift) = unrepresentedSymbolToken p) ∧
      ((compressMarlin8 p b past mem dstStart dstEnd []).2.2).Pairwise (· < ·)) ∧
    (b ≠ [] → (compressMarlinFast p b past mem dstStart dstEnd []).1 ≠ -1 →
      (∀ i, i ∈ (compressMarlinFast p b past mem dstStart dstEnd []).2.2 ↔
        i < b.length ∧ source2marlin p (b.getD i 0 >>> p.shift) = unrepresentedSymbolToken p) ∧
      ((compressMarlinFast p b past mem dstStart dstEnd []).2.2).Pairwise (· < ·)) ∧
    (src.length ≤ cap → constantCount src ≠ src.length →
      takesRawPath p src past dst cap = false →
      ∀ k, k < (marlinResult p src past dst cap).2.2.length →
        (marlinResult p src past dst cap).2.2.getD k 0 < (src.drop (src.length % 8)).length ∧
        source2marlin p
            ((src.drop (src.length % 8)).getD ((marlinResult p src past dst cap).2.2.getD k 0) 0
              >>> p.shift)
          = unrepresentedSymbolToken p ∧
        (compress p src past dst cap).2
            (src.length % 8 + 1 + (marlinResult p src past dst cap).1.toNat
              + k * (offsetWidth (src.drop (src.length % 8)).length + 1)
              + offsetWidth (src.drop (src.length % 8)).length)
          = (src.drop (src.length % 8)).getD ((marlinResult p src past dst cap).2.2.getD k 0) 0) := by
  have hmem : ∀ l : List Nat, ∀ i, i ∈ rareFrom p l 0 ↔
      i < l.length ∧ source2marlin p (l.getD i 0 >>> p.shift) = unrepresentedSymbolToken p := by
    intro l i
    rw [rareFrom_mem]
    simp only [Nat.zero_le, true_and, Nat.zero_add, Nat.sub_zero]
  refine ⟨fun hb h => ?_, fun hb h => ?_, fun hcap hnc hcoded k hk => ?_⟩
  · rw [compressMarlin8_rare p b past mem dstStart dstEnd hb h]
    exact ⟨hmem b, rareFrom_pairwise p b 0⟩
  · rw [compressMarlinFast_rare p b past mem dstStart dstEnd hb h]
    exact ⟨hmem b, rareFrom_pairwise p b 0⟩
  · have hraw := hcoded
    rw [takesRawPath_eq] at hraw
    obtain ⟨hm0, _, htot⟩ := storeRaw_false _ _ _ _ hraw
    have hne : src.drop (src.length % 8) ≠ [] := by
      intro he
      rw [he] at htot
      simp at htot
    have hrare : (marlinResult p src past dst cap).2.2 = rareFrom p (src.drop (src.length % 8)) 0 := by
      rw [marlinResult_eq] at hm0 ⊢
      exact marlinStage_rare _ _ _ _ _ _ hne (by omega)
    have hin : (marlinResult p src past dst cap).2.2.getD k 0 ∈ (marlinResult p src past dst cap).2.2 := by
      rw [List.getD_eq_getElem _ _ hk]
      exact List.getElem_mem _
    have hchar := hin
    rw [hrare] at hchar
    have hchar2 := (hmem _ _).mp hchar
    rw [← hrare] at hchar2
    refine ⟨hchar2.1, hchar2.2, ?_⟩
    rw [(compress_coded_rare_entry p src past dst cap hcap hnc hcoded k hk).2]
    exact getD_default_irrel _ _ _ _ hchar2.1

/-- Witness of C10 (amended): the aligned remainder of `demoBlock` in both loops, and
`demoBlock` in `compress`. -/
theorem rare_list_exact_witness :
    ((compressMarlin8 demoMarlin (demoBlock.drop 2) 0 zeroMem 3 32 []).2.2).Pairwise (· < ·) ∧
      ((compressMarlinFast demoMarlin (demoBlock.drop 2) 0 zeroMem 3 32 []).2.2).Pairwise (· < ·) ∧
      (compress demoMarlin demoBlock 0 zeroMem 40).2 8 = 0x94 := by
  have h := rare_list_exact demoMarlin (demoBlock.drop 2) 0 zeroMem 3 32 demoBlock zeroMem 40
  exact ⟨(h.1 (by decide) (by decide)).2, (h.2.1 (by decide) (by decide)).2,
    ((h.2.2 (by decide) (by decide) (by decide) 0 (by decide)).2.2).trans (by decide)⟩

/-! ## Claims on the `MarlinWiP` codec -/

theorem fastLookup_frame (d : WiPDictionary) (tBytes CO value s o8 : Nat) (mem : Mem) :
    o8 ≤ (fastLookup d tBytes CO value s o8 mem).1 ∧
      ∀ x, x < o8 → (fastLookup d tBytes CO value s o8 mem).2 x = mem x := by
  unfold fastLookup
  exact ⟨Nat.le_add_right _ _, fun x hx => storeBytes_below _ _ _ _ hx⟩

theorem fastStep_frame (d : WiPDictionary) (tBytes CO value o8 : Nat) (mem : Mem) :
    o8 ≤ (fastStep d tBytes CO value o8 mem).1 ∧
      ∀ x, x < o8 → (fastStep d tBytes CO value o8 mem).2 x = mem x := by
  unfold fastStep
  simp only []
  have ha := fastLookup_frame d tBytes CO value 24 o8 mem
  generalize fastLookup d tBytes CO value 24 o8 mem = A at ha ⊢
  have hb := fastLookup_frame d tBytes CO value 16 A.1 A.2
  generalize fastLookup d tBytes CO value 16 A.1 A.2 = B at hb ⊢
  have hc := fastLookup_frame d tBytes CO value 8 B.1 B.2
  generalize fastLookup d tBytes CO value 8 B.1 B.2 = C at hc ⊢
  have he := fastLookup_frame d tBytes CO value 0 C.1 C.2
  refine ⟨by omega, fun x hx => ?_⟩
  rw [he.2 x (by omega), hc.2 x (by omega), hb.2 x (by omega), ha.2 x hx]

/-- The first iteration of the unrolled loop leaves a zero in output byte 0 and moves the
cursor past it when its first record has a non-zero length. -/
theorem fastStep_first (d : WiPDictionary) (tBytes CO value : Nat) (mem : Mem) (ht : 1 ≤ tBytes)
    (hrec : 1 ≤ recordLength d tBytes ((value >>> 24) &&& ((1 <<< (8 + CO)) - 1))) :
    1 ≤ (fastStep d tBytes CO value 0 mem).1 ∧ (fastStep d tBytes CO value 0 mem).2 0 = 0 := by
  unfold fastStep
  simp only []
  have ha1 : 1 ≤ (fastLookup d tBytes CO value 24 0 mem).1 := by
    unfold fastLookup
    simp only [Nat.zero_add]
    exact hrec
  have ha0 : (fastLookup d tBytes CO value 24 0 mem).2 0 = 0 := by
    unfold fastLookup
    simp only []
    have := storeBytes_at (List.replicate tBytes 0) mem 0 0 (by simpa using ht)
    rw [Nat.add_zero] at this
    rw [this]
    cases tBytes with
    | zero => omega
    | succ t => rfl
  generalize fastLookup d tBytes CO value 24 0 mem = A at ha1 ha0 ⊢
  have hb := fastLookup_frame d tBytes CO value 16 A.1 A.2
  generalize fastLookup d tBytes CO value 16 A.1 A.2 = B at hb ⊢
  have hc := fastLookup_frame d tBytes CO value 8 B.1 B.2
  generalize fastLookup d tBytes CO value 8 B.1 B.2 = C at hc ⊢
  have he := fastLookup_frame d tBytes CO value 0 C.1 C.2
  refine ⟨by omega, ?_⟩
  rw [he.2 0 (by omega), hc.2 0 (by omega), hb.2 0 (by omega), ha0]

theorem decodeFast_frame (d : WiPDictionary) (tBytes CO : Nat) (input : List Nat) (endMarlin : Int)
    (fuel i8 o8 value : Nat) (mem : Mem) :
    o8 ≤ (decodeFast d tBytes CO input endMarlin fuel i8 o8 value mem).2.1 ∧
      ∀ x, x < o8 → (decodeFast d tBytes CO input endMarlin fuel i8 o8 value mem).2.2.2 x = mem x := by
  induction fuel generalizing i8 o8 value mem with
  | zero => exact ⟨le_refl _, fun _ _ => rfl⟩
  | succ fuel ih =>
    simp only [decodeFast]
    split
    · have hs := fastStep_frame d tBytes CO
        (((value <<< 32) + load64 [input.getD i8 0, input.getD (i8 + 1) 0, input.getD (i8 + 2) 0,
          input.getD (i8 + 3) 0]) % 2 ^ 64) o8 mem
      generalize fastStep d tBytes CO
        (((value <<< 32) + load64 [input.getD i8 0, input.getD (i8 + 1) 0, input.getD (i8 + 2) 0,
          input.getD (i8 + 3) 0]) % 2 ^ 64) o8 mem = S at hs ⊢
      have hr := ih (i8 + 4) S.1
        (((value <<< 32) + load64 [input.getD i8 0, input.getD (i8 + 1) 0, input.getD (i8 + 2) 0,
          input.getD (i8 + 3) 0]) % 2 ^ 64) S.2
      refine ⟨by omega, fun x hx => ?_⟩
      rw [hr.2 x (by omega), hs.2 x hx]
    · exact ⟨le_refl _, fun _ _ => rfl⟩

theorem decodeSlow_frame (d : WiPDictionary) (tBytes CO : Nat) (input : List Nat) (endMarlin : Int)
    (fuel i8 o8 value : Nat) (mem : Mem) :
    o8 ≤ (decodeSlow d tBytes CO input endMarlin fuel i8 o8 value mem).2.1 ∧
      ∀ x, x < o8 → (decodeSlow d tBytes CO input endMarlin fuel i8 o8 value mem).2.2.2 x = mem x := by
  induction fuel generalizing i8 o8 value mem with
  | zero => exact ⟨le_refl _, fun _ _ => rfl⟩
  | succ fuel ih =>
    simp only [decodeSlow]
    split_ifs
    · have hr := ih (i8 + 2) (o8 + 1) value (store mem o8 (input.getD (i8 + 1) 0))
      refine ⟨by omega, fun x hx => ?_⟩
      rw [hr.2 x (by omega), store_other _ _ _ _ (by omega)]
    · have hr := ih (i8 + 1)
        (o8 + recordLength d tBytes
          ((((value <<< 8) + input.getD i8 0) % 2 ^ 64) &&& ((1 <<< (8 + CO)) - 1)))
        (((value <<< 8) + input.getD i8 0) % 2 ^ 64)
        (storeBytes mem o8
          ((recordBytes d tBytes
              ((((value <<< 8) + input.getD i8 0) % 2 ^ 64) &&& ((1 <<< (8 + CO)) - 1))).take
            (min (tBytes - 1) (recordLength d tBytes
              ((((value <<< 8) + input.getD i8 0) % 2 ^ 64) &&& ((1 <<< (8 + CO)) - 1))))))
      refine ⟨le_trans (Nat.le_add_right _ _) hr.1, fun x hx => ?_⟩
      rw [hr.2 x (by omega), storeBytes_below _ _ _ _ hx]
    · exact ⟨le_refl _, fun _ _ => rfl⟩

/-- The fuel given to the unrolled loop suffices: it stops because `i8 < endMarlin-9` has become
false. -/
theorem decodeFast_done (d : WiPDictionary) (tBytes CO : Nat) (input : List Nat) (endMarlin : Int)
    (fuel i8 o8 value : Nat) (mem : Mem) (hf : endMarlin ≤ (i8 : Int) + (fuel : Int)) :
    ¬ (((decodeFast d tBytes CO input endMarlin fuel i8 o8 value mem).1 : Nat) : Int)
      < endMarlin - 9 := by
  induction fuel generalizing i8 o8 value mem with
  | zero =>
    simp only [decodeFast]
    push_cast at hf
    omega
  | succ fuel ih =>
    simp only [decodeFast]
    split
    · exact ih _ _ _ _ (by push_cast at hf ⊢; omega)
    · assumption

/-- The fuel given to the byte-wise loop suffices: it stops because `i8 < endMarlin` has become
false. -/
theorem decodeSlow_done (d : WiPDictionary) (tBytes CO : Nat) (input : List Nat) (endMarlin : Int)
    (fuel i8 o8 value : Nat) (mem : Mem) (hf : endMarlin ≤ (i8 : Int) + (fuel : Int)) :
    ¬ (((decodeSlow d tBytes CO input endMarlin fuel i8 o8 value mem).1 : Nat) : Int)
      < endMarlin := by
  induction fuel generalizing i8 o8 value mem with
  | zero =>
    simp only [decodeSlow]
    push_cast at hf
    omega
  | succ fuel ih =>
    simp only [decodeSlow]
    split_ifs
    · exact ih _ _ _ _ (by push_cast at hf ⊢; omega)
    · exact ih _ _ _ _ (by push_cast at hf ⊢; omega)
    · assumption

/-- Whatever the dictionary: when `decode8` takes the Marlin path on at least ten code bytes
with shift 0 and the first record looked up has a non-zero length, output byte 0 is 0. -/
theorem decode8_first_byte_zero (d : WiPDictionary) (tBytes CO : Nat) (input : List Nat) (n : Nat)
    (mem : Mem) (h1 : input.length ≠ n) (h2 : input.length ≠ 1) (hs : d.shift = 0)
    (hl : 10 ≤ input.length) (ht : 1 ≤ tBytes)
    (hrec : 1 ≤ recordLength d tBytes (firstKey CO input)) :
    decode8 d tBytes CO input n mem 0 = 0 := by
  unfold decode8
  rw [if_neg h1, if_neg h2]
  simp only [hs, ne_eq, not_true_eq_false, if_false, Nat.mul_zero, Nat.zero_div]
  obtain ⟨m, hm⟩ : ∃ m, input.length = m + 1 := ⟨input.length - 1, by omega⟩
  have hstep := fastStep_first d tBytes CO
    (((0 <<< 32) + load64 [input.getD 0 0, input.getD (0 + 1) 0, input.getD (0 + 2) 0,
      input.getD (0 + 3) 0]) % 2 ^ 64)
    (storeBytes mem 0 (List.replicate n (mostCommonSourceSymbol d))) ht hrec
  have hfast : 1 ≤ (decodeFast d tBytes CO input ((input.length : Int) - ((0 : Nat) : Int))
        input.length 0 0 0 (storeBytes mem 0 (List.replicate n (mostCommonSourceSymbol d)))).2.1 ∧
      (decodeFast d tBytes CO input ((input.length : Int) - ((0 : Nat) : Int))
        input.length 0 0 0 (storeBytes mem 0 (List.replicate n (mostCommonSourceSymbol d)))).2.2.2 0
        = 0 := by
    rw [hm]
    simp only [decodeFast]
    rw [if_pos (by push_cast; omega)]
    generalize fastStep d tBytes CO
      (((0 <<< 32) + load64 [input.getD 0 0, input.getD (0 + 1) 0, input.getD (0 + 2) 0,
        input.getD (0 + 3) 0]) % 2 ^ 64) 0
      (storeBytes mem 0 (List.replicate n (mostCommonSourceSymbol d))) = S at hstep ⊢
    have hr := decodeFast_frame d tBytes CO input (((m + 1 : Nat) : Int) - ((0 : Nat) : Int)) m (0 + 4)
      S.1 (((0 <<< 32) + load64 [input.getD 0 0, input.getD (0 + 1) 0, input.getD (0 + 2) 0,
        input.getD (0 + 3) 0]) % 2 ^ 64) S.2
    exact ⟨by omega, by rw [hr.2 0 (by omega)]; exact hstep.2⟩
  generalize decodeFast d tBytes CO input ((input.length : Int) - ((0 : Nat) : Int))
    input.length 0 0 0 (storeBytes mem 0 (List.replicate n (mostCommonSourceSymbol d))) = F
    at hfast ⊢
  have hslow := decodeSlow_frame d tBytes CO input ((input.length : Int) - ((0 : Nat) : Int))
    input.length F.1 F.2.1 F.2.2.1 F.2.2.2
  rw [hslow.2 0 (by omega)]
  exact hfast.2

theorem load64_leBytes (w v : Nat) : load64 (leBytes w v) = v % 256 ^ w := by
  induction w generalizing v with
  | zero => simp [leBytes, load64, Nat.mod_one]
  | succ w ih =>
    simp only [leBytes, load64, ih]
    rw [pow_succ', Nat.mod_mul]

/-- Whatever the dictionary (shift 0, supported `maxWordSize` and `O`): if the encoder output
for a block whose first byte is not 0 is a Marlin stream of at least ten bytes, and the record
selected by the first lookup of the unrolled decoder loop has a non-zero length, then
`decode` does not give the block back. -/
theorem wipDecode_ne_of_unrolled_loop (d : WiPDictionary) (b enc : List Nat)
    (he : wipEncode d b = some enc)
    (hdisp : (d.maxWordSize = 3 ∨ d.maxWordSize = 7) ∧ d.O ≤ 4) (hs : d.shift = 0)
    (hN : b.length < 2 ^ 32)
    (h1 : (enc.drop 4).length ≠ b.length) (h2 : (enc.drop 4).length ≠ 1)
    (hl : 10 ≤ (enc.drop 4).length)
    (hrec : 1 ≤ recordLength d (d.maxWordSize + 1) (firstKey d.O (enc.drop 4)))
    (hb : b.headD 0 ≠ 0) : wipDecode d enc ≠ some b := by
  have hne : b ≠ [] := by
    intro h
    subst h
    exact hb rfl
  have hpos : 0 < b.length := List.length_pos.mpr hne
  unfold wipEncode at he
  obtain ⟨r, _, hr⟩ := Option.map_eq_some'.mp he
  have htake : enc.take 4 = leBytes 4 b.length := by
    rw [← hr, List.take_left' (leBytes_length 4 b.length)]
  have hsize : load64 (enc.take 4) = b.length := by
    rw [htake, load64_leBytes]
    exact Nat.mod_eq_of_lt (by norm_num at hN ⊢; exact hN)
  have hzero : ∀ t, t = 4 ∨ t = 8 →
      decode8 d t d.O (enc.drop 4) b.length zeroMem 0 = 0 → d.maxWordSize + 1 = t →
      wipDecoder d (enc.drop 4) b.length zeroMem = some (decode8 d t d.O (enc.drop 4) b.length zeroMem) →
      wipDecode d enc ≠ some b := by
    intro t _ hz _ hdec hcontra
    unfold wipDecode at hcontra
    rw [hsize, hdec] at hcontra
    simp only [Option.map_some', Option.some.injEq] at hcontra
    have h0 : (readBytes (decode8 d t d.O (enc.drop 4) b.length zeroMem) 0 b.length).getD 0 0 = 0 := by
      rw [readBytes_getD _ _ _ _ hpos]
      exact hz
    rw [hcontra] at h0
    apply hb
    cases b with
    | nil => exact absurd rfl hne
    | cons x xs => exact h0
  rcases hdisp with ⟨h3 | h7, hO⟩
  · have hz := decode8_first_byte_zero d 4 d.O (enc.drop 4) b.length zeroMem h1 h2 hs hl
      (by norm_num) (by rw [h3] at hrec; exact hrec)
    refine hzero 4 (Or.inl rfl) hz (by rw [h3]) ?_
    unfold wipDecoder
    rw [if_pos ⟨h3, hO⟩]
  · have hz := decode8_first_byte_zero d 8 d.O (enc.drop 4) b.length zeroMem h1 h2 hs hl
      (by norm_num) (by rw [h7] at hrec; exact hrec)
    refine hzero 8 (Or.inr rfl) hz (by rw [h7]) ?_
    unfold wipDecoder
    rw [if_neg (by rintro ⟨h, _⟩; omega), if_pos ⟨h7, hO⟩]

set_option maxRecDepth 100000 in
/-- Instance of the general failure: `chainBlock` under `chainDict`. -/
theorem wipDecode_ne_of_unrolled_loop_witness :
    wipDecode chainDict [24, 0, 0, 0, 2, 6, 2, 6, 2, 6, 2, 6, 2, 5] ≠ some chainBlock :=
  wipDecode_ne_of_unrolled_loop chainDict chainBlock [24, 0, 0, 0, 2, 6, 2, 6, 2, 6, 2, 6, 2, 5]
    (by decide) (by decide) (by decide) (by decide) (by decide) (by decide) (by decide)
    (by decide) (by decide)

set_option maxRecDepth 100000 in
/-- C1 (the code at the failing input): with the dictionary `chainDict`, `encode` turns
`chainBlock` into the length header and ten code bytes, and `decode` of that stream returns
ten zero bytes followed by the correct tail, not `chainBlock`: the bytes produced by the
unrolled loop of `decode8` are all 0. -/
theorem wip_roundtrip_fails :
    wipEncode chainDict chainBlock = some [24, 0, 0, 0, 2, 6, 2, 6, 2, 6, 2, 6, 2, 5] ∧
      wipDecode chainDict [24, 0, 0, 0, 2, 6, 2, 6, 2, 6, 2, 6, 2, 5]
        = some [0, 0, 0, 0, 0, 0, 0, 0, 0, 0, 1, 0, 0, 0, 0, 1, 0, 0, 0, 0, 1, 0, 0, 0] ∧
      (wipEncode chainDict chainBlock).bind (wipDecode chainDict) ≠ some chainBlock := by
  decide

/-- C12: when the encoded input is as long as the expected output `N`, `decode8` returns `N`
and the output is the input verbatim; when the encoded input is one byte and `N ≠ 1`, it
returns `N` and the output is `N` copies of that byte. -/
theorem decode8_special_cases (d : WiPDictionary) (tBytes CO : Nat) (input : List Nat) (n : Nat)
    (mem : Mem) :
    (input.length = n →
      (decode8Result d tBytes CO input n mem).1 = n ∧
        readBytes (decode8Result d tBytes CO input n mem).2 0 n = input) ∧
    (input.length = 1 → n ≠ 1 →
      (decode8Result d tBytes CO input n mem).1 = n ∧
        readBytes (decode8Result d tBytes CO input n mem).2 0 n
          = List.replicate n (input.headD 0)) := by
  constructor
  · intro h
    refine ⟨rfl, ?_⟩
    unfold decode8Result decode8
    rw [if_pos h]
    simp only []
    subst h
    exact readBytes_eq _ 0 input (fun i hi => storeBytes_at input mem 0 i hi)
  · intro h1 hn
    refine ⟨rfl, ?_⟩
    unfold decode8Result decode8
    rw [if_neg (by omega), if_pos h1]
    simp only []
    have hl : (List.replicate n (input.headD 0)).length = n := List.length_replicate _ _
    have := readBytes_eq (storeBytes mem 0 (List.replicate n (input.headD 0))) 0
      (List.replicate n (input.headD 0))
      (fun i hi => storeBytes_at _ _ 0 i hi)
    rw [hl] at this
    exact this

/-- Witness of C12: a four-byte raw block, and a one-byte stream expanded to five bytes. -/
theorem decode8_special_cases_witness :
    ((decode8Result chainDict 4 0 [9, 8, 7, 6] 4 zeroMem).1 = 4 ∧
        readBytes (decode8Result chainDict 4 0 [9, 8, 7, 6] 4 zeroMem).2 0 4 = [9, 8, 7, 6]) ∧
      ((decode8Result chainDict 4 0 [7] 5 zeroMem).1 = 5 ∧
        readBytes (decode8Result chainDict 4 0 [7] 5 zeroMem).2 0 5
          = List.replicate 5 (([7] : List Nat).headD 0)) :=
  ⟨(decode8_special_cases chainDict 4 0 [9, 8, 7, 6] 4 zeroMem).1 (by decide),
   (decode8_special_cases chainDict 4 0 [7] 5 zeroMem).2 (by decide) (by decide)⟩

/-- The dispatch of `marlin2018Dispatch` as a function of the switch value `w`. -/
theorem marlin2018Dispatch_on (keySize maxWordSize w : Nat) (hw : (maxWordSize + 1) % 2 ^ 64 = w) :
    (marlin2018Dispatch keySize maxWordSize = none ↔ w ∉ [4, 8, 16, 32, 64, 128, 256, 512]) ∧
    ∀ r, marlin2018Dispatch keySize maxWordSize = some r → r.recordWidth = w := by
  unfold marlin2018Dispatch
  rw [hw]
  simp only [List.mem_cons, List.mem_singleton, List.not_mem_nil, or_false]
  by_cases h : w = 4 ∨ w = 8 ∨ w = 16 ∨ w = 32 ∨ w = 64 ∨ w = 128 ∨ w = 256 ∨ w = 512
  · refine ⟨?_, ?_⟩
    · rcases h with h | h | h | h | h | h | h | h <;> subst h <;>
        by_cases hk : keySize = 12 <;> simp [hk]
    · intro r
      rcases h with h | h | h | h | h | h | h | h <;> subst h <;>
        by_cases hk : keySize = 12 <;> simp [hk] <;> intro hr <;> subst hr <;> rfl
  · have h' := h
    simp only [not_or] at h'
    obtain ⟨h4, h8, h16, h32, h64, h128, h256, h512⟩ := h'
    simp [h4, h8, h16, h32, h64, h128, h256, h512]

/-- C19: `Marlin2018Simple::Decoder::operator()` throws "unsupported maxWordSize" exactly when
`maxWordSize + 1` is none of 4, 8, 16, 32, 64, 128, 256, 512, and every routine it dispatches
to has a record width of `maxWordSize + 1` bytes. -/
theorem marlin2018Dispatch_supported (keySize maxWordSize : Nat) (hw : maxWordSize < 2 ^ 64) :
    (marlin2018Dispatch keySize maxWordSize = none ↔
      maxWordSize + 1 ∉ [4, 8, 16, 32, 64, 128, 256, 512]) ∧
    ∀ r, marlin2018Dispatch keySize maxWordSize = some r → r.recordWidth = maxWordSize + 1 := by
  have h64 : (2 : Nat) ^ 64 = 18446744073709551616 := by norm_num
  by_cases h : maxWordSize + 1 = 2 ^ 64
  · have h0 : (maxWordSize + 1) % 2 ^ 64 = 0 := by rw [h]; exact Nat.mod_self _
    obtain ⟨h1, h2⟩ := marlin2018Dispatch_on keySize maxWordSize 0 h0
    have hnone : marlin2018Dispatch keySize maxWordSize = none := h1.mpr (by decide)
    refine ⟨⟨fun _ => ?_, fun _ => hnone⟩, fun r hr => ?_⟩
    · simp only [List.mem_cons, List.mem_singleton, List.not_mem_nil, or_false]
      rw [h64] at h
      omega
    · rw [hnone] at hr
      exact absurd hr (by simp)
  · exact marlin2018Dispatch_on keySize maxWordSize (maxWordSize + 1)
      (Nat.mod_eq_of_lt (by omega))

/-- Witness of C19: `maxWordSize = 15` with 8-bit keys selects `decodeA<uint64_t,2>`. -/
theorem marlin2018Dispatch_supported_witness :
    (marlin2018Dispatch 8 15 = none ↔ 15 + 1 ∉ [4, 8, 16, 32, 64, 128, 256, 512]) ∧
      ∀ r, marlin2018Dispatch 8 15 = some r → r.recordWidth = 15 + 1 :=
  marlin2018Dispatch_supported 8 15 (by norm_num)

/-! ## `buildCompressorTable`: which cells are defined -/

theorem foldl_preserve {α β : Type} (f : β → α → β) (R : β → Prop)
    (h : ∀ b x, R b → R (f b x)) (L : List α) (b : β) (hb : R b) : R (L.foldl f b) := by
  induction L generalizing b with
  | nil => exact hb
  | cons x xs ih => exact ih (f b x) (h b x hb)

theorem alphaStride_spec (n : Nat) : n ≤ 2 ^ alphaStride n := by
  unfold alphaStride
  cases h : (List.range (n + 1)).find? (fun s => decide (n ≤ 2 ^ s)) with
  | none =>
    have := List.find?_eq_none.mp h n (List.mem_range.mpr (Nat.lt_succ_self n))
    simp only [decide_eq_true_eq] at this
    exact absurd (le_of_lt (Nat.lt_two_pow n)) this
  | some s =>
    have := List.find?_some h
    simpa using this

theorem position_bound (p : TMarlin) (k : Nat) (w : List Nat) (i : Nat)
    (h : position p k w = some i) : k * 2 ^ p.K ≤ i ∧ i < (k + 1) * 2 ^ p.K := by
  unfold position at h
  have hm := List.mem_of_find?_eq_some h
  simp only [List.mem_reverse, List.mem_map, List.mem_range, Nat.one_shiftLeft] at hm
  obtain ⟨a, ha, rfl⟩ := hm
  rw [Nat.succ_mul]
  omega

theorem position_getD_lt (p : TMarlin) (k : Nat) (w : List Nat) (hk : k < 2 ^ p.O) :
    (position p k w).getD 0 < 2 ^ (p.K + p.O) := by
  have hpos : 0 < 2 ^ (p.K + p.O) := Nat.two_pow_pos _
  cases h : position p k w with
  | none => exact hpos
  | some i =>
    have hb := (position_bound p k w i h).2
    have : (k + 1) * 2 ^ p.K ≤ 2 ^ p.O * 2 ^ p.K := Nat.mul_le_mul_right _ hk
    rw [Nat.pow_add, Nat.mul_comm (2 ^ p.K)]
    exact lt_of_lt_of_le hb this

theorem cell_lt (p : TMarlin) (i j n : Nat) (hj : j + 1 ≤ 2 ^ n) :
    cell p i j < 2 ^ (p.K + p.O) * 2 ^ n := by
  unfold cell
  have h1 : i &&& ((1 <<< (p.K + p.O)) - 1) ≤ (1 <<< (p.K + p.O)) - 1 := Nat.and_le_right
  rw [Nat.one_shiftLeft] at h1 ⊢
  rw [Nat.shiftLeft_eq]
  have hpos : 0 < 2 ^ (p.K + p.O) := Nat.two_pow_pos _
  have h2 : (j + 1) * 2 ^ (p.K + p.O) ≤ 2 ^ n * 2 ^ (p.K + p.O) := Nat.mul_le_mul_right _ hj
  rw [Nat.succ_mul] at h2
  rw [Nat.mul_comm (2 ^ (p.K + p.O))]
  omega

theorem cell_mask (p : TMarlin) (i j : Nat) :
    cell p (i &&& ((1 <<< (p.K + p.O)) - 1)) j = cell p i j := by
  unfold cell
  rw [Nat.and_assoc, Nat.and_self]

theorem linkWord_length (p : TMarlin) (k : Nat) (w : List Nat) (wordIdx : Nat) (t t2 : List Nat)
    (h : linkWord p k w wordIdx t = some t2) : t2.length = t.length := by
  induction w generalizing wordIdx t with
  | nil => simp only [linkWord, Option.some.injEq] at h; rw [← h]
  | cons last rest ih =>
    cases rest with
    | nil => simp only [linkWord, Option.some.injEq] at h; rw [← h]
    | cons r rs =>
      simp only [linkWord] at h
      cases hp : position p k (r :: rs).reverse with
      | none => rw [hp] at h; simp at h
      | some parentIdx =>
        rw [hp] at h
        simp only at h
        rw [ih _ _ h, List.length_set]

theorem foldlM_link_length (p : TMarlin) (L : List (Nat × Nat)) (t t2 : List Nat)
    (h : L.foldlM (fun t ki => linkWord p ki.1 (p.words.getD ki.2 []).reverse ki.2 t) t = some t2) :
    t2.length = t.length := by
  induction L generalizing t with
  | nil => simp only [List.foldlM_nil, Option.pure_def, Option.some.injEq] at h; rw [← h]
  | cons a as ih =>
    simp only [List.foldlM_cons, Option.bind_eq_bind] at h
    cases hl : linkWord p a.1 (p.words.getD a.2 []).reverse a.2 t with
    | none => rw [hl] at h; simp at h
    | some t1 =>
      rw [hl] at h
      simp only [Option.some_bind] at h
      rw [ih _ h, linkWord_length _ _ _ _ _ _ hl]

theorem mem_allIndices (p : TMarlin) (n : Nat) (hn : n < 2 ^ (p.K + p.O)) :
    (n / 2 ^ p.K, n) ∈ allIndices p := by
  unfold allIndices
  simp only [List.mem_flatMap, List.mem_map, List.mem_range, Nat.one_shiftLeft, Prod.mk.injEq]
  have hpos : 0 < 2 ^ p.K := Nat.two_pow_pos _
  refine ⟨n / 2 ^ p.K, ?_, n % 2 ^ p.K, Nat.mod_lt _ hpos, rfl, ?_⟩
  · rw [Nat.div_lt_iff_lt_mul hpos, Nat.mul_comm, ← Nat.pow_add]
    exact hn
  · rw [Nat.mul_comm]
    exact Nat.div_add_mod n (2 ^ p.K)

theorem getD_set_self (t : List Nat) (c v : Nat) (hc : c < t.length) : (t.set c v).getD c 0 = v := by
  simp [List.getD_eq_getElem?_getD, List.getElem?_set, hc]

/-- The value the fallback writes is never the all-ones pattern when index and flag fit the
cell type with room to spare. -/
theorem fallback_value_ne (p : TMarlin) (i j : Nat) (hfit : p.K + p.O + 2 ≤ 8 * p.idxBytes) :
    ((position p (i % (1 <<< p.O)) [j]).getD 0 + FLAG_NEXT_WORD p) % 2 ^ (8 * p.idxBytes)
      ≠ 2 ^ (8 * p.idxBytes) - 1 := by
  have hk : i % (1 <<< p.O) < 2 ^ p.O := by
    rw [Nat.one_shiftLeft]; exact Nat.mod_lt _ (Nat.two_pow_pos _)
  have hpos := position_getD_lt p (i % (1 <<< p.O)) [j] hk
  obtain ⟨e, he⟩ : ∃ e, 8 * p.idxBytes = e + 2 := ⟨8 * p.idxBytes - 2, by omega⟩
  have hle : 2 ^ (p.K + p.O) ≤ 2 ^ e := Nat.pow_le_pow_right (by norm_num) (by omega)
  have hflag : FLAG_NEXT_WORD p = 2 * 2 ^ e := by
    unfold FLAG_NEXT_WORD
    rw [Nat.one_shiftLeft, he, show e + 2 - 1 = e + 1 by omega, pow_succ]
    omega
  have hw : 2 ^ (8 * p.idxBytes) = 4 * 2 ^ e := by
    rw [he, pow_succ, pow_succ]; omega
  have hx : 0 < 2 ^ e := Nat.two_pow_pos _
  rw [hflag, hw, Nat.mod_eq_of_lt (by omega)]
  omega

theorem initTable_length (p : TMarlin) :
    (initTable p).length = 2 ^ (p.K + p.O) * 2 ^ alphaStride (unrepresentedSymbolToken p + 1) := by
  unfold initTable
  rw [List.length_replicate, Nat.one_shiftLeft, Nat.one_shiftLeft]

theorem confAt_nil (key : String) : confAt [] key = none := rfl

theorem confAt_cons (e : String × ℚ) (es : Conf) (key : String) :
    confAt (e :: es) key = if e.1 = key then some e.2 else confAt es key := by
  unfold confAt
  rw [List.find?_cons]
  by_cases h : e.1 = key
  · have hb : (e.1 == key) = true := by simpa using h
    rw [hb, if_pos h]; rfl
  · have hb : (e.1 == key) = false := by simpa using h
    rw [hb, if_neg h]

theorem confCount_nil (key : String) : confCount [] key = false := rfl

theorem confCount_cons (e : String × ℚ) (es : Conf) (key : String) :
    confCount (e :: es) key = (decide (e.1 = key) || confCount es key) := by
  unfold confCount
  rw [List.any_cons]
  by_cases h : e.1 = key
  · have hb : (e.1 == key) = true := by simpa using h
    rw [hb]; simp [h]
  · have hb : (e.1 == key) = false := by simpa using h
    rw [hb]; simp [h]

theorem confCount_eq (conf : Conf) (key : String) :
    confCount conf key = (confAt conf key).isSome := by
  induction conf with
  | nil => rfl
  | cons e es ih =>
    rw [confCount_cons, confAt_cons, ih]
    by_cases h : e.1 = key
    · simp [h]
    · simp [h]

theorem confAt_append_single (conf : Conf) (key k : String) (v : ℚ) :
    confAt (conf ++ [(k, v)]) key =
      match confAt conf key with
      | some x => some x
      | none => if k = key then some v else none := by
  induction conf with
  | nil =>
    rw [List.nil_append, confAt_cons, confAt_nil]
  | cons e es ih =>
    rw [List.cons_append, confAt_cons, confAt_cons]
    by_cases h : e.1 = key
    · rw [if_pos h, if_pos h]
    · rw [if_neg h, if_neg h]; exact ih

theorem confAt_emplace_of_some (conf : Conf) (k key : String) (v x : ℚ)
    (h : confAt conf key = some x) : confAt (emplace conf k v) key = some x := by
  unfold emplace
  split
  · exact h
  · rw [confAt_append_single, h]

theorem confAt_emplace_self (conf : Conf) (k : String) (v : ℚ) (h : confAt conf k = none) :
    confAt (emplace conf k v) k = some v := by
  unfold emplace
  rw [confCount_eq, h]
  simp only [Option.isSome_none, Bool.false_eq_true, if_false]
  rw [confAt_append_single, h]
  simp

theorem confAt_emplace_ne (conf : Conf) (k key : String) (v : ℚ) (hne : k ≠ key) :
    confAt (emplace conf k v) key = confAt conf key := by
  unfold emplace
  split
  · rfl
  · rw [confAt_append_single]
    cases confAt conf key with
    | some x => rfl
    | none => simp [hne]

theorem confAt_map_assign (conf : Conf) (k key : String) (v : ℚ) :
    confAt (conf.map (fun e => if e.1 == k then (k, v) else e)) key =
      if k = key then (confAt conf key).map (fun _ => v) else confAt conf key := by
  induction conf with
  | nil =>
    rw [List.map_nil, confAt_nil]
    split <;> rfl
  | cons e es ih =>
    rw [List.map_cons, confAt_cons, confAt_cons, ih]
    by_cases he : e.1 = k
    · have hb : (e.1 == k) = true := by simpa using he
      simp only [hb, if_true]
      by_cases hk : k = key
      · have hek : e.1 = key := he.trans hk
        simp [hk, hek]
      · have hek : ¬ e.1 = key := fun h => hk (he ▸ h)
        simp [hk, hek]
    · have hb : (e.1 == k) = false := by simpa using he
      simp only [hb, Bool.false_eq_true, if_false]
      by_cases hk : k = key
      · have hek : ¬ e.1 = key := fun h => he (h.trans hk.symm)
        simp [hk, hek]
      · by_cases hek : e.1 = key
        · simp [hk, hek]
        · simp [hk, hek]

theorem confAt_assign_self (conf : Conf) (k : String) (v : ℚ) :
    confAt (assign conf k v) k = some v := by
  unfold assign
  split
  · next h =>
    rw [confCount_eq] at h
    rw [confAt_map_assign]
    simp only [if_true]
    cases hc : confAt conf k with
    | none => rw [hc] at h; simp at h
    | some x => rfl
  · next h =>
    rw [confCount_eq] at h
    rw [confAt_append_single]
    cases hc : confAt conf k with
    | none => simp
    | some x => rw [hc] at h; simp at h

theorem confAt_assign_ne (conf : Conf) (k key : String) (v : ℚ) (hne : k ≠ key) :
    confAt (assign conf k v) key = confAt conf key := by
  unfold assign
  split
  · rw [confAt_map_assign]; simp [hne]
  · rw [confAt_append_single]
    cases confAt conf key with
    | some x => rfl
    | none => simp [hne]

theorem sweepShift_at_ne (eff : Conf → ℚ) (L : List Nat) (conf : Conf) (best : ℚ)
    (key : String) (hne : "S" ≠ key) :
    confAt (sweepShift eff L conf best) key = confAt conf key := by
  induction L generalizing conf best with
  | nil => rfl
  | cons s rest ih =>
    simp only [sweepShift]
    split
    · rw [confAt_assign_ne _ _ _ _ hne, confAt_assign_ne _ _ _ _ hne]
    · rw [ih, confAt_assign_ne _ _ _ _ hne]

theorem chooseShift_keeps (eff : Conf → ℚ) (conf : Conf) (key : String) (x : ℚ)
    (h : confAt conf key = some x) : confAt (chooseShift eff conf) key = some x := by
  unfold chooseShift
  split
  · exact h
  · next hc =>
    have hne : "S" ≠ key := by
      intro he
      rw [confCount_eq, he, h] at hc
      simp at hc
    simp only []
    rw [sweepShift_at_ne _ _ _ _ _ hne, confAt_assign_ne _ _ _ _ hne]
    exact h

theorem chooseMaxWordSize_keeps (eff : Conf → ℚ) (conf : Conf) (key : String) (x : ℚ)
    (h : confAt conf key = some x) : confAt (chooseMaxWordSize eff conf) key = some x := by
  unfold chooseMaxWordSize
  split
  · exact h
  · next hc =>
    have hne : "maxWordSize" ≠ key := by
      intro he
      rw [confCount_eq, he, h] at hc
      simp at hc
    simp only []
    split <;> split <;> simp only [confAt_assign_ne _ _ _ _ hne] <;> exact h

theorem emplaceConstants_keeps (conf : Conf) (key : String) (x : ℚ)
    (h : confAt conf key = some x) : confAt (emplaceConstants conf) key = some x := by
  unfold emplaceConstants
  simp only []
  iterate 5 apply confAt_emplace_of_some
  exact h

theorem emplaceConstants_K (conf : Conf) (h : confAt conf "K" = none) :
    confAt (emplaceConstants conf) "K" = some 8 := by
  unfold emplaceConstants
  simp only []
  iterate 4 apply confAt_emplace_of_some
  exact confAt_emplace_self _ _ _ h

theorem emplaceConstants_O (conf : Conf) (h : confAt conf "O" = none) :
    confAt (emplaceConstants conf) "O" = some 2 := by
  unfold emplaceConstants
  simp only []
  iterate 3 apply confAt_emplace_of_some
  apply confAt_emplace_self
  rw [confAt_emplace_ne _ _ _ _ (by decide)]
  exact h

theorem emplaceConstants_iterations (conf : Conf) (h : confAt conf "iterations" = none) :
    confAt (emplaceConstants conf) "iterations" = some 3 := by
  unfold emplaceConstants
  simp only []
  apply confAt_emplace_self
  iterate 4 rw [confAt_emplace_ne _ _ _ _ (by decide)]
  exact h

theorem emplaceConstants_other (conf : Conf) (key : String) (h1 : "K" ≠ key) (h2 : "O" ≠ key)
    (h3 : "debug" ≠ key) (h4 : "purgeProbabilityThreshold" ≠ key) (h5 : "iterations" ≠ key) :
    confAt (emplaceConstants conf) key = confAt conf key := by
  unfold emplaceConstants
  simp only []
  rw [confAt_emplace_ne _ _ _ _ h5, confAt_emplace_ne _ _ _ _ h4, confAt_emplace_ne _ _ _ _ h3,
    confAt_emplace_ne _ _ _ _ h2, confAt_emplace_ne _ _ _ _ h1]

theorem emplaceConstants_has (conf : Conf) (key : String) (hkey : key = "K" ∨ key = "O") :
    ∃ y, confAt (emplaceConstants conf) key = some y := by
  cases h : confAt conf key with
  | some y => exact ⟨y, emplaceConstants_keeps conf key y h⟩
  | none =>
    rcases hkey with rfl | rfl
    · exact ⟨8, emplaceConstants_K conf h⟩
    · exact ⟨2, emplaceConstants_O conf h⟩

theorem emplaceDefaults_keeps (conf : Conf) (key : String) (x : ℚ)
    (h : confAt conf key = some x) : confAt (emplaceDefaults conf) key = some x := by
  unfold emplaceDefaults
  simp only []
  iterate 2 apply confAt_emplace_of_some
  exact emplaceConstants_keeps conf key x h

theorem emplaceDefaults_of_constants (conf : Conf) (key : String) (x : ℚ)
    (h : confAt (emplaceConstants conf) key = some x) :
    confAt (emplaceDefaults conf) key = some x := by
  unfold emplaceDefaults
  simp only []
  iterate 2 apply confAt_emplace_of_some
  exact h

theorem updateConf_keeps (eff : Conf → ℚ) (conf : Conf) (key : String) (x : ℚ)
    (h : confAt conf key = some x) : confAt (updateConf eff conf) key = some x :=
  chooseMaxWordSize_keeps eff _ key x
    (chooseShift_keeps eff _ key x (emplaceDefaults_keeps conf key x h))

theorem updateConf_of_defaults (eff : Conf → ℚ) (conf : Conf) (key : String) (x : ℚ)
    (h : confAt (emplaceDefaults conf) key = some x) :
    confAt (updateConf eff conf) key = some x :=
  chooseMaxWordSize_keeps eff _ key x (chooseShift_keeps eff _ key x h)

theorem toSizeT_natCast (n : Nat) (h : n < 2 ^ 64) : toSizeT (n : ℚ) = n := by
  unfold toSizeT
  have : Rat.floor (n : ℚ) = (n : Int) := by
    simp [Rat.floor]
  rw [this, Int.toNat_natCast, Nat.mod_eq_of_lt h]

theorem shl1U_eq (n : Nat) (h : n < 32) : shl1U n = 2 ^ n := by
  unfold shl1U
  rw [Nat.one_shiftLeft]
  exact Nat.mod_eq_of_lt (Nat.pow_lt_pow_right (by norm_num) h)


theorem pow_sub_one_wrap (k : Nat) (h : k < 32) :
    (2 ^ k + (2 ^ 32 - 1)) % 2 ^ 32 = 2 ^ k - 1 := by
  have h1 : 0 < 2 ^ k := Nat.two_pow_pos k
  have h2 : 2 ^ k < 2 ^ 32 := Nat.pow_lt_pow_right (by norm_num) h
  have h3 : (2 : Nat) ^ 32 = 4294967296 := by norm_num
  rw [h3] at h2 ⊢
  omega

theorem emplaceDefaults_min (conf : Conf) (o : Nat) (ho : o < 32)
    (hO : confAt (emplaceConstants conf) "O" = some (o : ℚ))
    (hmin : confAt conf "minMarlinSymbols" = none) :
    confAt (emplaceDefaults conf) "minMarlinSymbols" = some ((max (2 ^ o) 8 : Nat) : ℚ) := by
  unfold emplaceDefaults
  simp only []
  apply confAt_emplace_of_some
  have hnone : confAt (emplaceConstants conf) "minMarlinSymbols" = none := by
    rw [emplaceConstants_other conf _ (by decide) (by decide) (by decide) (by decide) (by decide)]
    exact hmin
  rw [confAt_emplace_self _ _ _ hnone, hO, Option.getD_some,
    toSizeT_natCast o (lt_trans ho (by norm_num)), shl1U_eq o ho]

theorem emplaceDefaults_max (conf : Conf) (k : Nat) (hk : k < 32)
    (hK : confAt (emplaceConstants conf) "K" = some (k : ℚ))
    (hmax : confAt conf "maxMarlinSymbols" = none) :
    confAt (emplaceDefaults conf) "maxMarlinSymbols" = some ((2 ^ k - 1 : Nat) : ℚ) := by
  unfold emplaceDefaults
  simp only []
  have hnone : confAt (emplace (emplaceConstants conf) "minMarlinSymbols"
      ((max (shl1U (toSizeT ((confAt (emplaceConstants conf) "O").getD 0))) 8 : Nat) : ℚ))
      "maxMarlinSymbols" = none := by
    rw [confAt_emplace_ne _ _ _ _ (by decide),
      emplaceConstants_other conf _ (by decide) (by decide) (by decide) (by decide) (by decide)]
    exact hmax
  rw [confAt_emplace_self _ _ _ hnone, confAt_emplace_ne _ _ _ _ (by decide), hK,
    Option.getD_some, toSizeT_natCast k (lt_trans hk (by norm_num)), shl1U_eq k hk,
    pow_sub_one_wrap k hk]

/-! ## C18: defaults of updateConf -/

/-- C18: `updateConf` keeps every key the caller supplied with the caller's value. A key the
caller omits is filled with `K = 8`, `O = 2`, `iterations = 3`, and, the effective `O` and `K`
being natural numbers below 32 (the range of the 32-bit shift `1U << n`), with
`minMarlinSymbols = max(2^O, 8)` and `maxMarlinSymbols = 2^K - 1`. -/
theorem updateConf_defaults (eff : Conf → ℚ) (conf : Conf) :
    (∀ key x, confAt conf key = some x → confAt (updateConf eff conf) key = some x) ∧
    (confAt conf "K" = none → confAt (updateConf eff conf) "K" = some 8) ∧
    (confAt conf "O" = none → confAt (updateConf eff conf) "O" = some 2) ∧
    (confAt conf "iterations" = none → confAt (updateConf eff conf) "iterations" = some 3) ∧
    (∀ o : Nat, o < 32 → confAt (updateConf eff conf) "O" = some (o : ℚ) →
      confAt conf "minMarlinSymbols" = none →
      confAt (updateConf eff conf) "minMarlinSymbols" = some ((max (2 ^ o) 8 : Nat) : ℚ)) ∧
    (∀ k : Nat, k < 32 → confAt (updateConf eff conf) "K" = some (k : ℚ) →
      confAt conf "maxMarlinSymbols" = none →
      confAt (updateConf eff conf) "maxMarlinSymbols" = some ((2 ^ k - 1 : Nat) : ℚ)) := by
  refine ⟨fun key x h => updateConf_keeps eff conf key x h, ?_, ?_, ?_, ?_, ?_⟩
  · intro h
    exact updateConf_of_defaults eff conf _ _
      (emplaceDefaults_of_constants conf _ _ (emplaceConstants_K conf h))
  · intro h
    exact updateConf_of_defaults eff conf _ _
      (emplaceDefaults_of_constants conf _ _ (emplaceConstants_O conf h))
  · intro h
    exact updateConf_of_defaults eff conf _ _
      (emplaceDefaults_of_constants conf _ _ (emplaceConstants_iterations conf h))
  · intro o ho hO hmin
    obtain ⟨y, hy⟩ := emplaceConstants_has conf "O" (Or.inr rfl)
    have hy2 := updateConf_of_defaults eff conf _ _ (emplaceDefaults_of_constants conf _ _ hy)
    rw [hO] at hy2
    rw [← Option.some.inj hy2] at hy
    exact updateConf_of_defaults eff conf _ _ (emplaceDefaults_min conf o ho hy hmin)
  · intro k hk hK hmax
    obtain ⟨y, hy⟩ := emplaceConstants_has conf "K" (Or.inl rfl)
    have hy2 := updateConf_of_defaults eff conf _ _ (emplaceDefaults_of_constants conf _ _ hy)
    rw [hK] at hy2
    rw [← Option.some.inj hy2] at hy
    exact updateConf_of_defaults eff conf _ _ (emplaceDefaults_max conf k hk hy hmax)

theorem updateConf_defaults_witness :
    confAt (updateConf (fun _ => 0) [("K", 4), ("S", 2)]) "K" = some 4 ∧
    confAt (updateConf (fun _ => 0) [("K", 4), ("S", 2)]) "S" = some 2 ∧
    confAt (updateConf (fun _ => 0) [("K", 4), ("S", 2)]) "O" = some 2 ∧
    confAt (updateConf (fun _ => 0) [("K", 4), ("S", 2)]) "iterations" = some 3 ∧
    confAt (updateConf (fun _ => 0) [("K", 4), ("S", 2)]) "minMarlinSymbols" = some 8 ∧
    confAt (updateConf (fun _ => 0) [("K", 4), ("S", 2)]) "maxMarlinSymbols" = some 15 :=
  have h := updateConf_defaults (fun _ => 0) [("K", 4), ("S", 2)]
  ⟨h.1 "K" 4 (by decide), h.1 "S" 2 (by decide), h.2.2.1 (by decide), h.2.2.2.1 (by decide),
   (h.2.2.2.2.1 2 (by decide) ((h.2.2.1 (by decide)).trans (by norm_num)) (by decide)).trans
     (by norm_num),
   (h.2.2.2.2.2 4 (by decide) ((h.1 "K" 4 (by decide)).trans (by norm_num)) (by decide)).trans
     (by norm_num)⟩


/-! ## Alphabet construction -/

theorem symbol_lt_false_iff (a b : SymbolAndProbability) :
    SymbolAndProbability.lt b a = false ↔
      (b.p < a.p ∨ (a.p = b.p ∧ a.sourceSymbol ≤ b.sourceSymbol)) := by
  unfold SymbolAndProbability.lt
  by_cases h : b.p = a.p
  · simp [h]
  · have h2 : ¬ a.p = b.p := fun e => h e.symm
    simp only [ne_eq, h, not_false_eq_true, if_true, gt_iff_lt, decide_eq_false_iff_not, not_lt,
      h2, false_and, or_false]
    constructor
    · intro hle; exact lt_of_le_of_ne hle h
    · intro hlt; exact le_of_lt hlt

theorem sortSymbols_sorted (l : List SymbolAndProbability) :
    List.Pairwise (fun a b => SymbolAndProbability.lt b a = false) (sortSymbols l) := by
  haveI : IsTotal SymbolAndProbability (fun a b => SymbolAndProbability.lt b a = false) :=
    ⟨fun a b => by
      rw [symbol_lt_false_iff, symbol_lt_false_iff]
      rcases lt_trichotomy a.p b.p with h | h | h
      · exact Or.inr (Or.inl h)
      · rcases le_total a.sourceSymbol b.sourceSymbol with hs | hs
        · exact Or.inl (Or.inr ⟨h, hs⟩)
        · exact Or.inr (Or.inr ⟨h.symm, hs⟩)
      · exact Or.inl (Or.inl h)⟩
  haveI : IsTrans SymbolAndProbability (fun a b => SymbolAndProbability.lt b a = false) :=
    ⟨fun a b c hab hbc => by
      rw [symbol_lt_false_iff] at hab hbc ⊢
      rcases hab with h1 | ⟨h1, s1⟩ <;> rcases hbc with h2 | ⟨h2, s2⟩
      · exact Or.inl (lt_trans h2 h1)
      · exact Or.inl (h2 ▸ h1)
      · exact Or.inl (h1 ▸ h2)
      · exact Or.inr ⟨h1.trans h2, le_trans s1 s2⟩⟩
  exact List.sorted_insertionSort _ l

theorem sortSymbols_perm (l : List SymbolAndProbability) : List.Perm (sortSymbols l) l :=
  List.perm_insertionSort _ l

theorem trimTail_spec (mn mx pg : ℚ) (l : List SymbolAndProbability) (rare : ℚ) :
    ∃ removed, l = removed ++ (trimTail mn mx pg l rare).1 ∧
      (trimTail mn mx pg l rare).2 = rare + (removed.map (fun s => s.p)).sum := by
  induction l generalizing rare with
  | nil => exact ⟨[], rfl, by simp [trimTail]⟩
  | cons s rest ih =>
    simp only [trimTail]
    split
    · obtain ⟨rem, h1, h2⟩ := ih (rare + s.p)
      refine ⟨s :: rem, ?_, ?_⟩
      · rw [List.cons_append, ← h1]
      · rw [h2, List.map_cons, List.sum_cons, add_assoc]
    · exact ⟨[], rfl, by simp⟩

theorem trimTail_length (mn mx : Nat) (pg : ℚ) (l : List SymbolAndProbability) (rare : ℚ) :
    (trimTail mn mx pg l rare).1.length ≤ l.length ∧
    (mn ≤ l.length → mn ≤ (trimTail mn mx pg l rare).1.length) ∧
    (l.length ≤ mn → (trimTail mn mx pg l rare).1 = l) ∧
    (mn ≤ mx → (trimTail mn mx pg l rare).1.length ≤ mx) := by
  induction l generalizing rare with
  | nil => simp [trimTail]
  | cons s rest ih =>
    simp only [trimTail]
    split
    · next hc =>
      obtain ⟨h1, h2, h3, h4⟩ := ih (rare + s.p)
      have hgt : mn < rest.length + 1 := by exact_mod_cast hc.1
      refine ⟨?_, ?_, ?_, h4⟩
      · rw [List.length_cons]; omega
      · intro _; exact h2 (by omega)
      · intro hle; rw [List.length_cons] at hle; omega
    · next hc =>
      refine ⟨le_refl _, fun h => h, fun _ => rfl, ?_⟩
      intro hmm
      rw [List.length_cons]
      by_contra hcon
      apply hc
      have hgt : mx < rest.length + 1 := by omega
      have hgt2 : mn < rest.length + 1 := by omega
      exact ⟨by exact_mod_cast hgt2, Or.inl (by exact_mod_cast hgt)⟩


theorem mkAlphabet_split (symbols : List (Nat × ℚ)) (shift : Nat) (mn mx pg : ℚ) :
    ∃ removed,
      (mkAlphabet symbols shift mn mx pg).marlinSymbols ++ removed
        = sortSymbols (groupedSymbols symbols shift) ∧
      (mkAlphabet symbols shift mn mx pg).rareSymbolProbability
        = (removed.map (fun s => s.p)).sum := by
  obtain ⟨rem, h1, h2⟩ := trimTail_spec mn mx pg
    (sortSymbols (groupedSymbols symbols shift)).reverse 0
  refine ⟨rem.reverse, ?_, ?_⟩
  · show (trimTail mn mx pg (sortSymbols (groupedSymbols symbols shift)).reverse 0).1.reverse
      ++ rem.reverse = _
    rw [← List.reverse_append, ← h1, List.reverse_reverse]
  · show (trimTail mn mx pg (sortSymbols (groupedSymbols symbols shift)).reverse 0).2 = _
    rw [h2, zero_add, List.map_reverse, List.sum_reverse]

/-! ## C16: the kept symbols are sorted -/

/-- C16: after the `Alphabet` constructor, `marlinSymbols` followed by the removed (rare)
entries is the grouped PMF sorted by descending probability, ties in ascending source symbol;
`rareSymbolProbability` is the sum over the removed entries, and Marlin symbol 0 (the first
kept entry) has the largest probability among all kept and all removed entries. -/
theorem alphabet_sorted (symbols : List (Nat × ℚ)) (shift : Nat) (mn mx pg : ℚ) :
    ∃ removed,
      List.Pairwise (fun a b => b.p < a.p ∨ (a.p = b.p ∧ a.sourceSymbol ≤ b.sourceSymbol))
        ((mkAlphabet symbols shift mn mx pg).marlinSymbols ++ removed) ∧
      List.Perm ((mkAlphabet symbols shift mn mx pg).marlinSymbols ++ removed)
        (groupedSymbols symbols shift) ∧
      (mkAlphabet symbols shift mn mx pg).rareSymbolProbability
        = (removed.map (fun s => s.p)).sum ∧
      ∀ s0, (mkAlphabet symbols shift mn mx pg).marlinSymbols.head? = some s0 →
        ∀ e, e ∈ (mkAlphabet symbols shift mn mx pg).marlinSymbols ++ removed → e.p ≤ s0.p := by
  obtain ⟨removed, h1, h2⟩ := mkAlphabet_split symbols shift mn mx pg
  have hs : List.Pairwise
      (fun a b => b.p < a.p ∨ (a.p = b.p ∧ a.sourceSymbol ≤ b.sourceSymbol))
      ((mkAlphabet symbols shift mn mx pg).marlinSymbols ++ removed) := by
    rw [h1]
    exact (sortSymbols_sorted _).imp (fun h => (symbol_lt_false_iff _ _).mp h)
  refine ⟨removed, hs, ?_, h2, ?_⟩
  · rw [h1]; exact sortSymbols_perm _
  · intro s0 h0 e he
    generalize (mkAlphabet symbols shift mn mx pg).marlinSymbols = kept at hs h0 he
    cases kept with
    | nil => simp at h0
    | cons k tl =>
      simp only [List.head?_cons, Option.some.injEq] at h0
      subst h0
      rw [List.cons_append] at hs he
      rcases List.mem_cons.mp he with rfl | hmem
      · exact le_refl _
      · rcases (List.pairwise_cons.mp hs).1 e hmem with h | ⟨h, _⟩
        · exact le_of_lt h
        · exact le_of_eq h.symm

theorem alphabet_sorted_witness :
    ∃ removed,
      List.Pairwise (fun a b => b.p < a.p ∨ (a.p = b.p ∧ a.sourceSymbol ≤ b.sourceSymbol))
        ((mkAlphabet [(0, 1 / 10), (1, 3 / 10), (2, 3 / 10), (3, 1 / 10), (16, 1 / 10),
          (17, 1 / 10)] 0 2 15 (1 / 100000)).marlinSymbols ++ removed) ∧
      (1 / 10 : ℚ) = (removed.map (fun s => s.p)).sum ∧
      ∀ e, e ∈ (mkAlphabet [(0, 1 / 10), (1, 3 / 10), (2, 3 / 10), (3, 1 / 10), (16, 1 / 10),
          (17, 1 / 10)] 0 2 15 (1 / 100000)).marlinSymbols ++ removed → e.p ≤ 3 / 10 :=
  (alphabet_sorted [(0, 1 / 10), (1, 3 / 10), (2, 3 / 10), (3, 1 / 10), (16, 1 / 10),
      (17, 1 / 10)] 0 2 15 (1 / 100000)).imp
    (fun _ h => ⟨h.1, (by decide! : (1 / 10 : ℚ) = _).trans h.2.2.1,
      h.2.2.2 ⟨1, 3 / 10⟩ (by decide!)⟩)

/-! ## C17: the number of kept symbols -/

/-- C17 (as stated) fails: for the two-symbol PMF `[0.99, 0.01]` and the default configuration
(`minMarlinSymbols = 8`) the alphabet keeps 2 symbols; for nine equiprobable symbols and
`K = 3` (`maxMarlinSymbols = 7`, `minMarlinSymbols = 8`) it keeps 8. -/
theorem alphabet_below_min :
    ((Alphabet.construct [(0, 99 / 100), (1, 1 / 100)] (updateConf (fun _ => 0) [])).map
        (fun a => a.marlinSymbols.length),
      confAt (updateConf (fun _ => 0) []) "minMarlinSymbols") = (some 2, some 8) ∧
    ((Alphabet.construct
          [(0, 1 / 9), (1, 1 / 9), (2, 1 / 9), (3, 1 / 9), (4, 1 / 9), (5, 1 / 9), (6, 1 / 9),
            (7, 1 / 9), (8, 1 / 9)]
          (updateConf (fun _ => 0) [("K", 3)])).map (fun a => a.marlinSymbols.length),
      confAt (updateConf (fun _ => 0) [("K", 3)]) "maxMarlinSymbols") = (some 8, some 7) := by
  decide!

/-- C17 (amended): with `G` the number of groups of the PMF and natural numbers
`minMarlinSymbols`, `maxMarlinSymbols`, the number `A` of kept symbols satisfies `A ≤ G`;
`minMarlinSymbols ≤ A` when `minMarlinSymbols ≤ G`, and `A = G` when `G ≤ minMarlinSymbols`;
`A ≤ maxMarlinSymbols` when `minMarlinSymbols ≤ maxMarlinSymbols`. -/
theorem alphabet_size_bounds (symbols : List (Nat × ℚ)) (shift mn mx : Nat) (pg : ℚ) :
    (mkAlphabet symbols shift mn mx pg).marlinSymbols.length
      ≤ (groupedSymbols symbols shift).length ∧
    (mn ≤ (groupedSymbols symbols shift).length →
      mn ≤ (mkAlphabet symbols shift mn mx pg).marlinSymbols.length) ∧
    ((groupedSymbols symbols shift).length ≤ mn →
      (mkAlphabet symbols shift mn mx pg).marlinSymbols.length
        = (groupedSymbols symbols shift).length) ∧
    (mn ≤ mx → (mkAlphabet symbols shift mn mx pg).marlinSymbols.length ≤ mx) := by
  have hlen : (sortSymbols (groupedSymbols symbols shift)).reverse.length
      = (groupedSymbols symbols shift).length := by
    rw [List.length_reverse]; exact (sortSymbols_perm _).length_eq
  obtain ⟨h1, h2, h3, h4⟩ := trimTail_length mn mx pg
    (sortSymbols (groupedSymbols symbols shift)).reverse 0
  rw [hlen] at h1 h2 h3
  have hk : (mkAlphabet symbols shift mn mx pg).marlinSymbols.length
      = (trimTail mn mx pg (sortSymbols (groupedSymbols symbols shift)).reverse 0).1.length := by
    show (List.reverse _).length = _
    rw [List.length_reverse]
  rw [hk]
  refine ⟨h1, h2, ?_, h4⟩
  intro hle
  rw [h3 hle, hlen]

theorem alphabet_size_bounds_witness :
    2 ≤ (groupedSymbols [(0, 1 / 10), (1, 3 / 10), (2, 3 / 10), (3, 1 / 10), (16, 1 / 10),
      (17, 1 / 10)] 0).length ∧
    2 ≤ (mkAlphabet [(0, 1 / 10), (1, 3 / 10), (2, 3 / 10), (3, 1 / 10), (16, 1 / 10),
      (17, 1 / 10)] 0 2 15 (1 / 100000)).marlinSymbols.length ∧
    (mkAlphabet [(0, 1 / 10), (1, 3 / 10), (2, 3 / 10), (3, 1 / 10), (16, 1 / 10),
      (17, 1 / 10)] 0 2 15 (1 / 100000)).marlinSymbols.length ≤ 15 ∧
    (mkAlphabet [(0, 1 / 10), (1, 3 / 10), (2, 3 / 10), (3, 1 / 10), (16, 1 / 10),
      (17, 1 / 10)] 0 8 15 (1 / 100000)).marlinSymbols.length = 6 :=
  ⟨by decide!,
   (alphabet_size_bounds [(0, 1 / 10), (1, 3 / 10), (2, 3 / 10), (3, 1 / 10), (16, 1 / 10),
      (17, 1 / 10)] 0 2 15 (1 / 100000)).2.1 (by decide!),
   (alphabet_size_bounds [(0, 1 / 10), (1, 3 / 10), (2, 3 / 10), (3, 1 / 10), (16, 1 / 10),
      (17, 1 / 10)] 0 2 15 (1 / 100000)).2.2.2 (by decide),
   ((alphabet_size_bounds [(0, 1 / 10), (1, 3 / 10), (2, 3 / 10), (3, 1 / 10), (16, 1 / 10),
      (17, 1 / 10)] 0 8 15 (1 / 100000)).2.2.1 (by decide!)).trans (by decide!)⟩


/-! ## The residual plane of shift8 -/

theorem maskRank_succ (mask n : Nat) :
    maskRank mask (n + 1) = maskRank mask n + (if mask.testBit n then 1 else 0) := by
  unfold maskRank
  rw [List.range_succ, List.filter_append, List.length_append]
  by_cases h : mask.testBit n = true
  · simp [h]
  · simp [h]

theorem testBit_bit_shiftLeft (b : Bool) (c k : Nat) :
    ((if b then 1 else 0 : Nat) <<< c).testBit k = (b && decide (k = c)) := by
  rw [Nat.testBit_shiftLeft]
  cases b with
  | false => simp
  | true =>
    by_cases hk : k = c
    · subst hk; simp
    · by_cases hge : k ≥ c
      · have hpos : k - c ≠ 0 := by omega
        obtain ⟨d, hd⟩ := Nat.exists_eq_succ_of_ne_zero hpos
        simp [hk, hge, hd, Nat.testBit_succ]
      · simp [hk, hge]

theorem pext_fold (v mask n : Nat) :
    ((List.range n).foldl
      (fun (acc : Nat × Nat) i =>
        if mask.testBit i then
          (acc.1 ||| ((if v.testBit i then 1 else 0) <<< acc.2), acc.2 + 1)
        else acc) (0, 0)).2 = maskRank mask n ∧
    ∀ k, ((List.range n).foldl
      (fun (acc : Nat × Nat) i =>
        if mask.testBit i then
          (acc.1 ||| ((if v.testBit i then 1 else 0) <<< acc.2), acc.2 + 1)
        else acc) (0, 0)).1.testBit k = true ↔
      ∃ m, m < n ∧ mask.testBit m = true ∧ maskRank mask m = k ∧ v.testBit m = true := by
  induction n with
  | zero =>
    refine ⟨rfl, fun k => ?_⟩
    simp
  | succ n ih =>
    rw [List.range_succ, List.foldl_append, List.foldl_cons, List.foldl_nil]
    generalize (List.range n).foldl
      (fun (acc : Nat × Nat) i =>
        if mask.testBit i then
          (acc.1 ||| ((if v.testBit i then 1 else 0) <<< acc.2), acc.2 + 1)
        else acc) (0, 0) = F at ih
    obtain ⟨ih1, ih2⟩ := ih
    rw [maskRank_succ]
    by_cases hm : mask.testBit n = true
    · rw [if_pos hm, if_pos hm]
      refine ⟨by show F.2 + 1 = _; rw [ih1], fun k => ?_⟩
      show (F.1 ||| ((if v.testBit n then 1 else 0) <<< F.2)).testBit k = true ↔ _
      rw [Nat.testBit_lor, testBit_bit_shiftLeft, Bool.or_eq_true, ih2 k, ih1]
      constructor
      · rintro (⟨m, h1, h2, h3, h4⟩ | h)
        · exact ⟨m, by omega, h2, h3, h4⟩
        · simp only [Bool.and_eq_true, decide_eq_true_eq] at h
          exact ⟨n, by omega, hm, h.2.symm, h.1⟩
      · rintro ⟨m, h1, h2, h3, h4⟩
        by_cases hmn : m = n
        · subst hmn
          right
          simp [h3, h4]
        · left
          exact ⟨m, by omega, h2, h3, h4⟩
    · rw [if_neg hm, if_neg hm]
      refine ⟨by rw [ih1]; rfl, fun k => ?_⟩
      rw [ih2 k]
      constructor
      · rintro ⟨m, h1, h2, h3, h4⟩
        exact ⟨m, by omega, h2, h3, h4⟩
      · rintro ⟨m, h1, h2, h3, h4⟩
        by_cases hmn : m = n
        · subst hmn; exact absurd h2 hm
        · exact ⟨m, by omega, h2, h3, h4⟩

theorem pext_testBit (v mask k : Nat) :
    (pext_u64 v mask).testBit k = true ↔
      ∃ m, m < 64 ∧ mask.testBit m = true ∧ maskRank mask m = k ∧ v.testBit m = true :=
  (pext_fold v mask 64).2 k


set_option maxRecDepth 100000 in
theorem shiftMask_bits : ∀ S, S < 8 → ∀ m, m < 64 →
    (shiftMask S).testBit m = decide (m % 8 < S) ∧
      maskRank (shiftMask S) m = (m / 8) * S + min (m % 8) S := by
  decide!

theorem pext_shiftMask_testBit (S : Nat) (hS : S < 8) (v k : Nat) (hk : k < 8 * S) :
    (pext_u64 v (shiftMask S)).testBit k = v.testBit (8 * (k / S) + k % S) := by
  have hSpos : 0 < S := by omega
  have hr : k % S < S := Nat.mod_lt _ hSpos
  have hq : k / S < 8 := (Nat.div_lt_iff_lt_mul hSpos).mpr hk
  have hdm : k / S * S + k % S = k := by
    rw [Nat.mul_comm]; exact Nat.div_add_mod k S
  rw [Bool.eq_iff_iff, pext_testBit]
  constructor
  · rintro ⟨m, h1, h2, h3, h4⟩
    obtain ⟨hb, hrank⟩ := shiftMask_bits S hS m h1
    rw [hb, decide_eq_true_eq] at h2
    rw [hrank, Nat.min_eq_left (le_of_lt h2)] at h3
    have e1 : k / S = m / 8 := by
      rw [← h3, Nat.add_comm, Nat.add_mul_div_right _ _ hSpos, Nat.div_eq_of_lt h2, Nat.zero_add]
    have e2 : k % S = m % 8 := by
      rw [← h3, Nat.add_comm, Nat.add_mul_mod_self_right, Nat.mod_eq_of_lt h2]
    rw [e1, e2, Nat.div_add_mod]
    exact h4
  · intro h
    have hm64 : 8 * (k / S) + k % S < 64 := by omega
    have hmd : (8 * (k / S) + k % S) / 8 = k / S := by omega
    have hmm : (8 * (k / S) + k % S) % 8 = k % S := by omega
    obtain ⟨hb, hrank⟩ := shiftMask_bits S hS _ hm64
    refine ⟨_, hm64, ?_, ?_, h⟩
    · rw [hb, hmm]; exact decide_eq_true hr
    · rw [hrank, hmd, hmm, Nat.min_eq_left (le_of_lt hr)]
      exact hdm

theorem load64_testBit (l : List Nat) (hl : ∀ x, x ∈ l → x < 256) (i j : Nat) (hj : j < 8) :
    (load64 l).testBit (8 * i + j) = (l.getD i 0).testBit j := by
  induction l generalizing i with
  | nil => simp [load64]
  | cons b bs ih =>
    have hb : b < 2 ^ 8 := hl b (List.mem_cons_self _ _)
    simp only [load64]
    rw [show b + 256 * load64 bs = 2 ^ 8 * load64 bs + b by norm_num; omega,
      Nat.testBit_mul_pow_two_add _ hb]
    cases i with
    | zero =>
      simp [hj]
    | succ i =>
      rw [if_neg (by omega), show 8 * (i + 1) + j - 8 = 8 * i + j by omega, List.getD_cons_succ]
      exact ih (fun x hx => hl x (List.mem_cons_of_mem _ hx)) i

theorem byte_testBit (v j i : Nat) (hi : i < 8) :
    ((v / 256 ^ j) % 256).testBit i = v.testBit (8 * j + i) := by
  rw [show (256 : Nat) = 2 ^ 8 by norm_num, ← pow_mul, Nat.testBit_mod_two_pow,
    ← Nat.shiftRight_eq_div_pow, Nat.testBit_shiftRight]
  simp [hi]


theorem shift8_snd (p : TMarlin) (n : Nat) (src : List Nat) (hn : src.length ≤ n) (mem : Mem)
    (o8 : Nat) : (shift8 p src mem o8).2 = o8 + src.length / 8 * p.shift := by
  induction n generalizing src mem o8 with
  | zero =>
    have : src = [] := List.length_eq_zero.mp (by omega)
    subst this
    simp [shift8]
  | succ n ih =>
    by_cases hlen : src.length < 8
    · rw [shift8_short p src hlen, Nat.div_eq_of_lt hlen]; simp
    · match src, hlen with
      | b0 :: b1 :: b2 :: b3 :: b4 :: b5 :: b6 :: b7 :: rest, _ =>
        have hlr : (b0 :: b1 :: b2 :: b3 :: b4 :: b5 :: b6 :: b7 :: rest).length
            = rest.length + 8 := by simp
        rw [shift8_cons8, ih rest (by rw [hlr] at hn; omega), hlr,
          Nat.add_div_right _ (by norm_num), Nat.succ_mul]
        omega
      | [], h => simp at h
      | [_], h => simp at h
      | [_, _], h => simp at h
      | [_, _, _], h => simp at h
      | [_, _, _, _], h => simp at h
      | [_, _, _, _, _], h => simp at h
      | [_, _, _, _, _, _], h => simp at h
      | [_, _, _, _, _, _, _], h => simp at h

/-- Byte `j < shift` of the group `g` of the plane is byte `j` of the `_pext_u64` of the
`g`-th group of eight source bytes: later groups do not overwrite it. -/
theorem shift8_group_byte (p : TMarlin) (hS : p.shift ≤ 8) (n : Nat) (src : List Nat)
    (hn : src.length ≤ n) (mem : Mem) (o8 g j : Nat) (hg : g < src.length / 8)
    (hj : j < p.shift) :
    (shift8 p src mem o8).1 (o8 + g * p.shift + j) =
      (pext_u64 (load64 ((src.drop (8 * g)).take 8)) (shiftMask p.shift) / 256 ^ j) % 256 := by
  induction n generalizing src mem o8 g with
  | zero =>
    have : src = [] := List.length_eq_zero.mp (by omega)
    subst this
    simp at hg
  | succ n ih =>
    by_cases hlen : src.length < 8
    · have : src.length / 8 = 0 := Nat.div_eq_of_lt hlen
      omega
    · match src, hlen with
      | b0 :: b1 :: b2 :: b3 :: b4 :: b5 :: b6 :: b7 :: rest, _ =>
        have hlr : (b0 :: b1 :: b2 :: b3 :: b4 :: b5 :: b6 :: b7 :: rest).length
            = rest.length + 8 := by simp
        rw [shift8_cons8]
        rw [hlr, Nat.add_div_right _ (by norm_num)] at hg
        cases g with
        | zero =>
          rw [shift8_below _ _ _ _ _ (by omega), Nat.zero_mul, Nat.add_zero,
            storeLE_at _ _ _ _ _ (by omega)]
          simp
        | succ g =>
          have h1 := ih rest (by rw [hlr] at hn; omega)
            (storeLE mem o8 8
              (pext_u64 (load64 [b0, b1, b2, b3, b4, b5, b6, b7]) (shiftMask p.shift)))
            (o8 + p.shift) g (by omega)
          rw [show o8 + p.shift + g * p.shift + j = o8 + (g + 1) * p.shift + j by
            rw [Nat.succ_mul]; omega] at h1
          rw [h1, show 8 * (g + 1) = 8 * g + 8 by omega]
          rfl
      | [], h => simp at h
      | [_], h => simp at h
      | [_, _], h => simp at h
      | [_, _, _], h => simp at h
      | [_, _, _, _], h => simp at h
      | [_, _, _, _, _], h => simp at h
      | [_, _, _, _, _, _], h => simp at h
      | [_, _, _, _, _, _, _], h => simp at h


/-! ## C11: the residual plane -/

/-- C11: for a block of `N` bytes, `N` a multiple of 8, and a shift `S ≤ 7`, `shift8` advances
the output cursor by `N * S / 8` bytes, and in the plane bit `k < 8 * S` (little-endian) of the
`S` bytes of group `g` is bit `k mod S` of source byte `k div S` of that group. -/
theorem shift8_plane (p : TMarlin) (hS : p.shift ≤ 7) (src : List Nat)
    (hN : src.length % 8 = 0) (hb : ∀ x, x ∈ src → x < 256) (mem : Mem) (o8 : Nat) :
    (shift8 p src mem o8).2 = o8 + src.length * p.shift / 8 ∧
    ∀ g k, g < src.length / 8 → k < 8 * p.shift →
      ((shift8 p src mem o8).1 (o8 + g * p.shift + k / 8)).testBit (k % 8)
        = (src.getD (8 * g + k / p.shift) 0).testBit (k % p.shift) := by
  constructor
  · rw [shift8_snd p src.length src (le_refl _)]
    obtain ⟨q, hq⟩ := Nat.dvd_of_mod_eq_zero hN
    rw [hq, Nat.mul_div_cancel_left _ (by norm_num : 0 < 8), Nat.mul_assoc,
      Nat.mul_div_cancel_left _ (by norm_num : 0 < 8)]
  · intro g k hg hk
    have hSpos : 0 < p.shift := by omega
    have hr : k % p.shift < p.shift := Nat.mod_lt _ hSpos
    have hq : k / p.shift < 8 := (Nat.div_lt_iff_lt_mul hSpos).mpr hk
    rw [shift8_group_byte p (by omega) src.length src (le_refl _) mem o8 g (k / 8) hg (by omega),
      byte_testBit _ _ _ (Nat.mod_lt _ (by norm_num)), Nat.div_add_mod,
      pext_shiftMask_testBit p.shift (by omega) _ k hk,
      load64_testBit _ (fun x hx => hb x (List.mem_of_mem_drop (List.mem_of_mem_take hx)))
        (k / p.shift) (k % p.shift) (by omega),
      getD_take_lt _ _ _ hq, getD_drop_add]


set_option maxRecDepth 100000 in
theorem shift8_plane_witness :
    (shift8 demoBase [0x13, 0x27, 0x3B, 0x4F, 0x51, 0x65, 0x79, 0x8D] zeroMem 5).2 = 9 ∧
    ((shift8 demoBase [0x13, 0x27, 0x3B, 0x4F, 0x51, 0x65, 0x79, 0x8D] zeroMem 5).1 6).testBit 6
      = (0x4F : Nat).testBit 2 ∧
    readBytes (shift8 demoBase [0x13, 0x27, 0x3B, 0x4F, 0x51, 0x65, 0x79, 0x8D] zeroMem 5).1 5 4
      = [0x73, 0xFB, 0x51, 0xD9] :=
  ⟨(shift8_plane demoBase (by decide) [0x13, 0x27, 0x3B, 0x4F, 0x51, 0x65, 0x79, 0x8D]
      (by decide) (by decide) zeroMem 5).1,
   (shift8_plane demoBase (by decide) [0x13, 0x27, 0x3B, 0x4F, 0x51, 0x65, 0x79, 0x8D]
      (by decide) (by decide) zeroMem 5).2 0 14 (by decide) (by decide),
   by decide⟩

/-! ## Trees of words -/

theorem totalList_eq_sum (cs : List Node) : totalList cs = (cs.map Node.total).sum := by
  induction cs with
  | nil => simp [totalList]
  | cons c cs ih => simp [totalList, ih]

theorem countList_eq_sum (cs : List Node) : countList cs = (cs.map Node.count).sum := by
  induction cs with
  | nil => simp [countList]
  | cons c cs ih => simp [countList, ih]

theorem scaleList_eq_map (f : ℚ) (cs : List Node) : scaleList f cs = cs.map (Node.scale f) := by
  induction cs with
  | nil => simp [scaleList]
  | cons c cs ih => simp [scaleList, ih]

theorem Node.total_eq (n : Node) : n.total = n.p + (n.children.map Node.total).sum := by
  cases n with
  | mk p sz cs => simp [Node.total, Node.p, Node.children, totalList_eq_sum]

theorem Node.count_eq (n : Node) : n.count = 1 + (n.children.map Node.count).sum := by
  cases n with
  | mk p sz cs => simp [Node.count, Node.children, countList_eq_sum]

theorem Node.eta (n : Node) : Node.mk n.p n.sz n.children = n := by
  cases n with
  | mk p sz cs => rfl

theorem Node.scale_p (f : ℚ) (n : Node) : (n.scale f).p = n.p * f := by
  cases n with
  | mk p sz cs => simp [Node.scale, Node.p]

theorem Node.scale_sz (f : ℚ) (n : Node) : (n.scale f).sz = n.sz := by
  cases n with
  | mk p sz cs => simp [Node.scale, Node.sz]

theorem Node.scale_children (f : ℚ) (n : Node) :
    (n.scale f).children = n.children.map (Node.scale f) := by
  cases n with
  | mk p sz cs => simp [Node.scale, Node.children, scaleList_eq_map]

mutual
theorem Node.total_scale (f : ℚ) : ∀ n : Node, (n.scale f).total = n.total * f
  | Node.mk p sz cs => by
    simp only [Node.scale, Node.total]
    rw [totalList_scale f cs, add_mul]
theorem totalList_scale (f : ℚ) : ∀ cs : List Node, totalList (scaleList f cs) = totalList cs * f
  | [] => by simp [scaleList, totalList]
  | c :: cs => by
    simp only [scaleList, totalList]
    rw [Node.total_scale f c, totalList_scale f cs, add_mul]
end

theorem sum_map_set (g : Node → ℚ) (cs : List Node) (i : Nat) (c c2 : Node)
    (h : cs.get? i = some c) :
    ((cs.set i c2).map g).sum = (cs.map g).sum - g c + g c2 := by
  induction cs generalizing i with
  | nil => simp at h
  | cons d ds ih =>
    cases i with
    | zero =>
      simp only [List.get?_cons_zero, Option.some.injEq] at h
      subst h
      simp only [List.set_cons_zero, List.map_cons, List.sum_cons]
      ring
    | succ i =>
      simp only [List.get?_cons_succ] at h
      simp only [List.set_cons_succ, List.map_cons, List.sum_cons, ih i h]
      ring

theorem sum_map_set_nat (g : Node → Nat) (cs : List Node) (i : Nat) (c c2 : Node)
    (h : cs.get? i = some c) :
    ((cs.set i c2).map g).sum + g c = (cs.map g).sum + g c2 := by
  induction cs generalizing i with
  | nil => simp at h
  | cons d ds ih =>
    cases i with
    | zero =>
      simp only [List.get?_cons_zero, Option.some.injEq] at h
      subst h
      simp only [List.set_cons_zero, List.map_cons, List.sum_cons]
      omega
    | succ i =>
      simp only [List.get?_cons_succ] at h
      have := ih i h
      simp only [List.set_cons_succ, List.map_cons, List.sum_cons]
      omega

theorem splitNode_total (pc : List ℚ) (n : Node) : (splitNode pc n).total = n.total := by
  rw [Node.total_eq, Node.total_eq n]
  simp only [splitNode, Node.p, Node.children, List.map_append, List.sum_append, List.map_cons,
    List.map_nil, List.sum_cons, List.sum_nil, Node.total, totalList]
  ring

theorem splitNode_count (pc : List ℚ) (n : Node) : (splitNode pc n).count = n.count + 1 := by
  rw [Node.count_eq, Node.count_eq n]
  simp only [splitNode, Node.children, List.map_append, List.sum_append, List.map_cons,
    List.map_nil, List.sum_cons, List.sum_nil, Node.count, countList]
  omega

theorem modifyAt_total (f : Node → Node) (hf : ∀ n, (f n).total = n.total) (root : Node)
    (path : List Nat) : (modifyAt f root path).total = root.total := by
  induction path generalizing root with
  | nil => exact hf root
  | cons i rest ih =>
    simp only [modifyAt]
    cases h : root.children.get? i with
    | none => rfl
    | some c =>
      simp only []
      rw [Node.total_eq, Node.total_eq root]
      show root.p + ((root.children.set i (modifyAt f c rest)).map Node.total).sum = _
      rw [sum_map_set Node.total _ _ c _ h, ih c]
      ring

theorem modifyAt_count (f : Node → Node) (hf : ∀ n, (f n).count = n.count + 1) (root : Node)
    (path : List Nat) (node : Node) (hv : nodeAt root path = some node) :
    (modifyAt f root path).count = root.count + 1 := by
  induction path generalizing root with
  | nil => exact hf root
  | cons i rest ih =>
    simp only [modifyAt]
    simp only [nodeAt] at hv
    cases h : root.children.get? i with
    | none => rw [h] at hv; simp at hv
    | some c =>
      rw [h] at hv
      simp only [] at hv ⊢
      rw [Node.count_eq, Node.count_eq root]
      show 1 + ((root.children.set i (modifyAt f c rest)).map Node.count).sum = _
      have h1 := sum_map_set_nat Node.count _ _ c (modifyAt f c rest) h
      rw [ih c hv] at h1
      omega


/-- Induction over the growing loop: a property of the loop state that a retirement and a
split preserve holds when the loop ends. -/
theorem growLoop_induct (a : Alphabet) (K maxWordSize : Nat)
    (pick : Nat → Node → List (List Nat) → Nat) (P : TreeState → Prop)
    (hret : ∀ (st : TreeState) (i : Nat), P st → i < st.pq.length →
      P { root := st.root, pq := st.pq.eraseIdx i, retiredNodes := st.retiredNodes + 1 })
    (hsplit : ∀ (st : TreeState) (i : Nat) (node : Node), P st → i < st.pq.length →
      st.pq.length + st.retiredNodes < shl1U K →
      nodeAt st.root (st.pq.getD i []) = some node →
      ¬ (node.sz ≥ maxWordSize ∧ node.children.isEmpty = false) → node.sz ≠ 255 →
      node.children.length ≠ a.marlinSymbols.length →
      P { root := modifyAt (splitNode (Pchild a)) st.root (st.pq.getD i [])
          pq := st.pq.eraseIdx i ++ [st.pq.getD i [] ++ [node.children.length], st.pq.getD i []]
          retiredNodes := st.retiredNodes })
    (fuel : Nat) (st : TreeState) (h : P st) :
    P (growLoop a K maxWordSize pick fuel st) := by
  induction fuel generalizing st with
  | zero => exact h
  | succ fuel ih =>
    simp only [growLoop]
    split
    · next hc =>
      have hlen : 0 < st.pq.length := List.length_pos.mpr hc.1
      have hi : pick fuel st.root st.pq % st.pq.length < st.pq.length := Nat.mod_lt _ hlen
      split
      · exact ih _ (hret st _ h hi)
      · next node hn =>
        split
        · exact ih _ (hret st _ h hi)
        · next h1 =>
          split
          · exact ih _ (hret st _ h hi)
          · next h2 =>
            split
            · exact ih _ (hret st _ h hi)
            · next h3 =>
              exact ih _ (hsplit st _ node h hi hc.2 hn h1 h2 h3)
    · exact h

theorem growLoop_total (a : Alphabet) (K maxWordSize : Nat)
    (pick : Nat → Node → List (List Nat) → Nat) (fuel : Nat) (st : TreeState) :
    (growLoop a K maxWordSize pick fuel st).root.total = st.root.total :=
  growLoop_induct a K maxWordSize pick (fun s => s.root.total = st.root.total)
    (fun _ _ h _ => h)
    (fun s i _ h _ _ _ _ _ _ => by
      show (modifyAt (splitNode (Pchild a)) s.root (s.pq.getD i [])).total = _
      rw [modifyAt_total _ (splitNode_total _)]
      exact h)
    fuel st rfl

theorem foldl_sub_p (cs : List Node) (x : ℚ) :
    cs.foldl (fun p c => p - c.p) x = x - (cs.map Node.p).sum := by
  induction cs generalizing x with
  | nil => simp
  | cons c cs ih =>
    simp only [List.foldl_cons, ih, List.map_cons, List.sum_cons]
    ring

theorem initialChildren_total (a : Alphabet) (Pstates : List ℚ) :
    ((initialChildren a Pstates).map Node.total).sum
      = ((initialChildren a Pstates).map Node.p).sum := by
  unfold initialChildren
  rw [List.map_map, List.map_map]
  congr 1
  apply List.map_congr_left
  intro c _
  simp [Node.total, totalList, Node.p]

theorem initialState_total (a : Alphabet) (Pstates : List ℚ) :
    (initialState a Pstates).root.total = 1 := by
  show (Node.mk _ 0 (initialChildren a Pstates)).total = 1
  rw [Node.total_eq]
  show (initialChildren a Pstates).foldl (fun p c => p - c.p) 1
    + ((initialChildren a Pstates).map Node.total).sum = 1
  rw [foldl_sub_p, initialChildren_total]
  ring

/-- Every tree `buildTree` returns has total probability exactly the normalisation factor
`1e-10 + sum of Pstates`, whatever the queue order: a split moves mass from a node to its new
child. -/
theorem buildTree_total (a : Alphabet) (K maxWordSize : Nat)
    (pick : Nat → Node → List (List Nat) → Nat) (Pstates : List ℚ) :
    (buildTree a K maxWordSize pick Pstates).total = normFactor Pstates := by
  unfold buildTree
  rw [Node.total_scale, growLoop_total, initialState_total, one_mul]


theorem nodeAt_cons (n : Node) (i : Nat) (rest : List Nat) :
    nodeAt n (i :: rest) = (n.children.get? i).bind (fun c => nodeAt c rest) := by
  simp only [nodeAt]
  cases n.children.get? i <;> rfl

theorem pathWord_nil (syms : List Nat) (w : Word) (node : Node) :
    pathWord syms w [] node = w := by
  simp [pathWord]

theorem pathWord_cons (syms : List Nat) (w : Word) (i : Nat) (c : Node) (path : List Nat)
    (node : Node) (h : nodeAt c path = some node) :
    pathWord syms
        { symbols := w.symbols ++ [syms.getD i 0], p := c.p, state := c.children.length % 256 }
        path node
      = pathWord syms w (i :: path) node := by
  cases path with
  | nil =>
    simp only [nodeAt, Option.some.injEq] at h
    subst h
    simp [pathWord]
  | cons j rest =>
    simp [pathWord, List.append_assoc]

mutual
theorem mem_wordsFrom (syms : List Nat) : ∀ (n : Node) (w x : Word),
    x ∈ wordsFrom syms n w ↔
      ∃ path node, nodeAt n path = some node ∧ x = pathWord syms w path node
  | Node.mk p sz cs, w, x => by
    simp only [wordsFrom, List.mem_cons]
    rw [mem_childWords syms cs 0 w x]
    constructor
    · rintro (h | ⟨j, c, path, node, h1, h2, h3⟩)
      · exact ⟨[], Node.mk p sz cs, rfl, by rw [pathWord_nil]; exact h⟩
      · refine ⟨j :: path, node, ?_, by rw [h3, Nat.zero_add]⟩
        rw [nodeAt_cons]
        show (cs.get? j).bind _ = _
        rw [h1]
        exact h2
    · rintro ⟨path, node, h1, h2⟩
      cases path with
      | nil => left; rw [h2, pathWord_nil]
      | cons j rest =>
        right
        rw [nodeAt_cons] at h1
        change (cs.get? j).bind _ = _ at h1
        cases hc : cs.get? j with
        | none => rw [hc] at h1; simp at h1
        | some c =>
          rw [hc] at h1
          exact ⟨j, c, rest, node, hc, h1, by rw [h2, Nat.zero_add]⟩
theorem mem_childWords (syms : List Nat) : ∀ (cs : List Node) (i : Nat) (w x : Word),
    x ∈ childWords syms cs i w ↔
      ∃ j c path node, cs.get? j = some c ∧ nodeAt c path = some node ∧
        x = pathWord syms w ((i + j) :: path) node
  | [], i, w, x => by
    simp [childWords]
  | c :: cs, i, w, x => by
    simp only [childWords, List.mem_append]
    rw [mem_childWords syms cs (i + 1) w x, mem_wordsFrom syms c _ x]
    constructor
    · rintro (⟨j, c2, path, node, h1, h2, h3⟩ | ⟨path, node, h1, h2⟩)
      · exact ⟨j + 1, c2, path, node, by simpa using h1, h2,
          by rw [h3, show i + 1 + j = i + (j + 1) by omega]⟩
      · exact ⟨0, c, path, node, rfl, h1, by rw [h2, pathWord_cons syms w i c path node h1]; rfl⟩
    · rintro ⟨j, c2, path, node, h1, h2, h3⟩
      cases j with
      | zero =>
        right
        simp only [List.get?_cons_zero, Option.some.injEq] at h1
        subst h1
        exact ⟨path, node, h2, by rw [h3, pathWord_cons syms w i c path node h2]; rfl⟩
      | succ j =>
        left
        simp only [List.get?_cons_succ] at h1
        exact ⟨j, c2, path, node, h1, h2,
          by rw [h3, show i + 1 + j = i + (j + 1) by omega]⟩
end

mutual
theorem wordsFrom_length (syms : List Nat) : ∀ (n : Node) (w : Word),
    (wordsFrom syms n w).length = n.count
  | Node.mk p sz cs, w => by
    simp only [wordsFrom, List.length_cons, Node.count]
    rw [childWords_length syms cs 0 w]
    omega
theorem childWords_length (syms : List Nat) : ∀ (cs : List Node) (i : Nat) (w : Word),
    (childWords syms cs i w).length = countList cs
  | [], i, w => by simp [childWords, countList]
  | c :: cs, i, w => by
    simp only [childWords, List.length_append, countList]
    rw [childWords_length syms cs (i + 1) w, wordsFrom_length syms c _]
    omega
end


/-! ## The placement loop of arrangeAndFuse -/

theorem slot_rank_iff (D R s q m : Nat) (hm : m < R) (hq : q < D) (hs : s < R * D) :
    s = m * D + q ↔ (s % D) * R + s / D = q * R + m := by
  have hDpos : 0 < D := by omega
  have hRpos : 0 < R := by omega
  constructor
  · intro h
    subst h
    rw [Nat.add_comm (m * D) q, Nat.add_mul_mod_self_right, Nat.mod_eq_of_lt hq,
      Nat.add_mul_div_right _ _ hDpos, Nat.div_eq_of_lt hq, Nat.zero_add]
  · intro h
    have hsd : s / D < R := by
      rw [Nat.div_lt_iff_lt_mul hDpos]; exact hs
    have h1 : s / D = m := by
      have := congrArg (fun x => x % R) h
      simp only [] at this
      rw [Nat.add_comm, Nat.add_mul_mod_self_right, Nat.mod_eq_of_lt hsd, Nat.add_comm,
        Nat.add_mul_mod_self_right, Nat.mod_eq_of_lt hm] at this
      exact this
    have h2 : s % D = q := by
      rw [h1] at h
      have h3 : s % D * R = q * R := by omega
      exact Nat.eq_of_mul_eq_mul_right hRpos h3
    have := Nat.div_add_mod s D
    rw [h1, h2, Nat.mul_comm] at this
    exact this.symm

theorem getD_set_word (w : List Word) (i s : Nat) (x d : Word) (hi : i < w.length) :
    (w.set i x).getD s d = if s = i then x else w.getD s d := by
  by_cases h : s = i
  · subst h
    simp [List.getD_eq_getElem?_getD, List.getElem?_set, hi]
  · have h2 : ¬ i = s := fun e => h e.symm
    simp [List.getD_eq_getElem?_getD, List.getElem?_set, h, h2]

theorem placeWords_length (O : Nat) (xs : List Word) (j k : Nat) (w : List Word) :
    (placeWords O xs j k w).length = w.length := by
  induction xs generalizing j k w with
  | nil => rfl
  | cons x xs ih =>
    simp only [placeWords]
    split
    · rw [ih, List.length_set]
    · rw [ih, List.length_set]

theorem placeWords_mem (O : Nat) (xs : List Word) (j k : Nat) (w : List Word) (y : Word)
    (h : y ∈ placeWords O xs j k w) : y ∈ xs ∨ y ∈ w := by
  induction xs generalizing j k w with
  | nil => exact Or.inr h
  | cons x xs ih =>
    simp only [placeWords] at h
    split at h
    · rcases ih _ _ _ h with h1 | h1
      · exact Or.inl (List.mem_cons_of_mem _ h1)
      · rcases List.mem_or_eq_of_mem_set h1 with h2 | h2
        · exact Or.inr h2
        · exact Or.inl (h2 ▸ List.mem_cons_self _ _)
    · rcases ih _ _ _ h with h1 | h1
      · exact Or.inl (List.mem_cons_of_mem _ h1)
      · rcases List.mem_or_eq_of_mem_set h1 with h2 | h2
        · exact Or.inr h2
        · exact Or.inl (h2 ▸ List.mem_cons_self _ _)


theorem placeWords_step (O D R : Nat) (hD : shl1U O = D) (x : Word) (xs : List Word)
    (q m j k : Nat) (w : List Word) (hw : w.length = R * D) (hm : m < R) (hq : q < D)
    (hinv : (j = m * D + q ∧ k = q) ∨ (m = 0 ∧ R * D ≤ j ∧ k + 1 = q)) :
    ∃ j2 k2, placeWords O (x :: xs) j k w = placeWords O xs j2 k2 (w.set (m * D + q) x) ∧
      ((m + 1 < R ∧ j2 = (m + 1) * D + q ∧ k2 = q) ∨ (m + 1 = R ∧ R * D ≤ j2 ∧ k2 = q)) := by
  have hsw : m * D + q < R * D := by
    have h1 : (m + 1) * D ≤ R * D := Nat.mul_le_mul_right D hm
    rw [Nat.succ_mul] at h1
    omega
  have hsucc : (m + 1) * D = m * D + D := Nat.succ_mul m D
  rcases hinv with ⟨hj, hk⟩ | ⟨hm0, hj, hk⟩
  · refine ⟨j + D, k, ?_, ?_⟩
    · simp only [placeWords]
      rw [if_neg (by rw [hw, hj]; omega), hD, hj]
    · by_cases h : m + 1 < R
      · exact Or.inl ⟨h, by omega, hk⟩
      · have hR : m + 1 = R := by omega
        refine Or.inr ⟨hR, ?_, hk⟩
        rw [← hR, hsucc]; omega
  · refine ⟨k + 1 + D, k + 1, ?_, ?_⟩
    · simp only [placeWords]
      rw [if_pos (by rw [hw]; exact hj), hD]
      subst hm0
      rw [Nat.zero_mul, Nat.zero_add, hk]
    · subst hm0
      by_cases h : 0 + 1 < R
      · exact Or.inl ⟨h, by rw [Nat.zero_add, Nat.one_mul]; omega, hk⟩
      · have hR : 0 + 1 = R := by omega
        refine Or.inr ⟨hR, ?_, hk⟩
        rw [← hR, Nat.zero_add, Nat.one_mul]; omega

/-- The placement loop in closed form: the word of rank `r = q * R + m` (with `m < R`) goes to
the slot `m * D + q`, where `D = 2^O` and `R * D` is the size of the chapter; so slot `s` ends
up holding the word of rank `(s mod D) * R + s div D`. -/
theorem placeWords_spec (O D R : Nat) (hD : shl1U O = D) (d : Word) :
    ∀ (xs : List Word) (q m j k : Nat) (w : List Word), w.length = R * D → m < R →
      ((j = m * D + q ∧ k = q) ∨ (m = 0 ∧ R * D ≤ j ∧ k + 1 = q)) →
      q * R + m + xs.length ≤ R * D →
      ∀ s, s < R * D →
        (placeWords O xs j k w).getD s d =
          if q * R + m ≤ (s % D) * R + s / D ∧ (s % D) * R + s / D < q * R + m + xs.length
          then xs.getD ((s % D) * R + s / D - (q * R + m)) d else w.getD s d := by
  intro xs
  induction xs with
  | nil =>
    intro q m j k w _ _ _ _ s _
    rw [if_neg (by simp only [List.length_nil]; omega)]
    rfl
  | cons x xs ih =>
    intro q m j k w hw hm hinv hcount s hs
    rw [List.length_cons] at hcount ⊢
    have hq : q < D := by
      by_contra hcon
      have h1 : D * R ≤ q * R := Nat.mul_le_mul_right R (by omega)
      rw [Nat.mul_comm D R] at h1
      omega
    have hsw : m * D + q < R * D := by
      have h1 : (m + 1) * D ≤ R * D := Nat.mul_le_mul_right D hm
      rw [Nat.succ_mul] at h1
      omega
    obtain ⟨j2, k2, heq, hinv2⟩ := placeWords_step O D R hD x xs q m j k w hw hm hq hinv
    rw [heq]
    have hiff := slot_rank_iff D R s q m hm hq hs
    have hset := getD_set_word w (m * D + q) s x d (by rw [hw]; exact hsw)
    have hw2 : (w.set (m * D + q) x).length = R * D := by rw [List.length_set]; exact hw
    rcases hinv2 with ⟨h1, h2, h3⟩ | ⟨h1, h2, h3⟩
    · rw [ih q (m + 1) j2 k2 _ hw2 h1 (Or.inl ⟨h2, h3⟩) (by omega) s hs, hset]
      by_cases ht : (s % D) * R + s / D = q * R + m
      · rw [if_neg (by omega), if_pos (hiff.mpr ht), if_pos (by omega), ht, Nat.sub_self]
        rfl
      · rw [if_neg (fun e => ht (hiff.mp e))]
        by_cases hin : q * R + (m + 1) ≤ (s % D) * R + s / D ∧
            (s % D) * R + s / D < q * R + (m + 1) + xs.length
        · rw [if_pos hin, if_pos (by omega),
            show (s % D) * R + s / D - (q * R + m)
              = ((s % D) * R + s / D - (q * R + (m + 1))) + 1 by omega,
            List.getD_cons_succ]
        · rw [if_neg hin, if_neg (by omega)]
    · have hR1 : (q + 1) * R + 0 = q * R + m + 1 := by rw [Nat.succ_mul]; omega
      have h0R : 0 < R := by omega
      rw [ih (q + 1) 0 j2 k2 _ hw2 h0R (Or.inr ⟨rfl, h2, by omega⟩) (by omega) s hs, hset]
      by_cases ht : (s % D) * R + s / D = q * R + m
      · rw [if_neg (by omega), if_pos (hiff.mpr ht), if_pos (by omega), ht, Nat.sub_self]
        rfl
      · rw [if_neg (fun e => ht (hiff.mp e))]
        by_cases hin : (q + 1) * R + 0 ≤ (s % D) * R + s / D ∧
            (s % D) * R + s / D < (q + 1) * R + 0 + xs.length
        · rw [if_pos hin, if_pos (by omega),
            show (s % D) * R + s / D - (q * R + m)
              = ((s % D) * R + s / D - ((q + 1) * R + 0)) + 1 by omega,
            List.getD_cons_succ]
        · rw [if_neg hin, if_neg (by omega)]


mutual
theorem Node.count_scale (f : ℚ) : ∀ n : Node, (n.scale f).count = n.count
  | Node.mk p sz cs => by
    simp only [Node.scale, Node.count]
    rw [countList_scale f cs]
theorem countList_scale (f : ℚ) : ∀ cs : List Node, countList (scaleList f cs) = countList cs
  | [] => by simp [scaleList, countList]
  | c :: cs => by
    simp only [scaleList, countList]
    rw [Node.count_scale f c, countList_scale f cs]
end

theorem nodeAt_scale (f : ℚ) (n : Node) (path : List Nat) :
    nodeAt (n.scale f) path = (nodeAt n path).map (Node.scale f) := by
  induction path generalizing n with
  | nil => rfl
  | cons i rest ih =>
    rw [nodeAt_cons, nodeAt_cons, Node.scale_children, List.get?_eq_getElem?,
      List.get?_eq_getElem?, List.getElem?_map]
    cases h : n.children[i]? with
    | none => rfl
    | some c => simp only [Option.map_some', Option.some_bind]; exact ih c

theorem nodeAt_append (n : Node) (p1 p2 : List Nat) :
    nodeAt n (p1 ++ p2) = (nodeAt n p1).bind (fun c => nodeAt c p2) := by
  induction p1 generalizing n with
  | nil => rfl
  | cons i rest ih =>
    rw [List.cons_append, nodeAt_cons, nodeAt_cons]
    cases h : n.children.get? i with
    | none => rfl
    | some c => simp only [Option.some_bind]; exact ih c

/-- The nodes of a tree are closed under taking the parent. -/
theorem nodeAt_dropLast (n : Node) (path : List Nat) (node : Node)
    (h : nodeAt n path = some node) : ∃ node2, nodeAt n path.dropLast = some node2 := by
  rcases List.eq_nil_or_concat path with h0 | ⟨init, last, h1⟩
  · subst h0; exact ⟨n, rfl⟩
  · subst h1
    rw [List.concat_eq_append, nodeAt_append] at h
    rw [List.concat_eq_append, List.dropLast_concat]
    cases h2 : nodeAt n init with
    | none => rw [h2] at h; simp at h
    | some c => exact ⟨c, rfl⟩

theorem initialChildren_leaf (a : Alphabet) (Pstates : List ℚ) (c : Node)
    (h : c ∈ initialChildren a Pstates) : c.sz = 1 ∧ c.children = [] := by
  unfold initialChildren at h
  rw [List.mem_map] at h
  obtain ⟨i, _, rfl⟩ := h
  exact ⟨rfl, rfl⟩

theorem initialChildren_length (a : Alphabet) (Pstates : List ℚ) :
    (initialChildren a Pstates).length = a.marlinSymbols.length := by
  unfold initialChildren
  rw [List.length_map, List.length_range]

theorem initialState_count (a : Alphabet) (Pstates : List ℚ) :
    (initialState a Pstates).root.count = a.marlinSymbols.length + 1 := by
  show (Node.mk _ 0 (initialChildren a Pstates)).count = _
  rw [Node.count_eq]
  show 1 + ((initialChildren a Pstates).map Node.count).sum = _
  have h : (initialChildren a Pstates).map Node.count
      = (initialChildren a Pstates).map (fun _ => 1) := by
    apply List.map_congr_left
    intro c hc
    rw [Node.count_eq, (initialChildren_leaf a Pstates c hc).2]
    rfl
  rw [h, List.map_const', List.sum_replicate, initialChildren_length]
  simp
  omega

theorem initialState_depth (a : Alphabet) (Pstates : List ℚ) (path : List Nat) (node : Node)
    (h : nodeAt (initialState a Pstates).root path = some node) : path.length ≤ 1 := by
  match path, h with
  | [], _ => simp
  | [_], _ => simp
  | i :: j :: rest, h =>
    exfalso
    rw [nodeAt_cons] at h
    change ((initialChildren a Pstates).get? i).bind _ = _ at h
    cases hc : (initialChildren a Pstates).get? i with
    | none => rw [hc] at h; simp at h
    | some c =>
      rw [hc] at h
      simp only [Option.some_bind] at h
      have hm : c ∈ initialChildren a Pstates := List.get?_mem hc
      rw [nodeAt_cons, (initialChildren_leaf a Pstates c hm).2] at h
      simp at h

/-- The growing loop keeps `pq.size() + retiredNodes` equal to the number of nodes, and the
tree has at most `2^K` nodes unless it is the initial tree of depth 1. -/
theorem growLoop_count (a : Alphabet) (K maxWordSize : Nat)
    (pick : Nat → Node → List (List Nat) → Nat) (fuel : Nat) (Pstates : List ℚ) :
    (growLoop a K maxWordSize pick fuel (initialState a Pstates)).root.count ≤ shl1U K ∨
      ∀ path node,
        nodeAt (growLoop a K maxWordSize pick fuel (initialState a Pstates)).root path
          = some node → path.length ≤ 1 := by
  have key := growLoop_induct a K maxWordSize pick
    (fun st => st.root.count = st.pq.length + st.retiredNodes ∧
      (st.root.count ≤ shl1U K ∨
        ∀ path node, nodeAt st.root path = some node → path.length ≤ 1))
    (fun st i h hi => by
      refine ⟨?_, h.2⟩
      show st.root.count = (st.pq.eraseIdx i).length + (st.retiredNodes + 1)
      rw [List.length_eraseIdx, if_pos hi, h.1]
      omega)
    (fun st i node h hi hT hn _ _ _ => by
      have hc : (modifyAt (splitNode (Pchild a)) st.root (st.pq.getD i [])).count
          = st.root.count + 1 := modifyAt_count _ (splitNode_count _) _ _ node hn
      refine ⟨?_, Or.inl ?_⟩
      · show (modifyAt (splitNode (Pchild a)) st.root (st.pq.getD i [])).count
          = (st.pq.eraseIdx i ++ [_, _]).length + st.retiredNodes
        rw [hc, List.length_append, List.length_eraseIdx, if_pos hi, h.1]
        simp only [List.length_cons, List.length_nil]
        omega
      · show (modifyAt (splitNode (Pchild a)) st.root (st.pq.getD i [])).count ≤ _
        rw [hc, h.1]
        omega)
    fuel (initialState a Pstates)
    ⟨by
      rw [initialState_count]
      show _ = ([] :: (List.range a.marlinSymbols.length).map (fun c => [c])).length + 0
      simp,
     Or.inr (initialState_depth a Pstates)⟩
  exact key.2


theorem sortTail_perm (l : List Word) : List.Perm (sortTail l) l := by
  cases l with
  | nil => exact List.Perm.refl _
  | cons w ws => exact List.Perm.cons w (List.perm_insertionSort _ ws)

theorem pathWord_symbols (syms : List Nat) (w0 : Word) (path : List Nat) (node : Node) :
    (pathWord syms w0 path node).symbols = w0.symbols ++ path.map (fun i => syms.getD i 0) := by
  unfold pathWord
  split
  · next h => subst h; simp
  · rfl

theorem mem_buildChapterWords (a : Alphabet) (t : Node) (y : Word) :
    y ∈ buildChapterWords a t ↔
      ∃ path node, nodeAt t path = some node ∧
        y = pathWord (a.marlinSymbols.map (fun s => s.sourceSymbol))
          { symbols := [], p := t.p, state := 0 } path node :=
  mem_wordsFrom _ t _ y

theorem buildChapterWords_length (a : Alphabet) (t : Node) :
    (buildChapterWords a t).length = t.count :=
  wordsFrom_length _ t _

theorem placeWords_contains (O D R : Nat) (hD : shl1U O = D) (hR : 0 < R) (d : Word)
    (xs : List Word) (hlen : xs.length ≤ R * D) (x : Word) (hx : x ∈ xs) :
    x ∈ placeWords O xs 0 0 (List.replicate (R * D) d) := by
  obtain ⟨i, hi, rfl⟩ := List.getElem_of_mem hx
  have hiM : i < R * D := lt_of_lt_of_le hi hlen
  have hq : i / R < D := by
    rw [Nat.div_lt_iff_lt_mul hR, Nat.mul_comm]; exact hiM
  have hm : i % R < R := Nat.mod_lt _ hR
  have hs : i % R * D + i / R < R * D := by
    have h1 : (i % R + 1) * D ≤ R * D := Nat.mul_le_mul_right D hm
    rw [Nat.succ_mul] at h1
    omega
  have hrank := (slot_rank_iff D R (i % R * D + i / R) (i / R) (i % R) hm hq hs).mp rfl
  have hi2 : i / R * R + i % R = i := by
    rw [Nat.mul_comm]; exact Nat.div_add_mod i R
  rw [hi2] at hrank
  have hspec := placeWords_spec O D R hD d xs 0 0 0 0 (List.replicate (R * D) d)
    (List.length_replicate _ _) hR (Or.inl ⟨by simp, rfl⟩) (by simpa using hlen)
    (i % R * D + i / R) hs
  rw [hrank] at hspec
  simp only [Nat.zero_mul, Nat.zero_add, Nat.zero_le, true_and, hi, if_true, Nat.sub_zero]
    at hspec
  rw [List.getD_eq_getElem _ _ hi] at hspec
  rw [← hspec, List.getD_eq_getElem _ _ (by
    rw [placeWords_length, List.length_replicate]; exact hs)]
  exact List.getElem_mem _

theorem pow_split (K O : Nat) (hO : O ≤ K) : 2 ^ (K - O) * 2 ^ O = 2 ^ K := by
  rw [← Nat.pow_add, Nat.sub_add_cancel hO]

/-- One chapter of `arrangeAndFuse`: it has `2^K` words, and with every word of two or more
symbols it contains the word without its last symbol. -/
theorem chapter_prefix_closed (a : Alphabet) (K O : Nat) (hK : K < 32) (hO : O ≤ K) (t : Node)
    (hT : t.count ≤ shl1U K ∨ ∀ path node, nodeAt t path = some node → path.length ≤ 1) :
    (placeWords O (sortTail (buildChapterWords a t)) 0 0
        (List.replicate (shl1U K) emptyWord)).length = 2 ^ K ∧
    ∀ y, y ∈ placeWords O (sortTail (buildChapterWords a t)) 0 0
        (List.replicate (shl1U K) emptyWord) → 2 ≤ y.symbols.length →
      ∃ y2, y2 ∈ placeWords O (sortTail (buildChapterWords a t)) 0 0
          (List.replicate (shl1U K) emptyWord) ∧ y2.symbols = y.symbols.dropLast := by
  have hKs : shl1U K = 2 ^ K := shl1U_eq K hK
  have hOs : shl1U O = 2 ^ O := shl1U_eq O (by omega)
  constructor
  · rw [placeWords_length, List.length_replicate, hKs]
  · intro y hy hlen
    rcases placeWords_mem O _ 0 0 _ y hy with h1 | h1
    · have h2 : y ∈ buildChapterWords a t := (sortTail_perm _).mem_iff.mp h1
      obtain ⟨path, node, hn, rfl⟩ := (mem_buildChapterWords a t y).mp h2
      rw [pathWord_symbols] at hlen ⊢
      simp only [List.nil_append, List.length_map] at hlen ⊢
      have hcount : t.count ≤ shl1U K := by
        rcases hT with h | h
        · exact h
        · have := h path node hn
          omega
      obtain ⟨node2, hn2⟩ := nodeAt_dropLast t path node hn
      have hmem : pathWord (a.marlinSymbols.map (fun s => s.sourceSymbol))
          { symbols := [], p := t.p, state := 0 } path.dropLast node2
            ∈ sortTail (buildChapterWords a t) :=
        (sortTail_perm _).mem_iff.mpr ((mem_buildChapterWords a t _).mpr ⟨_, _, hn2, rfl⟩)
      refine ⟨pathWord (a.marlinSymbols.map (fun s => s.sourceSymbol))
          { symbols := [], p := t.p, state := 0 } path.dropLast node2, ?_, ?_⟩
      · rw [hKs, ← pow_split K O hO]
        apply placeWords_contains O (2 ^ O) (2 ^ (K - O)) hOs (Nat.two_pow_pos _) emptyWord _ _ _
          hmem
        rw [(sortTail_perm _).length_eq, buildChapterWords_length, pow_split K O hO, ← hKs]
        exact hcount
      · rw [pathWord_symbols]
        simp only [List.nil_append]
        rw [List.dropLast_eq_take, List.dropLast_eq_take, List.length_map, List.map_take]
    · rw [List.mem_replicate] at h1
      rw [h1.2] at hlen
      simp [emptyWord] at hlen


theorem buildTree_count (a : Alphabet) (K maxWordSize : Nat)
    (pick : Nat → Node → List (List Nat) → Nat) (Pstates : List ℚ) :
    (buildTree a K maxWordSize pick Pstates).count ≤ shl1U K ∨
      ∀ path node, nodeAt (buildTree a K maxWordSize pick Pstates) path = some node →
        path.length ≤ 1 := by
  unfold buildTree
  rcases growLoop_count a K maxWordSize pick (2 * shl1U K + 1) (normalizePstates Pstates)
    with h | h
  · left
    rw [Node.count_scale]
    exact h
  · right
    intro path node hn
    rw [nodeAt_scale] at hn
    cases hc : nodeAt (growLoop a K maxWordSize pick (2 * shl1U K + 1)
        (initialState a (normalizePstates Pstates))).root path with
    | none => rw [hc] at hn; simp at hn
    | some n0 => exact h path n0 hc

theorem addState_length (Pstates : List (List ℚ)) (k s : Nat) (p : ℚ) :
    (addState Pstates k s p).length = Pstates.length := by
  unfold addState
  split
  · rw [List.length_set]
  · rfl

theorem accumulateStates_length (O : Nat) (ws : List Word) (i : Nat) (Pstates : List (List ℚ)) :
    (accumulateStates O ws i Pstates).length = Pstates.length := by
  induction ws generalizing i Pstates with
  | nil => rfl
  | cons w ws ih =>
    simp only [accumulateStates]
    rw [ih, addState_length]

theorem updatePstates_length (a : Alphabet) (O : Nat) (ret : List Word) :
    (updatePstates a O ret).length = shl1U O := by
  unfold updatePstates
  rw [accumulateStates_length, List.length_replicate]

theorem buildTrees_shape (a : Alphabet) (K maxWordSize : Nat)
    (pick : Nat → Nat → Node → List (List Nat) → Nat) (call : Nat) (Pstates : List (List ℚ)) :
    (buildTrees a K maxWordSize pick call Pstates).length = Pstates.length ∧
    ∀ t, t ∈ buildTrees a K maxWordSize pick call Pstates →
      ∃ pk Ps, t = buildTree a K maxWordSize pk Ps := by
  unfold buildTrees
  constructor
  · rw [List.length_map, List.enum_length]
  · intro t ht
    rw [List.mem_map] at ht
    obtain ⟨kp, _, rfl⟩ := ht
    exact ⟨_, _, rfl⟩

theorem iterateDictionary_shape (a : Alphabet) (K O maxWordSize : Nat)
    (pick : Nat → Nat → Node → List (List Nat) → Nat) (iterations call : Nat) (ret : List Word)
    (h : ∃ trees, ret = arrangeAndFuse a K O trees ∧ trees.length = shl1U O ∧
      ∀ t, t ∈ trees → ∃ pk Ps, t = buildTree a K maxWordSize pk Ps) :
    ∃ trees, iterateDictionary a K O maxWordSize pick iterations call ret
        = arrangeAndFuse a K O trees ∧ trees.length = shl1U O ∧
      ∀ t, t ∈ trees → ∃ pk Ps, t = buildTree a K maxWordSize pk Ps := by
  induction iterations generalizing call ret with
  | zero => exact h
  | succ n ih =>
    simp only [iterateDictionary]
    apply ih
    refine ⟨_, rfl, ?_, (buildTrees_shape a K maxWordSize pick call _).2⟩
    rw [(buildTrees_shape a K maxWordSize pick call _).1, updatePstates_length]

/-- The dictionary `buildDictionary` returns is `arrangeAndFuse` of `2^O` trees, each one
returned by `buildTree`. -/
theorem buildDictionary_shape (a : Alphabet) (K O maxWordSize iterations : Nat)
    (pick : Nat → Nat → Node → List (List Nat) → Nat) :
    ∃ trees, buildDictionary a K O maxWordSize iterations pick = arrangeAndFuse a K O trees ∧
      trees.length = shl1U O ∧
      ∀ t, t ∈ trees → ∃ pk Ps, t = buildTree a K maxWordSize pk Ps := by
  unfold buildDictionary
  apply iterateDictionary_shape
  refine ⟨_, rfl, ?_, (buildTrees_shape a K maxWordSize pick 0 _).2⟩
  rw [(buildTrees_shape a K maxWordSize pick 0 _).1, List.length_replicate]

theorem flatMap_chunk_length {α β : Type} (f : α → List β) (M : Nat)
    (hf : ∀ x, (f x).length = M) (l : List α) : (l.flatMap f).length = l.length * M := by
  induction l with
  | nil => simp
  | cons y ys ih =>
    rw [List.flatMap_cons, List.length_append, ih, hf, List.length_cons, Nat.succ_mul]
    omega

theorem getD_flatMap_chunk {α β : Type} (f : α → List β) (M : Nat)
    (hf : ∀ x, (f x).length = M) (l : List α) (c i : Nat) (hi : i < M) (d : β) (x : α)
    (hc : l.get? c = some x) : (l.flatMap f).getD (c * M + i) d = (f x).getD i d := by
  induction l generalizing c with
  | nil => simp at hc
  | cons y ys ih =>
    rw [List.flatMap_cons]
    cases c with
    | zero =>
      simp only [List.get?_cons_zero, Option.some.injEq] at hc
      subst hc
      rw [Nat.zero_mul, Nat.zero_add, List.getD_append _ _ _ _ (by rw [hf]; exact hi)]
    | succ c =>
      simp only [List.get?_cons_succ] at hc
      rw [List.getD_append_right _ _ _ _ (by rw [hf, Nat.succ_mul]; omega), hf,
        show (c + 1) * M + i - M = c * M + i by rw [Nat.succ_mul]; omega]
      exact ih c hc


theorem position_of_present (p : TMarlin) (k : Nat) (w : List Nat)
    (h : ∃ i, i < 2 ^ p.K ∧ p.words.getD (k * 2 ^ p.K + i) [] = w) :
    ∃ idx, position p k w = some idx := by
  obtain ⟨i, hi, hw⟩ := h
  have hs : (position p k w).isSome = true := by
    unfold position
    rw [List.find?_isSome]
    refine ⟨k * 2 ^ p.K + i, ?_, by simpa using hw⟩
    rw [List.mem_reverse, List.mem_map]
    exact ⟨i, List.mem_range.mpr (by rw [Nat.one_shiftLeft]; exact hi),
      by rw [Nat.one_shiftLeft]⟩
  exact Option.isSome_iff_exists.mp hs

theorem linkWord_of_closed (p : TMarlin) (k : Nat)
    (hclosed : ∀ u : List Nat, 2 ≤ u.length →
      (∃ i, i < 2 ^ p.K ∧ p.words.getD (k * 2 ^ p.K + i) [] = u) →
      ∃ i, i < 2 ^ p.K ∧ p.words.getD (k * 2 ^ p.K + i) [] = u.dropLast)
    (l : List Nat) (idx : Nat) (t : List Nat)
    (h : l.length ≤ 1 ∨ ∃ i, i < 2 ^ p.K ∧ p.words.getD (k * 2 ^ p.K + i) [] = l.reverse) :
    ∃ t2, linkWord p k l idx t = some t2 := by
  induction l generalizing idx t with
  | nil => exact ⟨t, rfl⟩
  | cons last rest ih =>
    cases rest with
    | nil => exact ⟨t, rfl⟩
    | cons r rs =>
      have hp : ∃ i, i < 2 ^ p.K ∧
          p.words.getD (k * 2 ^ p.K + i) [] = (last :: r :: rs).reverse := by
        rcases h with h | h
        · simp at h
        · exact h
      have hparent := hclosed _ (by simp) hp
      rw [List.reverse_cons, List.dropLast_concat] at hparent
      obtain ⟨parentIdx, hpos⟩ := position_of_present p k _ hparent
      simp only [linkWord]
      rw [hpos]
      exact ih parentIdx _ (Or.inr hparent)

theorem foldlM_some {α β : Type} (f : β → α → Option β) (L : List α)
    (h : ∀ x, x ∈ L → ∀ t, ∃ t2, f t x = some t2) (t : β) : ∃ t2, L.foldlM f t = some t2 := by
  induction L generalizing t with
  | nil => exact ⟨t, rfl⟩
  | cons x xs ih =>
    obtain ⟨t1, h1⟩ := h x (List.mem_cons_self _ _) t
    simp only [List.foldlM_cons, Option.bind_eq_bind, h1, Option.some_bind]
    exact ih (fun y hy => h y (List.mem_cons_of_mem _ hy)) t1

/-- `buildCompressorTable` does not throw "This word has no parent" when every chapter
contains, with every word of two or more symbols, the word without its last symbol. -/
theorem buildCompressorTable_of_closed (p : TMarlin)
    (hclosed : ∀ k, k < 2 ^ p.O → ∀ u : List Nat, 2 ≤ u.length →
      (∃ i, i < 2 ^ p.K ∧ p.words.getD (k * 2 ^ p.K + i) [] = u) →
      ∃ i, i < 2 ^ p.K ∧ p.words.getD (k * 2 ^ p.K + i) [] = u.dropLast) :
    (buildCompressorTable p).isSome = true := by
  unfold buildCompressorTable
  rw [Option.isSome_map']
  have h := foldlM_some
    (fun t (ki : Nat × Nat) => linkWord p ki.1 (p.words.getD ki.2 []).reverse ki.2 t)
    (allIndices p)
    (fun ki hki t => by
      unfold allIndices at hki
      simp only [List.mem_flatMap, List.mem_map, List.mem_range, Nat.one_shiftLeft] at hki
      obtain ⟨k, hk, i, hi, rfl⟩ := hki
      exact linkWord_of_closed p k (hclosed k hk) _ _ t
        (Or.inr ⟨i, hi, by rw [List.reverse_reverse]⟩))
    (initTable p)
  obtain ⟨t2, ht2⟩ := h
  rw [ht2]
  rfl


/-- With `2 * (2^K - (pq.size() + retiredNodes)) + pq.size()` iterations or more, the growing
loop ends because its condition fails: every iteration lowers that measure by one. -/
theorem growLoop_done_aux (a : Alphabet) (K maxWordSize : Nat)
    (pick : Nat → Node → List (List Nat) → Nat) (fuel : Nat) (st : TreeState)
    (h : 2 * (shl1U K - (st.pq.length + st.retiredNodes)) + st.pq.length ≤ fuel ∨
      shl1U K ≤ st.pq.length + st.retiredNodes) :
    (growLoop a K maxWordSize pick fuel st).pq = [] ∨
      shl1U K ≤ (growLoop a K maxWordSize pick fuel st).pq.length
        + (growLoop a K maxWordSize pick fuel st).retiredNodes := by
  induction fuel generalizing st with
  | zero =>
    rcases h with h | h
    · left
      show st.pq = []
      exact List.length_eq_zero.mp (by omega)
    · exact Or.inr h
  | succ fuel ih =>
    simp only [growLoop]
    split
    · next hc =>
      have hlen : 0 < st.pq.length := List.length_pos.mpr hc.1
      have hi : pick fuel st.root st.pq % st.pq.length < st.pq.length := Nat.mod_lt _ hlen
      have hT := hc.2
      have hfuel : 2 * (shl1U K - (st.pq.length + st.retiredNodes)) + st.pq.length
          ≤ fuel + 1 := by
        rcases h with h | h
        · exact h
        · omega
      have hret : (growLoop a K maxWordSize pick fuel
            { root := st.root, pq := st.pq.eraseIdx (pick fuel st.root st.pq % st.pq.length),
              retiredNodes := st.retiredNodes + 1 }).pq = [] ∨
          shl1U K ≤ (growLoop a K maxWordSize pick fuel
            { root := st.root, pq := st.pq.eraseIdx (pick fuel st.root st.pq % st.pq.length),
              retiredNodes := st.retiredNodes + 1 }).pq.length
            + (growLoop a K maxWordSize pick fuel
            { root := st.root, pq := st.pq.eraseIdx (pick fuel st.root st.pq % st.pq.length),
              retiredNodes := st.retiredNodes + 1 }).retiredNodes := by
        apply ih
        left
        show 2 * (shl1U K - ((st.pq.eraseIdx _).length + (st.retiredNodes + 1)))
          + (st.pq.eraseIdx _).length ≤ fuel
        rw [List.length_eraseIdx, if_pos hi]
        omega
      split
      · exact hret
      · next node hn =>
        split
        · exact hret
        · split
          · exact hret
          · split
            · exact hret
            · apply ih
              left
              show 2 * (shl1U K - ((st.pq.eraseIdx _ ++ [_, _]).length + st.retiredNodes))
                + (st.pq.eraseIdx _ ++ [_, _]).length ≤ fuel
              rw [List.length_append, List.length_eraseIdx, if_pos hi]
              simp only [List.length_cons, List.length_nil]
              omega
    · next hc =>
      by_cases hp : st.pq = []
      · exact Or.inl hp
      · right
        by_contra hcon
        exact hc ⟨hp, by omega⟩

/-- The growing loop of `buildTree` terminates within the iterations the model gives it: it
ends with the queue empty or `pq.size() + retiredNodes ≥ 2^K`. -/
theorem growLoop_done (a : Alphabet) (K maxWordSize : Nat)
    (pick : Nat → Node → List (List Nat) → Nat) (Pstates : List ℚ) :
    (growLoop a K maxWordSize pick (2 * shl1U K + 1) (initialState a Pstates)).pq = [] ∨
      shl1U K ≤ (growLoop a K maxWordSize pick (2 * shl1U K + 1)
          (initialState a Pstates)).pq.length
        + (growLoop a K maxWordSize pick (2 * shl1U K + 1)
          (initialState a Pstates)).retiredNodes := by
  apply growLoop_done_aux
  have hpq : (initialState a Pstates).pq.length = a.marlinSymbols.length + 1 := by
    show ([] :: (List.range a.marlinSymbols.length).map (fun c => [c])).length = _
    simp
  have hr : (initialState a Pstates).retiredNodes = 0 := rfl
  rw [hpq, hr]
  omega


/-! ## C14: every word has its parent in the same chapter -/

/-- C14: for `O ≤ K < 32`, whatever the queue order, the dictionary `buildDictionary` returns
has `2^(K+O)` words, and every word of two or more symbols at slot `i` of chapter `c` has the
word without its last symbol at some slot `i2` of the same chapter; hence
`buildCompressorTable`, run on a codec with these `K`, `O` and words, returns a table (it does
not throw "This word has no parent"). -/
theorem dictionary_prefix_closed (a : Alphabet) (K O maxWordSize iterations : Nat)
    (pick : Nat → Nat → Node → List (List Nat) → Nat) (hK : K < 32) (hO : O ≤ K) :
    (buildDictionary a K O maxWordSize iterations pick).length = 2 ^ (K + O) ∧
    (∀ c i, c < 2 ^ O → i < 2 ^ K →
      2 ≤ ((buildDictionary a K O maxWordSize iterations pick).getD (c * 2 ^ K + i)
        emptyWord).symbols.length →
      ∃ i2, i2 < 2 ^ K ∧
        ((buildDictionary a K O maxWordSize iterations pick).getD (c * 2 ^ K + i2)
          emptyWord).symbols
        = ((buildDictionary a K O maxWordSize iterations pick).getD (c * 2 ^ K + i)
          emptyWord).symbols.dropLast) ∧
    ∀ p : TMarlin, p.K = K → p.O = O →
      p.words = (buildDictionary a K O maxWordSize iterations pick).map (fun w => w.symbols) →
      (buildCompressorTable p).isSome = true := by
  obtain ⟨trees, heq, hlen, htrees⟩ := buildDictionary_shape a K O maxWordSize iterations pick
  have hOs : shl1U O = 2 ^ O := shl1U_eq O (by omega)
  have hchunk : ∀ t : Node, (placeWords O (sortTail (buildChapterWords a t)) 0 0
      (List.replicate (shl1U K) emptyWord)).length = 2 ^ K := by
    intro t
    rw [placeWords_length, List.length_replicate, shl1U_eq K hK]
  have hclosed : ∀ c i, c < 2 ^ O → i < 2 ^ K →
      2 ≤ ((buildDictionary a K O maxWordSize iterations pick).getD (c * 2 ^ K + i)
        emptyWord).symbols.length →
      ∃ i2, i2 < 2 ^ K ∧
        ((buildDictionary a K O maxWordSize iterations pick).getD (c * 2 ^ K + i2)
          emptyWord).symbols
        = ((buildDictionary a K O maxWordSize iterations pick).getD (c * 2 ^ K + i)
          emptyWord).symbols.dropLast := by
    intro c i hc hi h2
    rw [heq] at h2 ⊢
    unfold arrangeAndFuse at h2 ⊢
    have hct : c < trees.length := by rw [hlen, hOs]; exact hc
    have hget : trees.get? c = some (trees.get ⟨c, hct⟩) := List.get?_eq_get hct
    rw [getD_flatMap_chunk _ (2 ^ K) hchunk trees c i hi emptyWord _ hget] at h2 ⊢
    obtain ⟨pk, Ps, ht⟩ := htrees _ (List.get_mem trees c hct)
    have hT := buildTree_count a K maxWordSize pk Ps
    rw [← ht] at hT
    have hcl := (chapter_prefix_closed a K O hK hO _ hT).2
    have hi2 : i < (placeWords O (sortTail (buildChapterWords a (trees.get ⟨c, hct⟩))) 0 0
        (List.replicate (shl1U K) emptyWord)).length := by rw [hchunk]; exact hi
    rw [List.getD_eq_getElem _ _ hi2] at h2 ⊢
    obtain ⟨y2, hy2, hsym⟩ := hcl _ (List.getElem_mem _) h2
    obtain ⟨j, hj, rfl⟩ := List.getElem_of_mem hy2
    refine ⟨j, by rw [← hchunk (trees.get ⟨c, hct⟩)]; exact hj, ?_⟩
    rw [getD_flatMap_chunk _ (2 ^ K) hchunk trees c j (by
      rw [← hchunk (trees.get ⟨c, hct⟩)]; exact hj) emptyWord _ hget,
      List.getD_eq_getElem _ _ hj]
    exact hsym
  refine ⟨?_, hclosed, ?_⟩
  · rw [heq]
    unfold arrangeAndFuse
    rw [flatMap_chunk_length _ (2 ^ K) hchunk, hlen, hOs, Nat.pow_add, Nat.mul_comm]
  · intro p hpK hpO hw
    apply buildCompressorTable_of_closed
    intro k hk u hu ⟨i, hi, hpres⟩
    rw [hpK] at hi hpres ⊢
    rw [hpO] at hk
    have hgetD : ∀ idx, p.words.getD idx []
        = ((buildDictionary a K O maxWordSize iterations pick).getD idx emptyWord).symbols := by
      intro idx
      rw [hw, List.getD_eq_getElem?_getD, List.getD_eq_getElem?_getD, List.getElem?_map]
      cases (buildDictionary a K O maxWordSize iterations pick)[idx]? <;> rfl
    rw [hgetD] at hpres
    obtain ⟨i2, hi2, hsym⟩ := hclosed k i hk hi (by rw [hpres]; exact hu)
    exact ⟨i2, hi2, by rw [hgetD, hsym, hpres]⟩

set_option maxRecDepth 100000 in
theorem dictionary_prefix_closed_witness :
    chainWords.length = 2 ^ (4 + 0) ∧
    (∃ i2, i2 < 2 ^ 4 ∧
      (chainWords.getD (0 * 2 ^ 4 + i2) emptyWord).symbols
        = (chainWords.getD (0 * 2 ^ 4 + 1) emptyWord).symbols.dropLast) ∧
    (chainWords.getD 1 emptyWord).symbols.length = 14 ∧
    (buildCompressorTable chainMarlin).isSome = true :=
  ⟨(dictionary_prefix_closed chainAlphabet 4 0 3 3 (fun _ _ => pickMax) (by decide)
      (by decide)).1,
   (dictionary_prefix_closed chainAlphabet 4 0 3 3 (fun _ _ => pickMax) (by decide)
      (by decide)).2.1 0 1 (by decide) (by decide) (by decide!),
   by decide!,
   (dictionary_prefix_closed chainAlphabet 4 0 3 3 (fun _ _ => pickMax) (by decide)
      (by decide)).2.2 chainMarlin rfl rfl rfl⟩


theorem nodeAt_cons_getElem (n : Node) (i : Nat) (rest : List Nat) :
    nodeAt n (i :: rest) = (n.children[i]?).bind (fun c => nodeAt c rest) := by
  rw [nodeAt_cons, List.get?_eq_getElem?]

theorem nodeAt_leaf (p : ℚ) (sz : Nat) (q : List Nat) (n2 : Node)
    (h : nodeAt (Node.mk p sz []) q = some n2) : q = [] ∧ n2 = Node.mk p sz [] := by
  cases q with
  | nil =>
    simp only [nodeAt, Option.some.injEq] at h
    exact ⟨rfl, h.symm⟩
  | cons i rest =>
    rw [nodeAt_cons_getElem] at h
    simp [Node.children] at h

/-- The nodes of the tree after a split, in terms of the tree before: a node that was there
(with the same `sz` and as many children), the split node (one child more), or the new leaf. -/
theorem nodeAt_split (pc : List ℚ) (root : Node) (path q : List Nat) (n2 : Node)
    (h : nodeAt (modifyAt (splitNode pc) root path) q = some n2) :
    (∃ n, nodeAt root q = some n ∧ n2.sz = n.sz ∧ n2.children.length = n.children.length) ∨
    (q = path ∧ ∃ n0, nodeAt root path = some n0 ∧ n2.sz = n0.sz ∧
      n2.children.length = n0.children.length + 1) ∨
    (∃ n0, nodeAt root path = some n0 ∧ q = path ++ [n0.children.length] ∧
      n2.sz = n0.sz + 1 ∧ n2.children.length = 0) := by
  induction path generalizing root q with
  | nil =>
    simp only [modifyAt] at h
    cases q with
    | nil =>
      simp only [nodeAt, Option.some.injEq] at h
      subst h
      right; left
      exact ⟨rfl, root, rfl, rfl, by simp [splitNode, Node.children]⟩
    | cons i rest =>
      rw [nodeAt_cons_getElem] at h
      change ((root.children ++ [Node.mk _ (root.sz + 1) []])[i]?).bind _ = _ at h
      by_cases hi : i < root.children.length
      · rw [List.getElem?_append_left hi] at h
        left
        exact ⟨n2, by rw [nodeAt_cons_getElem]; exact h, rfl, rfl⟩
      · rw [List.getElem?_append_right (by omega)] at h
        cases hd : i - root.children.length with
        | zero =>
          rw [hd] at h
          simp only [List.getElem?_cons_zero, Option.some_bind] at h
          obtain ⟨hr, hn⟩ := nodeAt_leaf _ _ _ _ h
          right; right
          refine ⟨root, rfl, ?_, ?_, ?_⟩
          · rw [hr, List.nil_append]
            congr 1
            omega
          · rw [hn]; rfl
          · rw [hn]; rfl
        | succ d =>
          rw [hd] at h
          simp at h
  | cons i prest ih =>
    simp only [modifyAt] at h
    cases hc : root.children.get? i with
    | none =>
      rw [hc] at h
      exact Or.inl ⟨n2, h, rfl, rfl⟩
    | some c =>
      rw [hc] at h
      simp only [] at h
      have hci : root.children[i]? = some c := by rw [← List.get?_eq_getElem?]; exact hc
      have hilt : i < root.children.length := by
        by_contra hcon
        rw [List.getElem?_eq_none (by omega)] at hci
        simp at hci
      cases q with
      | nil =>
        simp only [nodeAt, Option.some.injEq] at h
        subst h
        left
        exact ⟨root, rfl, rfl, by simp [Node.children]⟩
      | cons j qrest =>
        rw [nodeAt_cons_getElem] at h
        change ((root.children.set i (modifyAt (splitNode pc) c prest))[j]?).bind _ = _ at h
        by_cases hj : i = j
        · subst hj
          rw [List.getElem?_set_self hilt] at h
          simp only [Option.some_bind] at h
          rcases ih c qrest h with ⟨n, h1, h2, h3⟩ | ⟨h1, n0, h2, h3, h4⟩ | ⟨n0, h1, h2, h3, h4⟩
          · left
            exact ⟨n, by rw [nodeAt_cons_getElem, hci]; exact h1, h2, h3⟩
          · right; left
            exact ⟨by rw [h1], n0, by rw [nodeAt_cons_getElem, hci]; exact h2, h3, h4⟩
          · right; right
            exact ⟨n0, by rw [nodeAt_cons_getElem, hci]; exact h1, by rw [h2]; rfl, h3, h4⟩
        · rw [List.getElem?_set_ne hj] at h
          left
          exact ⟨n2, by rw [nodeAt_cons_getElem]; exact h, rfl, rfl⟩


/-- The growing loop keeps: `sz` is the depth of a node, `sz ≤ 255`, and a node with
`sz ≥ maxWordSize` has at most one child. -/
theorem growLoop_shape (a : Alphabet) (K maxWordSize : Nat) (hmws : 1 ≤ maxWordSize)
    (pick : Nat → Node → List (List Nat) → Nat) (fuel : Nat) (Pstates : List ℚ) :
    ∀ path node,
      nodeAt (growLoop a K maxWordSize pick fuel (initialState a Pstates)).root path
        = some node →
      node.sz = path.length ∧ node.sz ≤ 255 ∧
        (maxWordSize ≤ node.sz → node.children.length ≤ 1) := by
  apply growLoop_induct a K maxWordSize pick
    (fun st => ∀ path node, nodeAt st.root path = some node →
      node.sz = path.length ∧ node.sz ≤ 255 ∧
        (maxWordSize ≤ node.sz → node.children.length ≤ 1))
  · intro st i h _
    exact h
  · intro st i node0 h _ _ hn hretire h255 _ q n2 hq
    change nodeAt (modifyAt (splitNode (Pchild a)) st.root (st.pq.getD i [])) q = some n2 at hq
    rcases nodeAt_split _ _ _ _ _ hq with ⟨n, h1, h2, h3⟩ | ⟨h1, n0, h2, h3, h4⟩ |
      ⟨n0, h1, h2, h3, h4⟩
    · obtain ⟨e1, e2, e3⟩ := h q n h1
      exact ⟨by rw [h2, e1], by rw [h2]; exact e2, fun hm => by rw [h3]; exact e3 (by rw [← h2]; exact hm)⟩
    · rw [hn] at h2
      have hn0 : node0 = n0 := Option.some.inj h2
      subst hn0
      obtain ⟨e1, e2, _⟩ := h _ node0 hn
      refine ⟨by rw [h3, e1, h1], by rw [h3]; exact e2, fun hm => ?_⟩
      rw [h3] at hm
      have hemp : node0.children.isEmpty = true := by
        by_contra hcon
        exact hretire ⟨hm, by simpa using hcon⟩
      rw [h4, List.isEmpty_iff.mp hemp]
      simp
    · rw [hn] at h1
      have hn0 : node0 = n0 := Option.some.inj h1
      subst hn0
      obtain ⟨e1, e2, _⟩ := h _ node0 hn
      refine ⟨by rw [h3, e1, h2, List.length_append]; rfl, by rw [h3]; omega,
        fun _ => by rw [h4]; omega⟩
  · intro path node hq
    have hdepth := initialState_depth a Pstates path node hq
    match path, hq, hdepth with
    | [], hq, _ =>
      simp only [nodeAt, Option.some.injEq] at hq
      subst hq
      exact ⟨rfl, by show (0 : Nat) ≤ 255; omega, fun hm => by
        change maxWordSize ≤ 0 at hm
        omega⟩
    | [i], hq, _ =>
      rw [nodeAt_cons] at hq
      change ((initialChildren a Pstates).get? i).bind _ = _ at hq
      cases hc : (initialChildren a Pstates).get? i with
      | none => rw [hc] at hq; simp at hq
      | some c =>
        rw [hc] at hq
        simp only [Option.some_bind, nodeAt, Option.some.injEq] at hq
        subst hq
        obtain ⟨e1, e2⟩ := initialChildren_leaf a Pstates c (List.get?_mem hc)
        exact ⟨by rw [e1]; rfl, by rw [e1]; omega, fun _ => by rw [e2]; simp⟩
    | _ :: _ :: _, _, hd => simp at hd

theorem buildTree_shape (a : Alphabet) (K maxWordSize : Nat) (hmws : 1 ≤ maxWordSize)
    (pick : Nat → Node → List (List Nat) → Nat) (Pstates : List ℚ) :
    ∀ path node, nodeAt (buildTree a K maxWordSize pick Pstates) path = some node →
      node.sz = path.length ∧ node.sz ≤ 255 ∧
        (maxWordSize ≤ node.sz → node.children.length ≤ 1) := by
  intro path node hq
  unfold buildTree at hq
  rw [nodeAt_scale] at hq
  cases hc : nodeAt (growLoop a K maxWordSize pick (2 * shl1U K + 1)
      (initialState a (normalizePstates Pstates))).root path with
  | none => rw [hc] at hq; simp at hq
  | some n0 =>
    rw [hc] at hq
    simp only [Option.map_some', Option.some.injEq] at hq
    subst hq
    rw [Node.scale_sz, Node.scale_children, List.length_map]
    exact growLoop_shape a K maxWordSize hmws pick _ _ path n0 hc

/-- In a tree where `sz` is the depth and a node with `sz ≥ maxWordSize` has at most one
child, a path takes the first child at every depth `j ≥ maxWordSize`. -/
theorem path_first_child (root : Node) (maxWordSize : Nat)
    (hinv : ∀ path node, nodeAt root path = some node →
      node.sz = path.length ∧ node.sz ≤ 255 ∧
        (maxWordSize ≤ node.sz → node.children.length ≤ 1))
    (path : List Nat) (node : Node) (hq : nodeAt root path = some node) (j : Nat)
    (hj : maxWordSize ≤ j) (hlt : j < path.length) : path.getD j 0 = 0 := by
  have hsplit : path = path.take j ++ (path.getD j 0 :: path.drop (j + 1)) := by
    rw [List.getD_eq_getElem _ _ hlt, ← List.drop_eq_getElem_cons hlt, List.take_append_drop]
  rw [hsplit, nodeAt_append] at hq
  cases hc : nodeAt root (path.take j) with
  | none => rw [hc] at hq; simp at hq
  | some nj =>
    rw [hc] at hq
    simp only [Option.some_bind] at hq
    rw [nodeAt_cons_getElem] at hq
    obtain ⟨e1, _, e3⟩ := hinv _ nj hc
    rw [List.length_take, Nat.min_eq_left (le_of_lt hlt)] at e1
    have hle := e3 (by rw [e1]; exact hj)
    by_contra hne
    rw [List.getElem?_eq_none (by omega)] at hq
    simp at hq


theorem mem_arrangeAndFuse (a : Alphabet) (K O : Nat) (trees : List Node) (w : Word)
    (h : w ∈ arrangeAndFuse a K O trees) :
    w = emptyWord ∨ ∃ t, t ∈ trees ∧ w ∈ buildChapterWords a t := by
  unfold arrangeAndFuse at h
  rw [List.mem_flatMap] at h
  obtain ⟨t, ht, hw⟩ := h
  rcases placeWords_mem O _ 0 0 _ w hw with h1 | h1
  · exact Or.inr ⟨t, ht, (sortTail_perm _).mem_iff.mp h1⟩
  · exact Or.inl (List.mem_replicate.mp h1).2

theorem decoderTable_length_byte (d : WiPDictionary) (i : Nat) (w : List Nat)
    (h : d.words.get? i = some w) :
    (decoderTable d).getD (i * (d.maxWordSize + 1) + d.maxWordSize) 0 = w.length % 256 := by
  unfold decoderTable
  rw [getD_flatMap_chunk _ (d.maxWordSize + 1) (fun x => by simp) d.words i d.maxWordSize
    (by omega) 0 w h,
    List.getD_append_right _ _ _ _ (by simp)]
  simp

set_option maxRecDepth 100000 in
/-- The words of `chainDict` are the ones `buildDictionary` computes. -/
theorem chainDict_built : chainWords.map (fun w => w.symbols) = chainDict.words := by
  decide!

/-! ## C15: word lengths -/

set_option maxRecDepth 100000 in
/-- C15 (as stated) fails: the dictionary built for the PMF `[0.99, 0.01]` with `K = 4`,
`O = 0`, `maxWordSize = 3` is `chainDict.words`; its word 1 has 14 symbols, and the length byte
of entry 1 of the decoder table is 14. -/
theorem dictionary_word_exceeds_maxWordSize :
    chainWords.map (fun w => w.symbols) = chainDict.words ∧
    chainDict.maxWordSize = 3 ∧
    (chainWords.getD 1 emptyWord).symbols.length = 14 ∧
    (decoderTable chainDict).getD (1 * (chainDict.maxWordSize + 1) + chainDict.maxWordSize) 0
      = 14 := by
  decide!

/-- C15 (amended): for `maxWordSize ≥ 1`, whatever the queue order, every word of the
dictionary `buildDictionary` returns has at most 255 symbols, and every symbol at a position
`j ≥ maxWordSize` is the source symbol of Marlin symbol 0; the length byte the `Decoder`
constructor stores for an entry is the length of its word. -/
theorem dictionary_word_shape (a : Alphabet) (K O maxWordSize iterations : Nat)
    (pick : Nat → Nat → Node → List (List Nat) → Nat) (hmws : 1 ≤ maxWordSize) :
    (∀ w, w ∈ buildDictionary a K O maxWordSize iterations pick →
      w.symbols.length ≤ 255 ∧
      ∀ j, maxWordSize ≤ j → j < w.symbols.length →
        w.symbols.getD j 0 = (a.marlinSymbols.map (fun s => s.sourceSymbol)).getD 0 0) ∧
    ∀ d : WiPDictionary, d.maxWordSize = maxWordSize →
      d.words = (buildDictionary a K O maxWordSize iterations pick).map (fun w => w.symbols) →
      ∀ i x, d.words.get? i = some x →
        (decoderTable d).getD (i * (maxWordSize + 1) + maxWordSize) 0 = x.length ∧
          x.length ≤ 255 := by
  have hwords : ∀ w, w ∈ buildDictionary a K O maxWordSize iterations pick →
      w.symbols.length ≤ 255 ∧
      ∀ j, maxWordSize ≤ j → j < w.symbols.length →
        w.symbols.getD j 0 = (a.marlinSymbols.map (fun s => s.sourceSymbol)).getD 0 0 := by
    intro w hw
    obtain ⟨trees, heq, _, htrees⟩ := buildDictionary_shape a K O maxWordSize iterations pick
    rw [heq] at hw
    rcases mem_arrangeAndFuse a K O trees w hw with h | ⟨t, ht, hwt⟩
    · rw [h]
      exact ⟨by simp [emptyWord], fun j _ hj => by simp [emptyWord] at hj⟩
    · obtain ⟨pk, Ps, rfl⟩ := htrees t ht
      obtain ⟨path, node, hn, rfl⟩ := (mem_buildChapterWords a _ w).mp hwt
      have hinv := buildTree_shape a K maxWordSize hmws pk Ps
      obtain ⟨e1, e2, _⟩ := hinv path node hn
      rw [pathWord_symbols]
      simp only [List.nil_append, List.length_map]
      refine ⟨by omega, fun j hj hlt => ?_⟩
      have h0 := path_first_child _ maxWordSize hinv path node hn j hj hlt
      rw [List.getD_eq_getElem _ _ (by rw [List.length_map]; exact hlt), List.getElem_map]
      rw [List.getD_eq_getElem _ _ hlt] at h0
      rw [h0]
  refine ⟨hwords, ?_⟩
  intro d hd hw i x hx
  have hmem : x ∈ d.words := List.get?_mem hx
  rw [hw, List.mem_map] at hmem
  obtain ⟨w, hwm, rfl⟩ := hmem
  have hle := (hwords w hwm).1
  have hb := decoderTable_length_byte d i _ hx
  rw [hd] at hb
  exact ⟨by rw [hb]; exact Nat.mod_eq_of_lt (by omega), hle⟩

set_option maxRecDepth 100000 in
theorem dictionary_word_shape_witness :
    (chainWords.getD 1 emptyWord).symbols.length ≤ 255 ∧
    (chainWords.getD 1 emptyWord).symbols.getD 5 0 = 0 ∧
    (decoderTable chainDict).getD (1 * (3 + 1) + 3) 0 = 14 :=
  ⟨((dictionary_word_shape chainAlphabet 4 0 3 3 (fun _ _ => pickMax) (by decide)).1
      (chainWords.getD 1 emptyWord) (by decide!)).1,
   (((dictionary_word_shape chainAlphabet 4 0 3 3 (fun _ _ => pickMax) (by decide)).1
      (chainWords.getD 1 emptyWord) (by decide!)).2 5 (by decide) (by decide!)).trans
      (by decide!),
   ((dictionary_word_shape chainAlphabet 4 0 3 3 (fun _ _ => pickMax) (by decide)).2
      chainDict rfl (by decide!) 1 (List.replicate 14 0) (by decide)).1.trans (by decide)⟩


/-! ## C20: the total probability of the dictionary -/

set_option maxRecDepth 100000 in
/-- C20 fails for the PMF `[0.6, 0.3, 0.1]` with `K = 3`, `O = 0`, `S = 0`, `maxWordSize = 3`,
`minMarlinSymbols = 2`: the first dictionary sums to `1 + 1e-10`, but the word `[0]` (state 2,
`p = 0.06`) has a state outside `Pstates`, so the state probabilities of the first iteration
sum to `0.94 * (1 + 1e-10)`; the tree of the first iteration then has total probability
`0.940000000194` whatever the queue order, and that is the sum of the dictionary after one
iteration. -/
theorem dictionary_sum_loses_mass :
    lossyAlphabet.marlinSymbols.length = 2 ∧
    ((buildDictionary lossyAlphabet 3 0 3 0 (fun _ _ => pickMax)).map (fun w => w.p)).sum
      = 1 + 1 / 10000000000 ∧
    (buildDictionary lossyAlphabet 3 0 3 0 (fun _ _ => pickMax)).getD 7 emptyWord
      = { symbols := [0], p := 6 / 100 * (1 + 1 / 10000000000), state := 2 } ∧
    updatePstates lossyAlphabet 0 (buildDictionary lossyAlphabet 3 0 3 0 (fun _ _ => pickMax))
      = [[5896 / 10000 * (1 + 1 / 10000000000), 3504 / 10000 * (1 + 1 / 10000000000)]] ∧
    (∀ pick : Nat → Node → List (List Nat) → Nat,
      (buildTree lossyAlphabet 3 3 pick
        [5896 / 10000 * (1 + 1 / 10000000000), 3504 / 10000 * (1 + 1 / 10000000000)]).total
        = 470000000097 / 500000000000) ∧
    ((buildDictionary lossyAlphabet 3 0 3 1 (fun _ _ => pickMax)).map (fun w => w.p)).sum
      = 470000000097 / 500000000000 := by
  refine ⟨by decide!, by decide!, by decide!, by decide!, ?_, by decide!⟩
  intro pick
  rw [buildTree_total]
  decide!


/-! ## Bounds on the value `compress` returns -/

/-- The value of `compress` on the raw-storage branch. -/
theorem compress_raw_value (p : TMarlin) (src : List Nat) (past : Nat) (dst : Mem) (cap : Nat)
    (hcap : src.length ≤ cap) (hnc : constantCount src ≠ src.length)
    (hraw : takesRawPath p src past dst cap = true) :
    (compress p src past dst cap).1 = src.length := by
  have hk : src.length % 8 ≤ src.length := Nat.mod_le _ _
  rw [takesRawPath_eq, marlinResult_eq] at hraw
  rw [compress_eq_aligned p src past dst cap hcap hnc]
  unfold compressAligned
  simp only []
  rw [if_pos hraw]
  simp only [List.length_drop]
  congr 1
  omega

/-- A block shorter than 8 bytes has an empty aligned remainder, and `compress` stores it raw
whatever the Marlin loop returns: `1 + marlinSize + ... > 0`. -/
theorem takesRawPath_short (p : TMarlin) (src : List Nat) (past : Nat) (dst : Mem) (cap : Nat)
    (hlen : src.length < 8) : takesRawPath p src past dst cap = true := by
  rw [takesRawPath_eq]
  have hd : src.drop (src.length % 8) = [] := by
    rw [Nat.mod_eq_of_lt hlen]
    exact List.drop_length src
  rw [hd]
  unfold storeRaw
  simp

/-! ## C27: the encoded size is between 1 and N -/

/-- C27: for a non-empty block of `N` bytes and a destination capacity of at least `N`, the
value `compress` returns lies in `[1, N]`. -/
theorem compress_size_bounds (p : TMarlin) (src : List Nat) (past : Nat) (dst : Mem) (cap : Nat)
    (hne : src ≠ []) (hcap : src.length ≤ cap) :
    1 ≤ (compress p src past dst cap).1 ∧ (compress p src past dst cap).1 ≤ (src.length : Int) := by
  have hpos : 0 < src.length := List.length_pos.mpr hne
  by_cases hc : constantCount src = src.length
  · unfold compress
    rw [if_neg (by omega), if_neg (by omega), if_pos hc]
    exact ⟨le_refl _, by show (1 : Int) ≤ (src.length : Int); exact_mod_cast hpos⟩
  · cases hr : takesRawPath p src past dst cap with
    | true =>
      rw [compress_raw_value p src past dst cap hcap hc hr]
      exact ⟨by exact_mod_cast hpos, le_refl _⟩
    | false =>
      refine ⟨?_, compress_coded_le p src past dst cap hcap hc hr⟩
      rw [compress_coded_eq p src past dst cap hcap hc hr]
      simp only []
      exact_mod_cast (by omega : 1 ≤ src.length % 8 + 1 + (marlinResult p src past dst cap).1.toNat
        + (marlinResult p src past dst cap).2.2.length
          * (1 + offsetWidth (src.drop (src.length % 8)).length)
        + (src.drop (src.length % 8)).length * p.shift / 8)

set_option maxRecDepth 100000 in
theorem compress_size_bounds_witness :
    ([1, 2, 3] : List Nat) ≠ [] ∧
    1 ≤ (compress demoMarlin [1, 2, 3] 0 zeroMem 3).1 ∧
    (compress demoMarlin [1, 2, 3] 0 zeroMem 3).1 ≤ 3 ∧
    (compress demoMarlin demoBlock 0 zeroMem 32).1 = 17 :=
  ⟨by decide,
   (compress_size_bounds demoMarlin [1, 2, 3] 0 zeroMem 3 (by decide) (by decide)).1,
   (compress_size_bounds demoMarlin [1, 2, 3] 0 zeroMem 3 (by decide) (by decide)).2,
   by decide⟩

/-! ## C28: blocks of 2 to 7 bytes -/

/-- C28: a non-constant block of `N` bytes, `2 ≤ N ≤ 7`, into a destination of capacity at
least `N`: whatever byte `past` the Marlin loop reads behind the empty aligned remainder,
`compress` returns `N` and the first `N` destination bytes are the block. -/
theorem compress_short_block (p : TMarlin) (src : List Nat) (past : Nat) (dst : Mem) (cap : Nat)
    (hlo : 2 ≤ src.length) (hhi : src.length ≤ 7) (hcap : src.length ≤ cap)
    (hnc : constantCount src ≠ src.length) :
    (compress p src past dst cap).1 = src.length ∧
      readBytes (compress p src past dst cap).2 0 src.length = src := by
  refine ⟨compress_raw_value p src past dst cap hcap hnc
    (takesRawPath_short p src past dst cap (by omega)), ?_⟩
  apply readBytes_eq
  intro i hi
  rw [Nat.zero_add]
  exact compress_padding_bytes p src past dst cap hcap hnc i
    (by rw [Nat.mod_eq_of_lt (by omega : src.length < 8)]; exact hi)

set_option maxRecDepth 100000 in
theorem compress_short_block_witness :
    (compress demoMarlin [7, 9, 7] 0x94 (fun _ => 0xAA) 3).1 = 3 ∧
    readBytes (compress demoMarlin [7, 9, 7] 0x94 (fun _ => 0xAA) 3).2 0 3 = [7, 9, 7] ∧
    (compress demoMarlin [7, 9, 7] 0x10 (fun _ => 0xAA) 3).1 = 3 ∧
    (compress demoMarlin [7, 9, 7] 0x94 (fun _ => 0xAA) 3).2 3 = 0 ∧
    (compress demoMarlin [7, 9, 7] 0x10 (fun _ => 0xAA) 3).2 4 = 0x10 :=
  ⟨(compress_short_block demoMarlin [7, 9, 7] 0x94 (fun _ => 0xAA) 3 (by decide) (by decide)
      (by decide) (by decide)).1,
   (compress_short_block demoMarlin [7, 9, 7] 0x94 (fun _ => 0xAA) 3 (by decide) (by decide)
      (by decide) (by decide)).2,
   (compress_short_block demoMarlin [7, 9, 7] 0x10 (fun _ => 0xAA) 3 (by decide) (by decide)
      (by decide) (by decide)).1,
   by decide, by decide⟩


/-! ## What the codeword stream depends on -/

theorem classify_fst (p : TMarlin) (ss inPos : Nat) (rare : List Nat) :
    (classify p ss inPos rare).1 = marlinSymbol p ss := by
  unfold marlinSymbol classify
  split <;> rfl

theorem classify_congr (p : TMarlin) (a b inPos : Nat) (rare : List Nat)
    (h : a >>> p.shift = b >>> p.shift) : classify p a inPos rare = classify p b inPos rare := by
  unfold classify
  rw [h]

theorem compressMarlin8Loop_congr (p : TMarlin) (dstStart : Nat) (dstEnd : Int)
    (src1 src2 : List Nat) (h : src1.map (fun x => x >>> p.shift) = src2.map (fun x => x >>> p.shift))
    (inPos out j : Nat) (mem : Mem) (rare : List Nat) :
    compressMarlin8Loop p dstStart dstEnd src1 inPos out j mem rare
      = compressMarlin8Loop p dstStart dstEnd src2 inPos out j mem rare := by
  induction src1 generalizing src2 inPos out j mem rare with
  | nil =>
    cases src2 with
    | nil => rfl
    | cons b bs => simp at h
  | cons a as ih =>
    cases src2 with
    | nil => simp at h
    | cons b bs =>
      simp only [List.map_cons, List.cons.injEq] at h
      simp only [compressMarlin8Loop]
      rw [classify_congr p a b inPos rare h.1]
      split_ifs <;> first | rfl | exact ih bs h.2 _ _ _ _ _

theorem compressMarlin8Loop_symbols (p : TMarlin) (dstStart : Nat) (dstEnd : Int)
    (src1 src2 : List Nat) (h : src1.map (marlinSymbol p) = src2.map (marlinSymbol p))
    (inPos1 inPos2 out j : Nat) (mem : Mem) (rare1 rare2 : List Nat) :
    (compressMarlin8Loop p dstStart dstEnd src1 inPos1 out j mem rare1).1
        = (compressMarlin8Loop p dstStart dstEnd src2 inPos2 out j mem rare2).1 ∧
      (compressMarlin8Loop p dstStart dstEnd src1 inPos1 out j mem rare1).2.1
        = (compressMarlin8Loop p dstStart dstEnd src2 inPos2 out j mem rare2).2.1 := by
  induction src1 generalizing src2 inPos1 inPos2 out j mem rare1 rare2 with
  | nil =>
    cases src2 with
    | nil => exact ⟨rfl, rfl⟩
    | cons b bs => simp at h
  | cons a as ih =>
    cases src2 with
    | nil => simp at h
    | cons b bs =>
      simp only [List.map_cons, List.cons.injEq] at h
      simp only [compressMarlin8Loop]
      rw [classify_fst p a, classify_fst p b, h.1]
      split_ifs <;> first | exact ⟨rfl, rfl⟩ | exact ih bs h.2 _ _ _ _ _ _ _

/-! ## C29: the low bits of the source do not reach the codeword stream -/

/-- C29: two blocks whose bytes agree after `>> shift` at every position give the same result
of `compressMarlin8` (return value, memory, recorded rare offsets); two blocks with the same
sequence of Marlin symbols, every unrepresented symbol counted as symbol 0, give the same
return value and the same memory. -/
theorem compressMarlin8_depends_on_symbols (p : TMarlin) (src1 src2 : List Nat) (past : Nat)
    (mem : Mem) (dstStart : Nat) (dstEnd : Int) (rare : List Nat) :
    (src1.map (fun x => x >>> p.shift) = src2.map (fun x => x >>> p.shift) →
      compressMarlin8 p src1 past mem dstStart dstEnd rare
        = compressMarlin8 p src2 past mem dstStart dstEnd rare) ∧
    (src1.map (marlinSymbol p) = src2.map (marlinSymbol p) →
      (compressMarlin8 p src1 past mem dstStart dstEnd rare).1
          = (compressMarlin8 p src2 past mem dstStart dstEnd rare).1 ∧
        (compressMarlin8 p src1 past mem dstStart dstEnd rare).2.1
          = (compressMarlin8 p src2 past mem dstStart dstEnd rare).2.1) := by
  constructor
  · intro h
    unfold compressMarlin8
    cases src1 with
    | nil =>
      cases src2 with
      | nil => rfl
      | cons b bs => simp at h
    | cons a as =>
      cases src2 with
      | nil => simp at h
      | cons b bs =>
        simp only [List.map_cons, List.cons.injEq] at h
        simp only [List.headD_cons, List.tail_cons]
        rw [classify_congr p a b 0 rare h.1]
        exact compressMarlin8Loop_congr p dstStart dstEnd as bs h.2 _ _ _ _ _
  · intro h
    unfold compressMarlin8
    cases src1 with
    | nil =>
      cases src2 with
      | nil => exact ⟨rfl, rfl⟩
      | cons b bs => simp at h
    | cons a as =>
      cases src2 with
      | nil => simp at h
      | cons b bs =>
        simp only [List.map_cons, List.cons.injEq] at h
        simp only [List.headD_cons, List.tail_cons]
        rw [classify_fst p a, classify_fst p b, h.1]
        exact compressMarlin8Loop_symbols p dstStart dstEnd as bs h.2 _ _ _ _ _ _ _

set_option maxRecDepth 100000 in
theorem compressMarlin8_depends_on_symbols_witness :
    compressMarlin8 demoMarlin [0x13, 0x05, 0x2A, 0x94] 0 zeroMem 0 64 []
        = compressMarlin8 demoMarlin [0x1F, 0x00, 0x21, 0x9C] 0 zeroMem 0 64 [] ∧
    (compressMarlin8 demoMarlin [0x13, 0x05, 0x2A, 0x94] 0 zeroMem 0 64 []).2.2 = [3] ∧
    (compressMarlin8 demoMarlin [0x13, 0x05, 0x2A, 0x94] 0 zeroMem 0 64 []).1
        = (compressMarlin8 demoMarlin [0x13, 0x05, 0x2A, 0x04] 0 zeroMem 0 64 []).1 ∧
    (compressMarlin8 demoMarlin [0x13, 0x05, 0x2A, 0x04] 0 zeroMem 0 64 []).2.2 = [] :=
  ⟨(compressMarlin8_depends_on_symbols demoMarlin [0x13, 0x05, 0x2A, 0x94]
      [0x1F, 0x00, 0x21, 0x9C] 0 zeroMem 0 64 []).1 (by decide),
   by decide,
   ((compressMarlin8_depends_on_symbols demoMarlin [0x13, 0x05, 0x2A, 0x94]
      [0x13, 0x05, 0x2A, 0x04] 0 zeroMem 0 64 []).2 (by decide)).1,
   by decide⟩

/-! ## The state the encoder loops start in -/

theorem find?_range'_least (f : Nat → Bool) (n s i : Nat) (hs : s ≤ i) (hi : i < s + n)
    (hf : f i = true) :
    ∃ m, (List.range' s n).find? f = some m ∧ m ≤ i ∧ f m = true := by
  induction n generalizing s with
  | zero => omega
  | succ n ih =>
    rw [List.range'_succ, List.find?_cons]
    cases hfs : f s with
    | true => exact ⟨s, rfl, hs, hfs⟩
    | false =>
      have hne : s ≠ i := by
        intro h; rw [h, hf] at hfs; cases hfs
      exact ih (s + 1) (by omega) (by omega)

theorem find?_range_least (f : Nat → Bool) (n i : Nat) (hi : i < n) (hf : f i = true) :
    ∃ m, (List.range n).find? f = some m ∧ m ≤ i ∧ f m = true := by
  rw [List.range_eq_range']
  exact find?_range'_least f n 0 i (Nat.zero_le _) (by omega) hf

theorem initialWord_spec (p : TMarlin) (ms i : Nat) (hi : i < 2 ^ p.K)
    (hw : p.words.getD i [] = [ms]) :
    initialWord p ms ≤ i ∧ p.words.getD (initialWord p ms) [] = [ms] := by
  unfold initialWord
  obtain ⟨m, hm, hle, hfm⟩ := find?_range_least
    (fun i => (p.words.getD i []).length == 1 && (p.words.getD i []).head? == some ms)
    (1 <<< p.K) i (by rw [Nat.one_shiftLeft]; exact hi) (by simp only [hw]; simp)
  rw [hm]
  refine ⟨hle, ?_⟩
  simp only [Option.getD_some]
  simp only [Bool.and_eq_true, beq_iff_eq] at hfm
  cases hx : p.words.getD m [] with
  | nil => rw [hx] at hfm; simp at hfm
  | cons a as =>
    rw [hx] at hfm
    simp only [List.length_cons, Nat.add_left_eq_self, List.length_eq_zero, List.head?_cons,
      Option.some.injEq] at hfm
    rw [hfm.1, hfm.2]

theorem initialWord_absent (p : TMarlin) (ms : Nat)
    (h : ∀ i, i < 2 ^ p.K → p.words.getD i [] ≠ [ms]) : initialWord p ms = 0 := by
  unfold initialWord
  cases hfind : (List.range (1 <<< p.K)).find?
      (fun i => (p.words.getD i []).length == 1 && (p.words.getD i []).head? == some ms) with
  | none => rfl
  | some m =>
    exfalso
    have hm := List.mem_of_find?_eq_some hfind
    rw [List.mem_range, Nat.one_shiftLeft] at hm
    have hfm := List.find?_some hfind
    simp only [Bool.and_eq_true, beq_iff_eq] at hfm
    apply h m hm
    cases hx : p.words.getD m [] with
    | nil => rw [hx] at hfm; simp at hfm
    | cons a as =>
      rw [hx] at hfm
      simp only [List.length_cons, Nat.add_left_eq_self, List.length_eq_zero, List.head?_cons,
        Option.some.injEq] at hfm
      rw [hfm.1, hfm.2]

theorem chapter_indices_sorted (s n : Nat) :
    ((List.range n).map (fun i => s + i)).Pairwise (fun a b => a < b) := by
  rw [List.pairwise_map]
  exact (List.pairwise_lt_range n).imp (by intro a b h; omega)

/-- The map lookup `positions[k][w]` is the last index of chapter `k` holding `w`. -/
theorem position_spec (p : TMarlin) (k : Nat) (w : List Nat) (i : Nat)
    (h : position p k w = some i) :
    p.words.getD i [] = w ∧
      ∀ i2, i < i2 → i2 < (k + 1) * 2 ^ p.K → p.words.getD i2 [] ≠ w := by
  unfold position at h
  rw [List.find?_eq_some] at h
  obtain ⟨hw, as, bs, hab, hall⟩ := h
  refine ⟨by simpa using hw, ?_⟩
  intro i2 hlt hub hw2
  have hL : (List.range (1 <<< p.K)).map (fun i => k * (1 <<< p.K) + i)
      = bs.reverse ++ i :: as.reverse := by
    have := congrArg List.reverse hab
    rw [List.reverse_reverse] at this
    rw [this]; simp
  have hsorted := chapter_indices_sorted (k * (1 <<< p.K)) (1 <<< p.K)
  rw [hL] at hsorted
  have hmem : i2 ∈ (List.range (1 <<< p.K)).map (fun i => k * (1 <<< p.K) + i) := by
    rw [List.mem_map]
    have hlb : k * 2 ^ p.K ≤ i := by
      have hi : i ∈ (List.range (1 <<< p.K)).map (fun i => k * (1 <<< p.K) + i) := by
        rw [hL]; simp
      rw [List.mem_map] at hi
      obtain ⟨a, _, rfl⟩ := hi
      rw [Nat.one_shiftLeft]; omega
    refine ⟨i2 - k * 2 ^ p.K, ?_, ?_⟩
    · rw [List.mem_range, Nat.one_shiftLeft]
      rw [Nat.succ_mul] at hub
      omega
    · rw [Nat.one_shiftLeft]; omega
  rw [hL, List.mem_append, List.mem_cons] at hmem
  rw [List.pairwise_append] at hsorted
  rcases hmem with hm | hm | hm
  · have := hsorted.2.2 i2 hm i (List.mem_cons_self _ _)
    omega
  · omega
  · have := hall i2 (List.mem_reverse.mp hm)
    rw [hw2] at this
    simp at this

theorem position_none (p : TMarlin) (k : Nat) (w : List Nat) (h : position p k w = none) :
    ∀ i, i < 2 ^ p.K → p.words.getD (k * 2 ^ p.K + i) [] ≠ w := by
  intro i hi hw
  obtain ⟨idx, hidx⟩ := position_of_present p k w ⟨i, hi, hw⟩
  rw [h] at hidx
  cases hidx

/-- A word that occurs once in a chapter has that index as its position. -/
theorem position_unique (p : TMarlin) (k : Nat) (w : List Nat) (i : Nat)
    (hi : i < 2 ^ p.K) (hw : p.words.getD (k * 2 ^ p.K + i) [] = w)
    (huniq : ∀ i2, i2 < 2 ^ p.K → p.words.getD (k * 2 ^ p.K + i2) [] = w → i2 = i) :
    position p k w = some (k * 2 ^ p.K + i) := by
  obtain ⟨idx, hidx⟩ := position_of_present p k w ⟨i, hi, hw⟩
  have hb := position_bound p k w idx hidx
  have hs := (position_spec p k w idx hidx).1
  have : idx - k * 2 ^ p.K = i := by
    apply huniq
    · rw [Nat.succ_mul] at hb; omega
    · rw [show k * 2 ^ p.K + (idx - k * 2 ^ p.K) = idx by omega]; exact hs
  rw [hidx]
  congr 1
  omega

/-! ## C26: the state the encoder starts in -/

set_option maxRecDepth 100000 in
/-- C26 (as stated) fails: for the one-byte block `[0x10]` (Marlin symbol 1) the loops of
`compressMarlin8` and `compressMarlinFast` start in state 1, the position of the word `[1]`,
not in state 0, the position of `[MS 0]`, and the stream is the codeword 1 (the byte `0x10`
in the bit-packed variant, `K = 4`); a machine that starts at the position of `[MS 0]` and
feeds every byte through the table ends in state 9, the word `[0, 1]`. -/
theorem encoder_start_state_not_ms0 :
    specStartState demoMarlin = 0 ∧
    initialWord demoMarlin (marlinSymbol demoMarlin 0x10) = 1 ∧
    (compressMarlin8 demoMarlin [0x10] 0 zeroMem 0 64 []).1 = 1 ∧
    (compressMarlin8 demoMarlin [0x10] 0 zeroMem 0 64 []).2.1 0 = 1 ∧
    (compressMarlinFast demoMarlin [0x10] 0 zeroMem 0 64 []).1 = 1 ∧
    (compressMarlinFast demoMarlin [0x10] 0 zeroMem 0 64 []).2.1 0 = 0x10 ∧
    (specByteAligned demoMarlin [0x10] zeroMem 0 64 []).1 = 1 ∧
    (specByteAligned demoMarlin [0x10] zeroMem 0 64 []).2.1 0 = 9 ∧
    demoMarlin.words.getD 9 [] = [0, 1] := by
  refine ⟨by decide, by decide, by decide, by decide, by decide, by decide, by decide,
    by decide, by decide⟩

/-- C26 (amended): the first input byte is consumed by a search, not by a transition. With
`ms` the Marlin symbol of the first byte (0 for an unrepresented byte), `compressMarlin8` and
`compressMarlinFast` run their loops over the remaining bytes from the state `initialWord p ms`:
the least index of chapter 0 whose word is `[ms]`, and 0 when chapter 0 has no such word;
when `[ms]` occurs once in chapter 0 this is its position. -/
theorem encoder_start_state (p : TMarlin) (src : List Nat) (past : Nat) (mem : Mem)
    (dstStart : Nat) (dstEnd : Int) (rare : List Nat) :
    compressMarlin8 p src past mem dstStart dstEnd rare
      = compressMarlin8Loop p dstStart dstEnd src.tail 1 dstStart
          (initialWord p (marlinSymbol p (src.headD past))) mem
          (classify p (src.headD past) 0 rare).2 ∧
    compressMarlinFast p src past mem dstStart dstEnd rare
      = compressMarlinFastLoop p dstStart dstEnd src.tail 1 dstStart
          (initialWord p (marlinSymbol p (src.headD past))) 0 0 mem
          (classify p (src.headD past) 0 rare).2 ∧
    (∀ ms i, i < 2 ^ p.K → p.words.getD i [] = [ms] →
      initialWord p ms ≤ i ∧ p.words.getD (initialWord p ms) [] = [ms]) ∧
    (∀ ms, (∀ i, i < 2 ^ p.K → p.words.getD i [] ≠ [ms]) → initialWord p ms = 0) ∧
    (∀ ms i, i < 2 ^ p.K → p.words.getD i [] = [ms] →
      (∀ i2, i2 < 2 ^ p.K → p.words.getD i2 [] = [ms] → i2 = i) →
      initialWord p ms = i ∧ position p 0 [ms] = some i) := by
  refine ⟨?_, ?_, ?_, ?_, ?_⟩
  · unfold compressMarlin8
    simp only [classify_fst]
  · unfold compressMarlinFast
    simp only [classify_fst]
  · intro ms i hi hw
    exact initialWord_spec p ms i hi hw
  · intro ms h
    exact initialWord_absent p ms h
  · intro ms i hi hw huniq
    have h1 := initialWord_spec p ms i hi hw
    have h2 : initialWord p ms = i := huniq _ (by omega) h1.2
    refine ⟨h2, ?_⟩
    have := position_unique p 0 [ms] i hi (by rw [Nat.zero_mul, Nat.zero_add]; exact hw)
      (by
        intro i2 hi2 hw2
        rw [Nat.zero_mul, Nat.zero_add] at hw2
        exact huniq i2 hi2 hw2)
    rw [Nat.zero_mul, Nat.zero_add] at this
    exact this

set_option maxRecDepth 100000 in
theorem encoder_start_state_witness :
    initialWord demoMarlin 3 = 3 ∧ position demoMarlin 0 [3] = some 3 ∧
    (compressMarlin8 demoMarlin [0x30, 0x00] 0 zeroMem 0 64 []).1
      = (compressMarlin8Loop demoMarlin 0 64 [0x00] 1 0 3 zeroMem []).1 :=
  ⟨((encoder_start_state demoMarlin [0x30, 0x00] 0 zeroMem 0 64 []).2.2.2.2 3 3
      (by decide) (by decide) (by decide)).1,
   ((encoder_start_state demoMarlin [0x30, 0x00] 0 zeroMem 0 64 []).2.2.2.2 3 3
      (by decide) (by decide) (by decide)).2,
   (congrArg Prod.fst (encoder_start_state demoMarlin [0x30, 0x00] 0 zeroMem 0 64 []).1).trans
     (by decide)⟩

/-! ## The grouping loop computes the group sums -/

theorem mapAdd_of_lt (L : List (Nat × ℚ)) (k : Nat) (v : ℚ) (h : ∀ e, e ∈ L → k < e.1) :
    mapAdd L k v = (k, 0 + v) :: L := by
  cases L with
  | nil => rfl
  | cons e rest =>
    simp only [mapAdd]
    rw [if_pos (h e (List.mem_cons_self _ _))]

theorem groupTable_keys (ks : List Nat) (syms : List (Nat × ℚ)) (shift : Nat) (e : Nat × ℚ)
    (he : e ∈ ks.filterMap (fun g =>
      if syms.any (fun s => s.1 >>> shift == g) then
        some (g, ((syms.filter (fun s => s.1 >>> shift == g)).map Prod.snd).sum)
      else none)) : e.1 ∈ ks := by
  rw [List.mem_filterMap] at he
  obtain ⟨g, hg, hcase⟩ := he
  split at hcase
  · simp only [Option.some.injEq] at hcase
    rw [← hcase]; exact hg
  · cases hcase

theorem groupTable_other (ks : List Nat) (pre : List (Nat × ℚ)) (shift x : Nat) (v : ℚ)
    (h : x >>> shift ∉ ks) :
    ks.filterMap (fun g =>
      if (pre ++ [(x, v)]).any (fun s => s.1 >>> shift == g) then
        some (g, (((pre ++ [(x, v)]).filter (fun s => s.1 >>> shift == g)).map Prod.snd).sum)
      else none)
    = ks.filterMap (fun g =>
      if pre.any (fun s => s.1 >>> shift == g) then
        some (g, ((pre.filter (fun s => s.1 >>> shift == g)).map Prod.snd).sum)
      else none) := by
  induction ks with
  | nil => rfl
  | cons k ks ih =>
    have hk : (x >>> shift == k) = false := by
      rw [beq_eq_false_iff_ne]
      intro hx; apply h; rw [hx]; exact List.mem_cons_self _ _
    have hks : x >>> shift ∉ ks := fun hm => h (List.mem_cons_of_mem _ hm)
    rw [List.filterMap_cons, List.filterMap_cons, ih hks]
    simp only [List.any_append, List.any_cons, List.any_nil, hk, Bool.or_false,
      List.filter_append, List.filter_cons, List.filter_nil, List.append_nil]
    simp

theorem groupTable_step (ks : List Nat) (hs : ks.Pairwise (fun a b => a < b))
    (pre : List (Nat × ℚ)) (shift x : Nat) (v : ℚ) (hx : x >>> shift ∈ ks) :
    mapAdd (ks.filterMap (fun g =>
      if pre.any (fun s => s.1 >>> shift == g) then
        some (g, ((pre.filter (fun s => s.1 >>> shift == g)).map Prod.snd).sum)
      else none)) (x >>> shift) v
    = ks.filterMap (fun g =>
      if (pre ++ [(x, v)]).any (fun s => s.1 >>> shift == g) then
        some (g, (((pre ++ [(x, v)]).filter (fun s => s.1 >>> shift == g)).map Prod.snd).sum)
      else none) := by
  induction ks with
  | nil => simp at hx
  | cons k ks ih =>
    rw [List.pairwise_cons] at hs
    by_cases hk : x >>> shift = k
    · have hnot : x >>> shift ∉ ks := by
        intro hm
        have := hs.1 _ hm
        omega
      rw [List.filterMap_cons, List.filterMap_cons, groupTable_other ks pre shift x v hnot]
      have hany : (pre ++ [(x, v)]).any (fun s => s.1 >>> shift == k) = true := by
        simp [hk]
      rw [if_pos hany]
      have hsum : (((pre ++ [(x, v)]).filter (fun s => s.1 >>> shift == k)).map Prod.snd).sum
          = ((pre.filter (fun s => s.1 >>> shift == k)).map Prod.snd).sum + v := by
        simp [List.filter_append, hk]
      rw [hsum, hk]
      by_cases hp : pre.any (fun s => s.1 >>> shift == k) = true
      · rw [if_pos hp]
        simp only [mapAdd]
        rw [if_neg (Nat.lt_irrefl _)]
        simp
      · rw [if_neg hp]
        rw [mapAdd_of_lt _ _ _ (by
          intro e he
          exact hs.1 _ (groupTable_keys ks pre shift e he))]
        have hz : ((pre.filter (fun s => s.1 >>> shift == k)).map Prod.snd).sum = 0 := by
          have : pre.filter (fun s => s.1 >>> shift == k) = [] := by
            rw [List.filter_eq_nil_iff]
            intro a ha hak
            apply hp
            rw [List.any_eq_true]
            exact ⟨a, ha, hak⟩
          rw [this]; rfl
        rw [hz]
    · have hmem : x >>> shift ∈ ks := by
        rcases List.mem_cons.mp hx with h | h
        · exact absurd h hk
        · exact h
      have hlt : k < x >>> shift := hs.1 _ hmem
      have hkb : (x >>> shift == k) = false := by
        rw [beq_eq_false_iff_ne]; exact hk
      rw [List.filterMap_cons, List.filterMap_cons, ← ih hs.2 hmem]
      have hany : (pre ++ [(x, v)]).any (fun s => s.1 >>> shift == k)
          = pre.any (fun s => s.1 >>> shift == k) := by
        simp [hkb]
      have hfil : (pre ++ [(x, v)]).filter (fun s => s.1 >>> shift == k)
          = pre.filter (fun s => s.1 >>> shift == k) := by
        simp [List.filter_append, hkb]
      rw [hany, hfil]
      by_cases hp : pre.any (fun s => s.1 >>> shift == k) = true
      · rw [if_pos hp]
        simp only [mapAdd]
        rw [if_neg (by omega), if_neg (by omega)]
      · rw [if_neg hp]

/-- The grouping loop leaves in `symbolsShifted`, in key order, one entry for every group of
the PMF, holding the sum of the probabilities of the group. -/
theorem symbolsShiftedLoop_eq (symbols : List (Nat × ℚ)) (shift : Nat)
    (hkeys : ∀ s, s ∈ symbols → s.1 < 256) :
    symbolsShiftedLoop symbols shift = symbolsShifted symbols shift := by
  unfold symbolsShiftedLoop symbolsShifted
  induction symbols using List.reverseRecOn with
  | nil => simp
  | append_singleton pre s ih =>
    have hpre : ∀ s, s ∈ pre → s.1 < 256 := fun a ha => hkeys a (List.mem_append_left _ ha)
    have hs : s.1 < 256 := hkeys s (List.mem_append_right _ (List.mem_singleton_self _))
    have hg : s.1 >>> shift < 256 := lt_of_le_of_lt (by rw [Nat.shiftRight_eq_div_pow]; exact Nat.div_le_self _ _) hs
    rw [List.foldl_append, List.foldl_cons, List.foldl_nil, ih hpre, Nat.mod_eq_of_lt hg]
    exact groupTable_step (List.range 256) (List.pairwise_lt_range 256) pre shift s.1 s.2
      (List.mem_range.mpr hg)

theorem mem_symbolsShifted (symbols : List (Nat × ℚ)) (shift : Nat) (e : Nat × ℚ)
    (he : e ∈ symbolsShifted symbols shift) :
    e.1 < 256 ∧ (∃ s, s ∈ symbols ∧ s.1 >>> shift = e.1) ∧
      e.2 = ((symbols.filter (fun s => s.1 >>> shift == e.1)).map Prod.snd).sum := by
  unfold symbolsShifted at he
  rw [List.mem_filterMap] at he
  obtain ⟨g, hg, hcase⟩ := he
  split at hcase
  · next hany =>
    simp only [Option.some.injEq] at hcase
    rw [← hcase]
    rw [List.any_eq_true] at hany
    obtain ⟨s, hs, hsg⟩ := hany
    exact ⟨List.mem_range.mp hg, ⟨s, hs, by simpa using hsg⟩, rfl⟩
  · cases hcase

theorem symbolsShifted_complete (symbols : List (Nat × ℚ)) (shift : Nat) (s : Nat × ℚ)
    (hs : s ∈ symbols) (hlt : s.1 < 256) :
    ∃ e, e ∈ symbolsShifted symbols shift ∧ e.1 = s.1 >>> shift := by
  have hg : s.1 >>> shift < 256 :=
    lt_of_le_of_lt (by rw [Nat.shiftRight_eq_div_pow]; exact Nat.div_le_self _ _) hlt
  refine ⟨(s.1 >>> shift,
    ((symbols.filter (fun t => t.1 >>> shift == s.1 >>> shift)).map Prod.snd).sum), ?_, rfl⟩
  unfold symbolsShifted
  rw [List.mem_filterMap]
  refine ⟨s.1 >>> shift, List.mem_range.mpr hg, ?_⟩
  rw [if_pos]
  rw [List.any_eq_true]
  exact ⟨s, hs, by simp⟩

theorem symbolsShifted_keys_nodup (symbols : List (Nat × ℚ)) (shift : Nat) :
    ((symbolsShifted symbols shift).map Prod.fst).Nodup := by
  have hsub : List.Sublist ((symbolsShifted symbols shift).map Prod.fst) (List.range 256) := by
    unfold symbolsShifted
    generalize List.range 256 = L
    induction L with
    | nil => exact List.Sublist.slnil
    | cons g L ih =>
      rw [List.filterMap_cons]
      by_cases hany : symbols.any (fun s => s.1 >>> shift == g) = true
      · simp only [hany, if_true, List.map_cons]
        exact List.Sublist.cons₂ _ ih
      · simp only [hany, if_false]
        exact List.Sublist.cons _ ih
  exact hsub.nodup (List.nodup_range 256)

/-- A group key shifted back is the first source symbol of its group. -/
theorem group_representative (x shift : Nat) (hx : x < 256) :
    ((x >>> shift) <<< shift) % 256 = (x >>> shift) * 2 ^ shift ∧
      (((x >>> shift) <<< shift) % 256) >>> shift = x >>> shift ∧
      (((x >>> shift) <<< shift) % 256) % 2 ^ shift = 0 := by
  have hle : (x >>> shift) * 2 ^ shift ≤ x := by
    rw [Nat.shiftRight_eq_div_pow]; exact Nat.div_mul_le_self _ _
  have h1 : ((x >>> shift) <<< shift) % 256 = (x >>> shift) * 2 ^ shift := by
    rw [Nat.shiftLeft_eq]; exact Nat.mod_eq_of_lt (by omega)
  refine ⟨h1, ?_, ?_⟩
  · rw [h1, Nat.shiftRight_eq_div_pow ((x >>> shift) * 2 ^ shift),
      Nat.mul_div_cancel _ (Nat.two_pow_pos _)]
  · rw [h1]; exact Nat.mul_mod_left _ _

theorem mem_groupedSymbols (symbols : List (Nat × ℚ)) (shift : Nat)
    (hkeys : ∀ s, s ∈ symbols → s.1 < 256) (e : SymbolAndProbability)
    (he : e ∈ groupedSymbols symbols shift) :
    e.sourceSymbol % 2 ^ shift = 0 ∧
      (∃ s, s ∈ symbols ∧ s.1 >>> shift = e.sourceSymbol >>> shift) ∧
      e.p = ((symbols.filter
        (fun s => s.1 >>> shift == e.sourceSymbol >>> shift)).map Prod.snd).sum := by
  unfold groupedSymbols at he
  rw [List.mem_map] at he
  obtain ⟨a, ha, rfl⟩ := he
  obtain ⟨_, ⟨s, hs, hsg⟩, hsum⟩ := mem_symbolsShifted symbols shift a ha
  have hrep := group_representative s.1 shift (hkeys s hs)
  rw [hsg] at hrep
  refine ⟨hrep.2.2, ⟨s, hs, ?_⟩, ?_⟩
  · show s.1 >>> shift = ((a.1 <<< shift) % 256) >>> shift
    rw [hrep.2.1, hsg]
  · show a.2 = ((symbols.filter
      (fun s => s.1 >>> shift == ((a.1 <<< shift) % 256) >>> shift)).map Prod.snd).sum
    rw [hrep.2.1]; exact hsum

theorem groupedSymbols_groups_nodup (symbols : List (Nat × ℚ)) (shift : Nat)
    (hkeys : ∀ s, s ∈ symbols → s.1 < 256) :
    ((groupedSymbols symbols shift).map (fun e => e.sourceSymbol >>> shift)).Nodup := by
  have h : (groupedSymbols symbols shift).map (fun e => e.sourceSymbol >>> shift)
      = (symbolsShifted symbols shift).map Prod.fst := by
    unfold groupedSymbols
    rw [List.map_map]
    apply List.map_congr_left
    intro a ha
    obtain ⟨_, ⟨s, hs, hsg⟩, _⟩ := mem_symbolsShifted symbols shift a ha
    have hrep := group_representative s.1 shift (hkeys s hs)
    rw [hsg] at hrep
    exact hrep.2.1
  rw [h]
  exact symbolsShifted_keys_nodup symbols shift

/-! ## C30: the alphabet groups source symbols by their high bits -/

/-- C30: for a PMF over byte symbols and a shift `S`, the vector `marlinSymbols` before sorting
is the map filled by the grouping loop, key `g` emitted as `SourceSymbol(g << S)`; every
source symbol of the PMF has an entry for its group `symbol >> S`; every entry, before
trimming, belongs to a group of the PMF and holds the sum of the PMF over that group; every
kept entry is one of these entries, its `sourceSymbol` has the low `S` bits zero, and no two
kept entries have the same `sourceSymbol >> S`. -/
theorem alphabet_groups (symbols : List (Nat × ℚ)) (shift : Nat) (mn mx pg : ℚ)
    (hkeys : ∀ s, s ∈ symbols → s.1 < 256) :
    groupedSymbols symbols shift
        = (symbolsShiftedLoop symbols shift).map (fun e => ⟨(e.1 <<< shift) % 256, e.2⟩) ∧
      (∀ s, s ∈ symbols →
        ∃ e, e ∈ groupedSymbols symbols shift ∧ e.sourceSymbol >>> shift = s.1 >>> shift) ∧
      (∀ e, e ∈ groupedSymbols symbols shift →
        (∃ s, s ∈ symbols ∧ s.1 >>> shift = e.sourceSymbol >>> shift) ∧
        e.p = ((symbols.filter
          (fun s => s.1 >>> shift == e.sourceSymbol >>> shift)).map Prod.snd).sum) ∧
      (∀ e, e ∈ (mkAlphabet symbols shift mn mx pg).marlinSymbols →
        e ∈ groupedSymbols symbols shift ∧ e.sourceSymbol % 2 ^ shift = 0) ∧
      ((mkAlphabet symbols shift mn mx pg).marlinSymbols.map
        (fun e => e.sourceSymbol >>> shift)).Nodup := by
  obtain ⟨removed, hsplit, _⟩ := mkAlphabet_split symbols shift mn mx pg
  have hperm : List.Perm ((mkAlphabet symbols shift mn mx pg).marlinSymbols ++ removed)
      (groupedSymbols symbols shift) := by
    rw [hsplit]; exact sortSymbols_perm _
  refine ⟨?_, ?_, ?_, ?_, ?_⟩
  · rw [symbolsShiftedLoop_eq symbols shift hkeys]; rfl
  · intro s hs
    obtain ⟨a, ha, hag⟩ := symbolsShifted_complete symbols shift s hs (hkeys s hs)
    refine ⟨⟨(a.1 <<< shift) % 256, a.2⟩, ?_, ?_⟩
    · unfold groupedSymbols
      exact List.mem_map.mpr ⟨a, ha, rfl⟩
    · show ((a.1 <<< shift) % 256) >>> shift = s.1 >>> shift
      rw [hag]
      exact (group_representative s.1 shift (hkeys s hs)).2.1
  · intro e he
    exact (mem_groupedSymbols symbols shift hkeys e he).2
  · intro e he
    have hmem : e ∈ groupedSymbols symbols shift :=
      hperm.subset (List.mem_append_left _ he)
    exact ⟨hmem, (mem_groupedSymbols symbols shift hkeys e hmem).1⟩
  · have hnd := groupedSymbols_groups_nodup symbols shift hkeys
    have hp2 := (hperm.map (fun e => e.sourceSymbol >>> shift)).nodup_iff.mpr hnd
    rw [List.map_append] at hp2
    exact (List.nodup_append.mp hp2).1

set_option maxRecDepth 100000 in
theorem alphabet_groups_witness :
    groupedSymbols [(0x00, 1 / 2), (0x01, 1 / 4), (0x10, 1 / 8), (0x1F, 1 / 8)] 4
        = [⟨0x00, 3 / 4⟩, ⟨0x10, 1 / 4⟩] ∧
      symbolsShiftedLoop [(0x00, 1 / 2), (0x01, 1 / 4), (0x10, 1 / 8), (0x1F, 1 / 8)] 4
        = [(0, 3 / 4), (1, 1 / 4)] ∧
      (mkAlphabet [(0x00, 1 / 2), (0x01, 1 / 4), (0x10, 1 / 8), (0x1F, 1 / 8)] 4 8 255
        (1 / 100000)).marlinSymbols = [⟨0x00, 3 / 4⟩, ⟨0x10, 1 / 4⟩] ∧
      ((mkAlphabet [(0x00, 1 / 2), (0x01, 1 / 4), (0x10, 1 / 8), (0x1F, 1 / 8)] 4 8 255
        (1 / 100000)).marlinSymbols.map (fun e => e.sourceSymbol >>> 4)).Nodup :=
  ⟨(alphabet_groups [(0x00, 1 / 2), (0x01, 1 / 4), (0x10, 1 / 8), (0x1F, 1 / 8)] 4 8 255
      (1 / 100000) (by simp)).1.trans (by decide!),
   by decide!, by decide!,
   (alphabet_groups [(0x00, 1 / 2), (0x01, 1 / 4), (0x10, 1 / 8), (0x1F, 1 / 8)] 4 8 255
      (1 / 100000) (by simp)).2.2.2.2⟩

/-! ## `buildCompressorTable`: the cells and the order of the loops -/

theorem buildCompressorTable_eq (p : TMarlin) :
    buildCompressorTable p
      = (linkedTable p).map (fun t => (allIndices p).foldl (fun t ki => fallbackRow p ki.2 t) t) :=
  rfl

theorem cell_eq (p : TMarlin) (i j : Nat) (hi : i < 2 ^ (p.K + p.O)) :
    cell p i j = i + j * 2 ^ (p.K + p.O) := by
  unfold cell
  rw [Nat.one_shiftLeft, Nat.and_pow_two_sub_one_eq_mod, Nat.mod_eq_of_lt hi, Nat.shiftLeft_eq]

theorem cell_inj (p : TMarlin) (i j i2 j2 : Nat) (hi : i < 2 ^ (p.K + p.O))
    (hi2 : i2 < 2 ^ (p.K + p.O)) (h : cell p i j = cell p i2 j2) : i = i2 ∧ j = j2 := by
  rw [cell_eq p i j hi, cell_eq p i2 j2 hi2] at h
  have hpos : 0 < 2 ^ (p.K + p.O) := Nat.two_pow_pos _
  have h1 := congrArg (fun x => x % 2 ^ (p.K + p.O)) h
  have h2 := congrArg (fun x => x / 2 ^ (p.K + p.O)) h
  simp only [Nat.add_mul_mod_self_right, Nat.mod_eq_of_lt hi, Nat.mod_eq_of_lt hi2] at h1
  simp only [Nat.add_mul_div_right _ _ hpos, Nat.div_eq_of_lt hi, Nat.div_eq_of_lt hi2,
    Nat.zero_add] at h2
  exact ⟨h1, h2⟩

theorem allIndices_spec (p : TMarlin) (x : Nat × Nat) (hx : x ∈ allIndices p) :
    x.1 = x.2 / 2 ^ p.K ∧ x.2 < 2 ^ (p.K + p.O) ∧ x.1 < 2 ^ p.O := by
  unfold allIndices at hx
  simp only [List.mem_flatMap, List.mem_map, List.mem_range, Nat.one_shiftLeft] at hx
  obtain ⟨k, hk, i, hi, rfl⟩ := hx
  have hpos : 0 < 2 ^ p.K := Nat.two_pow_pos _
  refine ⟨?_, ?_, hk⟩
  · show k = (k * 2 ^ p.K + i) / 2 ^ p.K
    rw [Nat.mul_comm, Nat.mul_add_div hpos, Nat.div_eq_of_lt hi, Nat.add_zero]
  · show k * 2 ^ p.K + i < 2 ^ (p.K + p.O)
    have : (k + 1) * 2 ^ p.K ≤ 2 ^ p.O * 2 ^ p.K := Nat.mul_le_mul_right _ hk
    rw [Nat.succ_mul] at this
    rw [Nat.pow_add, Nat.mul_comm (2 ^ p.K)]
    omega

theorem allIndices_sorted (p : TMarlin) :
    (allIndices p).Pairwise (fun a b => a.2 < b.2) := by
  unfold allIndices
  rw [List.pairwise_flatMap]
  constructor
  · intro k _
    rw [List.pairwise_map]
    exact (List.pairwise_lt_range _).imp (by intro a b h; show k * _ + a < k * _ + b; omega)
  · refine (List.pairwise_lt_range _).imp ?_
    intro k1 k2 hk x hx y hy
    rw [List.mem_map] at hx hy
    obtain ⟨a, ha, rfl⟩ := hx
    obtain ⟨b, hb, rfl⟩ := hy
    rw [List.mem_range] at ha
    show k1 * (1 <<< p.K) + a < k2 * (1 <<< p.K) + b
    have : (k1 + 1) * (1 <<< p.K) ≤ k2 * (1 <<< p.K) := Nat.mul_le_mul_right _ hk
    rw [Nat.succ_mul] at this
    omega

theorem foldlM_preserve {α β : Type} (f : β → α → Option β) (R : β → Prop) (L : List α)
    (h : ∀ b x b2, x ∈ L → R b → f b x = some b2 → R b2) (b b2 : β) (hb : R b)
    (hfold : L.foldlM f b = some b2) : R b2 := by
  induction L generalizing b with
  | nil =>
    simp only [List.foldlM_nil, Option.pure_def, Option.some.injEq] at hfold
    rw [← hfold]; exact hb
  | cons x xs ih =>
    simp only [List.foldlM_cons, Option.bind_eq_bind] at hfold
    cases hx : f b x with
    | none => rw [hx] at hfold; simp at hfold
    | some b1 =>
      rw [hx] at hfold
      simp only [Option.some_bind] at hfold
      exact ih (fun b x b2 hm => h b x b2 (List.mem_cons_of_mem _ hm)) b1
        (h b x b1 (List.mem_cons_self _ _) hb hx) hfold

/-- Every cell a walk of `linkWord` changes is the cell of a parent word and the last symbol of
one of its extensions, and it receives the index the walk started from (first step) or the
position of that extension (later steps). -/
theorem linkWord_writes (p : TMarlin) (hfit : p.K + p.O ≤ 8 * p.idxBytes) (k : Nat)
    (hk : k < 2 ^ p.O) (l : List Nat) (hsym : ∀ s, s ∈ l → s < 256) (idx : Nat)
    (hidx : idx < (k + 1) * 2 ^ p.K) (t t2 : List Nat)
    (h : linkWord p k l idx t = some t2) (c0 : Nat) :
    t2.getD c0 0 = t.getD c0 0 ∨
      ∃ u last parent, position p k u = some parent ∧ c0 = cell p parent last ∧
        ((t2.getD c0 0 = idx ∧ l.reverse = u ++ [last]) ∨
          position p k (u ++ [last]) = some (t2.getD c0 0)) := by
  induction l generalizing idx t with
  | nil => simp only [linkWord, Option.some.injEq] at h; rw [← h]; exact Or.inl rfl
  | cons last rest ih =>
    cases rest with
    | nil => simp only [linkWord, Option.some.injEq] at h; rw [← h]; exact Or.inl rfl
    | cons r rs =>
      simp only [linkWord] at h
      cases hp : position p k (r :: rs).reverse with
      | none => rw [hp] at h; simp at h
      | some parent =>
        rw [hp] at h
        simp only at h
        have hpb := position_bound p k _ parent hp
        have hlast : last % 256 = last :=
          Nat.mod_eq_of_lt (hsym last (List.mem_cons_self _ _))
        have hidx2 : idx % 2 ^ (8 * p.idxBytes) = idx := by
          apply Nat.mod_eq_of_lt
          have h1 : (k + 1) * 2 ^ p.K ≤ 2 ^ p.O * 2 ^ p.K := Nat.mul_le_mul_right _ hk
          have h2 : 2 ^ (p.K + p.O) ≤ 2 ^ (8 * p.idxBytes) :=
            Nat.pow_le_pow_right (by norm_num) hfit
          rw [Nat.pow_add, Nat.mul_comm (2 ^ p.K)] at h2
          omega
        rw [hlast, hidx2] at h
        rcases ih (fun s hs => hsym s (List.mem_cons_of_mem _ hs)) parent hpb.2 _ h with h1 | h1
        · by_cases hc : c0 = cell p parent last ∧ c0 < t.length
          · right
            refine ⟨(r :: rs).reverse, last, parent, hp, hc.1, Or.inl ⟨?_, ?_⟩⟩
            · rw [h1, hc.1, getD_set_self _ _ _ (by rw [← hc.1]; exact hc.2)]
            · rw [List.reverse_cons]
          · left
            rw [h1]
            by_cases hlen : c0 < t.length
            · have hne : cell p parent last ≠ c0 := fun he => hc ⟨he.symm, hlen⟩
              simp [List.getD_eq_getElem?_getD, List.getElem?_set, hne]
            · have h3 : t.length ≤ c0 := by omega
              rw [List.getD_eq_getElem?_getD, List.getD_eq_getElem?_getD,
                List.getElem?_eq_none h3,
                List.getElem?_eq_none (by rw [List.length_set]; exact h3)]
        · obtain ⟨u, last2, parent2, hp2, hc2, hval⟩ := h1
          right
          refine ⟨u, last2, parent2, hp2, hc2, Or.inr ?_⟩
          rcases hval with ⟨hv, hrev⟩ | hv
          · rw [← hrev, hv]; exact hp
          · exact hv

theorem chapter_of_bound (K k i : Nat) (h1 : k * 2 ^ K ≤ i) (h2 : i < (k + 1) * 2 ^ K) :
    i / 2 ^ K = k := by
  have hpos : 0 < 2 ^ K := Nat.two_pow_pos _
  apply Nat.le_antisymm
  · have := (Nat.div_lt_iff_lt_mul hpos).mpr h2
    omega
  · exact (Nat.le_div_iff_mul_le hpos).mpr h1

theorem index_lt_of_bound (K O k i : Nat) (hk : k < 2 ^ O) (h2 : i < (k + 1) * 2 ^ K) :
    i < 2 ^ (K + O) := by
  have h1 : (k + 1) * 2 ^ K ≤ 2 ^ O * 2 ^ K := Nat.mul_le_mul_right _ hk
  rw [Nat.pow_add, Nat.mul_comm (2 ^ K)]
  omega

theorem bound_of_chapter (K i : Nat) :
    (i / 2 ^ K) * 2 ^ K ≤ i ∧ i < (i / 2 ^ K + 1) * 2 ^ K := by
  have hpos : 0 < 2 ^ K := Nat.two_pow_pos _
  have h := Nat.div_add_mod i (2 ^ K)
  have h2 := Nat.mod_lt i hpos
  rw [Nat.succ_mul, Nat.mul_comm]
  constructor <;> omega

/-- After the linking loops every cell that no longer holds `CompressorTableIdx(-1)` holds the
index of a word of the same chapter that extends the word of its row by the symbol of its
column. -/
theorem linked_sound (p : TMarlin) (hfit : p.K + p.O + 2 ≤ 8 * p.idxBytes)
    (hsym : ∀ i s, s ∈ p.words.getD i [] → s < 256) (linked : List Nat)
    (h : linkedTable p = some linked) :
    linked.length = 2 ^ (p.K + p.O) * 2 ^ alphaStride (unrepresentedSymbolToken p + 1) ∧
      ∀ i j, i < 2 ^ (p.K + p.O) → cell p i j < linked.length →
        linked.getD (cell p i j) 0 ≠ 2 ^ (8 * p.idxBytes) - 1 →
        linked.getD (cell p i j) 0 < 2 ^ (p.K + p.O) ∧
          linked.getD (cell p i j) 0 / 2 ^ p.K = i / 2 ^ p.K ∧
          p.words.getD (linked.getD (cell p i j) 0) [] = p.words.getD i [] ++ [j] := by
  unfold linkedTable at h
  refine foldlM_preserve
    (fun t (ki : Nat × Nat) => linkWord p ki.1 (p.words.getD ki.2 []).reverse ki.2 t)
    (fun (t : List Nat) =>
      t.length = 2 ^ (p.K + p.O) * 2 ^ alphaStride (unrepresentedSymbolToken p + 1) ∧
      ∀ i j, i < 2 ^ (p.K + p.O) → cell p i j < t.length →
        t.getD (cell p i j) 0 ≠ 2 ^ (8 * p.idxBytes) - 1 →
        t.getD (cell p i j) 0 < 2 ^ (p.K + p.O) ∧
          t.getD (cell p i j) 0 / 2 ^ p.K = i / 2 ^ p.K ∧
          p.words.getD (t.getD (cell p i j) 0) [] = p.words.getD i [] ++ [j])
    (allIndices p) ?_ (initTable p) linked ⟨initTable_length p, ?_⟩ h
  · intro t x t2 hx hR hstep
    have hlen : t2.length = t.length := linkWord_length _ _ _ _ _ _ hstep
    obtain ⟨hk1, hx2, hk⟩ := allIndices_spec p x hx
    have hxb := bound_of_chapter p.K x.2
    rw [← hk1] at hxb
    refine ⟨by rw [hlen]; exact hR.1, ?_⟩
    intro i j hi hc hne
    rcases linkWord_writes p (by omega) x.1 hk _
        (fun s hs => hsym x.2 s (List.mem_reverse.mp hs)) x.2 hxb.2 t t2 hstep (cell p i j)
      with hw | ⟨u, last, parent, hpos, hcell, hval⟩
    · rw [hw] at hne ⊢
      exact hR.2 i j hi (by rw [← hlen]; exact hc) hne
    · have hpb := position_bound p x.1 u parent hpos
      have hps := position_spec p x.1 u parent hpos
      have hplt := index_lt_of_bound p.K p.O x.1 parent hk hpb.2
      obtain ⟨hip, hjl⟩ := cell_inj p i j parent last hi hplt hcell
      have hich : i / 2 ^ p.K = x.1 := by
        rw [hip]; exact chapter_of_bound p.K x.1 parent hpb.1 hpb.2
      rcases hval with ⟨hv, hrev⟩ | hv
      · rw [hv]
        refine ⟨hx2, ?_, ?_⟩
        · rw [hich, hk1]
        · rw [List.reverse_reverse] at hrev
          rw [hrev, hip, hjl, hps.1]
      · have hvb := position_bound p x.1 _ _ hv
        have hvs := position_spec p x.1 _ _ hv
        refine ⟨index_lt_of_bound p.K p.O x.1 _ hk hvb.2, ?_, ?_⟩
        · rw [hich]; exact chapter_of_bound p.K x.1 _ hvb.1 hvb.2
        · rw [hvs.1, hip, hjl, hps.1]
  · intro i j _ hc hne
    exfalso
    apply hne
    unfold initTable at hc ⊢
    rw [List.length_replicate] at hc
    rw [List.getD_eq_getElem?_getD, List.getElem?_replicate, if_pos hc]
    rfl

theorem getD_set_other (t : List Nat) (c c2 v : Nat) (h : c ≠ c2) :
    (t.set c v).getD c2 0 = t.getD c2 0 := by
  simp [List.getD_eq_getElem?_getD, List.getElem?_set, h]

theorem fallbackCols_keeps (p : TMarlin) (i : Nat) (L : List Nat) (t : List Nat) (c : Nat)
    (hc : t.getD c 0 ≠ 2 ^ (8 * p.idxBytes) - 1) :
    (L.foldl
      (fun t j =>
        if t.getD (cell p i j) 0 = 2 ^ (8 * p.idxBytes) - 1 then
          t.set (cell p i j)
            (((position p (i % (1 <<< p.O)) [j]).getD 0 + FLAG_NEXT_WORD p) % 2 ^ (8 * p.idxBytes))
        else t) t).getD c 0 = t.getD c 0 := by
  refine foldl_preserve _ (fun (t2 : List Nat) => t2.getD c 0 = t.getD c 0) ?_ L t rfl
  intro b x hb
  split
  · next hcond =>
    have hne : cell p i x ≠ c := by
      intro he
      rw [he, hb] at hcond
      exact hc hcond
    rw [getD_set_other _ _ _ _ hne]
    exact hb
  · exact hb

theorem fallbackRow_keeps (p : TMarlin) (i : Nat) (t : List Nat) (c : Nat)
    (hc : t.getD c 0 ≠ 2 ^ (8 * p.idxBytes) - 1) :
    (fallbackRow p i t).getD c 0 = t.getD c 0 :=
  fallbackCols_keeps p i _ t c hc

theorem fallbackRow_other (p : TMarlin) (i i2 j : Nat) (t : List Nat)
    (hi : i < 2 ^ (p.K + p.O)) (hi2 : i2 < 2 ^ (p.K + p.O)) (hne : i2 ≠ i) :
    (fallbackRow p i2 t).getD (cell p i j) 0 = t.getD (cell p i j) 0 := by
  unfold fallbackRow
  refine foldl_preserve _
    (fun (t2 : List Nat) => t2.getD (cell p i j) 0 = t.getD (cell p i j) 0) ?_ _ t rfl
  intro b x hb
  split
  · have hne2 : cell p i2 x ≠ cell p i j := by
      intro he
      exact hne (cell_inj p i2 x i j hi2 hi he).1
    rw [getD_set_other _ _ _ _ hne2]
    exact hb
  · exact hb

theorem fallbackCols_sets (p : TMarlin) (i j : Nat) (hi : i < 2 ^ (p.K + p.O))
    (hfit : p.K + p.O + 2 ≤ 8 * p.idxBytes) (L : List Nat) (hj : j ∈ L) (t : List Nat)
    (hlen : cell p i j < t.length)
    (hc : t.getD (cell p i j) 0 = 2 ^ (8 * p.idxBytes) - 1) :
    (L.foldl
      (fun t j =>
        if t.getD (cell p i j) 0 = 2 ^ (8 * p.idxBytes) - 1 then
          t.set (cell p i j)
            (((position p (i % (1 <<< p.O)) [j]).getD 0 + FLAG_NEXT_WORD p) % 2 ^ (8 * p.idxBytes))
        else t) t).getD (cell p i j) 0
      = ((position p (i % (1 <<< p.O)) [j]).getD 0 + FLAG_NEXT_WORD p) % 2 ^ (8 * p.idxBytes) := by
  induction L generalizing t with
  | nil => simp at hj
  | cons a as ih =>
    rw [List.foldl_cons]
    by_cases ha : a = j
    · subst ha
      rw [if_pos hc, fallbackCols_keeps p i as _ _ (by
        rw [getD_set_self _ _ _ hlen]
        exact fallback_value_ne p i a hfit)]
      exact getD_set_self _ _ _ hlen
    · have hmem : j ∈ as := by
        rcases List.mem_cons.mp hj with h | h
        · exact absurd h.symm ha
        · exact h
      have hne : cell p i a ≠ cell p i j := fun he => ha (cell_inj p i a i j hi hi he).2
      split
      · exact ih hmem _ (by rw [List.length_set]; exact hlen)
          (by rw [getD_set_other _ _ _ _ hne]; exact hc)
      · exact ih hmem _ hlen hc

theorem fallback_all_keeps (p : TMarlin) (L : List (Nat × Nat)) (t : List Nat) (c : Nat)
    (hc : t.getD c 0 ≠ 2 ^ (8 * p.idxBytes) - 1) :
    (L.foldl (fun t ki => fallbackRow p ki.2 t) t).getD c 0 = t.getD c 0 := by
  refine foldl_preserve _ (fun (t2 : List Nat) => t2.getD c 0 = t.getD c 0) ?_ L t rfl
  intro b x hb
  rw [fallbackRow_keeps p x.2 b c (by rw [hb]; exact hc)]
  exact hb

theorem fallbackRow_length (p : TMarlin) (i : Nat) (t : List Nat) :
    (fallbackRow p i t).length = t.length := by
  unfold fallbackRow
  refine foldl_preserve _ (fun (t2 : List Nat) => t2.length = t.length) ?_ _ t rfl
  intro b x hb
  split
  · rw [List.length_set]; exact hb
  · exact hb

theorem fallback_all_sets (p : TMarlin) (i j : Nat) (hi : i < 2 ^ (p.K + p.O))
    (hj : j < p.marlinAlphabet.length) (hfit : p.K + p.O + 2 ≤ 8 * p.idxBytes)
    (L : List (Nat × Nat)) (hL : ∀ x, x ∈ L → x.2 < 2 ^ (p.K + p.O))
    (hmem : ∃ x, x ∈ L ∧ x.2 = i) (t : List Nat) (hlen : cell p i j < t.length)
    (hc : t.getD (cell p i j) 0 = 2 ^ (8 * p.idxBytes) - 1) :
    (L.foldl (fun t ki => fallbackRow p ki.2 t) t).getD (cell p i j) 0
      = ((position p (i % (1 <<< p.O)) [j]).getD 0 + FLAG_NEXT_WORD p) % 2 ^ (8 * p.idxBytes) := by
  induction L generalizing t with
  | nil => obtain ⟨x, hx, _⟩ := hmem; simp at hx
  | cons a as ih =>
    rw [List.foldl_cons]
    by_cases ha : a.2 = i
    · have hrow : (fallbackRow p a.2 t).getD (cell p i j) 0
          = ((position p (i % (1 <<< p.O)) [j]).getD 0 + FLAG_NEXT_WORD p)
              % 2 ^ (8 * p.idxBytes) := by
        rw [ha]
        exact fallbackCols_sets p i j hi hfit _ (List.mem_range.mpr hj) t hlen hc
      rw [fallback_all_keeps p as _ _ (by rw [hrow]; exact fallback_value_ne p i j hfit)]
      exact hrow
    · have hmem2 : ∃ x, x ∈ as ∧ x.2 = i := by
        obtain ⟨x, hx, hxi⟩ := hmem
        rcases List.mem_cons.mp hx with h | h
        · rw [h] at hxi; exact absurd hxi ha
        · exact ⟨x, h, hxi⟩
      exact ih (fun x hx => hL x (List.mem_cons_of_mem _ hx)) hmem2 _
        (by rw [fallbackRow_length]; exact hlen)
        (by rw [fallbackRow_other p i a.2 j t hi (hL a (List.mem_cons_self _ _)) ha]; exact hc)

/-! ## The flag bit -/

theorem FLAG_eq (p : TMarlin) : FLAG_NEXT_WORD p = 2 ^ (8 * p.idxBytes - 1) := by
  unfold FLAG_NEXT_WORD
  rw [Nat.one_shiftLeft]

theorem and_two_pow_of_lt (x e : Nat) (hx : x < 2 ^ e) : x &&& 2 ^ e = 0 := by
  apply Nat.eq_of_testBit_eq
  intro i
  rw [Nat.testBit_and, Nat.testBit_two_pow, Nat.zero_testBit]
  by_cases h : e = i
  · subst h
    rw [Nat.testBit_lt_two_pow hx]; rfl
  · simp [h]

theorem add_two_pow_and_ne (x e : Nat) (hx : x < 2 ^ e) : (x + 2 ^ e) &&& 2 ^ e ≠ 0 := by
  intro h
  have h1 := congrArg (fun y => y.testBit e) h
  simp only [Nat.testBit_and, Nat.testBit_two_pow_self, Nat.zero_testBit, Bool.and_true] at h1
  rw [Nat.add_comm, Nat.testBit_two_pow_add_eq, Nat.testBit_lt_two_pow hx] at h1
  cases h1

theorem testBit_add_two_pow (x e i : Nat) (hx : x < 2 ^ e) :
    (x + 2 ^ e).testBit i = (x.testBit i || decide (i = e)) := by
  rcases Nat.lt_trichotomy i e with h | h | h
  · rw [Nat.add_comm, Nat.testBit_two_pow_add_gt h]
    simp [Nat.ne_of_lt h]
  · subst h
    rw [Nat.add_comm, Nat.testBit_two_pow_add_eq, Nat.testBit_lt_two_pow hx]
    simp
  · have h1 : x + 2 ^ e < 2 ^ i := by
      have : 2 ^ (e + 1) ≤ 2 ^ i := Nat.pow_le_pow_right (by norm_num) h
      rw [pow_succ] at this
      omega
    have h2 : x < 2 ^ i := by omega
    rw [Nat.testBit_lt_two_pow h1, Nat.testBit_lt_two_pow h2]
    simp [Nat.ne_of_gt h]

theorem clear_two_pow_testBit (j e i : Nat) :
    ((j ||| 2 ^ e) ^^^ 2 ^ e).testBit i = (j.testBit i && !decide (i = e)) := by
  rw [Nat.testBit_xor, Nat.testBit_or, Nat.testBit_two_pow]
  by_cases h : e = i
  · subst h; simp
  · have h2 : ¬ i = e := fun h3 => h h3.symm
    simp [h, h2]

theorem clear_two_pow_of_lt (x e : Nat) (hx : x < 2 ^ e) : (x ||| 2 ^ e) ^^^ 2 ^ e = x := by
  apply Nat.eq_of_testBit_eq
  intro i
  rw [clear_two_pow_testBit]
  by_cases h : i = e
  · subst h
    rw [Nat.testBit_lt_two_pow hx]; simp
  · simp [h]

theorem clear_two_pow_add (x e : Nat) (hx : x < 2 ^ e) :
    ((x + 2 ^ e) ||| 2 ^ e) ^^^ 2 ^ e = x := by
  apply Nat.eq_of_testBit_eq
  intro i
  rw [clear_two_pow_testBit, testBit_add_two_pow x e i hx]
  by_cases h : i = e
  · subst h
    rw [Nat.testBit_lt_two_pow hx]; simp
  · simp [h]

theorem index_lt_flag (p : TMarlin) (hfit : p.K + p.O + 2 ≤ 8 * p.idxBytes) (x : Nat)
    (hx : x < 2 ^ (p.K + p.O)) :
    x < 2 ^ (8 * p.idxBytes - 1) ∧ x + 2 ^ (8 * p.idxBytes - 1) < 2 ^ (8 * p.idxBytes) ∧
      x ≠ 2 ^ (8 * p.idxBytes) - 1 := by
  obtain ⟨e, he⟩ : ∃ e, 8 * p.idxBytes = e + 2 := ⟨8 * p.idxBytes - 2, by omega⟩
  have hle : 2 ^ (p.K + p.O) ≤ 2 ^ e := Nat.pow_le_pow_right (by norm_num) (by omega)
  rw [he, show e + 2 - 1 = e + 1 by omega, pow_succ, pow_succ, pow_succ]
  have hpos : 0 < 2 ^ e := Nat.two_pow_pos _
  refine ⟨by omega, by omega, by omega⟩

theorem add_flag_mask (p : TMarlin) (hfit : p.K + p.O + 2 ≤ 8 * p.idxBytes) (x : Nat)
    (hx : x < 2 ^ (p.K + p.O)) :
    (x + FLAG_NEXT_WORD p) &&& ((1 <<< (p.K + p.O)) - 1) = x := by
  rw [Nat.one_shiftLeft, Nat.and_pow_two_sub_one_eq_mod, FLAG_eq]
  have h : 2 ^ (8 * p.idxBytes - 1) = 2 ^ (p.K + p.O) * 2 ^ (8 * p.idxBytes - 1 - (p.K + p.O)) := by
    rw [← Nat.pow_add]; congr 1; omega
  rw [h, Nat.add_mul_mod_self_left, Nat.mod_eq_of_lt hx]

/-! ## `buildCompressorTable`: every cell of the finished table -/

theorem cell_in_table (p : TMarlin) (i j : Nat) (hj : j ≤ p.marlinAlphabet.length) :
    cell p i j < 2 ^ (p.K + p.O) * 2 ^ alphaStride (unrepresentedSymbolToken p + 1) :=
  cell_lt p i j _ (le_trans (by unfold unrepresentedSymbolToken; omega) (alphaStride_spec _))

/-- The finished table in terms of the table after the linking loops: a linked cell keeps its
value; a cell of a column `j < A` left at `CompressorTableIdx(-1)` receives
`positions[i % NumChapters][Word(1,j)] + FLAG_NEXT_WORD`. -/
theorem built_cell (p : TMarlin) (hfit : p.K + p.O + 2 ≤ 8 * p.idxBytes) (tbl : List Nat)
    (hbuilt : buildCompressorTable p = some tbl) :
    ∃ linked, linkedTable p = some linked ∧
      linked.length = 2 ^ (p.K + p.O) * 2 ^ alphaStride (unrepresentedSymbolToken p + 1) ∧
      (∀ c, linked.getD c 0 ≠ 2 ^ (8 * p.idxBytes) - 1 → tbl.getD c 0 = linked.getD c 0) ∧
      (∀ i j, i < 2 ^ (p.K + p.O) → j < p.marlinAlphabet.length →
        linked.getD (cell p i j) 0 = 2 ^ (8 * p.idxBytes) - 1 →
        tbl.getD (cell p i j) 0
          = (position p (i % 2 ^ p.O) [j]).getD 0 + FLAG_NEXT_WORD p) := by
  rw [buildCompressorTable_eq] at hbuilt
  cases hl : linkedTable p with
  | none => rw [hl] at hbuilt; simp at hbuilt
  | some linked =>
    rw [hl] at hbuilt
    simp only [Option.map_some', Option.some.injEq] at hbuilt
    have hlen : linked.length
        = 2 ^ (p.K + p.O) * 2 ^ alphaStride (unrepresentedSymbolToken p + 1) := by
      unfold linkedTable at hl
      rw [foldlM_link_length p _ _ _ hl, initTable_length]
    refine ⟨linked, rfl, hlen, ?_, ?_⟩
    · intro c hc
      rw [← hbuilt]
      exact fallback_all_keeps p _ linked c hc
    · intro i j hi hj hc
      rw [← hbuilt, fallback_all_sets p i j hi hj hfit (allIndices p)
        (fun x hx => (allIndices_spec p x hx).2.1)
        ⟨(i / 2 ^ p.K, i), mem_allIndices p i hi, rfl⟩ linked
        (by rw [hlen]; exact cell_in_table p i j (le_of_lt hj)) hc]
      have hk : i % (1 <<< p.O) < 2 ^ p.O := by
        rw [Nat.one_shiftLeft]; exact Nat.mod_lt _ (Nat.two_pow_pos _)
      have hpos := position_getD_lt p (i % (1 <<< p.O)) [j] hk
      have hf := index_lt_flag p hfit _ hpos
      rw [FLAG_eq, Nat.mod_eq_of_lt hf.2.1, Nat.one_shiftLeft]

/-- The walk from an index other than the last holder of a word `u ++ [t]` leaves the cell
`(position of u, t)` alone or stores the position of `u ++ [t]` there; started at an index
holding `u ++ [t]` it stores that index or the position. -/
theorem linkWord_target (p : TMarlin) (hfit : p.K + p.O ≤ 8 * p.idxBytes)
    (hsym : ∀ i s, s ∈ p.words.getD i [] → s < 256)
    (c : Nat) (hc : c < 2 ^ p.O) (u : List Nat) (tt pu pv : Nat)
    (hpu : position p c u = some pu) (hpv : position p c (u ++ [tt]) = some pv)
    (x : Nat × Nat) (hx : x ∈ allIndices p) (t t2 : List Nat)
    (hstep : linkWord p x.1 (p.words.getD x.2 []).reverse x.2 t = some t2) :
    t2.getD (cell p pu tt) 0 = t.getD (cell p pu tt) 0 ∨
      t2.getD (cell p pu tt) 0 = pv ∨
      (t2.getD (cell p pu tt) 0 = x.2 ∧ x.1 = c ∧ p.words.getD x.2 [] = u ++ [tt]) := by
  obtain ⟨hk1, hx2, hk⟩ := allIndices_spec p x hx
  have hxb := bound_of_chapter p.K x.2
  rw [← hk1] at hxb
  have hpub := position_bound p c u pu hpu
  have hpult := index_lt_of_bound p.K p.O c pu hc hpub.2
  rcases linkWord_writes p hfit x.1 hk _
      (fun s hs => hsym x.2 s (List.mem_reverse.mp hs)) x.2 hxb.2 t t2 hstep (cell p pu tt)
    with hw | ⟨u2, last, parent, hpos, hcell, hval⟩
  · exact Or.inl hw
  · have hpb := position_bound p x.1 u2 parent hpos
    have hps := position_spec p x.1 u2 parent hpos
    have hplt := index_lt_of_bound p.K p.O x.1 parent hk hpb.2
    obtain ⟨hip, hjl⟩ := cell_inj p pu tt parent last hpult hplt hcell
    have hch : x.1 = c := by
      rw [← chapter_of_bound p.K x.1 parent hpb.1 hpb.2, ← hip]
      exact chapter_of_bound p.K c pu hpub.1 hpub.2
    have hu : u2 = u := by
      rw [← hps.1, ← hip]; exact (position_spec p c u pu hpu).1
    rcases hval with ⟨hv, hrev⟩ | hv
    · right; right
      rw [List.reverse_reverse] at hrev
      exact ⟨hv, hch, by rw [hrev, hu, hjl]⟩
    · right; left
      rw [hch, hu, ← hjl, hpv] at hv
      exact (Option.some.inj hv).symm

/-- The walk started at an index of chapter `c` holding `u ++ [t]` leaves that index or the
position of `u ++ [t]` in the cell `(position of u, t)`. -/
theorem linkWord_first (p : TMarlin) (hfit : p.K + p.O ≤ 8 * p.idxBytes)
    (hsym : ∀ i s, s ∈ p.words.getD i [] → s < 256)
    (c : Nat) (hc : c < 2 ^ p.O) (u : List Nat) (tt pu pv : Nat)
    (hpu : position p c u = some pu) (hpv : position p c (u ++ [tt]) = some pv)
    (hu : u ≠ []) (idx : Nat) (hidx : idx < (c + 1) * 2 ^ p.K)
    (hw : p.words.getD idx [] = u ++ [tt]) (t t2 : List Nat)
    (hcell : cell p pu tt < t.length)
    (hstep : linkWord p c (p.words.getD idx []).reverse idx t = some t2) :
    t2.getD (cell p pu tt) 0 = idx ∨ t2.getD (cell p pu tt) 0 = pv := by
  have hpub := position_bound p c u pu hpu
  have hpult := index_lt_of_bound p.K p.O c pu hc hpub.2
  obtain ⟨a, as, hua⟩ := List.exists_cons_of_ne_nil (show u.reverse ≠ [] by simpa using hu)
  have hidx2 : idx % 2 ^ (8 * p.idxBytes) = idx := by
    apply Nat.mod_eq_of_lt
    have h3 := index_lt_of_bound p.K p.O c idx hc hidx
    have h4 : 2 ^ (p.K + p.O) ≤ 2 ^ (8 * p.idxBytes) := Nat.pow_le_pow_right (by norm_num) hfit
    omega
  have htt : tt % 256 = tt := by
    apply Nat.mod_eq_of_lt
    apply hsym idx tt
    rw [hw]; simp
  have hrev : (a :: as).reverse = u := by rw [← hua, List.reverse_reverse]
  rw [hw, List.reverse_append, List.reverse_singleton, List.singleton_append, hua] at hstep
  simp only [linkWord] at hstep
  rw [hrev, hpu] at hstep
  simp only at hstep
  rw [hidx2, htt] at hstep
  rcases linkWord_writes p hfit c hc (a :: as)
      (fun s hs => hsym idx s (by
        rw [hw, List.mem_append]; left
        rw [← hrev]; exact List.mem_reverse.mpr hs))
      pu hpub.2 _ t2 hstep (cell p pu tt)
    with h1 | ⟨u2, last, parent, hpos, hcl, hval⟩
  · left
    rw [h1, getD_set_self _ _ _ hcell]
  · have hpb := position_bound p c u2 parent hpos
    have hps := position_spec p c u2 parent hpos
    have hplt := index_lt_of_bound p.K p.O c parent hc hpb.2
    obtain ⟨hip, hjl⟩ := cell_inj p pu tt parent last hpult hplt hcl
    have hu2 : u2 = u := by
      rw [← hps.1, ← hip]; exact (position_spec p c u pu hpu).1
    rcases hval with ⟨_, hrev2⟩ | hv
    · exfalso
      rw [hrev, hu2] at hrev2
      have := congrArg List.length hrev2
      simp at this
    · right
      rw [hu2, ← hjl, hpv] at hv
      exact (Option.some.inj hv).symm

/-- After the linking loops the cell `(position of u, t)` of a word `u ++ [t]` present in a
chapter holds the position of `u ++ [t]` in that chapter. -/
theorem link_fold_final (p : TMarlin) (hfit : p.K + p.O ≤ 8 * p.idxBytes)
    (hsym : ∀ i s, s ∈ p.words.getD i [] → s < 256)
    (c : Nat) (hc : c < 2 ^ p.O) (u : List Nat) (tt pu pv : Nat)
    (hpu : position p c u = some pu) (hpv : position p c (u ++ [tt]) = some pv)
    (hu : u ≠ [])
    (L : List (Nat × Nat)) (hL : ∀ x, x ∈ L → x ∈ allIndices p)
    (hsorted : L.Pairwise (fun a b => a.2 < b.2)) (t t2 : List Nat)
    (hcell : cell p pu tt < t.length)
    (hfold : L.foldlM (fun t ki => linkWord p ki.1 (p.words.getD ki.2 []).reverse ki.2 t) t
      = some t2)
    (hstart : (c, pv) ∈ L ∨ (t.getD (cell p pu tt) 0 = pv ∧ ∀ x, x ∈ L → pv < x.2)) :
    t2.getD (cell p pu tt) 0 = pv := by
  induction L generalizing t with
  | nil =>
    simp only [List.foldlM_nil, Option.pure_def, Option.some.injEq] at hfold
    rcases hstart with h | h
    · simp at h
    · rw [← hfold]; exact h.1
  | cons x xs ih =>
    simp only [List.foldlM_cons, Option.bind_eq_bind] at hfold
    cases hx : linkWord p x.1 (p.words.getD x.2 []).reverse x.2 t with
    | none => rw [hx] at hfold; simp at hfold
    | some t1 =>
      rw [hx] at hfold
      simp only [Option.some_bind] at hfold
      rw [List.pairwise_cons] at hsorted
      have hxin := hL x (List.mem_cons_self _ _)
      have hlen1 : t1.length = t.length := linkWord_length _ _ _ _ _ _ hx
      have htarget := linkWord_target p hfit hsym c hc u tt pu pv hpu hpv x hxin t t1 hx
      have hpvs := position_spec p c (u ++ [tt]) pv hpv
      have hpvb := position_bound p c (u ++ [tt]) pv hpv
      -- an index of chapter `c` holding the word is at most its position
      have hle : x.1 = c → p.words.getD x.2 [] = u ++ [tt] → x.2 ≤ pv := by
        intro hxc hxw
        by_contra hgt
        have hk1 := (allIndices_spec p x hxin).1
        have hxb := bound_of_chapter p.K x.2
        rw [← hk1, hxc] at hxb
        exact hpvs.2 x.2 (by omega) hxb.2 hxw
      apply ih (fun y hy => hL y (List.mem_cons_of_mem _ hy)) hsorted.2 t1
        (by rw [hlen1]; exact hcell) hfold
      rcases hstart with h | h
      · rcases List.mem_cons.mp h with h1 | h1
        · -- this is the walk from the position itself
          right
          refine ⟨?_, fun y hy => by have := hsorted.1 y hy; rw [← h1] at this; exact this⟩
          have hk1 := (allIndices_spec p x hxin).1
          have hxb := bound_of_chapter p.K x.2
          rw [← hk1] at hxb
          rw [← h1] at hx hxb
          rcases linkWord_first p hfit hsym c hc u tt pu pv hpu hpv hu pv hxb.2 hpvs.1 t t1
            hcell hx with h2 | h2
          · exact h2
          · exact h2
        · exact Or.inl h1
      · right
        refine ⟨?_, fun y hy => h.2 y (List.mem_cons_of_mem _ hy)⟩
        rcases htarget with h2 | h2 | h2
        · rw [h2]; exact h.1
        · exact h2
        · exfalso
          have := hle h2.2.1 h2.2.2
          have := h.2 x (List.mem_cons_self _ _)
          omega

theorem foldlM_some_elem {α β : Type} (f : β → α → Option β) (L : List α) (t t2 : β)
    (h : L.foldlM f t = some t2) : ∀ x, x ∈ L → ∃ ta tb, f ta x = some tb := by
  induction L generalizing t with
  | nil => intro x hx; simp at hx
  | cons a as ih =>
    simp only [List.foldlM_cons, Option.bind_eq_bind] at h
    cases ha : f t a with
    | none => rw [ha] at h; simp at h
    | some t1 =>
      rw [ha] at h
      simp only [Option.some_bind] at h
      intro x hx
      rcases List.mem_cons.mp hx with h1 | h1
      · rw [h1]; exact ⟨t, t1, ha⟩
      · exact ih t1 h x h1

theorem linkWord_prefixes (p : TMarlin) (k : Nat) (l : List Nat) (idx : Nat) (t t2 : List Nat)
    (h : linkWord p k l idx t = some t2) (n : Nat) (hn1 : 1 ≤ n) (hn2 : n < l.length) :
    ∃ q, position p k (l.drop n).reverse = some q := by
  induction l generalizing idx t n with
  | nil => simp at hn2
  | cons last rest ih =>
    cases rest with
    | nil => simp at hn2; omega
    | cons r rs =>
      simp only [linkWord] at h
      cases hp : position p k (r :: rs).reverse with
      | none => rw [hp] at h; simp at h
      | some parent =>
        rw [hp] at h
        simp only at h
        obtain ⟨m, rfl⟩ : ∃ m, n = m + 1 := ⟨n - 1, by omega⟩
        rw [List.drop_succ_cons]
        cases m with
        | zero => exact ⟨parent, by rw [List.drop_zero]; exact hp⟩
        | succ m =>
          exact ih parent _ h (m + 1) (by omega) (by
            simp only [List.length_cons] at hn2 ⊢; omega)

/-- When `buildCompressorTable` returns, every non-empty prefix of a word is a word of the
same chapter. -/
theorem prefix_present (p : TMarlin) (linked : List Nat) (h : linkedTable p = some linked)
    (i : Nat) (hi : i < 2 ^ (p.K + p.O)) (v : List Nat) (hv : v <+: p.words.getD i [])
    (hne : v ≠ []) : ∃ q, position p (i / 2 ^ p.K) v = some q := by
  obtain ⟨s, hs⟩ := hv
  have hib := bound_of_chapter p.K i
  by_cases hs0 : s = []
  · rw [hs0, List.append_nil] at hs
    apply position_of_present
    refine ⟨i - (i / 2 ^ p.K) * 2 ^ p.K, ?_, ?_⟩
    · have := hib.2; rw [Nat.succ_mul] at this; omega
    · rw [show i / 2 ^ p.K * 2 ^ p.K + (i - i / 2 ^ p.K * 2 ^ p.K) = i by omega]
      exact hs.symm
  · unfold linkedTable at h
    obtain ⟨ta, tb, hstep⟩ := foldlM_some_elem _ _ _ _ h (i / 2 ^ p.K, i) (mem_allIndices p i hi)
    simp only at hstep
    have hlen : 0 < s.length := List.length_pos.mpr hs0
    have hvlen : 0 < v.length := List.length_pos.mpr hne
    obtain ⟨q, hq⟩ := linkWord_prefixes p _ _ _ _ _ hstep s.length (by omega) (by
      rw [List.length_reverse, ← hs, List.length_append]; omega)
    refine ⟨q, ?_⟩
    rw [← hs, List.reverse_append, List.drop_left' (List.length_reverse s), List.reverse_reverse] at hq
    exact hq

theorem words_getD_sym (p : TMarlin) (n : Nat)
    (hsym : ∀ w, w ∈ p.words → ∀ s, s ∈ w → s < n) :
    ∀ i s, s ∈ p.words.getD i [] → s < n := by
  intro i s hs
  by_cases hi : i < p.words.length
  · rw [List.getD_eq_getElem _ _ hi] at hs
    exact hsym _ (List.getElem_mem hi) s hs
  · rw [List.getD_eq_default _ _ (by omega)] at hs
    simp at hs

/-- In the finished table the cell `(position of u, t)` of a word `u ++ [t]` present in a
chapter holds the position of `u ++ [t]` in that chapter. -/
theorem built_link (p : TMarlin) (hfit : p.K + p.O + 2 ≤ 8 * p.idxBytes)
    (hsym : ∀ i s, s ∈ p.words.getD i [] → s < 256) (tbl : List Nat)
    (hbuilt : buildCompressorTable p = some tbl)
    (c : Nat) (hc : c < 2 ^ p.O) (u : List Nat) (tt pu pv : Nat) (hu : u ≠ [])
    (htt : tt ≤ p.marlinAlphabet.length)
    (hpu : position p c u = some pu) (hpv : position p c (u ++ [tt]) = some pv) :
    tbl.getD (cell p pu tt) 0 = pv := by
  obtain ⟨linked, hl, hlen, hkeep, _⟩ := built_cell p hfit tbl hbuilt
  have hpvb := position_bound p c _ pv hpv
  have hpvlt := index_lt_of_bound p.K p.O c pv hc hpvb.2
  have hmem : (c, pv) ∈ allIndices p := by
    have := mem_allIndices p pv hpvlt
    rw [chapter_of_bound p.K c pv hpvb.1 hpvb.2] at this
    exact this
  have hfin : linked.getD (cell p pu tt) 0 = pv := by
    unfold linkedTable at hl
    exact link_fold_final p (by omega) hsym c hc u tt pu pv hpu hpv hu (allIndices p)
      (fun x hx => hx) (allIndices_sorted p) (initTable p) linked
      (by rw [initTable_length]; exact cell_in_table p pu tt htt) hl (Or.inl hmem)
  rw [hkeep _ (by rw [hfin]; exact (index_lt_flag p hfit pv hpvlt).2.2), hfin]

/-! ## C21: prefix linking -/

/-- C21: when `buildCompressorTable` returns a table for a dictionary over the Marlin symbols
(at most 256 of them), then for every word `w` at an index `i` and every prefix `u ++ [t]` of
`w` with two or more symbols (`w` itself included), both `u` and `u ++ [t]` are words of the
chapter of `i`, and the cell `(position of u, t)` holds the position of `u ++ [t]` in that
chapter with `FLAG_NEXT_WORD` clear; the position of `w` is `i` when `w` occurs once in its
chapter. -/
theorem compressorTable_links (p : TMarlin) (hfit : p.K + p.O + 2 ≤ 8 * p.idxBytes)
    (hA : p.marlinAlphabet.length ≤ 256)
    (hsym : ∀ w, w ∈ p.words → ∀ s, s ∈ w → s < p.marlinAlphabet.length)
    (tbl : List Nat) (hbuilt : buildCompressorTable p = some tbl)
    (i : Nat) (hi : i < 2 ^ (p.K + p.O)) (u : List Nat) (t : Nat) (hu : u ≠ [])
    (hpre : (u ++ [t]) <+: p.words.getD i []) :
    ∃ pu pv, position p (i / 2 ^ p.K) u = some pu ∧
      position p (i / 2 ^ p.K) (u ++ [t]) = some pv ∧
      tbl.getD (cell p pu t) 0 = pv ∧
      tbl.getD (cell p pu t) 0 &&& FLAG_NEXT_WORD p = 0 ∧
      (u ++ [t] = p.words.getD i [] →
        (∀ i2, i2 < 2 ^ p.K →
          p.words.getD (i / 2 ^ p.K * 2 ^ p.K + i2) [] = p.words.getD i [] →
          i / 2 ^ p.K * 2 ^ p.K + i2 = i) →
        pv = i) := by
  obtain ⟨linked, hl, _⟩ := built_cell p hfit tbl hbuilt
  have hc : i / 2 ^ p.K < 2 ^ p.O := by
    rw [Nat.div_lt_iff_lt_mul (Nat.two_pow_pos _), Nat.mul_comm, ← Nat.pow_add]; exact hi
  have hsymA := words_getD_sym p _ hsym
  have hsym256 : ∀ i s, s ∈ p.words.getD i [] → s < 256 :=
    fun i s hs => lt_of_lt_of_le (hsymA i s hs) hA
  obtain ⟨pv, hpv⟩ := prefix_present p linked hl i hi (u ++ [t]) hpre (by simp)
  obtain ⟨pu, hpu⟩ := prefix_present p linked hl i hi u
    (List.IsPrefix.trans (List.prefix_append u [t]) hpre) hu
  have ht : t < p.marlinAlphabet.length := by
    apply hsymA i t
    exact hpre.subset (by simp)
  have hval := built_link p hfit hsym256 tbl hbuilt _ hc u t pu pv hu (le_of_lt ht) hpu hpv
  have hpvb := position_bound p _ _ pv hpv
  have hpvlt := index_lt_of_bound p.K p.O _ pv hc hpvb.2
  refine ⟨pu, pv, hpu, hpv, hval, ?_, ?_⟩
  · rw [hval, FLAG_eq]
    exact and_two_pow_of_lt _ _ (index_lt_flag p hfit pv hpvlt).1
  · intro hw huniq
    have hib := bound_of_chapter p.K i
    have h1 := position_unique p (i / 2 ^ p.K) (p.words.getD i [])
      (i - i / 2 ^ p.K * 2 ^ p.K)
      (by have := hib.2; rw [Nat.succ_mul] at this; omega)
      (by rw [show i / 2 ^ p.K * 2 ^ p.K + (i - i / 2 ^ p.K * 2 ^ p.K) = i by omega])
      (by
        intro i2 hi2 hw2
        have := huniq i2 hi2 hw2
        omega)
    rw [show i / 2 ^ p.K * 2 ^ p.K + (i - i / 2 ^ p.K * 2 ^ p.K) = i by omega, ← hw, hpv] at h1
    exact Option.some.inj h1

set_option maxRecDepth 100000 in
theorem compressorTable_links_witness :
    demoTable.getD (cell demoBase 12 0) 0 = 15 ∧ demoTable.getD (cell demoBase 0 0) 0 = 8 ∧
      position demoBase 0 [0, 0, 0] = some 12 ∧ position demoBase 0 [0] = some 0 := by
  obtain ⟨pu, pv, h1, h2, h3, _, h5⟩ := compressorTable_links demoBase (by decide) (by decide)
    (by decide) demoTable demoTable_built 15 (by decide) [0, 0, 0] 0 (by decide)
    ⟨[], by decide⟩
  obtain ⟨qu, qv, g1, g2, g3, _, _⟩ := compressorTable_links demoBase (by decide) (by decide)
    (by decide) demoTable demoTable_built 15 (by decide) [0] 0 (by decide)
    ⟨[0, 0], by decide⟩
  have e1 : pu = 12 := Option.some.inj (h1.symm.trans (by decide))
  have e2 : pv = 15 := h5 (by decide) (by decide)
  have e3 : qu = 0 := Option.some.inj (g1.symm.trans (by decide))
  have e4 : qv = 8 := Option.some.inj (g2.symm.trans (by decide))
  rw [e1, e2] at h3
  rw [e3, e4] at g3
  exact ⟨h3, g3, by decide, by decide⟩

/-! ## C22: the fallback cells -/

/-- C22: in the table `buildCompressorTable` returns, for a position `i < 2^(K+O)` and a
Marlin symbol `j < A`: when no word of the chapter of `i` is the word of `i` extended by `j`,
the cell `(i, j)` holds `positions[i % 2^O][[j]] + FLAG_NEXT_WORD` (the position of `[j]` in
chapter `i % 2^O`; a missing word reads as position 0); the cell has the flag set exactly
when the linking loops left it at `CompressorTableIdx(-1)`, and otherwise keeps the linked
index. -/
theorem compressorTable_fallback (p : TMarlin) (hfit : p.K + p.O + 2 ≤ 8 * p.idxBytes)
    (hA : p.marlinAlphabet.length ≤ 256)
    (hsym : ∀ w, w ∈ p.words → ∀ s, s ∈ w → s < p.marlinAlphabet.length)
    (tbl : List Nat) (hbuilt : buildCompressorTable p = some tbl)
    (i : Nat) (hi : i < 2 ^ (p.K + p.O)) (j : Nat) (hj : j < p.marlinAlphabet.length) :
    ∃ linked, linkedTable p = some linked ∧
      ((∀ i2, i2 < 2 ^ p.K →
          p.words.getD (i / 2 ^ p.K * 2 ^ p.K + i2) [] ≠ p.words.getD i [] ++ [j]) →
        tbl.getD (cell p i j) 0 = (position p (i % 2 ^ p.O) [j]).getD 0 + FLAG_NEXT_WORD p) ∧
      (tbl.getD (cell p i j) 0 &&& FLAG_NEXT_WORD p ≠ 0 ↔
        linked.getD (cell p i j) 0 = 2 ^ (8 * p.idxBytes) - 1) ∧
      (linked.getD (cell p i j) 0 = 2 ^ (8 * p.idxBytes) - 1 →
        tbl.getD (cell p i j) 0 = (position p (i % 2 ^ p.O) [j]).getD 0 + FLAG_NEXT_WORD p) ∧
      (linked.getD (cell p i j) 0 ≠ 2 ^ (8 * p.idxBytes) - 1 →
        tbl.getD (cell p i j) 0 = linked.getD (cell p i j) 0) := by
  obtain ⟨linked, hl, hlen, hkeep, hset⟩ := built_cell p hfit tbl hbuilt
  have hsym256 : ∀ i s, s ∈ p.words.getD i [] → s < 256 :=
    fun i s hs => lt_of_lt_of_le (words_getD_sym p _ hsym i s hs) hA
  have hsound := (linked_sound p hfit hsym256 linked hl).2 i j hi
    (by rw [hlen]; exact cell_in_table p i j (le_of_lt hj))
  have hk : i % 2 ^ p.O < 2 ^ p.O := Nat.mod_lt _ (Nat.two_pow_pos _)
  have hpos := position_getD_lt p (i % 2 ^ p.O) [j] hk
  have hf := index_lt_flag p hfit _ hpos
  refine ⟨linked, hl, ?_, ?_, hset i j hi hj, hkeep _⟩
  · intro hno
    apply hset i j hi hj
    by_contra hne
    obtain ⟨hv1, hv2, hv3⟩ := hsound hne
    have hvb := bound_of_chapter p.K (linked.getD (cell p i j) 0)
    rw [hv2] at hvb
    apply hno (linked.getD (cell p i j) 0 - i / 2 ^ p.K * 2 ^ p.K)
    · have := hvb.2; rw [Nat.succ_mul] at this; omega
    · rw [show i / 2 ^ p.K * 2 ^ p.K + (linked.getD (cell p i j) 0 - i / 2 ^ p.K * 2 ^ p.K)
        = linked.getD (cell p i j) 0 by omega]
      exact hv3
  · constructor
    · intro hflag
      by_contra hne
      apply hflag
      rw [hkeep _ hne, FLAG_eq]
      exact and_two_pow_of_lt _ _ (index_lt_flag p hfit _ (hsound hne).1).1
    · intro hu
      rw [hset i j hi hj hu, FLAG_eq]
      exact add_two_pow_and_ne _ _ hf.1

set_option maxRecDepth 100000 in
theorem compressorTable_fallback_witness :
    demoTable.getD (cell demoBase 11 1) 0 = 1 + FLAG_NEXT_WORD demoBase ∧
      demoTable.getD (cell demoBase 11 1) 0 = 0x8001 ∧
      demoTable.getD (cell demoBase 0 1) 0 = 9 := by
  obtain ⟨linked, _, h1, _, _, _⟩ := compressorTable_fallback demoBase (by decide) (by decide)
    (by decide) demoTable demoTable_built 11 (by decide) 1 (by decide)
  exact ⟨(h1 (by decide)).trans (by decide), by decide, by decide⟩

/-! ## Tables that keep to the chapters -/

theorem overlapTable_built : buildCompressorTable overlapBase = some overlapTable := by
  decide

theorem jump_eq_cell (p : TMarlin) (j m : Nat) : jump p j m = p.compressorTable (cell p j m) :=
  rfl

/-- The table `buildCompressorTable` returns keeps to the chapters when every chapter holds
every one-symbol word. -/
theorem built_chapterTable (p : TMarlin) (hfit : p.K + p.O + 2 ≤ 8 * p.idxBytes)
    (hA : p.marlinAlphabet.length ≤ 256)
    (hsym : ∀ w, w ∈ p.words → ∀ s, s ∈ w → s < p.marlinAlphabet.length)
    (hsingle : ∀ c, c < 2 ^ p.O → ∀ m, m < p.marlinAlphabet.length →
      ∃ i2, i2 < 2 ^ p.K ∧ p.words.getD (c * 2 ^ p.K + i2) [] = [m])
    (tbl : List Nat) (hbuilt : buildCompressorTable p = some tbl)
    (htable : ∀ x, p.compressorTable x = tbl.getD x 0) : ChapterTable p := by
  intro q m hq hm
  obtain ⟨linked, hl, hlen, hkeep, hset⟩ := built_cell p hfit tbl hbuilt
  have hsym256 : ∀ i s, s ∈ p.words.getD i [] → s < 256 :=
    fun i s hs => lt_of_lt_of_le (words_getD_sym p _ hsym i s hs) hA
  have hsound := (linked_sound p hfit hsym256 linked hl).2 q m hq
    (by rw [hlen]; exact cell_in_table p q m (le_of_lt hm))
  rw [jump_eq_cell, htable]
  by_cases hu : linked.getD (cell p q m) 0 = 2 ^ (8 * p.idxBytes) - 1
  · right
    have hk : q % 2 ^ p.O < 2 ^ p.O := Nat.mod_lt _ (Nat.two_pow_pos _)
    obtain ⟨q1, hq1⟩ := position_of_present p (q % 2 ^ p.O) [m] (hsingle _ hk m hm)
    have hb := position_bound p _ _ q1 hq1
    refine ⟨q1, index_lt_of_bound p.K p.O _ q1 hk hb.2, ?_, chapter_of_bound p.K _ q1 hb.1 hb.2⟩
    rw [hset q m hq hm hu, hq1]
    rfl
  · left
    rw [hkeep _ hu]
    exact ⟨(hsound hu).1, (hsound hu).2.1⟩

/-! ## States -/

theorem stateIndex_plain (p : TMarlin) (hfit : p.K + p.O + 2 ≤ 8 * p.idxBytes) (q : Nat)
    (hq : q < 2 ^ (p.K + p.O)) :
    stateIndex p q = q ∧ q &&& FLAG_NEXT_WORD p = 0 := by
  unfold stateIndex
  rw [FLAG_eq]
  have h := (index_lt_flag p hfit q hq).1
  exact ⟨clear_two_pow_of_lt q _ h, and_two_pow_of_lt q _ h⟩

theorem stateIndex_flagged (p : TMarlin) (hfit : p.K + p.O + 2 ≤ 8 * p.idxBytes) (q : Nat)
    (hq : q < 2 ^ (p.K + p.O)) :
    stateIndex p (q + FLAG_NEXT_WORD p) = q ∧ (q + FLAG_NEXT_WORD p) &&& FLAG_NEXT_WORD p ≠ 0 ∧
      jump p (q + FLAG_NEXT_WORD p) = jump p q := by
  unfold stateIndex
  have h := (index_lt_flag p hfit q hq).1
  refine ⟨?_, ?_, ?_⟩
  · rw [FLAG_eq]; exact clear_two_pow_add q _ h
  · rw [FLAG_eq]; exact add_two_pow_and_ne q _ h
  · funext m
    rw [jump_eq_cell, jump_eq_cell, ← cell_mask p (q + FLAG_NEXT_WORD p), add_flag_mask p hfit q hq]

theorem source2marlin_le (p : TMarlin) (x : Nat) :
    source2marlin p x = unrepresentedSymbolToken p ∨ source2marlin p x < p.marlinAlphabet.length := by
  unfold source2marlin
  have key : ∀ (L : List Nat) (f : Nat → Nat),
      (∀ i, i ∈ L → i < p.marlinAlphabet.length) →
      (f x = unrepresentedSymbolToken p ∨ f x < p.marlinAlphabet.length) →
      ((L.foldl (fun f i => store f (p.marlinAlphabet.getD i 0 >>> p.shift) i) f) x
          = unrepresentedSymbolToken p ∨
        (L.foldl (fun f i => store f (p.marlinAlphabet.getD i 0 >>> p.shift) i) f) x
          < p.marlinAlphabet.length) := by
    intro L
    induction L with
    | nil => intro f _ hf; exact hf
    | cons a as ih =>
      intro f hL hf
      rw [List.foldl_cons]
      apply ih _ (fun i hi => hL i (List.mem_cons_of_mem _ hi))
      unfold store
      split
      · right; exact hL a (List.mem_cons_self _ _)
      · exact hf
  exact key _ _ (fun i hi => List.mem_range.mp hi) (Or.inl rfl)

theorem marlinSymbol_lt (p : TMarlin) (hA0 : 0 < p.marlinAlphabet.length) (ss : Nat) :
    marlinSymbol p ss < p.marlinAlphabet.length := by
  unfold marlinSymbol classify
  split
  · exact hA0
  · next hne =>
    rcases source2marlin_le p (ss >>> p.shift) with h | h
    · exact absurd h hne
    · exact h

theorem initialWord_lt (p : TMarlin) (ms : Nat) : initialWord p ms < 2 ^ p.K := by
  unfold initialWord
  cases h : (List.range (1 <<< p.K)).find?
      (fun i => (p.words.getD i []).length == 1 && (p.words.getD i []).head? == some ms) with
  | none => exact Nat.two_pow_pos _
  | some m =>
    have := List.mem_of_find?_eq_some h
    rw [List.mem_range, Nat.one_shiftLeft] at this
    exact this

/-! ## The bit register of `compressMarlinFast` -/

theorem mod_two_pow_eq_zero_iff (x s : Nat) :
    x % 2 ^ s = 0 ↔ ∀ i, i < s → x.testBit i = false := by
  constructor
  · intro h i hi
    have := congrArg (fun y => y.testBit i) h
    simp only [Nat.testBit_mod_two_pow, Nat.zero_testBit, hi, decide_True, Bool.true_and] at this
    exact this
  · intro h
    apply Nat.eq_of_testBit_eq
    intro i
    rw [Nat.testBit_mod_two_pow, Nat.zero_testBit]
    by_cases hi : i < s
    · rw [h i hi]; simp
    · simp [hi]

theorem testBit_chapter (q K b : Nat) : (q / 2 ^ K).testBit b = q.testBit (K + b) := by
  rw [← Nat.shiftRight_eq_div_pow, Nat.testBit_shiftRight]

theorem flagged_mod (p : TMarlin) (hfit : p.K + p.O + 2 ≤ 8 * p.idxBytes) (q n : Nat)
    (hn : n ≤ p.K + p.O) : (q + FLAG_NEXT_WORD p) % 2 ^ n = q % 2 ^ n := by
  rw [FLAG_eq]
  have h : 2 ^ (8 * p.idxBytes - 1) = 2 ^ n * 2 ^ (8 * p.idxBytes - 1 - n) := by
    rw [← Nat.pow_add]; congr 1; omega
  rw [h, Nat.add_mul_mod_self_left]

/-- OR-ing the whole index of the current state into the register gives the same register as
OR-ing its low `K` bits. -/
theorem foldCode_eq_low (p : TMarlin) (hfit : p.K + p.O + 2 ≤ 8 * p.idxBytes)
    (q : Nat) (hq : q < 2 ^ (p.K + p.O)) (j : Nat) (hj : j = q ∨ j = q + FLAG_NEXT_WORD p)
    (value : Nat) (bits : Int) (hreg : RegisterOk p (q / 2 ^ p.K) value bits)
    (hfits : bits.toNat + p.K ≤ 32) :
    foldCode p value bits j = foldLowBits p value bits j := by
  obtain ⟨h0, _, _, _, hov⟩ := hreg
  have hidx : (j ||| FLAG_NEXT_WORD p) ^^^ FLAG_NEXT_WORD p = q := by
    rcases hj with h | h
    · rw [h]; exact (stateIndex_plain p hfit q hq).1
    · rw [h]; exact (stateIndex_flagged p hfit q hq).1
  have hlow : j % 2 ^ p.K = q % 2 ^ p.K := by
    rcases hj with h | h
    · rw [h]
    · rw [h]; exact flagged_mod p hfit q p.K (by omega)
  unfold foldCode foldLowBits
  rw [hidx, hlow]
  apply Nat.eq_of_testBit_eq
  intro i
  simp only [Nat.testBit_mod_two_pow, Nat.testBit_or, Nat.testBit_shiftLeft]
  by_cases hi : i < 32
  · simp only [hi, decide_True, Bool.true_and]
    by_cases hs : 32 - p.K - bits.toNat ≤ i
    · simp only [ge_iff_le, hs, decide_True, Bool.true_and]
      by_cases hk : i - (32 - p.K - bits.toNat) < p.K
      · simp [hk]
      · simp only [hk, decide_False, Bool.false_and, Bool.or_false]
        obtain ⟨b, hb⟩ : ∃ b, i - (32 - p.K - bits.toNat) = p.K + b :=
          ⟨i - (32 - p.K - bits.toNat) - p.K, by omega⟩
        rw [hb, ← testBit_chapter]
        by_cases hbO : b < p.O
        · cases hcb : (q / 2 ^ p.K).testBit b with
          | false => simp
          | true =>
            have := hov b (by omega) hbO hcb
            rw [show 32 - bits.toNat + b = i by omega] at this
            rw [this]; simp
        · have hc : q / 2 ^ p.K < 2 ^ b := by
            have h1 : q / 2 ^ p.K < 2 ^ p.O := by
              rw [Nat.div_lt_iff_lt_mul (Nat.two_pow_pos _), Nat.mul_comm, ← Nat.pow_add]
              exact hq
            exact lt_of_lt_of_le h1 (Nat.pow_le_pow_right (by norm_num) (by omega))
          rw [Nat.testBit_lt_two_pow hc]; simp
    · simp [hs]
  · simp [hi]

/-- After a codeword is folded in, the register is consistent with every chapter whose number
has no bit set outside the low `O` bits of the index of the state that was current. -/
theorem fold_registerOk (p : TMarlin) (q value : Nat) (bits : Int)
    (hreg : RegisterOk p (q / 2 ^ p.K) value bits) (hfits : bits.toNat + p.K ≤ 32)
    (c1 : Nat) (hc1 : ∀ b, b < p.O → c1.testBit b = true → q.testBit b = true) :
    RegisterOk p c1
      ((value ||| ((q % 2 ^ p.K) <<< (32 - p.K - bits.toNat))) % 2 ^ 32) (bits + p.K) := by
  obtain ⟨h0, h32, hv, hz, hov⟩ := hreg
  have hn : (bits + (p.K : Int)).toNat = bits.toNat + p.K := by omega
  rw [mod_two_pow_eq_zero_iff] at hz
  refine ⟨by omega, by omega, Nat.mod_lt _ (Nat.two_pow_pos _), ?_, ?_⟩
  · rw [mod_two_pow_eq_zero_iff, hn]
    intro i hi
    simp only [Nat.testBit_mod_two_pow, Nat.testBit_or, Nat.testBit_shiftLeft]
    rw [hz i (by omega)]
    have : ¬ (32 - p.K - bits.toNat ≤ i) := by omega
    simp [this]
  · rw [hn]
    intro b hb hbO hcb
    have hqb := hc1 b hbO hcb
    simp only [Nat.testBit_mod_two_pow, Nat.testBit_or, Nat.testBit_shiftLeft]
    have hi : 32 - (bits.toNat + p.K) + b < 32 := by omega
    have hs : 32 - p.K - bits.toNat ≤ 32 - (bits.toNat + p.K) + b := by omega
    have hsub : 32 - (bits.toNat + p.K) + b - (32 - p.K - bits.toNat) = b := by omega
    simp only [hi, decide_True, Bool.true_and, ge_iff_le, hs, hsub]
    by_cases hk : b < p.K
    · simp [hk, hqb]
    · have := hov (b - p.K) (by omega) (by omega)
        (by rw [testBit_chapter, show p.K + (b - p.K) = b by omega]; exact hqb)
      rw [show 32 - bits.toNat + (b - p.K) = 32 - (bits.toNat + p.K) + b by omega] at this
      rw [this]
      simp

theorem drain_registerOk (p : TMarlin) (c : Nat) (thr : Int) (fuel value : Nat) (bits : Int)
    (out : Nat) (mem : Mem) (hthr : 8 ≤ thr) (hreg : RegisterOk p c value bits) :
    RegisterOk p c (drain thr fuel value bits out mem).1 (drain thr fuel value bits out mem).2.1 := by
  induction fuel generalizing value bits out mem with
  | zero => exact hreg
  | succ fuel ih =>
    simp only [drain]
    split
    · next hgt =>
      apply ih
      obtain ⟨h0, h32, hv, hz, hov⟩ := hreg
      have hn : (bits - 8).toNat = bits.toNat - 8 := by omega
      have hn8 : 8 ≤ bits.toNat := by omega
      rw [mod_two_pow_eq_zero_iff] at hz
      refine ⟨by omega, by omega, Nat.mod_lt _ (Nat.two_pow_pos _), ?_, ?_⟩
      · rw [mod_two_pow_eq_zero_iff, hn]
        intro i hi
        simp only [Nat.testBit_mod_two_pow, Nat.testBit_shiftLeft]
        by_cases h8 : 8 ≤ i
        · rw [hz (i - 8) (by omega)]; simp
        · simp [h8]
      · rw [hn]
        intro b hb hbO hcb
        simp only [Nat.testBit_mod_two_pow, Nat.testBit_shiftLeft]
        have hi : 32 - (bits.toNat - 8) + b < 32 := by omega
        have h8 : 8 ≤ 32 - (bits.toNat - 8) + b := by omega
        simp only [hi, decide_True, Bool.true_and, ge_iff_le, h8]
        rw [show 32 - (bits.toNat - 8) + b - 8 = 32 - bits.toNat + b by omega]
        exact hov b (by omega) hbO hcb
    · exact hreg

theorem foldLowBits_state (p : TMarlin) (hfit : p.K + p.O + 2 ≤ 8 * p.idxBytes)
    (q j : Nat) (hj : j = q ∨ j = q + FLAG_NEXT_WORD p) (value : Nat) (bits : Int) :
    foldLowBits p value bits j
      = (value ||| ((q % 2 ^ p.K) <<< (32 - p.K - bits.toNat))) % 2 ^ 32 := by
  unfold foldLowBits
  rcases hj with h | h
  · rw [h]
  · rw [h, flagged_mod p hfit q p.K (by omega)]

/-- From a state and a register consistent with its chapter, the loop of `compressMarlinFast`
and the loop that folds in only the low `K` bits of each codeword give the same result. -/
theorem compressMarlinFastLoop_eq_spec (p : TMarlin) (hfit : p.K + p.O + 2 ≤ 8 * p.idxBytes)
    (hK : p.K ≤ 24) (hA0 : 0 < p.marlinAlphabet.length) (htab : OverlapSafe p)
    (dstStart : Nat) (dstEnd : Int) (src : List Nat) (inPos out q j : Nat)
    (hq : q < 2 ^ (p.K + p.O)) (hj : j = q ∨ j = q + FLAG_NEXT_WORD p)
    (value : Nat) (bits : Int) (hreg : RegisterOk p (q / 2 ^ p.K) value bits) (hb8 : bits ≤ 8)
    (mem : Mem) (rare : List Nat) :
    compressMarlinFastLoop p dstStart dstEnd src inPos out j value bits mem rare
      = specBitPackedLoop p dstStart dstEnd src inPos out j value bits mem rare := by
  have hfits : ∀ (b : Int), 0 ≤ b → b ≤ 8 → b.toNat + p.K ≤ 32 := by
    intro b h0 h8; omega
  induction src generalizing inPos out q j value bits mem rare with
  | nil =>
    simp only [compressMarlinFastLoop, specBitPackedLoop]
    rw [foldCode_eq_low p hfit q hq j hj value bits hreg (hfits bits hreg.1 hb8)]
  | cons ss rest ih =>
    simp only [compressMarlinFastLoop, specBitPackedLoop]
    by_cases habort : dstEnd - (out : Int) < 16
    · rw [if_pos habort, if_pos habort]
    · rw [if_neg habort, if_neg habort]
      have hjump : jump p j (classify p ss inPos rare).1 = jump p q (marlinSymbol p ss) := by
        rw [classify_fst]
        rcases hj with h | h
        · rw [h]
        · rw [h, (stateIndex_flagged p hfit q hq).2.2]
      rw [foldCode_eq_low p hfit q hq j hj value bits hreg (hfits bits hreg.1 hb8)]
      rcases htab q (marlinSymbol p ss) hq (marlinSymbol_lt p hA0 ss) with ⟨h1, h2⟩ | ⟨q1, h1, h2, h3⟩
      · have hnf : ¬ (jump p j (classify p ss inPos rare).1 &&& FLAG_NEXT_WORD p ≠ 0) := by
          rw [hjump]
          exact not_not.mpr (stateIndex_plain p hfit _ h1).2
        simp only [if_neg hnf]
        apply ih _ _ (jump p q (marlinSymbol p ss)) _ h1 (Or.inl hjump)
        · rw [h2]
          exact drain_registerOk p _ 8 _ _ _ _ _ (le_refl _) hreg
        · exact drain_done 8 (by norm_num) _ _ _ _ _ (le_refl _)
      · have hfl : jump p j (classify p ss inPos rare).1 &&& FLAG_NEXT_WORD p ≠ 0 := by
          rw [hjump, h2]
          exact (stateIndex_flagged p hfit q1 h1).2.1
        simp only [if_pos hfl]
        apply ih _ _ q1 _ h1 (Or.inr (hjump.trans h2))
        · rw [foldLowBits_state p hfit q j hj]
          exact drain_registerOk p _ 8 _ _ _ _ _ (le_refl _)
            (fold_registerOk p q value bits hreg (hfits bits hreg.1 hb8) _ h3)
        · exact drain_done 8 (by norm_num) _ _ _ _ _ (le_refl _)

theorem chapterTable_overlapSafe (p : TMarlin) (htab : ChapterTable p) : OverlapSafe p := by
  intro q m hq hm
  rcases htab q m hq hm with h | ⟨q1, h1, h2, h3⟩
  · exact Or.inl h
  · refine Or.inr ⟨q1, h1, h2, ?_⟩
    intro b hb hcb
    rw [h3, Nat.testBit_mod_two_pow] at hcb
    simp only [hb, decide_True, Bool.true_and] at hcb
    exact hcb

/-- With a table that makes the overlap harmless, `compressMarlinFast` returns what the
bit-packed variant of the specification returns. -/
theorem compressMarlinFast_eq_spec (p : TMarlin) (hfit : p.K + p.O + 2 ≤ 8 * p.idxBytes)
    (hK : p.K ≤ 24) (hA0 : 0 < p.marlinAlphabet.length) (htab : OverlapSafe p)
    (src : List Nat) (past : Nat) (mem : Mem) (dstStart : Nat) (dstEnd : Int)
    (rare : List Nat) :
    compressMarlinFast p src past mem dstStart dstEnd rare
      = specBitPacked p src past mem dstStart dstEnd rare := by
  unfold compressMarlinFast specBitPacked
  have hlt := initialWord_lt p (classify p (src.headD past) 0 rare).1
  have hq : initialWord p (classify p (src.headD past) 0 rare).1 < 2 ^ (p.K + p.O) :=
    lt_of_lt_of_le hlt (Nat.pow_le_pow_right (by norm_num) (by omega))
  refine compressMarlinFastLoop_eq_spec p hfit hK hA0 htab dstStart dstEnd _ 1 dstStart _ _ hq
    (Or.inl rfl) 0 0 ?_ (by norm_num) mem _
  refine ⟨le_refl _, by norm_num, by norm_num, by simp, ?_⟩
  intro b hb
  simp at hb

/-- Folding a codeword in leaves the bits of the register already written as they are. -/
theorem foldCode_keeps_written (p : TMarlin) (hfit : p.K + p.O + 2 ≤ 8 * p.idxBytes)
    (q : Nat) (hq : q < 2 ^ (p.K + p.O)) (j : Nat) (hj : j = q ∨ j = q + FLAG_NEXT_WORD p)
    (value : Nat) (bits : Int) (hreg : RegisterOk p (q / 2 ^ p.K) value bits)
    (hfits : bits.toNat + p.K ≤ 32) :
    foldCode p value bits j / 2 ^ (32 - bits.toNat) = value / 2 ^ (32 - bits.toNat) := by
  rw [foldCode_eq_low p hfit q hq j hj value bits hreg hfits, foldLowBits_state p hfit q j hj]
  obtain ⟨h0, _, hv, _, _⟩ := hreg
  apply Nat.eq_of_testBit_eq
  intro i
  rw [← Nat.shiftRight_eq_div_pow, ← Nat.shiftRight_eq_div_pow, Nat.testBit_shiftRight,
    Nat.testBit_shiftRight]
  simp only [Nat.testBit_mod_two_pow, Nat.testBit_or, Nat.testBit_shiftLeft]
  by_cases hi : 32 - bits.toNat + i < 32
  · have hk : ¬ (32 - bits.toNat + i - (32 - p.K - bits.toNat) < p.K) := by omega
    simp [hi, hk]
  · have hlt : value < 2 ^ (32 - bits.toNat + i) :=
      lt_of_lt_of_le hv (Nat.pow_le_pow_right (by norm_num) (by omega))
    rw [Nat.testBit_lt_two_pow hlt]
    simp [hi]

/-! ## C23: codewords and chapters -/

/-- C23: for a table built by `buildCompressorTable` from a dictionary over the Marlin symbols
that holds every one-symbol word in every chapter (`K <= 24`, at least one Marlin symbol):
the loops start in a position of chapter 0; from a state with index `q`, flagged or not, on
the Marlin symbol of any source byte the next state is either unflagged and a position of the
chapter of `q`, or flagged and a position of the chapter `q mod 2^O`; folding a state into a
register consistent with the chapter of that state leaves the written bits unchanged; and
`compressMarlinFast` returns what the variant that ORs only the low `K` bits returns. -/
theorem encoder_chapters (p : TMarlin) (hfit : p.K + p.O + 2 ≤ 8 * p.idxBytes)
    (hK : p.K ≤ 24) (hA : p.marlinAlphabet.length ≤ 256) (hA0 : 0 < p.marlinAlphabet.length)
    (hsym : ∀ w, w ∈ p.words → ∀ s, s ∈ w → s < p.marlinAlphabet.length)
    (hsingle : ∀ c, c < 2 ^ p.O → ∀ m, m < p.marlinAlphabet.length →
      ∃ i2, i2 < 2 ^ p.K ∧ p.words.getD (c * 2 ^ p.K + i2) [] = [m])
    (tbl : List Nat) (hbuilt : buildCompressorTable p = some tbl)
    (htable : ∀ x, p.compressorTable x = tbl.getD x 0) :
    (∀ ms, initialWord p ms < 2 ^ p.K) ∧
    (∀ q j ss, q < 2 ^ (p.K + p.O) → (j = q ∨ j = q + FLAG_NEXT_WORD p) →
      (jump p j (marlinSymbol p ss) &&& FLAG_NEXT_WORD p = 0 ∧
        jump p j (marlinSymbol p ss) < 2 ^ (p.K + p.O) ∧
        jump p j (marlinSymbol p ss) / 2 ^ p.K = q / 2 ^ p.K) ∨
      (jump p j (marlinSymbol p ss) &&& FLAG_NEXT_WORD p ≠ 0 ∧
        stateIndex p (jump p j (marlinSymbol p ss)) < 2 ^ (p.K + p.O) ∧
        stateIndex p (jump p j (marlinSymbol p ss)) / 2 ^ p.K = q % 2 ^ p.O)) ∧
    (∀ q j value bits, q < 2 ^ (p.K + p.O) → (j = q ∨ j = q + FLAG_NEXT_WORD p) →
      RegisterOk p (q / 2 ^ p.K) value bits → bits ≤ 8 →
      foldCode p value bits j / 2 ^ (32 - bits.toNat) = value / 2 ^ (32 - bits.toNat) ∧
        foldCode p value bits j = foldLowBits p value bits j) ∧
    (∀ src past mem dstStart dstEnd rare,
      compressMarlinFast p src past mem dstStart dstEnd rare
        = specBitPacked p src past mem dstStart dstEnd rare) := by
  have htab := built_chapterTable p hfit hA hsym hsingle tbl hbuilt htable
  refine ⟨initialWord_lt p, ?_, ?_, ?_⟩
  · intro q j ss hq hj
    have hjump : jump p j (marlinSymbol p ss) = jump p q (marlinSymbol p ss) := by
      rcases hj with h | h
      · rw [h]
      · rw [h, (stateIndex_flagged p hfit q hq).2.2]
    rw [hjump]
    rcases htab q (marlinSymbol p ss) hq (marlinSymbol_lt p hA0 ss) with ⟨h1, h2⟩ | ⟨q1, h1, h2, h3⟩
    · exact Or.inl ⟨(stateIndex_plain p hfit _ h1).2, h1, h2⟩
    · right
      rw [h2, (stateIndex_flagged p hfit q1 h1).1]
      exact ⟨(stateIndex_flagged p hfit q1 h1).2.1, h1, h3⟩
  · intro q j value bits hq hj hreg hb8
    have hfits : bits.toNat + p.K ≤ 32 := by
      have := hreg.1; omega
    exact ⟨foldCode_keeps_written p hfit q hq j hj value bits hreg hfits,
      foldCode_eq_low p hfit q hq j hj value bits hreg hfits⟩
  · intro src past mem dstStart dstEnd rare
    exact compressMarlinFast_eq_spec p hfit hK hA0 (chapterTable_overlapSafe p htab) src past
      mem dstStart dstEnd rare

set_option maxRecDepth 100000 in
theorem encoder_chapters_witness :
    jump overlapMarlin 1 (marlinSymbol overlapMarlin 0x00) = 4 + FLAG_NEXT_WORD overlapMarlin ∧
      stateIndex overlapMarlin (jump overlapMarlin 1 (marlinSymbol overlapMarlin 0x00)) / 2 ^ 2
        = 1 % 2 ^ 1 ∧
      (compressMarlinFast overlapMarlin [0x80, 0x00, 0x80, 0x00, 0x00, 0x80] 0 zeroMem 0 64 []).1
        = (specBitPacked overlapMarlin [0x80, 0x00, 0x80, 0x00, 0x00, 0x80] 0 zeroMem 0 64 []).1 ∧
      (compressMarlinFast overlapMarlin [0x80, 0x00, 0x80, 0x00, 0x00, 0x80] 0 zeroMem 0 64 []).1
        = 2 ∧
      (compressMarlinFast overlapMarlin [0x80, 0x00, 0x80, 0x00, 0x00, 0x80] 0 zeroMem 0 64
        []).2.1 0 = 0x46 ∧
      (compressMarlinFast overlapMarlin [0x80, 0x00, 0x80, 0x00, 0x00, 0x80] 0 zeroMem 0 64
        []).2.1 1 = 0x40 := by
  have h := encoder_chapters overlapMarlin (by decide) (by decide) (by decide) (by decide)
    (by decide) (by decide) overlapTable (by decide) (fun _ => rfl)
  refine ⟨by decide, ?_, congrArg Prod.fst (h.2.2.2 _ 0 zeroMem 0 64 []), by decide, by decide,
    by decide⟩
  rcases h.2.1 1 1 0x00 (by decide) (Or.inl rfl) with h1 | h1
  · exact absurd h1.1 (by decide)
  · exact h1.2.2

/-! ## `compressMarlin8` against the bit-packed loop for `K = 8` -/

theorem drain_stop (thr : Int) (fuel value : Nat) (bits : Int) (out : Nat) (mem : Mem)
    (h : bits ≤ thr) : drain thr fuel value bits out mem = (value, bits, out, mem) := by
  cases fuel with
  | zero => rfl
  | succ fuel =>
    simp only [drain]
    rw [if_neg (by omega)]

theorem drain_step (thr : Int) (fuel value : Nat) (bits : Int) (out : Nat) (mem : Mem)
    (h : thr < bits) :
    drain thr (fuel + 1) value bits out mem
      = drain thr fuel ((value <<< 8) % 2 ^ 32) (bits - 8) (out + 1)
          (store mem out (value >>> 24)) := by
  simp only [drain]
  rw [if_pos (by omega)]

theorem byte_top (cw : Nat) (hcw : cw < 256) :
    (cw <<< 24) >>> 24 = cw ∧ ((cw <<< 24) <<< 8) % 2 ^ 32 = 0 ∧ cw <<< 24 < 2 ^ 32 := by
  rw [Nat.shiftLeft_eq, Nat.shiftLeft_eq, Nat.shiftRight_eq_div_pow]
  refine ⟨by omega, by omega, by omega⟩

theorem two_bytes_top (cw jj : Nat) (hcw : cw < 256) (hjj : jj < 256) :
    (cw <<< 24 ||| jj <<< 16) % 2 ^ 32 = cw * 2 ^ 24 + jj * 2 ^ 16 := by
  rw [Nat.shiftLeft_eq, Nat.shiftLeft_eq, Nat.mul_comm cw,
    ← Nat.mul_add_lt_is_or (by omega : jj * 2 ^ 16 < 2 ^ 24) cw]
  omega

theorem zero_or_byte (jj : Nat) (hjj : jj < 256) :
    (0 ||| jj <<< 24) % 2 ^ 32 = jj <<< 24 := by
  rw [Nat.zero_or, Nat.shiftLeft_eq]
  omega

theorem foldLowBits_first (p : TMarlin) (hK8 : p.K = 8) (j : Nat) :
    foldLowBits p 0 0 j = (j % 256) <<< 24 := by
  unfold foldLowBits
  rw [hK8]
  exact zero_or_byte (j % 256) (Nat.mod_lt _ (by norm_num))

theorem foldLowBits_second (p : TMarlin) (hK8 : p.K = 8) (cw j : Nat) (hcw : cw < 256) :
    foldLowBits p (cw <<< 24) 8 j = cw * 2 ^ 24 + (j % 256) * 2 ^ 16 := by
  unfold foldLowBits
  rw [hK8]
  exact two_bytes_top cw (j % 256) hcw (Nat.mod_lt _ (by norm_num))

theorem two_bytes_drain (cw jj : Nat) (hjj : jj < 256) :
    (cw * 2 ^ 24 + jj * 2 ^ 16) >>> 24 = cw ∧
      ((cw * 2 ^ 24 + jj * 2 ^ 16) <<< 8) % 2 ^ 32 = jj <<< 24 := by
  rw [Nat.shiftLeft_eq, Nat.shiftLeft_eq, Nat.shiftRight_eq_div_pow]
  refine ⟨by omega, by omega⟩

theorem stepA_drain (p : TMarlin) (hK8 : p.K = 8) (j out : Nat) (mem : Mem) :
    drain 8 ((0 : Int) + (p.K : Int)).toNat (foldLowBits p 0 0 j) (0 + (p.K : Int)) out mem
      = ((j % 256) <<< 24, 8, out, mem) := by
  rw [hK8, foldLowBits_first p hK8]
  exact drain_stop 8 _ _ _ _ _ (by norm_num)

theorem stepB_drain (p : TMarlin) (hK8 : p.K = 8) (cw j out : Nat) (mem : Mem) (hcw : cw < 256) :
    drain 8 ((8 : Int) + (p.K : Int)).toNat (foldLowBits p (cw <<< 24) 8 j) (8 + (p.K : Int))
        out mem
      = ((j % 256) <<< 24, 8, out + 1, store mem out cw) := by
  have hjj : j % 256 < 256 := Nat.mod_lt _ (by norm_num)
  rw [hK8, foldLowBits_second p hK8 cw j hcw]
  show drain 8 (15 + 1) _ 16 out mem = _
  rw [drain_step 8 15 _ 16 out mem (by norm_num), (two_bytes_drain cw _ hjj).1,
    (two_bytes_drain cw _ hjj).2]
  exact drain_stop 8 _ _ _ _ _ (by norm_num)

theorem flushA_drain (p : TMarlin) (hK8 : p.K = 8) (j out : Nat) (mem : Mem) :
    drain 0 ((0 : Int) + (p.K : Int)).toNat (foldLowBits p 0 0 j) (0 + (p.K : Int)) out mem
      = (0, 0, out + 1, store mem out (j % 256)) := by
  have hjj : j % 256 < 256 := Nat.mod_lt _ (by norm_num)
  rw [hK8, foldLowBits_first p hK8]
  show drain 0 (7 + 1) _ 8 out mem = _
  rw [drain_step 0 7 _ 8 out mem (by norm_num), (byte_top _ hjj).1, (byte_top _ hjj).2.1]
  exact drain_stop 0 _ _ _ _ _ (by norm_num)

theorem flushB_drain (p : TMarlin) (hK8 : p.K = 8) (cw j out : Nat) (mem : Mem) (hcw : cw < 256) :
    drain 0 ((8 : Int) + (p.K : Int)).toNat (foldLowBits p (cw <<< 24) 8 j) (8 + (p.K : Int))
        out mem
      = (0, 0, out + 1 + 1, store (store mem out cw) (out + 1) (j % 256)) := by
  have hjj : j % 256 < 256 := Nat.mod_lt _ (by norm_num)
  rw [hK8, foldLowBits_second p hK8 cw j hcw]
  show drain 0 (15 + 1) _ 16 out mem = _
  rw [drain_step 0 15 _ 16 out mem (by norm_num), (two_bytes_drain cw _ hjj).1,
    (two_bytes_drain cw _ hjj).2]
  show drain 0 (14 + 1) _ 8 (out + 1) _ = _
  rw [drain_step 0 14 _ 8 (out + 1) _ (by norm_num), (byte_top _ hjj).1, (byte_top _ hjj).2.1]
  exact drain_stop 0 _ _ _ _ _ (by norm_num)

/-- The loops of `compressMarlin8` and of the bit-packed variant in step, `K = 8`: the
register is empty and both cursors agree, or it holds the last codeword `cw`, not yet stored
by the bit-packed loop, which `compressMarlin8` has stored one byte below its cursor. -/
theorem compressMarlin8Loop_eq_spec (p : TMarlin) (hK8 : p.K = 8) (dstStart : Nat)
    (dstEnd : Int) (src : List Nat) (inPos j out8 outF value : Nat) (bits : Int)
    (mem8 memF : Mem) (rare : List Nat)
    (hrel : (bits = 0 ∧ value = 0 ∧ outF = out8 ∧ ∀ x, x ≠ out8 → mem8 x = memF x) ∨
      (bits = 8 ∧ outF + 1 = out8 ∧ ∃ cw, cw < 256 ∧ value = cw <<< 24 ∧ mem8 outF = cw ∧
        ∀ x, x ≠ out8 → x ≠ outF → mem8 x = memF x))
    (h8 : (compressMarlin8Loop p dstStart dstEnd src inPos out8 j mem8 rare).1 ≠ -1)
    (hF : (specBitPackedLoop p dstStart dstEnd src inPos outF j value bits memF rare).1 ≠ -1) :
    (compressMarlin8Loop p dstStart dstEnd src inPos out8 j mem8 rare).1
        = (specBitPackedLoop p dstStart dstEnd src inPos outF j value bits memF rare).1 ∧
      (∀ x, (compressMarlin8Loop p dstStart dstEnd src inPos out8 j mem8 rare).2.1 x
        = (specBitPackedLoop p dstStart dstEnd src inPos outF j value bits memF rare).2.1 x) ∧
      (compressMarlin8Loop p dstStart dstEnd src inPos out8 j mem8 rare).2.2
        = (specBitPackedLoop p dstStart dstEnd src inPos outF j value bits memF rare).2.2 := by
  induction src generalizing inPos j out8 outF value bits mem8 memF rare with
  | nil =>
    simp only [compressMarlin8Loop, specBitPackedLoop]
    rcases hrel with ⟨hb, hv, ho, hm⟩ | ⟨hb, ho, cw, hcw, hv, hm1, hm⟩
    · subst hb hv ho
      rw [flushA_drain p hK8]
      refine ⟨rfl, ?_, trivial⟩
      intro x
      show store mem8 outF (j % 256) x = store memF outF (j % 256) x
      unfold store
      split
      · rfl
      · next hx => exact hm x hx
    · rw [hb, hv, flushB_drain p hK8 cw j outF memF hcw, ← ho]
      refine ⟨rfl, ?_, trivial⟩
      intro x
      show store mem8 (outF + 1) (j % 256) x
        = store (store memF outF cw) (outF + 1) (j % 256) x
      rw [← ho] at hm
      unfold store
      split
      · rfl
      · next hx =>
        split
        · next hx2 => rw [hx2]; exact hm1
        · next hx2 => exact hm x hx hx2
  | cons ss rest ih =>
    simp only [compressMarlin8Loop, specBitPackedLoop] at h8 hF ⊢
    by_cases habF : dstEnd - (outF : Int) < 16
    · rw [if_pos habF] at hF
      exact absurd rfl hF
    · rw [if_neg habF] at hF ⊢
      by_cases hflag : jump p j (classify p ss inPos rare).1 &&& FLAG_NEXT_WORD p ≠ 0
      · simp only [if_pos hflag] at h8 hF ⊢
        by_cases hab8 : dstEnd - ((out8 + 1 : Nat) : Int) < 16
        · rw [if_pos hab8] at h8
          exact absurd rfl h8
        · rw [if_neg hab8] at h8 ⊢
          rcases hrel with ⟨hb, hv, ho, hm⟩ | ⟨hb, ho, cw, hcw, hv, hm1, hm⟩
          · subst hb hv ho
            rw [stepA_drain p hK8] at hF ⊢
            refine ih _ _ _ _ _ _ _ _ _ (Or.inr ⟨rfl, rfl, j % 256,
              Nat.mod_lt _ (by norm_num), rfl, ?_, ?_⟩) h8 hF
            · unfold store; rw [if_pos rfl]
            · intro x _ hx2
              unfold store; rw [if_neg hx2]
              exact hm x hx2
          · rw [hb, hv, stepB_drain p hK8 cw j outF memF hcw] at hF ⊢
            rw [← ho] at h8 hm ⊢
            refine ih _ _ _ _ _ _ _ _ _ (Or.inr ⟨rfl, rfl, j % 256,
              Nat.mod_lt _ (by norm_num), rfl, ?_, ?_⟩) h8 hF
            · unfold store; rw [if_pos rfl]
            · intro x hx1 hx2
              have hx2b : x ≠ outF + 1 := hx2
              show store mem8 (outF + 1) (j % 256) x = store memF outF cw x
              unfold store
              rw [if_neg hx2b]
              split
              · next hx3 => rw [hx3]; exact hm1
              · next hx3 => exact hm x hx2b hx3
      · simp only [if_neg hflag] at h8 hF ⊢
        by_cases hab8 : dstEnd - (out8 : Int) < 16
        · rw [if_pos hab8] at h8
          exact absurd rfl h8
        · rw [if_neg hab8] at h8 ⊢
          have hd : drain 8 bits.toNat value bits outF memF = (value, bits, outF, memF) := by
            apply drain_stop
            rcases hrel with ⟨hb, _⟩ | ⟨hb, _⟩ <;> omega
          rw [hd] at hF ⊢
          refine ih _ _ _ _ _ _ _ _ _ ?_ h8 hF
          rcases hrel with ⟨hb, hv, ho, hm⟩ | ⟨hb, ho, cw, hcw, hv, hm1, hm⟩
          · left
            refine ⟨hb, hv, ho, ?_⟩
            intro x hx
            unfold store; rw [if_neg hx]
            exact hm x hx
          · right
            refine ⟨hb, ho, cw, hcw, hv, ?_, ?_⟩
            · unfold store; rw [if_neg (show ¬ outF = out8 by omega)]
              exact hm1
            · intro x hx1 hx2
              unfold store; rw [if_neg hx1]
              exact hm x hx1 hx2

/-- The table `buildCompressorTable` returns makes the overlap harmless, whatever the
dictionary: a fallback cell holds a position of chapter `i mod 2^O`, or position 0 when that
chapter lacks the one-symbol word. -/
theorem built_overlapSafe (p : TMarlin) (hfit : p.K + p.O + 2 ≤ 8 * p.idxBytes)
    (hA : p.marlinAlphabet.length ≤ 256)
    (hsym : ∀ w, w ∈ p.words → ∀ s, s ∈ w → s < p.marlinAlphabet.length)
    (tbl : List Nat) (hbuilt : buildCompressorTable p = some tbl)
    (htable : ∀ x, p.compressorTable x = tbl.getD x 0) : OverlapSafe p := by
  intro q m hq hm
  obtain ⟨linked, hl, hlen, hkeep, hset⟩ := built_cell p hfit tbl hbuilt
  have hsym256 : ∀ i s, s ∈ p.words.getD i [] → s < 256 :=
    fun i s hs => lt_of_lt_of_le (words_getD_sym p _ hsym i s hs) hA
  have hsound := (linked_sound p hfit hsym256 linked hl).2 q m hq
    (by rw [hlen]; exact cell_in_table p q m (le_of_lt hm))
  rw [jump_eq_cell, htable]
  by_cases hu : linked.getD (cell p q m) 0 = 2 ^ (8 * p.idxBytes) - 1
  · right
    have hk : q % 2 ^ p.O < 2 ^ p.O := Nat.mod_lt _ (Nat.two_pow_pos _)
    refine ⟨(position p (q % 2 ^ p.O) [m]).getD 0, position_getD_lt p _ _ hk,
      hset q m hq hm hu, ?_⟩
    intro b hb hcb
    cases hpos : position p (q % 2 ^ p.O) [m] with
    | none =>
      rw [hpos] at hcb
      simp at hcb
    | some q1 =>
      rw [hpos] at hcb
      have hbd := position_bound p _ _ q1 hpos
      rw [Option.getD_some, chapter_of_bound p.K _ q1 hbd.1 hbd.2,
        Nat.testBit_mod_two_pow] at hcb
      simp only [hb, decide_True, Bool.true_and] at hcb
      exact hcb
  · left
    rw [hkeep _ hu]
    exact ⟨(hsound hu).1, (hsound hu).2.1⟩

theorem byteMarlin_jump (q m : Nat) (hq : q < 256) :
    jump byteMarlin q m = if q = 0 then 4 + m else m + 0x8000 := by
  rw [jump_eq_cell, cell_eq byteMarlin q m hq]
  show (if (q + m * 2 ^ 8) % 256 = 0 then 4 + (q + m * 2 ^ 8) / 256
      else (q + m * 2 ^ 8) / 256 + 0x8000) = _
  have h1 : (q + m * 2 ^ 8) % 256 = q := by omega
  have h2 : (q + m * 2 ^ 8) / 256 = m := by omega
  rw [h1, h2]

theorem byteMarlin_overlapSafe : OverlapSafe byteMarlin := by
  intro q m hq hm
  have hq2 : q < 256 := hq
  have hm2 : m < 4 := hm
  rw [byteMarlin_jump q m hq2]
  by_cases h0 : q = 0
  · left
    rw [if_pos h0]
    constructor
    · show 4 + m < 256
      omega
    · show (4 + m) / 2 ^ 8 = q / 2 ^ 8
      omega
  · right
    rw [if_neg h0]
    refine ⟨m, by show m < 256; omega, rfl, ?_⟩
    intro b hb
    exact absurd hb (Nat.not_lt_zero _)

/-! ## C24: the two encoder loops for `K = 8` -/

/-- C24: for `K = 8` and a compressor table on which the overlap is harmless (every table
`buildCompressorTable` returns is one), when neither `compressMarlin8` nor
`compressMarlinFast` aborts with -1 on a block, they return the same length, leave the same
memory, hence the same codeword bytes, and record the same rare list. -/
theorem marlin8_eq_fast (p : TMarlin) (hK8 : p.K = 8) (hfit : p.K + p.O + 2 ≤ 8 * p.idxBytes)
    (hA0 : 0 < p.marlinAlphabet.length) (htab : OverlapSafe p)
    (src : List Nat) (past : Nat) (mem : Mem) (dstStart : Nat) (dstEnd : Int)
    (rare : List Nat)
    (h8 : (compressMarlin8 p src past mem dstStart dstEnd rare).1 ≠ -1)
    (hF : (compressMarlinFast p src past mem dstStart dstEnd rare).1 ≠ -1) :
    (compressMarlin8 p src past mem dstStart dstEnd rare).1
        = (compressMarlinFast p src past mem dstStart dstEnd rare).1 ∧
      (∀ x, (compressMarlin8 p src past mem dstStart dstEnd rare).2.1 x
        = (compressMarlinFast p src past mem dstStart dstEnd rare).2.1 x) ∧
      (compressMarlin8 p src past mem dstStart dstEnd rare).2.2
        = (compressMarlinFast p src past mem dstStart dstEnd rare).2.2 := by
  rw [compressMarlinFast_eq_spec p hfit (by omega) hA0 htab] at hF ⊢
  unfold compressMarlin8 at h8 ⊢
  unfold specBitPacked at hF ⊢
  exact compressMarlin8Loop_eq_spec p hK8 dstStart dstEnd _ 1 _ dstStart dstStart 0 0 mem mem _
    (Or.inl ⟨rfl, rfl, rfl, fun _ _ => rfl⟩) h8 hF

set_option maxRecDepth 100000 in
theorem marlin8_eq_fast_witness :
    (compressMarlin8 byteMarlin [0, 1, 2, 0, 0, 3, 7, 0] 0 zeroMem 0 64 []).1 = 5 ∧
      (compressMarlinFast byteMarlin [0, 1, 2, 0, 0, 3, 7, 0] 0 zeroMem 0 64 []).1 = 5 ∧
      readBytes (compressMarlinFast byteMarlin [0, 1, 2, 0, 0, 3, 7, 0] 0 zeroMem 0 64 []).2.1
        0 5 = [5, 2, 4, 3, 4] ∧
      readBytes (compressMarlin8 byteMarlin [0, 1, 2, 0, 0, 3, 7, 0] 0 zeroMem 0 64 []).2.1
        0 5 = [5, 2, 4, 3, 4] ∧
      (compressMarlinFast byteMarlin [0, 1, 2, 0, 0, 3, 7, 0] 0 zeroMem 0 64 []).2.2 = [6] := by
  have h := marlin8_eq_fast byteMarlin rfl (by decide) (by decide) byteMarlin_overlapSafe
    [0, 1, 2, 0, 0, 3, 7, 0] 0 zeroMem 0 64 [] (by decide) (by decide)
  refine ⟨by decide, h.1.symm.trans (by decide), ?_, by decide, h.2.2.symm.trans (by decide)⟩
  unfold readBytes
  simp only [← h.2.1]
  decide

/-! ## The maps of `compressMarlinReference` -/

theorem shiftRight_chapter (i K : Nat) : i >>> K = i / 2 ^ K := Nat.shiftRight_eq_div_pow i K

theorem wordMapAt_present (p : TMarlin) (hlen : p.words.length = 2 ^ (p.K + p.O))
    (hnodup : ∀ i i2, i < 2 ^ (p.K + p.O) → i2 < 2 ^ (p.K + p.O) → i / 2 ^ p.K = i2 / 2 ^ p.K →
      p.words.getD i [] = p.words.getD i2 [] → i = i2)
    (i : Nat) (hi : i < 2 ^ (p.K + p.O)) :
    wordMapAt p (i / 2 ^ p.K) (p.words.getD i []) = some (i % 2 ^ p.K) := by
  unfold wordMapAt
  cases hf : (List.range p.words.length).reverse.find?
      (fun i2 => i2 >>> p.K == i / 2 ^ p.K && p.words.getD i2 [] == p.words.getD i []) with
  | none =>
    have := List.find?_eq_none.mp hf i
      (List.mem_reverse.mpr (List.mem_range.mpr (by rw [hlen]; exact hi)))
    simp [shiftRight_chapter] at this
  | some i2 =>
    have hm := List.mem_of_find?_eq_some hf
    rw [List.mem_reverse, List.mem_range, hlen] at hm
    have hp := List.find?_some hf
    simp only [Bool.and_eq_true, beq_iff_eq, shiftRight_chapter] at hp
    have := hnodup i2 i hm hi hp.1 hp.2
    rw [this, Option.map_some', Nat.one_shiftLeft, Nat.and_pow_two_sub_one_eq_mod]

theorem wordMapAt_absent (p : TMarlin) (hlen : p.words.length = 2 ^ (p.K + p.O))
    (c : Nat) (w : List Nat)
    (h : ∀ i, i < 2 ^ (p.K + p.O) → i / 2 ^ p.K = c → p.words.getD i [] ≠ w) :
    wordMapAt p c w = none := by
  unfold wordMapAt
  rw [Option.map_eq_none', List.find?_eq_none]
  intro i hi
  rw [List.mem_reverse, List.mem_range, hlen] at hi
  simp only [Bool.and_eq_true, beq_iff_eq, shiftRight_chapter, not_and]
  intro hc
  exact h i hi hc

/-! ## The finished table in terms of the dictionary -/

theorem position_self (p : TMarlin)
    (hnodup : ∀ i i2, i < 2 ^ (p.K + p.O) → i2 < 2 ^ (p.K + p.O) → i / 2 ^ p.K = i2 / 2 ^ p.K →
      p.words.getD i [] = p.words.getD i2 [] → i = i2)
    (i : Nat) (hi : i < 2 ^ (p.K + p.O)) :
    position p (i / 2 ^ p.K) (p.words.getD i []) = some i := by
  have hib := bound_of_chapter p.K i
  have hc : i / 2 ^ p.K < 2 ^ p.O := by
    rw [Nat.div_lt_iff_lt_mul (Nat.two_pow_pos _), Nat.mul_comm, ← Nat.pow_add]; exact hi
  have h1 := position_unique p (i / 2 ^ p.K) (p.words.getD i []) (i - i / 2 ^ p.K * 2 ^ p.K)
    (by have := hib.2; rw [Nat.succ_mul] at this; omega)
    (by rw [show i / 2 ^ p.K * 2 ^ p.K + (i - i / 2 ^ p.K * 2 ^ p.K) = i by omega])
    (by
      intro i2 hi2 hw2
      have hb2 : i / 2 ^ p.K * 2 ^ p.K + i2 < (i / 2 ^ p.K + 1) * 2 ^ p.K := by
        rw [Nat.succ_mul]; omega
      have := hnodup (i / 2 ^ p.K * 2 ^ p.K + i2) i
        (index_lt_of_bound p.K p.O _ _ hc hb2) hi
        (chapter_of_bound p.K _ _ (Nat.le_add_right _ _) hb2) hw2
      omega)
  rw [show i / 2 ^ p.K * 2 ^ p.K + (i - i / 2 ^ p.K * 2 ^ p.K) = i by omega] at h1
  exact h1

/-- In a dictionary without duplicates inside a chapter, the cell `(q, m)` of the finished
table holds the index of the word of `q` extended by `m` when the chapter has it. -/
theorem built_present (p : TMarlin) (hfit : p.K + p.O + 2 ≤ 8 * p.idxBytes)
    (hA : p.marlinAlphabet.length ≤ 256)
    (hsym : ∀ w, w ∈ p.words → ∀ s, s ∈ w → s < p.marlinAlphabet.length)
    (hnodup : ∀ i i2, i < 2 ^ (p.K + p.O) → i2 < 2 ^ (p.K + p.O) → i / 2 ^ p.K = i2 / 2 ^ p.K →
      p.words.getD i [] = p.words.getD i2 [] → i = i2)
    (tbl : List Nat) (hbuilt : buildCompressorTable p = some tbl)
    (htable : ∀ x, p.compressorTable x = tbl.getD x 0)
    (q m i1 : Nat) (hq : q < 2 ^ (p.K + p.O)) (hm : m < p.marlinAlphabet.length)
    (hne : p.words.getD q [] ≠ [])
    (hi1 : i1 < 2 ^ (p.K + p.O)) (hch : i1 / 2 ^ p.K = q / 2 ^ p.K)
    (hw : p.words.getD i1 [] = p.words.getD q [] ++ [m]) :
    jump p q m = i1 := by
  have hsym256 : ∀ i s, s ∈ p.words.getD i [] → s < 256 :=
    fun i s hs => lt_of_lt_of_le (words_getD_sym p _ hsym i s hs) hA
  have hc : q / 2 ^ p.K < 2 ^ p.O := by
    rw [Nat.div_lt_iff_lt_mul (Nat.two_pow_pos _), Nat.mul_comm, ← Nat.pow_add]; exact hq
  have hpu := position_self p hnodup q hq
  have hpv := position_self p hnodup i1 hi1
  rw [hch, hw] at hpv
  rw [jump_eq_cell, htable]
  exact built_link p hfit hsym256 tbl hbuilt _ hc _ m q i1 hne (le_of_lt hm) hpu hpv

/-- The cell `(q, m)` of the finished table holds the flagged position of `[m]` in chapter
`q mod 2^O` when no word of the chapter of `q` is the word of `q` extended by `m`. -/
theorem built_absent (p : TMarlin) (hfit : p.K + p.O + 2 ≤ 8 * p.idxBytes)
    (hA : p.marlinAlphabet.length ≤ 256)
    (hsym : ∀ w, w ∈ p.words → ∀ s, s ∈ w → s < p.marlinAlphabet.length)
    (tbl : List Nat) (hbuilt : buildCompressorTable p = some tbl)
    (htable : ∀ x, p.compressorTable x = tbl.getD x 0)
    (q m : Nat) (hq : q < 2 ^ (p.K + p.O)) (hm : m < p.marlinAlphabet.length)
    (hno : ∀ i, i < 2 ^ (p.K + p.O) → i / 2 ^ p.K = q / 2 ^ p.K →
      p.words.getD i [] ≠ p.words.getD q [] ++ [m]) :
    jump p q m = (position p (q % 2 ^ p.O) [m]).getD 0 + FLAG_NEXT_WORD p := by
  obtain ⟨linked, hl, hlen, hkeep, hset⟩ := built_cell p hfit tbl hbuilt
  have hsym256 : ∀ i s, s ∈ p.words.getD i [] → s < 256 :=
    fun i s hs => lt_of_lt_of_le (words_getD_sym p _ hsym i s hs) hA
  have hsound := (linked_sound p hfit hsym256 linked hl).2 q m hq
    (by rw [hlen]; exact cell_in_table p q m (le_of_lt hm))
  rw [jump_eq_cell, htable]
  apply hset q m hq hm
  by_contra hne
  obtain ⟨hv1, hv2, hv3⟩ := hsound hne
  exact hno _ hv1 hv2 hv3

/-! ## The jump-table loop against the longest-match loop -/

theorem refLookup_present (p : TMarlin) (hlen : p.words.length = 2 ^ (p.K + p.O))
    (hnodup : ∀ i i2, i < 2 ^ (p.K + p.O) → i2 < 2 ^ (p.K + p.O) → i / 2 ^ p.K = i2 / 2 ^ p.K →
      p.words.getD i [] = p.words.getD i2 [] → i = i2)
    (q : Nat) (hq : q < 2 ^ (p.K + p.O)) :
    refLookup p [] (q / 2 ^ p.K) (p.words.getD q []) = (q % 2 ^ p.K, []) := by
  unfold refLookup
  rw [wordMapAt_present p hlen hnodup q hq]

theorem emitWord_state (p : TMarlin) (hfit : p.K + p.O + 2 ≤ 8 * p.idxBytes)
    (hOK : p.O ≤ p.K) (hlen : p.words.length = 2 ^ (p.K + p.O))
    (hnodup : ∀ i i2, i < 2 ^ (p.K + p.O) → i2 < 2 ^ (p.K + p.O) → i / 2 ^ p.K = i2 / 2 ^ p.K →
      p.words.getD i [] = p.words.getD i2 [] → i = i2)
    (q j : Nat) (hq : q < 2 ^ (p.K + p.O)) (hj : j = q ∨ j = q + FLAG_NEXT_WORD p)
    (value : Nat) (bits : Int) :
    emitWord p [] (q / 2 ^ p.K) (p.words.getD q []) value bits
      = (foldLowBits p value bits j, bits + p.K, q % 2 ^ p.O, []) := by
  unfold emitWord
  rw [refLookup_present p hlen hnodup q hq, foldLowBits_state p hfit q j hj]
  simp only []
  rw [Nat.one_shiftLeft, Nat.and_pow_two_sub_one_eq_mod,
    Nat.mod_mod_of_dvd q (Nat.pow_dvd_pow 2 hOK)]

/-- From a state of the jump table and the word and chapter of the longest-match encoder that
correspond to it, the bit-packed loop and the loop of `compressMarlinReference` give the same
result. -/
theorem specBitPackedLoop_eq_reference (p : TMarlin) (hfit : p.K + p.O + 2 ≤ 8 * p.idxBytes)
    (hOK : p.O ≤ p.K) (hA : p.marlinAlphabet.length ≤ 256)
    (hA0 : 0 < p.marlinAlphabet.length)
    (hsym : ∀ w, w ∈ p.words → ∀ s, s ∈ w → s < p.marlinAlphabet.length)
    (hlen : p.words.length = 2 ^ (p.K + p.O))
    (hsingle : ∀ c, c < 2 ^ p.O → ∀ m, m < p.marlinAlphabet.length →
      ∃ i2, i2 < 2 ^ p.K ∧ p.words.getD (c * 2 ^ p.K + i2) [] = [m])
    (hnodup : ∀ i i2, i < 2 ^ (p.K + p.O) → i2 < 2 ^ (p.K + p.O) → i / 2 ^ p.K = i2 / 2 ^ p.K →
      p.words.getD i [] = p.words.getD i2 [] → i = i2)
    (tbl : List Nat) (hbuilt : buildCompressorTable p = some tbl)
    (htable : ∀ x, p.compressorTable x = tbl.getD x 0)
    (dstStart : Nat) (dstEnd : Int) (src : List Nat) (inPos out q j : Nat)
    (hq : q < 2 ^ (p.K + p.O)) (hj : j = q ∨ j = q + FLAG_NEXT_WORD p)
    (hne : p.words.getD q [] ≠ [])
    (value : Nat) (bits : Int) (mem : Mem) (rare : List Nat) :
    specBitPackedLoop p dstStart dstEnd src inPos out j value bits mem rare
      = compressMarlinReferenceLoop p dstStart dstEnd src inPos out (p.words.getD q [])
          (q / 2 ^ p.K) value bits [] mem rare := by
  induction src generalizing inPos out q j value bits mem rare with
  | nil =>
    simp only [specBitPackedLoop, compressMarlinReferenceLoop]
    have hl : (p.words.getD q []).length ≠ 0 := by
      intro h; exact hne (List.length_eq_zero.mp h)
    rw [if_pos hl, emitWord_state p hfit hOK hlen hnodup q j hq hj]
  | cons ss rest ih =>
    simp only [specBitPackedLoop, compressMarlinReferenceLoop]
    by_cases habort : dstEnd - (out : Int) < 16
    · rw [if_pos habort, if_pos habort]
    · rw [if_neg habort, if_neg habort]
      have hms : (classify p ss inPos rare).1 < p.marlinAlphabet.length := by
        rw [classify_fst]; exact marlinSymbol_lt p hA0 ss
      have hjump : jump p j (classify p ss inPos rare).1 = jump p q (classify p ss inPos rare).1 := by
        rcases hj with h | h
        · rw [h]
        · rw [h, (stateIndex_flagged p hfit q hq).2.2]
      generalize (classify p ss inPos rare).1 = ms at hms hjump ⊢
      by_cases hext : ∃ i, i < 2 ^ (p.K + p.O) ∧ i / 2 ^ p.K = q / 2 ^ p.K ∧
          p.words.getD i [] = p.words.getD q [] ++ [ms]
      · obtain ⟨i1, hi1, hch, hw⟩ := hext
        have hj1 : jump p j ms = i1 := by
          rw [hjump]
          exact built_present p hfit hA hsym hnodup tbl hbuilt htable q ms i1 hq hms hne hi1 hch hw
        have hcount : refCount p [] (q / 2 ^ p.K) (p.words.getD q [] ++ [ms]) = true := by
          unfold refCount
          rw [← hw, ← hch, wordMapAt_present p hlen hnodup i1 hi1]
          rfl
        have hnf : ¬ (jump p j ms &&& FLAG_NEXT_WORD p ≠ 0) := by
          rw [hj1]
          exact not_not.mpr (stateIndex_plain p hfit _ hi1).2
        simp only [if_neg hnf, hcount, Bool.true_eq_false, if_false]
        rw [hj1, ← hw, ← hch]
        exact ih _ _ i1 i1 hi1 (Or.inl rfl) (by rw [hw]; simp) _ _ _ _
      · have hno : ∀ i, i < 2 ^ (p.K + p.O) → i / 2 ^ p.K = q / 2 ^ p.K →
            p.words.getD i [] ≠ p.words.getD q [] ++ [ms] := by
          intro i hi hc hw
          exact hext ⟨i, hi, hc, hw⟩
        have hk : q % 2 ^ p.O < 2 ^ p.O := Nat.mod_lt _ (Nat.two_pow_pos _)
        obtain ⟨q1, hq1⟩ := position_of_present p (q % 2 ^ p.O) [ms] (hsingle _ hk ms hms)
        have hb := position_bound p _ _ q1 hq1
        have hq1lt := index_lt_of_bound p.K p.O _ q1 hk hb.2
        have hq1ch := chapter_of_bound p.K _ q1 hb.1 hb.2
        have hq1w := (position_spec p _ _ q1 hq1).1
        have hj1 : jump p j ms = q1 + FLAG_NEXT_WORD p := by
          rw [hjump, built_absent p hfit hA hsym tbl hbuilt htable q ms hq hms hno, hq1]
          rfl
        have hcount : refCount p [] (q / 2 ^ p.K) (p.words.getD q [] ++ [ms]) = false := by
          unfold refCount
          rw [wordMapAt_absent p hlen _ _ hno]
          rfl
        have hfl : jump p j ms &&& FLAG_NEXT_WORD p ≠ 0 := by
          rw [hj1]
          exact (stateIndex_flagged p hfit q1 hq1lt).2.1
        simp only [if_pos hfl, hcount, if_true]
        rw [emitWord_state p hfit hOK hlen hnodup q j hq hj, hj1]
        simp only []
        rw [← hq1ch, ← hq1w]
        exact ih _ _ q1 _ hq1lt (Or.inr rfl) (by rw [hq1w]; simp) _ _ _ _

/-! ## C25: the jump-table encoder and the greedy longest-match encoder -/

/-- C25: for a dictionary of `2^(K+O)` words over the Marlin symbols (`O <= K <= 24`) in which
every chapter holds every one-symbol word and no word twice, with the compressor table that
`buildCompressorTable` returns for it (so that every chapter is prefix-closed), a non-empty
block and a destination of 16 bytes or more: `compressMarlinFast` and
`compressMarlinReference` return the same value, leave the same memory and record the same
rare list. -/
theorem fast_eq_reference (p : TMarlin) (hfit : p.K + p.O + 2 ≤ 8 * p.idxBytes)
    (hK : p.K ≤ 24) (hOK : p.O ≤ p.K) (hA : p.marlinAlphabet.length ≤ 256)
    (hA0 : 0 < p.marlinAlphabet.length)
    (hsym : ∀ w, w ∈ p.words → ∀ s, s ∈ w → s < p.marlinAlphabet.length)
    (hlen : p.words.length = 2 ^ (p.K + p.O))
    (hsingle : ∀ c, c < 2 ^ p.O → ∀ m, m < p.marlinAlphabet.length →
      ∃ i2, i2 < 2 ^ p.K ∧ p.words.getD (c * 2 ^ p.K + i2) [] = [m])
    (hnodup : ∀ i i2, i < 2 ^ (p.K + p.O) → i2 < 2 ^ (p.K + p.O) → i / 2 ^ p.K = i2 / 2 ^ p.K →
      p.words.getD i [] = p.words.getD i2 [] → i = i2)
    (tbl : List Nat) (hbuilt : buildCompressorTable p = some tbl)
    (htable : ∀ x, p.compressorTable x = tbl.getD x 0)
    (src : List Nat) (hsrc : src ≠ []) (past : Nat) (mem : Mem) (dstStart : Nat)
    (dstEnd : Int) (rare : List Nat) (hdst : 16 ≤ dstEnd - (dstStart : Int)) :
    compressMarlinFast p src past mem dstStart dstEnd rare
      = compressMarlinReference p src mem dstStart dstEnd rare := by
  obtain ⟨ss, rest, rfl⟩ := List.exists_cons_of_ne_nil hsrc
  rw [compressMarlinFast_eq_spec p hfit hK hA0
    (built_overlapSafe p hfit hA hsym tbl hbuilt htable)]
  unfold specBitPacked compressMarlinReference
  simp only [List.headD_cons, List.tail_cons, compressMarlinReferenceLoop]
  rw [if_neg (by omega)]
  have hms : (classify p ss 0 rare).1 < p.marlinAlphabet.length := by
    rw [classify_fst]; exact marlinSymbol_lt p hA0 ss
  generalize (classify p ss 0 rare).1 = ms at hms ⊢
  obtain ⟨i0, hi0, hw0⟩ := hsingle 0 (Nat.two_pow_pos _) ms hms
  rw [Nat.zero_mul, Nat.zero_add] at hw0
  have hinit := initialWord_spec p ms i0 hi0 hw0
  have hq0 : initialWord p ms < 2 ^ p.K := initialWord_lt p ms
  have hq0' : initialWord p ms < 2 ^ (p.K + p.O) :=
    lt_of_lt_of_le hq0 (Nat.pow_le_pow_right (by norm_num) (by omega))
  have hch0 : initialWord p ms / 2 ^ p.K = 0 := Nat.div_eq_of_lt hq0
  have hcount : refCount p [] 0 ([] ++ [ms]) = true := by
    unfold refCount
    rw [List.nil_append, ← hinit.2, ← hch0, wordMapAt_present p hlen hnodup _ hq0']
    rfl
  simp only [hcount, Bool.true_eq_false, if_false]
  have hd : drain 8 (0 : Int).toNat 0 0 dstStart mem = (0, 0, dstStart, mem) :=
    drain_stop 8 _ _ _ _ _ (by norm_num)
  rw [hd]
  simp only [List.nil_append]
  have key := specBitPackedLoop_eq_reference p hfit hOK hA hA0 hsym hlen hsingle hnodup tbl
    hbuilt htable dstStart dstEnd rest 1 dstStart (initialWord p ms) (initialWord p ms) hq0'
    (Or.inl rfl) (by rw [hinit.2]; simp) 0 0 mem (classify p ss 0 rare).2
  rw [hinit.2, hch0] at key
  exact key

set_option maxRecDepth 100000 in
theorem fast_eq_reference_witness :
    (compressMarlinReference overlapMarlin [0x80, 0x00, 0x80, 0x00, 0x00, 0x80] zeroMem 0 64
        []).1 = 2 ∧
      readBytes (compressMarlinReference overlapMarlin [0x80, 0x00, 0x80, 0x00, 0x00, 0x80]
        zeroMem 0 64 []).2.1 0 2 = [0x46, 0x40] ∧
      readBytes (compressMarlinFast overlapMarlin [0x80, 0x00, 0x80, 0x00, 0x00, 0x80] 0
        zeroMem 0 64 []).2.1 0 2 = [0x46, 0x40] := by
  have hnodup : ∀ i, i < 8 → ∀ i2, i2 < 8 → i / 4 = i2 / 4 →
      overlapWords.getD i [] = overlapWords.getD i2 [] → i = i2 := by decide
  have h := fast_eq_reference overlapMarlin (by decide) (by decide) (by decide) (by decide)
    (by decide) (by decide) (by decide) (by decide)
    (fun i i2 hi hi2 => hnodup i hi i2 hi2) overlapTable (by decide)
    (fun _ => rfl) [0x80, 0x00, 0x80, 0x00, 0x00, 0x80] (by decide) 0 zeroMem 0 64 []
    (by decide)
  refine ⟨by decide, by decide, ?_⟩
  rw [h]
  decide

/-! ## `updateConf`: the sweep over the shift -/

theorem confCount_append_single (c : Conf) (k : String) (v : ℚ) :
    confCount (c ++ [(k, v)]) k = true := by
  unfold confCount
  simp

theorem confCount_map_assign (c : Conf) (k key : String) (v : ℚ) :
    confCount (c.map (fun e => if e.1 == k then (k, v) else e)) key = confCount c key := by
  induction c with
  | nil => rfl
  | cons e es ih =>
    rw [List.map_cons, confCount_cons, confCount_cons, ih]
    by_cases h : e.1 = k
    · simp [h]
    · simp [h]

theorem map_assign_absent (c : Conf) (k : String) (v : ℚ) (h : confCount c k = false) :
    c.map (fun e => if e.1 == k then (k, v) else e) = c := by
  induction c with
  | nil => rfl
  | cons e es ih =>
    rw [confCount_cons] at h
    simp only [Bool.or_eq_false_iff, decide_eq_false_iff_not] at h
    rw [List.map_cons, ih h.2]
    simp [h.1]

theorem assign_assign (c : Conf) (k : String) (a b : ℚ) :
    assign (assign c k a) k b = assign c k b := by
  by_cases h : confCount c k = true
  · have h1 : assign c k a = c.map (fun e => if e.1 == k then (k, a) else e) := by
      unfold assign; rw [if_pos h]
    have h2 : assign c k b = c.map (fun e => if e.1 == k then (k, b) else e) := by
      unfold assign; rw [if_pos h]
    rw [h1, h2]
    unfold assign
    rw [if_pos (by rw [confCount_map_assign]; exact h), List.map_map]
    apply List.map_congr_left
    intro e _
    by_cases he : e.1 = k
    · simp [he]
    · simp [he]
  · have hf : confCount c k = false := by simpa using h
    have h1 : assign c k a = c ++ [(k, a)] := by
      unfold assign; rw [if_neg h]
    have h2 : assign c k b = c ++ [(k, b)] := by
      unfold assign; rw [if_neg h]
    rw [h1, h2]
    unfold assign
    rw [if_pos (confCount_append_single c k a), List.map_append, map_assign_absent c k b hf]
    simp

/-- The sweep from `S = s0` over the next `n` shifts stops at the first shift that does not
strictly improve the efficiency and selects the one before it. -/
theorem sweepShift_spec (eff : Conf → ℚ) (c0 : Conf) (n s0 : Nat) :
    ∃ S : Nat, s0 ≤ S ∧ S ≤ s0 + n ∧
      sweepShift eff (List.range' (s0 + 1) n) (assign c0 "S" (s0 : ℚ))
          (eff (assign c0 "S" (s0 : ℚ))) = assign c0 "S" (S : ℚ) ∧
      (∀ s, s0 ≤ s → s < S →
        eff (assign c0 "S" ((s + 1 : Nat) : ℚ)) > eff (assign c0 "S" (s : ℚ))) ∧
      (S < s0 + n →
        eff (assign c0 "S" ((S + 1 : Nat) : ℚ)) ≤ eff (assign c0 "S" (S : ℚ))) := by
  induction n generalizing s0 with
  | zero =>
    exact ⟨s0, le_refl _, le_refl _, rfl, fun s h1 h2 => by omega, fun h => by omega⟩
  | succ n ih =>
    rw [List.range'_succ]
    simp only [sweepShift]
    rw [assign_assign]
    by_cases hle : eff (assign c0 "S" ((s0 + 1 : Nat) : ℚ)) ≤ eff (assign c0 "S" (s0 : ℚ))
    · rw [if_pos hle, assign_assign]
      refine ⟨s0, le_refl _, by omega, ?_, fun s h1 h2 => by omega, fun _ => hle⟩
      congr 1
      push_cast
      ring
    · rw [if_neg hle]
      obtain ⟨S, h1, h2, h3, h4, h5⟩ := ih (s0 + 1)
      refine ⟨S, by omega, by omega, h3, ?_, fun h => h5 (by omega)⟩
      intro s hs1 hs2
      by_cases hs : s = s0
      · rw [hs]; exact lt_of_not_le hle
      · exact h4 s (by omega) hs2

theorem emplaceDefaults_at_S (conf : Conf) :
    confAt (emplaceDefaults conf) "S" = confAt conf "S" := by
  unfold emplaceDefaults
  simp only []
  rw [confAt_emplace_ne _ _ _ _ (by decide), confAt_emplace_ne _ _ _ _ (by decide),
    emplaceConstants_other conf "S" (by decide) (by decide) (by decide) (by decide) (by decide)]

/-! ## C34: the shift `updateConf` selects -/

/-- C34 (as stated) fails: with an efficiency that is the same for every shift, `updateConf`
selects `S = 0`, while the largest `S` in `{0..5}` with `e(s) >= e(s-1)` for all
`1 <= s <= S` is 5. -/
theorem updateConf_shift_tie :
    confAt (updateConf (fun _ => 1) []) "S" = some 0 ∧ specShiftChoice (fun _ => 1) = 5 := by
  constructor
  · decide!
  · decide!

/-- C34 (amended): when `S` is not supplied, `updateConf` selects the largest `S` in `{0..5}`
such that every step up to it strictly improves the efficiency: `e(s+1) > e(s)` for all
`s < S`, and `e(S+1) <= e(S)` unless `S = 5`; `e(s)` is the efficiency for the configuration
after the defaults with `S = s`. -/
theorem updateConf_shift (eff : Conf → ℚ) (conf : Conf) (h : confCount conf "S" = false) :
    ∃ S : Nat, S ≤ 5 ∧ confAt (updateConf eff conf) "S" = some (S : ℚ) ∧
      (∀ s, s < S →
        eff (assign (emplaceDefaults conf) "S" ((s + 1 : Nat) : ℚ))
          > eff (assign (emplaceDefaults conf) "S" (s : ℚ))) ∧
      (S < 5 →
        eff (assign (emplaceDefaults conf) "S" ((S + 1 : Nat) : ℚ))
          ≤ eff (assign (emplaceDefaults conf) "S" (S : ℚ))) := by
  have hS : confCount (emplaceDefaults conf) "S" = false := by
    rw [confCount_eq, emplaceDefaults_at_S, ← confCount_eq]; exact h
  obtain ⟨S, _, h2, h3, h4, h5⟩ := sweepShift_spec eff (emplaceDefaults conf) 5 0
  refine ⟨S, by omega, ?_, fun s hs => h4 s (Nat.zero_le _) hs, fun hlt => h5 (by omega)⟩
  unfold updateConf
  apply chooseMaxWordSize_keeps
  have hcs : chooseShift eff (emplaceDefaults conf)
      = assign (emplaceDefaults conf) "S" (S : ℚ) := by
    unfold chooseShift
    rw [if_neg (by rw [hS]; simp)]
    simp only []
    have hr : List.range' (0 + 1) 5 = [1, 2, 3, 4, 5] := by decide
    rw [hr] at h3
    simp only [Nat.cast_zero, Nat.cast_one, Nat.cast_ofNat] at h3 ⊢
    exact h3
  rw [hcs]
  exact confAt_assign_self _ _ _

theorem updateConf_shift_witness :
    ∃ S : Nat, S ≤ 5 ∧ confAt (updateConf (fun c => (confAt c "S").getD 0 * (3 - (confAt c "S").getD 0))
        [("K", 4)]) "S" = some (S : ℚ) ∧ S = 1 := by
  obtain ⟨S, h1, h2, _, _⟩ :=
    updateConf_shift (fun c => (confAt c "S").getD 0 * (3 - (confAt c "S").getD 0)) [("K", 4)]
      (by decide)
  refine ⟨S, h1, h2, ?_⟩
  have : confAt (updateConf (fun c => (confAt c "S").getD 0 * (3 - (confAt c "S").getD 0))
      [("K", 4)]) "S" = some 1 := by decide!
  rw [this] at h2
  have h3 : (1 : ℚ) = (S : ℚ) := Option.some.inj h2
  exact_mod_cast h3.symm

/-! ## `updateConf`: the choice of `maxWordSize` -/

theorem chooseShift_at_ne (eff : Conf → ℚ) (conf : Conf) (key : String) (hne : "S" ≠ key) :
    confAt (chooseShift eff conf) key = confAt conf key := by
  unfold chooseShift
  split
  · rfl
  · simp only []
    rw [sweepShift_at_ne eff _ _ _ key hne, confAt_assign_ne _ _ _ _ hne]

theorem emplaceDefaults_at_maxWordSize (conf : Conf) :
    confAt (emplaceDefaults conf) "maxWordSize" = confAt conf "maxWordSize" := by
  unfold emplaceDefaults
  simp only []
  rw [confAt_emplace_ne _ _ _ _ (by decide), confAt_emplace_ne _ _ _ _ (by decide),
    emplaceConstants_other conf "maxWordSize" (by decide) (by decide) (by decide) (by decide)
      (by decide)]

theorem chooseMaxWordSize_spec (eff : Conf → ℚ) (c : Conf)
    (h : confCount c "maxWordSize" = false) :
    chooseMaxWordSize eff c = assign c "maxWordSize"
      (if eff (assign c "maxWordSize" 15) > (10001 / 10000 : ℚ) * eff (assign c "maxWordSize" 7)
        then 15
      else if eff (assign c "maxWordSize" 7)
          > (10001 / 10000 : ℚ) * eff (assign c "maxWordSize" 3) then 7
      else 3) := by
  unfold chooseMaxWordSize
  rw [if_neg (by rw [h]; simp)]
  simp only [assign_assign]
  split_ifs <;> simp only [assign_assign]

/-! ## C35: the word size `updateConf` selects -/

/-- C35 (as stated) fails: with `e(3) = e(7) = 1` and `e(15) = 2`, the word size 7 is not
selected, and yet `updateConf` selects 15, because `e(15) > 1.0001*e(7)` is tested whatever the
first test gave; the step-by-step escalation selects 3. -/
theorem updateConf_maxWordSize_not_stepwise :
    confAt (updateConf (fun c => if confAt c "maxWordSize" = some 15 then 2 else 1) [("S", 0)])
        "maxWordSize" = some 15 ∧
      specMaxWordSizeChoice 1 1 2 = 3 := by
  constructor
  · decide!
  · decide!

/-- C35 (amended): when `maxWordSize` is not supplied, `updateConf` selects 15 if
`e(15) > 1.0001*e(7)`, whether or not 7 was selected; otherwise 7 if `e(7) > 1.0001*e(3)`;
otherwise 3; `e(m)` is the efficiency for the configuration after the defaults and the choice
of `S`, with `maxWordSize = m`. -/
theorem updateConf_maxWordSize (eff : Conf → ℚ) (conf : Conf)
    (h : confCount conf "maxWordSize" = false) :
    confAt (updateConf eff conf) "maxWordSize" = some
      (if eff (assign (chooseShift eff (emplaceDefaults conf)) "maxWordSize" 15)
          > (10001 / 10000 : ℚ)
            * eff (assign (chooseShift eff (emplaceDefaults conf)) "maxWordSize" 7) then 15
      else if eff (assign (chooseShift eff (emplaceDefaults conf)) "maxWordSize" 7)
          > (10001 / 10000 : ℚ)
            * eff (assign (chooseShift eff (emplaceDefaults conf)) "maxWordSize" 3) then 7
      else 3) := by
  have hc : confCount (chooseShift eff (emplaceDefaults conf)) "maxWordSize" = false := by
    rw [confCount_eq, chooseShift_at_ne _ _ _ (by decide), emplaceDefaults_at_maxWordSize,
      ← confCount_eq]
    exact h
  unfold updateConf
  rw [chooseMaxWordSize_spec eff _ hc]
  exact confAt_assign_self _ _ _

theorem updateConf_maxWordSize_witness :
    confAt (updateConf (fun c => (confAt c "maxWordSize").getD 0) [("S", 0)]) "maxWordSize"
      = some 15 :=
  (updateConf_maxWordSize (fun c => (confAt c "maxWordSize").getD 0) [("S", 0)]
    (by decide)).trans (by decide!)

/-! ## The trimming loop of the `Alphabet` constructor -/

/-- The trimming loop removes the first `k` elements of the reversed vector, where `k` is the
number of iterations for which the loop condition holds: the size exceeds `minMarlinSymbols`
and (exceeds `maxMarlinSymbols` or the probability accumulated so far is below the
threshold). -/
theorem trimTail_exact (mn mx pg : ℚ) (l : List SymbolAndProbability) (rare : ℚ) :
    ∃ k, k ≤ l.length ∧
      trimTail mn mx pg l rare = (l.drop k, rare + ((l.take k).map (fun s => s.p)).sum) ∧
      (∀ i, i < k →
        ((l.length - i : Nat) : ℚ) > mn ∧
          (((l.length - i : Nat) : ℚ) > mx ∨
            rare + ((l.take i).map (fun s => s.p)).sum < pg)) ∧
      (k < l.length →
        ¬ (((l.length - k : Nat) : ℚ) > mn ∧
          (((l.length - k : Nat) : ℚ) > mx ∨
            rare + ((l.take k).map (fun s => s.p)).sum < pg))) := by
  induction l generalizing rare with
  | nil =>
    refine ⟨0, le_refl _, ?_, fun i hi => by omega, fun h => by simp at h⟩
    simp [trimTail]
  | cons s rest ih =>
    by_cases hc : ((rest.length + 1 : Nat) : ℚ) > mn ∧
        (((rest.length + 1 : Nat) : ℚ) > mx ∨ rare < pg)
    · obtain ⟨k, hk, hres, hall, hstop⟩ := ih (rare + s.p)
      refine ⟨k + 1, by simp only [List.length_cons]; omega, ?_, ?_, ?_⟩
      · simp only [trimTail]
        rw [if_pos hc, hres]
        simp only [List.drop_succ_cons, List.take_succ_cons, List.map_cons, List.sum_cons]
        rw [add_assoc]
      · intro i hi
        cases i with
        | zero =>
          simp only [List.length_cons, Nat.sub_zero, List.take_zero, List.map_nil,
            List.sum_nil, add_zero]
          exact hc
        | succ i =>
          have := hall i (by omega)
          simp only [List.length_cons, Nat.add_sub_add_right, List.take_succ_cons,
            List.map_cons, List.sum_cons]
          rw [← add_assoc]
          exact this
      · intro hlt
        have := hstop (by simp only [List.length_cons] at hlt; omega)
        simp only [List.length_cons, Nat.add_sub_add_right, List.take_succ_cons,
          List.map_cons, List.sum_cons]
        rw [← add_assoc]
        exact this
    · refine ⟨0, Nat.zero_le _, ?_, fun i hi => by omega, ?_⟩
      · simp only [trimTail]
        rw [if_neg hc]
        simp
      · intro _
        simp only [List.length_cons, Nat.sub_zero, List.take_zero, List.map_nil, List.sum_nil,
          add_zero]
        exact hc

/-! ## C31: what the trimming loop tests -/

set_option maxRecDepth 100000 in
/-- C31 (as stated) fails: for nine equiprobable symbols, `minMarlinSymbols = 8`,
`maxMarlinSymbols = 255` and the threshold `1e-5`, the constructor removes the last symbol,
of probability `1/9`, because `rareSymbolProbability` is still 0; the loop that tests the
tail element's probability removes nothing. -/
theorem alphabet_trims_probable_tail :
    (mkAlphabet ninePmf 0 8 255 (1 / 100000)).marlinSymbols.length = 8 ∧
      (mkAlphabet ninePmf 0 8 255 (1 / 100000)).rareSymbolProbability = 1 / 9 ∧
      (specTrimTail 8 255 (1 / 100000) (sortSymbols (groupedSymbols ninePmf 0)).reverse 0).1.length
        = 9 ∧
      (specTrimTail 8 255 (1 / 100000) (sortSymbols (groupedSymbols ninePmf 0)).reverse 0).2
        = 0 := by
  refine ⟨by decide!, by decide!, by decide!, by decide!⟩

/-- C31 (amended): with `l` the grouped and sorted vector in reverse order (least probable
first), the constructor removes the first `k` elements of `l` and sets
`rareSymbolProbability` to their sum, where the loop condition holds before each of the `k`
removals and fails after the last: the size exceeds `minMarlinSymbols` and (it exceeds
`maxMarlinSymbols` or the probability removed so far is below the threshold). -/
theorem alphabet_trimming (symbols : List (Nat × ℚ)) (shift : Nat) (mn mx pg : ℚ) :
    ∃ k, k ≤ (sortSymbols (groupedSymbols symbols shift)).length ∧
      (mkAlphabet symbols shift mn mx pg).marlinSymbols
        = ((sortSymbols (groupedSymbols symbols shift)).reverse.drop k).reverse ∧
      (mkAlphabet symbols shift mn mx pg).rareSymbolProbability
        = (((sortSymbols (groupedSymbols symbols shift)).reverse.take k).map
            (fun s => s.p)).sum ∧
      (∀ i, i < k →
        (((sortSymbols (groupedSymbols symbols shift)).length - i : Nat) : ℚ) > mn ∧
          ((((sortSymbols (groupedSymbols symbols shift)).length - i : Nat) : ℚ) > mx ∨
            (((sortSymbols (groupedSymbols symbols shift)).reverse.take i).map
              (fun s => s.p)).sum < pg)) ∧
      (k < (sortSymbols (groupedSymbols symbols shift)).length →
        ¬ ((((sortSymbols (groupedSymbols symbols shift)).length - k : Nat) : ℚ) > mn ∧
          ((((sortSymbols (groupedSymbols symbols shift)).length - k : Nat) : ℚ) > mx ∨
            (((sortSymbols (groupedSymbols symbols shift)).reverse.take k).map
              (fun s => s.p)).sum < pg))) := by
  obtain ⟨k, hk, hres, hall, hstop⟩ :=
    trimTail_exact mn mx pg (sortSymbols (groupedSymbols symbols shift)).reverse 0
  rw [List.length_reverse] at hk hstop
  simp only [List.length_reverse, zero_add] at hall hstop hres
  refine ⟨k, hk, ?_, ?_, hall, hstop⟩
  · show (trimTail mn mx pg (sortSymbols (groupedSymbols symbols shift)).reverse 0).1.reverse = _
    rw [hres]
  · show (trimTail mn mx pg (sortSymbols (groupedSymbols symbols shift)).reverse 0).2 = _
    rw [hres]

set_option maxRecDepth 100000 in
theorem alphabet_trimming_witness :
    ∃ k, k ≤ 9 ∧
      (mkAlphabet ninePmf 0 8 255 (1 / 100000)).marlinSymbols
        = ((sortSymbols (groupedSymbols ninePmf 0)).reverse.drop k).reverse ∧
      (mkAlphabet ninePmf 0 8 255 (1 / 100000)).marlinSymbols.length = 8 := by
  obtain ⟨k, hk, h1, _⟩ := alphabet_trimming ninePmf 0 8 255 (1 / 100000)
  exact ⟨k, hk.trans (by decide!), h1, by decide!⟩

/-- The stores of the placement loop in closed form: the store for rank `r` goes to the slot
`(r mod R) * D + r div R`. -/
theorem placeIndices_spec (O D R : Nat) (hD : shl1U O = D) :
    ∀ (n q m j k : Nat), m < R →
      ((j = m * D + q ∧ k = q) ∨ (m = 0 ∧ R * D ≤ j ∧ k + 1 = q)) →
      q * R + m + n ≤ R * D →
      placeIndices O (R * D) n j k
        = (List.range' (q * R + m) n).map (fun r => (r % R) * D + r / R) := by
  intro n
  induction n with
  | zero => intro q m j k _ _ _; rfl
  | succ n ih =>
    intro q m j k hm hinv hcount
    have hq : q < D := by
      by_contra hcon
      have h1 : D * R ≤ q * R := Nat.mul_le_mul_right R (by omega)
      rw [Nat.mul_comm D R] at h1
      omega
    have hsw : m * D + q < R * D := by
      have h1 : (m + 1) * D ≤ R * D := Nat.mul_le_mul_right D hm
      rw [Nat.succ_mul] at h1
      omega
    have hsucc : (m + 1) * D = m * D + D := Nat.succ_mul m D
    have hRpos : 0 < R := by omega
    have hslot : (q * R + m) % R * D + (q * R + m) / R = m * D + q := by
      rw [Nat.add_comm (q * R) m, Nat.add_mul_mod_self_right, Nat.mod_eq_of_lt hm,
        Nat.add_mul_div_right _ _ hRpos, Nat.div_eq_of_lt hm, Nat.zero_add]
    have hnext : (q + 1) * R + 0 = q * R + R := by rw [Nat.succ_mul]; rfl
    rw [List.range'_succ, List.map_cons, hslot]
    simp only [placeIndices]
    rcases hinv with ⟨hj, hk⟩ | ⟨hm0, hj, hk⟩
    · rw [if_neg (by rw [hj]; omega), hD, hj]
      congr 1
      by_cases h : m + 1 < R
      · rw [ih q (m + 1) _ k h (Or.inl ⟨by omega, hk⟩) (by omega)]
        rfl
      · have hR : m + 1 = R := by omega
        rw [ih (q + 1) 0 _ k hRpos (Or.inr ⟨rfl, by rw [← hR, hsucc]; omega, by omega⟩)
          (by omega)]
        rw [hnext, ← hR]
        rfl
    · rw [if_pos hj, hD]
      subst hm0
      rw [Nat.zero_mul, Nat.zero_add, hk]
      congr 1
      by_cases h : 0 + 1 < R
      · rw [ih q (0 + 1) _ q h
          (Or.inl ⟨by rw [Nat.zero_add, Nat.one_mul]; omega, rfl⟩) (by omega)]
      · have hR : 0 + 1 = R := by omega
        rw [ih (q + 1) 0 _ q hRpos
          (Or.inr ⟨rfl, by rw [← hR, Nat.zero_add, Nat.one_mul]; omega, rfl⟩) (by omega)]
        rw [hnext, ← hR]

/-- Slot and rank are inverse to each other: the slot `(r mod R) * D + r div R` of a rank
`r < R * D` is below `R * D`, and its rank `(s mod D) * R + s div D` is `r` again. -/
theorem rank_of_slot (D R r : Nat) (hr : r < R * D) :
    (r % R) * D + r / R < R * D ∧
      (((r % R) * D + r / R) % D) * R + ((r % R) * D + r / R) / D = r := by
  have hRpos : 0 < R := by
    rcases Nat.eq_zero_or_pos R with h | h
    · subst h; simp at hr
    · exact h
  have hm : r % R < R := Nat.mod_lt _ hRpos
  have hq : r / R < D := by
    rw [Nat.div_lt_iff_lt_mul hRpos, Nat.mul_comm]; exact hr
  have hs : (r % R) * D + r / R < R * D := by
    have h1 : (r % R + 1) * D ≤ R * D := Nat.mul_le_mul_right D hm
    rw [Nat.succ_mul] at h1
    omega
  refine ⟨hs, ?_⟩
  rw [(slot_rank_iff D R _ (r / R) (r % R) hm hq hs).mp rfl]
  exact Nat.div_add_mod' r R

theorem specSlot_eq (K O r : Nat) : specSlot K O r = (r % 2 ^ (K - O)) * 2 ^ O + r / 2 ^ (K - O) :=
  rfl

/-- The vector of one chapter in closed form: the word of rank `r` is at the slot of `r`, and a
slot that is the slot of no rank holds the empty word. -/
theorem chapterVector_spec (K O : Nat) (hK : K < 32) (hO : O ≤ K) (xs : List Word)
    (hn : xs.length ≤ 2 ^ K) :
    (placeWords O xs 0 0 (List.replicate (shl1U K) emptyWord)).length = 2 ^ K ∧
    (∀ r, r < xs.length →
      (placeWords O xs 0 0 (List.replicate (shl1U K) emptyWord)).getD (specSlot K O r) emptyWord
        = xs.getD r emptyWord) ∧
    (∀ s, s < 2 ^ K → (∀ r, r < xs.length → specSlot K O r ≠ s) →
      (placeWords O xs 0 0 (List.replicate (shl1U K) emptyWord)).getD s emptyWord
        = emptyWord) := by
  have hRD : 2 ^ (K - O) * 2 ^ O = 2 ^ K := pow_split K O hO
  have hD : shl1U O = 2 ^ O := shl1U_eq O (by omega)
  have hKe : shl1U K = 2 ^ K := shl1U_eq K hK
  have hRpos : 0 < 2 ^ (K - O) := Nat.pow_pos (by decide)
  have hlen : (List.replicate (shl1U K) emptyWord).length = 2 ^ (K - O) * 2 ^ O := by
    rw [List.length_replicate, hKe, hRD]
  have hspec := fun s hs => placeWords_spec O (2 ^ O) (2 ^ (K - O)) hD emptyWord xs 0 0 0 0
    (List.replicate (shl1U K) emptyWord) hlen hRpos (Or.inl ⟨by simp, rfl⟩)
    (by rw [hRD]; omega) s hs
  refine ⟨by rw [placeWords_length, List.length_replicate, hKe], ?_, ?_⟩
  · intro r hr
    have hr2 : r < 2 ^ (K - O) * 2 ^ O := by rw [hRD]; omega
    obtain ⟨hs, hrank⟩ := rank_of_slot (2 ^ O) (2 ^ (K - O)) r hr2
    rw [specSlot_eq, hspec _ hs, hrank, if_pos (by omega)]
    simp
  · intro s hs hno
    have hs2 : s < 2 ^ O * 2 ^ (K - O) := by rw [Nat.mul_comm, hRD]; exact hs
    obtain ⟨hr, hslot⟩ := rank_of_slot (2 ^ (K - O)) (2 ^ O) s hs2
    rw [hspec s (by rw [hRD]; exact hs), if_neg]
    · rw [List.getD_eq_getElem?_getD, List.getElem?_replicate]
      split <;> rfl
    · intro hin
      exact hno _ (by omega) hslot

/-- C33: for a chapter whose `n` sorted words fit into `2^K` slots (`O ≤ K < 32`), the stores of
the placement loop of `arrangeAndFuse` go, in order of rank `r`, to the slots
`(r mod 2^(K-O)) * 2^O + r div 2^(K-O)`; these slots are pairwise different and all below
`2^K`; in the chapter's part of the result the slot of rank `r` holds the word of rank `r`,
every slot never stored to holds the empty word, whose `p` is 0, and slot 0 holds the root
word of the chapter, the word without symbols. -/
theorem arrangeAndFuse_slots (a : Alphabet) (K O : Nat) (hK : K < 32) (hO : O ≤ K)
    (chapters : List Node) (c : Nat) (chapter : Node) (hc : chapters.get? c = some chapter)
    (hn : (sortTail (buildChapterWords a chapter)).length ≤ 2 ^ K) :
    placeIndices O (2 ^ K) (sortTail (buildChapterWords a chapter)).length 0 0
      = (List.range (sortTail (buildChapterWords a chapter)).length).map (specSlot K O) ∧
    (placeIndices O (2 ^ K) (sortTail (buildChapterWords a chapter)).length 0 0).Nodup ∧
    (∀ j, j ∈ placeIndices O (2 ^ K) (sortTail (buildChapterWords a chapter)).length 0 0 →
      j < 2 ^ K) ∧
    (∀ r, r < (sortTail (buildChapterWords a chapter)).length →
      (arrangeAndFuse a K O chapters).getD (c * 2 ^ K + specSlot K O r) emptyWord
        = (sortTail (buildChapterWords a chapter)).getD r emptyWord) ∧
    (∀ s, s < 2 ^ K →
      s ∉ placeIndices O (2 ^ K) (sortTail (buildChapterWords a chapter)).length 0 0 →
      (arrangeAndFuse a K O chapters).getD (c * 2 ^ K + s) emptyWord = emptyWord) ∧
    emptyWord.p = 0 ∧
    (arrangeAndFuse a K O chapters).getD (c * 2 ^ K) emptyWord
      = { symbols := [], p := chapter.p, state := 0 } := by
  have hRD : 2 ^ (K - O) * 2 ^ O = 2 ^ K := pow_split K O hO
  have hD : shl1U O = 2 ^ O := shl1U_eq O (by omega)
  have hRpos : 0 < 2 ^ (K - O) := Nat.pow_pos (by decide)
  have hKpos : 0 < 2 ^ K := Nat.pow_pos (by decide)
  obtain ⟨hlen, hfilled, hempty⟩ :=
    chapterVector_spec K O hK hO (sortTail (buildChapterWords a chapter)) hn
  have hchunk : ∀ i, i < 2 ^ K →
      (arrangeAndFuse a K O chapters).getD (c * 2 ^ K + i) emptyWord
        = (placeWords O (sortTail (buildChapterWords a chapter)) 0 0
            (List.replicate (shl1U K) emptyWord)).getD i emptyWord := by
    intro i hi
    exact getD_flatMap_chunk _ (2 ^ K)
      (fun x => by rw [placeWords_length, List.length_replicate, shl1U_eq K hK])
      chapters c i hi emptyWord chapter hc
  have hidx : placeIndices O (2 ^ K) (sortTail (buildChapterWords a chapter)).length 0 0
      = (List.range (sortTail (buildChapterWords a chapter)).length).map (specSlot K O) := by
    have h := placeIndices_spec O (2 ^ O) (2 ^ (K - O)) hD
      (sortTail (buildChapterWords a chapter)).length 0 0 0 0 hRpos (Or.inl ⟨by simp, rfl⟩)
      (by rw [hRD]; omega)
    rw [hRD] at h
    rw [h, List.range_eq_range']
    simp only [Nat.zero_mul, Nat.add_zero]
    rfl
  have hinj : ∀ r1 r2, r1 < (sortTail (buildChapterWords a chapter)).length →
      r2 < (sortTail (buildChapterWords a chapter)).length →
      specSlot K O r1 = specSlot K O r2 → r1 = r2 := by
    intro r1 r2 h1 h2 he
    have e1 := (rank_of_slot (2 ^ O) (2 ^ (K - O)) r1 (by rw [hRD]; omega)).2
    have e2 := (rank_of_slot (2 ^ O) (2 ^ (K - O)) r2 (by rw [hRD]; omega)).2
    rw [← specSlot_eq] at e1 e2
    rw [← e1, ← e2, he]
  refine ⟨hidx, ?_, ?_, ?_, ?_, rfl, ?_⟩
  · rw [hidx]
    refine List.Nodup.map_on ?_ (List.nodup_range _)
    intro r1 hr1 r2 hr2 he
    exact hinj r1 r2 (List.mem_range.mp hr1) (List.mem_range.mp hr2) he
  · intro j hj
    rw [hidx, List.mem_map] at hj
    obtain ⟨r, hr, rfl⟩ := hj
    have := (rank_of_slot (2 ^ O) (2 ^ (K - O)) r
      (by rw [hRD]; have := List.mem_range.mp hr; omega)).1
    rw [hRD] at this
    exact this
  · intro r hr
    have hs := (rank_of_slot (2 ^ O) (2 ^ (K - O)) r (by rw [hRD]; omega)).1
    rw [hRD, ← specSlot_eq] at hs
    rw [hchunk _ hs]
    exact hfilled r hr
  · intro s hs hnot
    rw [hchunk s hs]
    refine hempty s hs ?_
    intro r hr he
    exact hnot (by rw [hidx, List.mem_map]; exact ⟨r, List.mem_range.mpr hr, he⟩)
  · have h0 := hchunk 0 hKpos
    rw [Nat.add_zero] at h0
    rw [h0]
    have hpos : 0 < (sortTail (buildChapterWords a chapter)).length := by
      cases chapter with
      | mk p sz cs => simp [buildChapterWords, wordsFrom, sortTail]
    have hf := hfilled 0 hpos
    have hs0 : specSlot K O 0 = 0 := by simp [specSlot]
    rw [hs0] at hf
    rw [hf]
    cases chapter with
    | mk p sz cs => simp [buildChapterWords, wordsFrom, sortTail, Node.p]

set_option maxRecDepth 100000 in
theorem arrangeAndFuse_slots_witness :
    placeIndices 1 (2 ^ 2) 3 0 0 = [0, 2, 1] ∧
    ((arrangeAndFuse chainAlphabet 2 1 [twoLeafChapter]).map (fun w => w.p))
      = [1, 1 / 4, 1 / 2, 0] ∧
    (arrangeAndFuse chainAlphabet 2 1 [twoLeafChapter]).getD (0 * 2 ^ 2 + 3) emptyWord
      = emptyWord :=
  ⟨by decide, by decide!,
   (arrangeAndFuse_slots chainAlphabet 2 1 (by decide) (by decide) [twoLeafChapter] 0
      twoLeafChapter rfl (by decide!)).2.2.2.2.1 3 (by decide) (by decide!)⟩

theorem nodeAt_child_none (root : Node) (path : List Nat) (n0 : Node)
    (h : nodeAt root path = some n0) : nodeAt root (path ++ [n0.children.length]) = none := by
  rw [nodeAt_append, h, Option.some_bind, nodeAt_cons_getElem,
    List.getElem?_eq_none (Nat.le_refl _)]
  rfl

/-- A split keeps every node of the tree in place. -/
theorem nodeAt_split_keeps (pc : List ℚ) (root : Node) (path q : List Nat) (n : Node)
    (h : nodeAt root q = some n) :
    ∃ n2, nodeAt (modifyAt (splitNode pc) root path) q = some n2 := by
  induction path generalizing root q n with
  | nil =>
    simp only [modifyAt]
    cases q with
    | nil => exact ⟨_, rfl⟩
    | cons i rest =>
      rw [nodeAt_cons_getElem] at h ⊢
      change ∃ n2,
        ((root.children ++ [Node.mk _ (root.sz + 1) []])[i]?).bind _ = some n2
      cases hc : root.children[i]? with
      | none => rw [hc] at h; simp at h
      | some c =>
        have hi : i < root.children.length := by
          by_contra hcon
          rw [List.getElem?_eq_none (by omega)] at hc
          simp at hc
        rw [List.getElem?_append_left hi, hc]
        rw [hc] at h
        exact ⟨n, h⟩
  | cons i prest ih =>
    simp only [modifyAt]
    cases hc : root.children.get? i with
    | none => exact ⟨n, h⟩
    | some c =>
      simp only []
      have hci : root.children[i]? = some c := by rw [← List.get?_eq_getElem?]; exact hc
      have hilt : i < root.children.length := by
        by_contra hcon
        rw [List.getElem?_eq_none (by omega)] at hci
        simp at hci
      cases q with
      | nil => exact ⟨_, rfl⟩
      | cons j qrest =>
        rw [nodeAt_cons_getElem] at h ⊢
        change ∃ n2,
          ((root.children.set i (modifyAt (splitNode pc) c prest))[j]?).bind _ = some n2
        by_cases hj : i = j
        · subst hj
          rw [List.getElem?_set_self hilt]
          rw [hci] at h
          exact ih c qrest n h
        · rw [List.getElem?_set_ne hj]
          exact ⟨n, h⟩

/-- After a split the new leaf is in the tree, below the split node. -/
theorem nodeAt_split_new (pc : List ℚ) (root : Node) (path : List Nat) (n0 : Node)
    (h : nodeAt root path = some n0) :
    ∃ n2, nodeAt (modifyAt (splitNode pc) root path) (path ++ [n0.children.length])
      = some n2 := by
  induction path generalizing root with
  | nil =>
    simp only [nodeAt, Option.some.injEq] at h
    subst h
    simp only [modifyAt, List.nil_append]
    rw [nodeAt_cons_getElem]
    change ∃ n2,
      ((root.children ++ [Node.mk _ (root.sz + 1) []])[root.children.length]?).bind _
        = some n2
    rw [List.getElem?_append_right (Nat.le_refl _), Nat.sub_self]
    exact ⟨_, rfl⟩
  | cons i prest ih =>
    rw [nodeAt_cons_getElem] at h
    cases hci : root.children[i]? with
    | none => rw [hci] at h; simp at h
    | some c =>
      rw [hci] at h
      have hc : root.children.get? i = some c := by rw [List.get?_eq_getElem?]; exact hci
      have hilt : i < root.children.length := by
        by_contra hcon
        rw [List.getElem?_eq_none (by omega)] at hci
        simp at hci
      simp only [modifyAt, hc, List.cons_append]
      rw [nodeAt_cons_getElem]
      change ∃ n2,
        ((root.children.set i (modifyAt (splitNode pc) c prest))[i]?).bind _ = some n2
      rw [List.getElem?_set_self hilt]
      exact ih c h

theorem not_mem_eraseIdx_of_nodup {α : Type} (l : List α) (i : Nat) (hi : i < l.length)
    (hn : l.Nodup) (d : α) : l.getD i d ∉ l.eraseIdx i := by
  intro hmem
  rw [List.mem_eraseIdx_iff_getElem?] at hmem
  obtain ⟨j, hji, hj⟩ := hmem
  have hjl : j < l.length := by
    by_contra hcon
    rw [List.getElem?_eq_none (by omega)] at hj
    simp at hj
  rw [List.getElem?_eq_getElem hjl, List.getD_eq_getElem _ _ hi, Option.some.injEq] at hj
  exact hji ((List.Nodup.getElem_inj_iff hn).mp hj)

/-- The invariant of the growing loop when the initial tree fits: the queue holds pairwise
different nodes of the tree, `pq.size() + retiredNodes` is the number of nodes of the tree, and
that number is at most `2^K`. -/
theorem growLoop_partition (a : Alphabet) (K maxWordSize : Nat)
    (pick : Nat → Node → List (List Nat) → Nat) (Pstates : List ℚ)
    (hA : a.marlinSymbols.length + 1 ≤ shl1U K) (fuel : Nat) :
    (growLoop a K maxWordSize pick fuel (initialState a Pstates)).pq.Nodup ∧
    (∀ path, path ∈ (growLoop a K maxWordSize pick fuel (initialState a Pstates)).pq →
      ∃ node, nodeAt (growLoop a K maxWordSize pick fuel (initialState a Pstates)).root path
        = some node) ∧
    (growLoop a K maxWordSize pick fuel (initialState a Pstates)).root.count
      = (growLoop a K maxWordSize pick fuel (initialState a Pstates)).pq.length
        + (growLoop a K maxWordSize pick fuel (initialState a Pstates)).retiredNodes ∧
    (growLoop a K maxWordSize pick fuel (initialState a Pstates)).root.count ≤ shl1U K := by
  refine growLoop_induct a K maxWordSize pick
    (fun st => st.pq.Nodup ∧ (∀ path, path ∈ st.pq → ∃ node, nodeAt st.root path = some node) ∧
      st.root.count = st.pq.length + st.retiredNodes ∧ st.root.count ≤ shl1U K)
    ?_ ?_ fuel (initialState a Pstates) ?_
  · intro st i h hi
    refine ⟨List.Nodup.eraseIdx i h.1, fun path hp => h.2.1 path (List.mem_of_mem_eraseIdx hp),
      ?_, h.2.2.2⟩
    show st.root.count = (st.pq.eraseIdx i).length + (st.retiredNodes + 1)
    rw [List.length_eraseIdx, if_pos hi, h.2.2.1]
    omega
  · intro st i node h hi hT hn _ _ _
    have hc : (modifyAt (splitNode (Pchild a)) st.root (st.pq.getD i [])).count
        = st.root.count + 1 := modifyAt_count _ (splitNode_count _) _ _ node hn
    have hnone := nodeAt_child_none st.root (st.pq.getD i []) node hn
    refine ⟨?_, ?_, ?_, ?_⟩
    · show (st.pq.eraseIdx i ++ [st.pq.getD i [] ++ [node.children.length],
        st.pq.getD i []]).Nodup
      rw [List.nodup_append]
      refine ⟨List.Nodup.eraseIdx i h.1, ?_, ?_⟩
      · rw [List.nodup_cons]
        refine ⟨?_, List.nodup_singleton _⟩
        intro hm
        have := List.mem_singleton.mp hm
        have hl := congrArg List.length this
        rw [List.length_append] at hl
        simp at hl
      · intro x hx1 hx2
        rcases List.mem_cons.mp hx2 with hx | hx
        · subst hx
          obtain ⟨n3, h3⟩ := h.2.1 _ (List.mem_of_mem_eraseIdx hx1)
          rw [hnone] at h3
          exact Option.noConfusion h3
        · have hx3 := List.mem_singleton.mp hx
          subst hx3
          exact not_mem_eraseIdx_of_nodup st.pq i hi h.1 [] hx1
    · intro path hp
      show ∃ n2, nodeAt (modifyAt (splitNode (Pchild a)) st.root (st.pq.getD i [])) path
        = some n2
      rcases List.mem_append.mp hp with hp1 | hp1
      · obtain ⟨n3, h3⟩ := h.2.1 _ (List.mem_of_mem_eraseIdx hp1)
        exact nodeAt_split_keeps _ _ _ _ n3 h3
      · rcases List.mem_cons.mp hp1 with hx | hx
        · subst hx
          exact nodeAt_split_new _ _ _ node hn
        · have hx3 := List.mem_singleton.mp hx
          subst hx3
          exact nodeAt_split_keeps _ _ _ _ node hn
    · show (modifyAt (splitNode (Pchild a)) st.root (st.pq.getD i [])).count
        = (st.pq.eraseIdx i ++ [_, _]).length + st.retiredNodes
      rw [hc, List.length_append, List.length_eraseIdx, if_pos hi, h.2.2.1]
      simp only [List.length_cons, List.length_nil]
      omega
    · show (modifyAt (splitNode (Pchild a)) st.root (st.pq.getD i [])).count ≤ _
      rw [hc, h.2.2.1]
      omega
  · refine ⟨?_, ?_, ?_, ?_⟩
    · show ([] :: (List.range a.marlinSymbols.length).map (fun c => [c])).Nodup
      rw [List.nodup_cons]
      refine ⟨by simp, ?_⟩
      refine List.Nodup.map ?_ (List.nodup_range _)
      intro x y hxy
      simpa using hxy
    · intro path hp
      change path ∈ ([] :: (List.range a.marlinSymbols.length).map (fun c => [c])) at hp
      rcases List.mem_cons.mp hp with hx | hx
      · subst hx; exact ⟨_, rfl⟩
      · obtain ⟨c, hc, rfl⟩ := List.mem_map.mp hx
        rw [nodeAt_cons_getElem]
        change ∃ node, ((initialChildren a Pstates)[c]?).bind _ = some node
        have hlen : c < (initialChildren a Pstates).length := by
          simp only [initialChildren, List.length_map, List.length_range]
          exact List.mem_range.mp hc
        rw [List.getElem?_eq_getElem hlen]
        exact ⟨_, rfl⟩
    · rw [initialState_count]
      show _ = ([] :: (List.range a.marlinSymbols.length).map (fun c => [c])).length + 0
      simp
    · rw [initialState_count]; exact hA

/-- C32: for an alphabet of at most `2^K - 1` Marlin symbols (`K < 32`), the growing loop of
`buildTree` has stopped after `2 * 2^K + 1` iterations at the latest (the queue is empty or
`pq.size() + retiredNodes` has reached `2^K`); after any number of iterations the queue holds
pairwise different nodes of the tree and the nodes of the tree are as many as the queue holds
plus `retiredNodes`; the returned tree has at most `2^K` nodes, exactly `2^K` unless the queue
ran empty, and the chapter has at most `2^K` words. -/
theorem buildTree_fits (a : Alphabet) (K maxWordSize : Nat)
    (pick : Nat → Node → List (List Nat) → Nat) (Pstates : List ℚ) (hK : K < 32)
    (hA : a.marlinSymbols.length ≤ 2 ^ K - 1) :
    (∀ fuel, 2 * 2 ^ K + 1 ≤ fuel →
      (growLoop a K maxWordSize pick fuel (initialState a (normalizePstates Pstates))).pq = [] ∨
      2 ^ K ≤
        (growLoop a K maxWordSize pick fuel (initialState a (normalizePstates Pstates))).pq.length
        + (growLoop a K maxWordSize pick fuel
            (initialState a (normalizePstates Pstates))).retiredNodes) ∧
    (∀ fuel,
      (growLoop a K maxWordSize pick fuel (initialState a (normalizePstates Pstates))).pq.Nodup ∧
      (∀ path,
        path ∈ (growLoop a K maxWordSize pick fuel
          (initialState a (normalizePstates Pstates))).pq →
        ∃ node, nodeAt (growLoop a K maxWordSize pick fuel
          (initialState a (normalizePstates Pstates))).root path = some node) ∧
      (growLoop a K maxWordSize pick fuel (initialState a (normalizePstates Pstates))).root.count
        = (growLoop a K maxWordSize pick fuel
            (initialState a (normalizePstates Pstates))).pq.length
          + (growLoop a K maxWordSize pick fuel
            (initialState a (normalizePstates Pstates))).retiredNodes) ∧
    (buildTree a K maxWordSize pick Pstates).count ≤ 2 ^ K ∧
    ((growLoop a K maxWordSize pick (2 * shl1U K + 1)
        (initialState a (normalizePstates Pstates))).pq ≠ [] →
      (buildTree a K maxWordSize pick Pstates).count = 2 ^ K) ∧
    (buildChapterWords a (buildTree a K maxWordSize pick Pstates)).length ≤ 2 ^ K := by
  have hKe : shl1U K = 2 ^ K := shl1U_eq K hK
  have hpos : 0 < 2 ^ K := Nat.pow_pos (by decide)
  have hA2 : a.marlinSymbols.length + 1 ≤ shl1U K := by rw [hKe]; omega
  have hinv := growLoop_partition a K maxWordSize pick (normalizePstates Pstates) hA2
  have hcount : (buildTree a K maxWordSize pick Pstates).count
      = (growLoop a K maxWordSize pick (2 * shl1U K + 1)
          (initialState a (normalizePstates Pstates))).root.count := by
    unfold buildTree
    rw [Node.count_scale]
  have hle : (buildTree a K maxWordSize pick Pstates).count ≤ 2 ^ K := by
    rw [hcount, ← hKe]
    exact (hinv _).2.2.2
  refine ⟨?_, fun fuel => ⟨(hinv fuel).1, (hinv fuel).2.1, (hinv fuel).2.2.1⟩, hle, ?_, ?_⟩
  · intro fuel hfuel
    rw [← hKe]
    refine growLoop_done_aux a K maxWordSize pick fuel _ (Or.inl ?_)
    show 2 * (shl1U K - (([] :: (List.range a.marlinSymbols.length).map
      (fun c => [c])).length + 0)) + ([] :: (List.range a.marlinSymbols.length).map
      (fun c => [c])).length ≤ fuel
    simp only [List.length_cons, List.length_map, List.length_range]
    omega
  · intro hne
    rcases growLoop_done a K maxWordSize pick (normalizePstates Pstates) with h | h
    · exact absurd h hne
    · rw [← (hinv _).2.2.1, ← hcount, hKe] at h
      omega
  · rw [buildChapterWords_length]
    exact hle

set_option maxRecDepth 100000 in
theorem buildTree_fits_witness :
    chainAlphabet.marlinSymbols.length = 2 ∧
    (buildTree chainAlphabet 2 3 (fun _ => pickMax) [1]).count = 2 ^ 2 ∧
    (growLoop chainAlphabet 2 3 (fun _ => pickMax) (2 * shl1U 2 + 1)
      (initialState chainAlphabet (normalizePstates [1]))).pq = [[], [1], [0, 0], [0]] :=
  ⟨by decide!,
   (buildTree_fits chainAlphabet 2 3 (fun _ => pickMax) [1] (by decide) (by decide!)).2.2.2.1
     (by decide!),
   by decide!⟩

/-- C37: for a pixel `x < 256` and `1 ≤ q ≤ 8`, the quantised value is `x / q`; in the
dequantisation of `transform_inverse` neither the product with `q` nor the sum with the offset
exceeds 255; without midpoint reconstruction the result `x'` has `0 ≤ x - x' < q`, and with it
`x` and `x'` differ by at most `(q + 1) / 2`, in the last, shorter interval too. -/
theorem dequantize_error (q x : Nat) (hq1 : 1 ≤ q) (hq8 : q ≤ 8) (hx : x < 256) :
    quantize q x = x / q ∧
    quantize q x * q ≤ 255 ∧
    quantize q x * q + reconstructionOffset q true (quantize q x * q) ≤ 255 ∧
    dequantize q false (quantize q x) ≤ x ∧
    x - dequantize q false (quantize q x) < q ∧
    x ≤ dequantize q true (quantize q x) + (q + 1) / 2 ∧
    dequantize q true (quantize q x) ≤ x + (q + 1) / 2 := by
  have hqz : quantize q x = x / q := by
    interval_cases q <;> simp [quantize, Nat.shiftRight_eq_div_pow]
  rw [hqz]
  interval_cases q <;>
    simp [dequantize, reconstructionOffset, firstElementLastInterval, sizeLastQinterval,
      lastIntervalStart, intervalCount] <;>
    first
      | omega
      | (split_ifs <;> omega)

theorem dequantize_error_witness :
    quantize 6 255 = 42 ∧ sizeLastQinterval 6 = 2 ^ 32 - 252 ∧
    dequantize 6 false 42 = 252 ∧ dequantize 6 true 42 = 254 ∧
    quantize 6 255 * 6 + reconstructionOffset 6 true (quantize 6 255 * 6) ≤ 255 :=
  ⟨by decide, by decide, by decide, by decide,
   (dequantize_error 6 255 (by decide) (by decide) (by decide)).2.2.1⟩

set_option maxRecDepth 100000 in
/-- C36: on the 2 x 4 image with the pixels 1, ..., 8 (blocks of 2 x 2, one channel,
`qstep = 1`) `transform_direct` succeeds, and `transform_inverse` applied to its side
information and residuals returns the pixels 1, 2, 0, 0, 3, 4, 0, 0, not the image:
`predict_and_quantize_direct` takes the row length `imgCols` from `header.rows`, so it visits
one block with stride 2, while `transform_inverse` rebuilds two blocks with stride 4. -/
theorem transform_roundtrip_fails_wide :
    wideHeader.rows % wideHeader.blocksize = 0 ∧ wideHeader.cols % wideHeader.blocksize = 0 ∧
    (List.range 8).map wideImage = [1, 2, 3, 4, 5, 6, 7, 8] ∧
    (transform_direct wideHeader wideImage (fun _ => 0) (fun _ => 0)).map
        (fun r => ((List.range 2).map r.1, (List.range 8).map r.2))
      = some ([1, 0], [0, 1, 2, 2, 0, 0, 0, 0]) ∧
    (roundTrip wideHeader wideImage).map (fun m => (List.range 8).map m)
      = some [1, 2, 0, 0, 3, 4, 0, 0] := by
  decide

namespace Marlin2018Simple

theorem simple_fitsList_iff (M : Nat) (cs : List Node) (d : Nat) :
    fitsList M cs d = true ↔ ∀ c, c ∈ cs → c.fits M d = true := by
  induction cs with
  | nil => simp [fitsList]
  | cons c cs ih => simp [fitsList, ih]

theorem simple_fits_iff (M : Nat) (n : Node) (d : Nat) :
    n.fits M d = true ↔
      n.sz = d ∧ d ≤ M ∧ ∀ c, c ∈ n.children → c.fits M (d + 1) = true := by
  cases n with
  | mk p sz e cs =>
    simp [Node.fits, simple_fitsList_iff, Node.sz, Node.children, and_assoc]

theorem simple_nodeAt_cons (n : Node) (i : Nat) (rest : List Nat) :
    nodeAt n (i :: rest) = (n.children[i]?).bind (fun c => nodeAt c rest) := by
  simp only [nodeAt, List.get?_eq_getElem?]
  cases n.children[i]? <;> rfl

/-- In a tree that fits, the node at a path has `sz` equal to the length of the path. -/
theorem simple_fits_nodeAt (M : Nat) (root : Node) (d : Nat) (path : List Nat) (n : Node)
    (h : root.fits M d = true) (hn : nodeAt root path = some n) :
    n.fits M (d + path.length) = true := by
  induction path generalizing root d with
  | nil =>
    simp only [nodeAt, Option.some.injEq] at hn
    subst hn
    exact h
  | cons i rest ih =>
    rw [simple_nodeAt_cons] at hn
    cases hc : root.children[i]? with
    | none => rw [hc] at hn; simp at hn
    | some c =>
      rw [hc] at hn
      have hmem : c ∈ root.children :=
        List.get?_mem (by rw [List.get?_eq_getElem?]; exact hc)
      have := ih c (d + 1) (((simple_fits_iff M root d).mp h).2.2 c hmem) hn
      rw [List.length_cons]
      rw [show d + (rest.length + 1) = d + 1 + rest.length by omega]
      exact this

/-- A change at the node of a path keeps the tree fitting when it keeps that node fitting. -/
theorem simple_fits_modifyAt (M : Nat) (f : Node → Node) (root : Node) (d : Nat)
    (path : List Nat) (h : root.fits M d = true)
    (hf : ∀ n, n.fits M (d + path.length) = true → (f n).fits M (d + path.length) = true) :
    (modifyAt f root path).fits M d = true := by
  induction path generalizing root d with
  | nil => exact hf root h
  | cons i rest ih =>
    simp only [modifyAt]
    cases hc : root.children.get? i with
    | none => exact h
    | some c =>
      simp only []
      obtain ⟨h1, h2, h3⟩ := (simple_fits_iff M root d).mp h
      rw [simple_fits_iff]
      refine ⟨h1, h2, ?_⟩
      intro c2 hc2
      change c2 ∈ root.children.set i (modifyAt f c rest) at hc2
      rcases List.mem_or_eq_of_mem_set hc2 with hm | hm
      · exact h3 c2 hm
      · rw [hm]
        have hmem : c ∈ root.children := List.get?_mem hc
        refine ih c (d + 1) (h3 c hmem) ?_
        intro n hn
        rw [List.length_cons, show d + (rest.length + 1) = d + 1 + rest.length by omega] at hf
        exact hf n hn

mutual
theorem simple_fits_scale (M : Nat) (f : ℚ) : ∀ (n : Node) (d : Nat),
    (n.scale f).fits M d = n.fits M d
  | Node.mk p sz e cs, d => by
    simp only [Node.scale, Node.fits]
    rw [simple_fitsList_scale M f cs (d + 1)]
theorem simple_fitsList_scale (M : Nat) (f : ℚ) : ∀ (cs : List Node) (d : Nat),
    fitsList M (scaleList f cs) d = fitsList M cs d
  | [], _ => by simp [scaleList, fitsList]
  | c :: cs, d => by
    simp only [scaleList, fitsList]
    rw [simple_fits_scale M f c d, simple_fitsList_scale M f cs d]
end

theorem simple_fits_same (M : Nat) (n n2 : Node) (d : Nat) (hsz : n2.sz = n.sz)
    (hch : n2.children = n.children) (h : n.fits M d = true) : n2.fits M d = true := by
  rw [simple_fits_iff] at h ⊢
  rw [hsz, hch]
  exact h

theorem simple_fits_addChild (M : Nat) (n : Node) (d : Nat) (q p : ℚ) (e e2 : Bool)
    (h : n.fits M d = true) (hd : d + 1 ≤ M) :
    (Node.mk q n.sz e (n.children ++ [Node.mk p (n.sz + 1) e2 []])).fits M d = true := by
  obtain ⟨h1, h2, h3⟩ := (simple_fits_iff M n d).mp h
  rw [simple_fits_iff]
  refine ⟨h1, h2, ?_⟩
  intro c hc
  change c ∈ n.children ++ [Node.mk p (n.sz + 1) e2 []] at hc
  rcases List.mem_append.mp hc with hm | hm
  · exact h3 c hm
  · rw [List.mem_singleton.mp hm, simple_fits_iff]
    exact ⟨by rw [← h1]; rfl, hd, fun c2 hc2 => by simp [Node.children] at hc2⟩

/-- The lambda `pushAndPrune` keeps the tree fitting and queues only nodes above depth
`maxWordSize`. -/
theorem simple_pushAndPrune_inv (M : Nat) (isVictim enableVictimDict : Bool) (ppThres : ℚ)
    (st : TreeState) (path : List Nat) (hfit : st.root.fits M 0 = true)
    (hpq : ∀ q, q ∈ st.pq → q.length < M) :
    (pushAndPrune M isVictim enableVictimDict ppThres st path).root.fits M 0 = true ∧
    ∀ q, q ∈ (pushAndPrune M isVictim enableVictimDict ppThres st path).pq → q.length < M := by
  unfold pushAndPrune
  cases hn : nodeAt st.root path with
  | none => exact ⟨hfit, hpq⟩
  | some node =>
    simp only []
    have hnode := simple_fits_nodeAt M st.root 0 path node hfit hn
    rw [Nat.zero_add] at hnode
    have hsz : node.sz = path.length := ((simple_fits_iff M node _).mp hnode).1
    split_ifs with h1 h2
    · refine ⟨hfit, ?_⟩
      intro q hq
      rcases List.mem_append.mp hq with hm | hm
      · exact hpq q hm
      · rw [List.mem_singleton.mp hm, ← hsz]; exact h2
    · exact ⟨hfit, hpq⟩
    · refine ⟨?_, hpq⟩
      show (modifyAt (fun r => Node.mk (r.p + node.p) r.sz r.erased r.children)
        (modifyAt (fun n => Node.mk n.p n.sz true n.children) st.root path) []).fits M 0 = true
      refine simple_fits_modifyAt M _ _ 0 [] ?_ ?_
      · refine simple_fits_modifyAt M _ _ 0 path hfit ?_
        intro n hnf
        exact simple_fits_same M n _ _ rfl rfl hnf
      · intro n hnf
        exact simple_fits_same M n _ _ rfl rfl hnf

theorem simple_initialChildren_inv (alphabet : List SymbolAndProbability) (M : Nat)
    (hM : 1 ≤ M) (isVictim enableVictimDict : Bool) (ppThres : ℚ) (Pstates : List ℚ)
    (cs : List Nat) (st : TreeState) (hfit : st.root.fits M 0 = true)
    (hpq : ∀ q, q ∈ st.pq → q.length < M) :
    (initialChildren alphabet M isVictim enableVictimDict ppThres Pstates cs st).root.fits M 0
      = true ∧
    ∀ q, q ∈ (initialChildren alphabet M isVictim enableVictimDict ppThres Pstates cs st).pq →
      q.length < M := by
  induction cs generalizing st with
  | nil => exact ⟨hfit, hpq⟩
  | cons c rest ih =>
    simp only [initialChildren]
    obtain ⟨h1, h2⟩ := simple_pushAndPrune_inv M isVictim enableVictimDict ppThres
      { root := Node.mk st.root.p st.root.sz st.root.erased
          (st.root.children ++
            [Node.mk
              (((List.range (c + 1)).map (fun t =>
                  Pstates.getD t 0 / (PN (alphabet.map (fun s => s.p))).getD t 0)).sum *
                (alphabet.map (fun s => s.p)).getD c 0)
              1 false []])
        pq := st.pq
        retiredNodes := st.retiredNodes }
      [st.root.children.length]
      (by
        have hs : st.root.sz = 0 := ((simple_fits_iff M _ _).mp hfit).1
        have := simple_fits_addChild M st.root 0 st.root.p
          (((List.range (c + 1)).map (fun t =>
              Pstates.getD t 0 / (PN (alphabet.map (fun s => s.p))).getD t 0)).sum *
            (alphabet.map (fun s => s.p)).getD c 0) st.root.erased false hfit (by omega)
        rw [hs] at this
        rw [hs]
        exact this)
      hpq
    exact ih _ h1 h2

/-- The growing loop keeps the tree fitting, for `maxWordSize ≥ 1` and every queue order. -/
theorem simple_growLoop_inv (alphabet : List SymbolAndProbability) (keySize M : Nat)
    (isVictim enableVictimDict : Bool) (ppThres : ℚ)
    (pick : Nat → Node → List (List Nat) → Nat) (fuel : Nat) (st : TreeState)
    (hfit : st.root.fits M 0 = true) (hpq : ∀ q, q ∈ st.pq → q.length < M) :
    (growLoop alphabet keySize M isVictim enableVictimDict ppThres pick fuel st).root.fits M 0
      = true := by
  induction fuel generalizing st with
  | zero => exact hfit
  | succ fuel ih =>
    rw [growLoop]
    split_ifs with hg
    · have hlen : 0 < st.pq.length := List.length_pos.mpr hg.1
      have hi : pick fuel st.root st.pq % st.pq.length < st.pq.length := Nat.mod_lt _ hlen
      have hpath : (st.pq.getD (pick fuel st.root st.pq % st.pq.length) []).length < M := by
        apply hpq
        rw [List.getD_eq_getElem _ _ hi]
        exact List.getElem_mem _
      have herase : ∀ q, q ∈ st.pq.eraseIdx (pick fuel st.root st.pq % st.pq.length) →
          q.length < M := fun q hq => hpq q (List.mem_of_mem_eraseIdx hq)
      simp only []
      cases hn : nodeAt st.root (st.pq.getD (pick fuel st.root st.pq % st.pq.length) []) with
      | none => exact ih _ hfit herase
      | some node =>
        simp only []
        have hroot1 : (modifyAt (fun n => Node.mk
            (n.p - node.p * (Pchild alphabet).getD node.children.length 0) n.sz n.erased
            (n.children ++ [Node.mk (node.p * (Pchild alphabet).getD node.children.length 0)
              (n.sz + 1) false []])) st.root
            (st.pq.getD (pick fuel st.root st.pq % st.pq.length) [])).fits M 0 = true := by
          refine simple_fits_modifyAt M _ _ 0 _ hfit ?_
          intro n hnf
          exact simple_fits_addChild M n _ _ _ _ _ hnf (by omega)
        obtain ⟨h1, h2⟩ := simple_pushAndPrune_inv M isVictim enableVictimDict ppThres
          { root := modifyAt (fun n => Node.mk
              (n.p - node.p * (Pchild alphabet).getD node.children.length 0) n.sz n.erased
              (n.children ++ [Node.mk (node.p * (Pchild alphabet).getD node.children.length 0)
                (n.sz + 1) false []])) st.root
              (st.pq.getD (pick fuel st.root st.pq % st.pq.length) [])
            pq := st.pq.eraseIdx (pick fuel st.root st.pq % st.pq.length)
            retiredNodes := st.retiredNodes }
          (st.pq.getD (pick fuel st.root st.pq % st.pq.length) [] ++ [node.children.length])
          hroot1 herase
        split_ifs with hs
        · obtain ⟨h3, h4⟩ := simple_pushAndPrune_inv M isVictim enableVictimDict ppThres _
            (st.pq.getD (pick fuel st.root st.pq % st.pq.length) []) h1 h2
          exact ih _ h3 h4
        · have hroot2 : (modifyAt (fun n => Node.mk 0 n.sz true
              (n.children ++ [Node.mk 0 (n.sz + 1) false []]))
              (pushAndPrune M isVictim enableVictimDict ppThres
                { root := modifyAt (fun n => Node.mk
                    (n.p - node.p * (Pchild alphabet).getD node.children.length 0) n.sz
                    n.erased
                    (n.children ++
                      [Node.mk (node.p * (Pchild alphabet).getD node.children.length 0)
                        (n.sz + 1) false []])) st.root
                    (st.pq.getD (pick fuel st.root st.pq % st.pq.length) [])
                  pq := st.pq.eraseIdx (pick fuel st.root st.pq % st.pq.length)
                  retiredNodes := st.retiredNodes }
                (st.pq.getD (pick fuel st.root st.pq % st.pq.length) []
                  ++ [node.children.length])).root
              (st.pq.getD (pick fuel st.root st.pq % st.pq.length) [])).fits M 0 = true := by
            refine simple_fits_modifyAt M _ _ 0 _ h1 ?_
            intro n hnf
            exact simple_fits_addChild M n _ _ _ _ _ hnf (by omega)
          obtain ⟨h3, h4⟩ := simple_pushAndPrune_inv M isVictim enableVictimDict ppThres
            { root := _, pq := _, retiredNodes := _ } _ hroot2 h2
          exact ih _ h3 h4
    · exact hfit

/-- For `maxWordSize ≥ 1` the tree `buildTree` returns fits, for every queue order and every
number of iterations of the growing loop. -/
theorem simple_buildTree_inv (alphabet : List SymbolAndProbability) (keySize M : Nat)
    (hM : 1 ≤ M) (enableVictimDict : Bool) (purge : ℚ)
    (pick : Nat → Node → List (List Nat) → Nat) (fuel : Nat) (Pstates : List ℚ)
    (isVictim : Bool) :
    (buildTree alphabet keySize M enableVictimDict purge pick fuel Pstates isVictim).fits M 0
      = true := by
  unfold buildTree
  rw [simple_fits_scale]
  obtain ⟨h1, h2⟩ := simple_initialChildren_inv alphabet M hM isVictim enableVictimDict
    (purge / (shl1U keySize : ℚ)) (normalizePstates Pstates) (List.range alphabet.length)
    { root := Node.mk 0 0 true [], pq := [[]], retiredNodes := 0 }
    (by simp [Node.fits, fitsList])
    (by
      intro q hq
      rw [List.mem_singleton.mp hq]
      exact hM)
  exact simple_growLoop_inv alphabet keySize M isVictim enableVictimDict _ pick fuel _ h1 h2

mutual
/-- The words below a node of a fitting tree are no longer than `M`. -/
theorem simple_wordsFrom_length (M : Nat) (syms : List Nat) :
    ∀ (n : Node) (w : Word) (d : Nat), n.fits M d = true → w.symbols.length = d →
      ∀ x, x ∈ wordsFrom syms n w → x.symbols.length ≤ M
  | Node.mk p sz e cs, w, d, hfit, hw, x, hx => by
    simp only [Node.fits, Bool.and_eq_true, decide_eq_true_eq] at hfit
    simp only [wordsFrom] at hx
    rcases List.mem_append.mp hx with hm | hm
    · split at hm
      · simp at hm
      · rw [List.mem_singleton.mp hm, hw]; exact hfit.1.2
    · exact simple_childWords_length M syms cs 0 w d hfit.2 hw x hm
theorem simple_childWords_length (M : Nat) (syms : List Nat) :
    ∀ (cs : List Node) (i : Nat) (w : Word) (d : Nat), fitsList M cs (d + 1) = true →
      w.symbols.length = d → ∀ x, x ∈ childWords syms cs i w → x.symbols.length ≤ M
  | [], _, _, _, _, _, x, hx => by simp [childWords] at hx
  | c :: cs, i, w, d, hfit, hw, x, hx => by
    simp only [fitsList, Bool.and_eq_true] at hfit
    simp only [childWords] at hx
    rcases List.mem_append.mp hx with hm | hm
    · exact simple_childWords_length M syms cs (i + 1) w d hfit.2 hw x hm
    · exact simple_wordsFrom_length M syms c _ (d + 1) hfit.1 (by simp [hw]) x hm
end

/-- Every word in the vector after the placement loop is one of the words to place, the empty
word of the victim slot, or was in the vector before. -/
theorem simple_placeLoop_mem (overlap victimIdx : Nat) (rootP : ℚ) (fuel : Nat) :
    ∀ (xs : List Word) (j k : Nat) (w : List Word) (x : Word),
      x ∈ (placeLoop overlap victimIdx rootP fuel xs j k w).2 →
      x ∈ xs ∨ x = { symbols := [], p := rootP, state := 0 } ∨ x ∈ w := by
  induction fuel with
  | zero => intro xs j k w x hx; exact Or.inr (Or.inr hx)
  | succ fuel ih =>
    intro xs j k w x hx
    cases xs with
    | nil => exact Or.inr (Or.inr hx)
    | cons y ys =>
      simp only [placeLoop] at hx
      split_ifs at hx <;>
      · rcases ih _ _ _ _ x hx with h | h | h
        · first
            | exact Or.inl h
            | exact Or.inl (List.mem_cons_of_mem _ h)
        · exact Or.inr (Or.inl h)
        · rcases List.mem_or_eq_of_mem_set h with h2 | h2
          · exact Or.inr (Or.inr h2)
          · first
              | exact Or.inr (Or.inl h2)
              | exact Or.inl (by rw [h2]; exact List.mem_cons_self _ _)

/-- The placement loop places every word within `xs.length + victimIdx + 1` iterations: an
iteration that places no word is one at the victim slot, and each pass over the vector meets
that slot at most once, and only while `k ≤ victimIdx`. -/
theorem simple_placeLoop_done (overlap victimIdx : Nat) (rootP : ℚ) (fuel : Nat) :
    ∀ (xs : List Word) (j k : Nat) (w : List Word),
      xs.length + (if (if j ≥ w.length then k + 1 else j) ≤ victimIdx then 1 else 0)
        + (victimIdx - (if j ≥ w.length then k + 1 else k)) ≤ fuel →
      (placeLoop overlap victimIdx rootP fuel xs j k w).1 = [] := by
  have hD : 0 < 2 ^ overlap := Nat.pow_pos (by decide)
  induction fuel with
  | zero =>
    intro xs j k w h
    cases xs with
    | nil => rfl
    | cons y ys => simp at h
  | succ fuel ih =>
    intro xs j k w h
    cases xs with
    | nil => rfl
    | cons y ys =>
      simp only [placeLoop]
      rw [List.length_cons] at h
      split_ifs <;>
      · apply ih
        rw [List.length_set]
        try rw [List.length_cons]
        generalize 2 ^ overlap = D at hD ⊢
        split_ifs at h ⊢ <;> omega

/-- The words `arrangeAndFuse` makes of fitting trees are no longer than `M`. -/
theorem simple_arrangeAndFuse_length (alphabet : List SymbolAndProbability)
    (keySize overlap M : Nat) (shuffle : List Word → List Word)
    (hshuffle : ∀ l, List.Perm (shuffle l) l) (nodes : List Node) (victimIdx : Nat)
    (hfit : ∀ n, n ∈ nodes → n.fits M 0 = true) (x : Word)
    (hx : x ∈ arrangeAndFuse alphabet keySize overlap shuffle nodes victimIdx) :
    x.symbols.length ≤ M := by
  unfold arrangeAndFuse at hx
  rw [List.mem_flatMap] at hx
  obtain ⟨node, hnode, hxw⟩ := hx
  rcases simple_placeLoop_mem overlap victimIdx node.p _ _ _ _ _ x hxw with h | h | h
  · have h2 : x ∈ buildWords alphabet node :=
      (List.perm_insertionSort _ _).mem_iff.mp ((hshuffle _).mem_iff.mp h)
    exact simple_wordsFrom_length M _ node { symbols := [], p := node.p, state := 0 } 0
      (hfit node hnode) rfl x h2
  · rw [h]; exact Nat.zero_le _
  · rw [(List.mem_replicate.mp h).2]; exact Nat.zero_le _

theorem simple_buildTrees_fit (c : Parameters) (hM : 1 ≤ c.maxWordSize) (call : Nat)
    (Pstates : List (List ℚ)) (victim : Nat) (n : Node)
    (hn : n ∈ buildTrees c call Pstates victim) : n.fits c.maxWordSize 0 = true := by
  unfold buildTrees at hn
  rw [List.mem_map] at hn
  obtain ⟨kp, _, rfl⟩ := hn
  exact simple_buildTree_inv _ _ _ hM _ _ _ _ _ _

theorem simple_iterateDictionary_length (c : Parameters) (hM : 1 ≤ c.maxWordSize)
    (hshuffle : ∀ l, List.Perm (c.shuffle l) l) (iterations : Nat) :
    ∀ (call victim : Nat) (words : List Word),
      (∀ x, x ∈ words → x.symbols.length ≤ c.maxWordSize) →
      ∀ x, x ∈ iterateDictionary c iterations call victim words →
        x.symbols.length ≤ c.maxWordSize := by
  induction iterations with
  | zero => intro call victim words h x hx; exact h x hx
  | succ n ih =>
    intro call victim words _ x hx
    simp only [iterateDictionary] at hx
    refine ih _ _ _ ?_ x hx
    intro y hy
    exact simple_arrangeAndFuse_length _ _ _ _ _ hshuffle _ _
      (fun n hn => simple_buildTrees_fit c hM _ _ _ n hn) y hy

/-- For `maxWordSize ≥ 1` no word of the dictionary is longer than `maxWordSize`. -/
theorem simple_dictionary_length (c : Parameters) (hM : 1 ≤ c.maxWordSize)
    (hshuffle : ∀ l, List.Perm (c.shuffle l) l) (x : Word) (hx : x ∈ dictionary c) :
    x.symbols.length ≤ c.maxWordSize := by
  unfold dictionary at hx
  refine simple_iterateDictionary_length c hM hshuffle _ _ _ _ ?_ x hx
  intro y hy
  exact simple_arrangeAndFuse_length _ _ _ _ _ hshuffle _ _
    (fun n hn => simple_buildTrees_fit c hM _ _ _ n hn) y hy

theorem simple_fillDecoderTable_below (M : Nat) (ws : List Word) :
    ∀ (i : Nat) (table : Mem) (x : Nat), x < i * (M + 1) →
      fillDecoderTable M ws i table x = table x := by
  induction ws with
  | nil => intro i table x _; rfl
  | cons w ws ih =>
    intro i table x hx
    simp only [fillDecoderTable]
    rw [ih (i + 1) _ x (by rw [Nat.succ_mul]; omega), storeBytes_below _ _ _ _ hx,
      store_other _ _ _ _ (by omega)]

/-- The last byte of every record of the decoder table holds the length of its word, when no
word is longer than `M`. -/
theorem simple_fillDecoderTable_last (M : Nat) (ws : List Word) :
    ∀ (i : Nat) (table : Mem), (∀ w, w ∈ ws → w.symbols.length ≤ M) →
      ∀ t, t < ws.length →
        fillDecoderTable M ws i table ((i + t) * (M + 1) + M)
          = (ws.getD t emptyWord).symbols.length % 256 := by
  induction ws with
  | nil => intro i table _ t ht; simp at ht
  | cons w ws ih =>
    intro i table hall t ht
    simp only [fillDecoderTable]
    cases t with
    | zero =>
      simp only [Nat.add_zero]
      rw [simple_fillDecoderTable_below M ws (i + 1) _ _
        (by rw [Nat.succ_mul]; omega),
        storeBytes_above _ _ _ _ (by have := hall w (List.mem_cons_self _ _); omega),
        store_same]
      rfl
    | succ t =>
      have := ih (i + 1) (storeBytes
          (store table (i * (M + 1) + M) (w.symbols.length % 256)) (i * (M + 1)) w.symbols)
        (fun w2 hw2 => hall w2 (List.mem_cons_of_mem _ hw2)) t
        (by rw [List.length_cons] at ht; omega)
      rw [show i + (t + 1) = i + 1 + t by omega, this]
      rfl

set_option maxRecDepth 100000 in
/-- C38: with `maxWordSize = 0`, three symbols and `keySize = 2` the dictionary has words longer
than `maxWordSize`: `buildTree` makes the three children of the root with size 1 before any
test against `maxWordSize` and counts them as retired, the growing loop does not run
(`1 + 3 = 2^2`), and the dictionary holds the three one-symbol words; the condition of
`assert(dict[i].size()<=maxWordSize)` in the constructor of `Decoder` is false, and the last
(and only) byte of record 3 holds the symbol 2, neither the length 1 nor a value
`≤ maxWordSize`. -/
theorem simple_word_exceeds_zero_maxWordSize :
    zeroWordSize.maxWordSize = 0 ∧
    (initialChildren threeSymbols 0 true true (1 / 100 / (shl1U 2 : ℚ))
      (normalizePstates [1, 0, 0]) (List.range 3)
      { root := Node.mk 0 0 true [], pq := [[]], retiredNodes := 0 }).pq = [[]] ∧
    (initialChildren threeSymbols 0 true true (1 / 100 / (shl1U 2 : ℚ))
      (normalizePstates [1, 0, 0]) (List.range 3)
      { root := Node.mk 0 0 true [], pq := [[]], retiredNodes := 0 }).retiredNodes = 3 ∧
    (dictionary zeroWordSize).map (fun w => w.symbols) = [[], [0], [1], [2]] ∧
    decoderAssertion (dictionary zeroWordSize) 0 = false ∧
    decoderTable (dictionary zeroWordSize) 0 (3 * (0 + 1) + 0) = 2 := by
  decide!

/-- For `maxWordSize ≥ 1`, whatever the queue order, the number of iterations of the growing
loops and the permutation of the shuffle, every word of the dictionary of `Marlin2018Simple`
has at most `maxWordSize` symbols; so the condition of the assertion in the constructor of
`Decoder` holds for every word, and the last byte of every record of the decoder table holds
the length of its word, which is at most `maxWordSize`. -/
theorem simple_words_fit (c : Parameters) (hM : 1 ≤ c.maxWordSize)
    (hshuffle : ∀ l, List.Perm (c.shuffle l) l) :
    (∀ w, w ∈ dictionary c → w.symbols.length ≤ c.maxWordSize) ∧
    decoderAssertion (dictionary c) c.maxWordSize = true ∧
    ∀ i, i < (dictionary c).length →
      decoderTable (dictionary c) c.maxWordSize (i * (c.maxWordSize + 1) + c.maxWordSize)
          = ((dictionary c).getD i emptyWord).symbols.length % 256 ∧
        ((dictionary c).getD i emptyWord).symbols.length ≤ c.maxWordSize := by
  have hlen := simple_dictionary_length c hM hshuffle
  refine ⟨hlen, ?_, ?_⟩
  · unfold decoderAssertion
    rw [List.all_eq_true]
    intro w hw
    exact decide_eq_true (hlen w hw)
  · intro i hi
    constructor
    · have := simple_fillDecoderTable_last c.maxWordSize (dictionary c) 0 (fun _ => 0) hlen i hi
      rw [Nat.zero_add] at this
      exact this
    · apply hlen
      rw [List.getD_eq_getElem _ _ hi]
      exact List.getElem_mem _

set_option maxRecDepth 100000 in
theorem simple_words_fit_witness :
    twoWordSize.maxWordSize = 2 ∧
    ((dictionary twoWordSize).getD 6 emptyWord).symbols = [0] ∧
    decoderTable (dictionary twoWordSize) 2 (6 * (2 + 1) + 2) = 1 :=
  ⟨rfl, by decide!,
   ((simple_words_fit twoWordSize (by decide) (fun l => List.Perm.refl l)).2.2 6
      (by decide!)).1.trans (by decide!)⟩

end Marlin2018Simple

theorem foldl_store_range (f : Nat → Nat) (a n : Nat) (m0 : Mem) (x : Nat) :
    (List.range n).foldl (fun m jj => store m (a + jj) (f jj)) m0 x
      = if a ≤ x ∧ x < a + n then f (x - a) else m0 x := by
  induction n with
  | zero => rw [if_neg (by omega)]; rfl
  | succ n ih =>
    rw [List.range_succ, List.foldl_append]
    simp only [List.foldl_cons, List.foldl_nil]
    by_cases hx : x = a + n
    · subst hx
      rw [store_same, if_pos (by omega)]
      congr 1
      omega
    · rw [store_other _ _ _ _ hx, ih]
      by_cases h : a ≤ x ∧ x < a + n
      · rw [if_pos h, if_pos (by omega)]
      · rw [if_neg h, if_neg (by omega)]

theorem foldl_store_rows (g : Nat → Nat → Nat) (a w m : Nat) (m0 : Mem) (x : Nat) :
    (List.range m).foldl
        (fun mem ii => (List.range w).foldl
          (fun mem jj => store mem (a + ii * w + jj) (g ii jj)) mem) m0 x
      = if a ≤ x ∧ x < a + m * w then g ((x - a) / w) ((x - a) % w) else m0 x := by
  induction m with
  | zero => rw [if_neg (by omega)]; rfl
  | succ m ih =>
    rw [List.range_succ, List.foldl_append]
    simp only [List.foldl_cons, List.foldl_nil]
    rw [foldl_store_range (g m) (a + m * w) w, ih]
    have hs : (m + 1) * w = m * w + w := Nat.succ_mul m w
    by_cases h : a + m * w ≤ x ∧ x < a + m * w + w
    · have hw : 0 < w := by omega
      have hk : x - a = (x - (a + m * w)) + m * w := by omega
      have hd : (x - a) / w = m := by
        rw [hk, Nat.add_mul_div_right _ _ hw, Nat.div_eq_of_lt (by omega), Nat.zero_add]
      have hm : (x - a) % w = x - (a + m * w) := by
        rw [hk, Nat.add_mul_mod_self_right, Nat.mod_eq_of_lt (by omega)]
      rw [if_pos h, if_pos (by omega), hd, hm]
    · rw [if_neg h]
      by_cases h2 : a ≤ x ∧ x < a + m * w
      · rw [if_pos h2, if_pos (by omega)]
      · rw [if_neg h2, if_neg (by omega)]

theorem div_mod_of_decomp (w r c y : Nat) (hc : c < w) (hy : y = c + r * w) :
    y / w = r ∧ y % w = c := by
  have hw : 0 < w := by omega
  subst hy
  exact ⟨by rw [Nat.add_mul_div_right _ _ hw, Nat.div_eq_of_lt hc, Nat.zero_add],
    by rw [Nat.add_mul_mod_self_right, Nat.mod_eq_of_lt hc]⟩

/-- One block of the direct transform in closed form: the pointer advances by the block size,
the seed goes to the side information, and the `bs * bs` bytes from `t` on hold the residuals
of the block, row by row. -/
theorem directBlock_spec (orig : Mem) (W bs bcols i j t : Nat) (side pre : Mem)
    (hbs : 1 ≤ bs) :
    (directBlock orig W bs bcols i j (t, side, pre)).1 = t + bs * bs ∧
    (directBlock orig W bs bcols i j (t, side, pre)).2.1
      = store side ((i / bs) * bcols + j / bs) (orig (i * W + j)) ∧
    ∀ x, (directBlock orig W bs bcols i j (t, side, pre)).2.2 x
      = if t ≤ x ∧ x < t + bs * bs then
          specResidual orig W i j ((x - t) / bs) ((x - t) % bs)
        else pre x := by
  obtain ⟨k, rfl⟩ : ∃ k, bs = k + 1 := ⟨bs - 1, by omega⟩
  have hsq : (k + 1) * (k + 1) = k * (k + 1) + (k + 1) := Nat.succ_mul k (k + 1)
  refine ⟨?_, rfl, ?_⟩
  · show t + 1 + (k + 1 - 1) + (k + 1 - 1) * (k + 1) = t + (k + 1) * (k + 1)
    rw [Nat.add_sub_cancel, hsq]
    omega
  · intro x
    show (List.range (k + 1 - 1)).foldl
        (fun pre ii => (List.range (k + 1)).foldl
          (fun pre jj => store pre (t + 1 + (k + 1 - 1) + ii * (k + 1) + jj)
            (sub8 (orig ((i + (ii + 1)) * W + j + jj))
              (orig ((i + (ii + 1) - 1) * W + j + jj))))
          pre)
        ((List.range (k + 1 - 1)).foldl
          (fun pre jj => store pre (t + 1 + jj)
            (sub8 (orig (i * W + j + 1 + jj)) (orig (i * W + j + jj))))
          (store pre t 0)) x = _
    rw [foldl_store_rows
        (fun ii jj => sub8 (orig ((i + (ii + 1)) * W + j + jj))
          (orig ((i + (ii + 1) - 1) * W + j + jj))),
      foldl_store_range
        (fun jj => sub8 (orig (i * W + j + 1 + jj)) (orig (i * W + j + jj)))]
    rw [Nat.add_sub_cancel, hsq]
    by_cases h1 : t + 1 + k ≤ x ∧ x < t + 1 + k + k * (k + 1)
    · rw [if_pos h1, if_pos (by omega)]
      obtain ⟨e1, e2⟩ := div_mod_of_decomp (k + 1) ((x - (t + 1 + k)) / (k + 1) + 1)
        ((x - (t + 1 + k)) % (k + 1)) (x - t) (Nat.mod_lt _ (by omega))
        (by
          have hdm := Nat.div_add_mod (x - (t + 1 + k)) (k + 1)
          have hq : ((x - (t + 1 + k)) / (k + 1) + 1) * (k + 1)
              = (k + 1) * ((x - (t + 1 + k)) / (k + 1)) + (k + 1) := by
            rw [Nat.succ_mul, Nat.mul_comm]
          omega)
      rw [e1, e2]
      unfold specResidual
      rw [if_neg (Nat.succ_ne_zero ((x - (t + 1 + k)) / (k + 1)))]
    · rw [if_neg h1]
      by_cases h2 : t + 1 ≤ x ∧ x < t + 1 + k
      · rw [if_pos h2, if_pos (by omega)]
        obtain ⟨e1, e2⟩ := div_mod_of_decomp (k + 1) 0 (x - t) (x - t) (by omega) (by omega)
        rw [e1, e2]
        unfold specResidual
        rw [if_pos (show (0 : Nat) = 0 from rfl), if_neg (show ¬ (x - t = 0) by omega)]
        congr 2 <;> omega
      · rw [if_neg h2]
        by_cases h3 : x = t
        · subst h3
          rw [store_same, if_pos (by omega), Nat.sub_self, Nat.zero_div, Nat.zero_mod]
          rfl
        · rw [store_other _ _ _ _ h3, if_neg (by omega)]

theorem sub8_add (a b : Nat) (ha : a < 256) :
    (sub8 a b + b) % 256 = a ∧ (b + sub8 a b) % 256 = a := by
  unfold sub8
  omega

/-- The loop that rebuilds the first row of a block from the left neighbours. -/
theorem foldl_rebuild_row (img dec : Mem) (base t0 n : Nat) (r0 : Mem)
    (h0 : r0 base = img base)
    (hdec : ∀ jj, jj < n → (dec (t0 + jj) + img (base + jj)) % 256 = img (base + 1 + jj)) :
    ∀ m, m ≤ n → ∀ x,
      (List.range m).foldl
          (fun r jj => store r (base + 1 + jj) ((dec (t0 + jj) + r (base + jj)) % 256)) r0 x
        = if base + 1 ≤ x ∧ x < base + 1 + m then img x else r0 x := by
  intro m
  induction m with
  | zero => intro _ x; rw [if_neg (by omega)]; rfl
  | succ m ih =>
    intro hm x
    have ihm := ih (Nat.le_of_succ_le hm)
    clear ih
    rw [List.range_succ, List.foldl_append]
    simp only [List.foldl_cons, List.foldl_nil]
    have hprev : (List.range m).foldl
        (fun r jj => store r (base + 1 + jj) ((dec (t0 + jj) + r (base + jj)) % 256)) r0
        (base + m) = img (base + m) := by
      rw [ihm]
      by_cases h : m = 0
      · subst h; rw [if_neg (by omega)]; exact h0
      · rw [if_pos (by omega)]
    by_cases hx : x = base + 1 + m
    · subst hx
      rw [store_same, hprev, if_pos ⟨Nat.le_add_right _ _, Nat.lt_succ_self _⟩]
      exact hdec m hm
    · clear hprev
      rw [store_other _ _ _ _ hx, ihm]
      by_cases h : base + 1 ≤ x ∧ x < base + 1 + m
      · rw [if_pos h, if_pos (by omega)]
      · rw [if_neg h, if_neg (by omega)]

/-- The loop that rebuilds one row of a block from the row above. -/
theorem foldl_rebuild_north (img dec : Mem) (dst src t0 n : Nat) (r0 : Mem)
    (hsrc : ∀ jj, jj < n → r0 (src + jj) = img (src + jj)) (hdis : src + n ≤ dst)
    (hdec : ∀ jj, jj < n → (img (src + jj) + dec (t0 + jj)) % 256 = img (dst + jj)) :
    ∀ m, m ≤ n → ∀ x,
      (List.range m).foldl
          (fun r jj => store r (dst + jj) ((r (src + jj) + dec (t0 + jj)) % 256)) r0 x
        = if dst ≤ x ∧ x < dst + m then img x else r0 x := by
  intro m
  induction m with
  | zero => intro _ x; rw [if_neg (by omega)]; rfl
  | succ m ih =>
    intro hm x
    have ihm := ih (Nat.le_of_succ_le hm)
    clear ih
    rw [List.range_succ, List.foldl_append]
    simp only [List.foldl_cons, List.foldl_nil]
    by_cases hx : x = dst + m
    · subst hx
      rw [store_same, ihm, if_neg (by omega), hsrc m (by omega), if_pos (by omega)]
      exact hdec m (by omega)
    · rw [store_other _ _ _ _ hx, ihm]
      by_cases h : dst ≤ x ∧ x < dst + m
      · rw [if_pos h, if_pos (by omega)]
      · rw [if_neg h, if_neg (by omega)]

/-- The loops that rebuild the rows below the first row of a block. -/
theorem foldl_rebuild_rows (img dec : Mem) (W bs i j t0 M : Nat) (hW : bs ≤ W) (r1 : Mem)
    (hrow0 : ∀ c, c < bs → r1 (i * W + j + c) = img (i * W + j + c))
    (hdec : ∀ ii jj, ii < M → jj < bs →
      (img ((i + (ii + 1) - 1) * W + j + jj) + dec (t0 + ii * bs + jj)) % 256
        = img ((i + (ii + 1)) * W + j + jj)) :
    ∀ m, m ≤ M →
      (∀ r c, r ≤ m → c < bs →
        (List.range m).foldl
            (fun r ii => (List.range bs).foldl
              (fun r jj => store r ((i + (ii + 1)) * W + j + jj)
                ((r ((i + (ii + 1) - 1) * W + j + jj) + dec (t0 + ii * bs + jj)) % 256))
              r) r1 ((i + r) * W + j + c)
          = img ((i + r) * W + j + c)) ∧
      (∀ x, (∀ r c, r ≤ m → c < bs → x ≠ (i + r) * W + j + c) →
        (List.range m).foldl
            (fun r ii => (List.range bs).foldl
              (fun r jj => store r ((i + (ii + 1)) * W + j + jj)
                ((r ((i + (ii + 1) - 1) * W + j + jj) + dec (t0 + ii * bs + jj)) % 256))
              r) r1 x
          = r1 x) := by
  intro m
  induction m with
  | zero =>
    intro _
    refine ⟨?_, fun x _ => rfl⟩
    intro r c hr hc
    have : r = 0 := by omega
    subst this
    rw [Nat.add_zero]
    exact hrow0 c hc
  | succ m ih =>
    intro hm
    obtain ⟨ih1, ih2⟩ := ih (Nat.le_of_succ_le hm)
    clear ih
    have hstep : ∀ x,
        (List.range (m + 1)).foldl
            (fun r ii => (List.range bs).foldl
              (fun r jj => store r ((i + (ii + 1)) * W + j + jj)
                ((r ((i + (ii + 1) - 1) * W + j + jj) + dec (t0 + ii * bs + jj)) % 256))
              r) r1 x
          = if (i + (m + 1)) * W + j ≤ x ∧ x < (i + (m + 1)) * W + j + bs then img x
            else (List.range m).foldl
              (fun r ii => (List.range bs).foldl
                (fun r jj => store r ((i + (ii + 1)) * W + j + jj)
                  ((r ((i + (ii + 1) - 1) * W + j + jj) + dec (t0 + ii * bs + jj)) % 256))
                r) r1 x := by
      intro x
      rw [List.range_succ, List.foldl_append]
      simp only [List.foldl_cons, List.foldl_nil]
      exact foldl_rebuild_north img dec ((i + (m + 1)) * W + j) ((i + (m + 1) - 1) * W + j)
        (t0 + m * bs) bs _
        (fun jj hjj => by
          rw [show i + (m + 1) - 1 = i + m by omega]
          exact ih1 m jj (Nat.le_refl _) hjj)
        (by
          rw [show i + (m + 1) - 1 = i + m by omega, show i + (m + 1) = i + m + 1 by omega,
            Nat.succ_mul]
          omega)
        (fun jj hjj => hdec m jj (by omega) hjj) bs (Nat.le_refl _) x
    have hmono : ∀ r, r ≤ m → (i + r) * W + W ≤ (i + (m + 1)) * W := by
      intro r hr
      rw [← Nat.succ_mul]
      exact Nat.mul_le_mul_right W (by omega)
    constructor
    · intro r c hr hc
      rw [hstep]
      by_cases hrm : r = m + 1
      · subst hrm
        rw [if_pos (by omega)]
      · have := hmono r (by omega)
        rw [if_neg (by omega)]
        exact ih1 r c (by omega) hc
    · intro x hx
      rw [hstep]
      by_cases hin : (i + (m + 1)) * W + j ≤ x ∧ x < (i + (m + 1)) * W + j + bs
      · exfalso
        exact hx (m + 1) (x - ((i + (m + 1)) * W + j)) (Nat.le_refl _) (by omega) (by omega)
      · rw [if_neg hin]
        exact ih2 x (fun r c hr hc => hx r c (by omega) hc)

/-- One block of the inverse transform, when the side information holds the seed of the block
and the decoded data hold its residuals: the pointer advances by the block size, the pixels of
the block are those of the image, and no other pixel changes. -/
theorem inverseBlock_spec (img side dec : Mem) (W bs bcols i j t : Nat) (rec0 : Mem)
    (hbs : 1 ≤ bs) (hW : bs ≤ W) (himg : ∀ a, img a < 256)
    (hside : side ((i / bs) * bcols + j / bs) = img (i * W + j))
    (hdec : ∀ r c, r < bs → c < bs → ¬ (r = 0 ∧ c = 0) →
      dec (t + r * bs + c) = specResidual img W i j r c) :
    (inverseBlock side dec W bs bcols i j (t, rec0)).1 = t + bs * bs ∧
    (∀ r c, r < bs → c < bs →
      (inverseBlock side dec W bs bcols i j (t, rec0)).2 ((i + r) * W + j + c)
        = img ((i + r) * W + j + c)) ∧
    (∀ x, (∀ r c, r < bs → c < bs → x ≠ (i + r) * W + j + c) →
      (inverseBlock side dec W bs bcols i j (t, rec0)).2 x = rec0 x) := by
  obtain ⟨k, rfl⟩ : ∃ k, bs = k + 1 := ⟨bs - 1, by omega⟩
  have hsq : (k + 1) * (k + 1) = k * (k + 1) + (k + 1) := Nat.succ_mul k (k + 1)
  have hdec1 : ∀ jj, jj < k + 1 - 1 →
      (dec (t + 1 + jj) + img (i * W + j + jj)) % 256 = img (i * W + j + 1 + jj) := by
    intro jj hjj
    have h1 := hdec 0 (jj + 1) (by omega) (by omega) (by omega)
    rw [Nat.zero_mul, Nat.add_zero] at h1
    rw [show t + 1 + jj = t + (jj + 1) by omega, h1]
    unfold specResidual
    rw [if_pos rfl, if_neg (Nat.succ_ne_zero jj),
      show i * W + j + (jj + 1) - 1 = i * W + j + jj by omega,
      show i * W + j + 1 + jj = i * W + j + (jj + 1) by omega]
    exact (sub8_add _ _ (himg _)).1
  have hdecR : ∀ ii jj, ii < k + 1 - 1 → jj < k + 1 →
      (img ((i + (ii + 1) - 1) * W + j + jj) + dec (t + 1 + (k + 1 - 1) + ii * (k + 1) + jj))
          % 256
        = img ((i + (ii + 1)) * W + j + jj) := by
    intro ii jj hii hjj
    have h1 := hdec (ii + 1) jj (by omega) hjj (by omega)
    have h2 : t + 1 + (k + 1 - 1) + ii * (k + 1) + jj = t + (ii + 1) * (k + 1) + jj := by
      rw [Nat.succ_mul]; omega
    rw [h2, h1]
    unfold specResidual
    rw [if_neg (Nat.succ_ne_zero ii)]
    exact (sub8_add _ _ (himg _)).2
  have hfirst := foldl_rebuild_row img dec (i * W + j) (t + 1) (k + 1 - 1)
    (store rec0 (i * W + j) (side ((i / (k + 1)) * bcols + j / (k + 1))))
    (by rw [store_same]; exact hside) hdec1 (k + 1 - 1) (Nat.le_refl _)
  have hrow0 : ∀ c, c < k + 1 →
      (List.range (k + 1 - 1)).foldl
          (fun r jj => store r (i * W + j + 1 + jj)
            ((dec (t + 1 + jj) + r (i * W + j + jj)) % 256))
          (store rec0 (i * W + j) (side ((i / (k + 1)) * bcols + j / (k + 1))))
          (i * W + j + c)
        = img (i * W + j + c) := by
    intro c hc
    rw [hfirst]
    by_cases h0 : c = 0
    · subst h0
      rw [if_neg (by omega)]
      simp only [Nat.add_zero]
      rw [store_same]
      exact hside
    · rw [if_pos (by omega)]
  obtain ⟨hrows1, hrows2⟩ := foldl_rebuild_rows img dec W (k + 1) i j (t + 1 + (k + 1 - 1))
    (k + 1 - 1) hW _ hrow0 hdecR (k + 1 - 1) (Nat.le_refl _)
  refine ⟨?_, ?_, ?_⟩
  · show t + 1 + (k + 1 - 1) + (k + 1 - 1) * (k + 1) = t + (k + 1) * (k + 1)
    rw [Nat.add_sub_cancel, hsq]
    omega
  · intro r c hr hc
    exact hrows1 r c (by omega) hc
  · intro x hx
    have hx0 : ∀ c, c < k + 1 → x ≠ i * W + j + c := by
      intro c hc
      have := hx 0 c (by omega) hc
      rw [Nat.add_zero] at this
      exact this
    have hne : ¬ (i * W + j + 1 ≤ x ∧ x < i * W + j + 1 + (k + 1 - 1)) := by
      intro hin
      exact hx0 (x - (i * W + j)) (by omega) (by omega)
    have hbase : x ≠ i * W + j := hx0 0 (by omega)
    have hx1 : ∀ r c, r ≤ k + 1 - 1 → c < k + 1 → x ≠ (i + r) * W + j + c :=
      fun r c hr hc => hx r c (by omega) hc
    have h1 := hrows2 x hx1
    have h2 := hfirst x
    rw [if_neg hne, store_other _ _ _ _ hbase] at h2
    exact h1.trans h2

theorem foldl_congr_mem {α β : Type} (f g : β → α → β) (l : List α)
    (h : ∀ s x, x ∈ l → f s x = g s x) (s : β) : l.foldl f s = l.foldl g s := by
  induction l generalizing s with
  | nil => rfl
  | cons x xs ih =>
    simp only [List.foldl_cons]
    rw [h s x (List.mem_cons_self _ _)]
    exact ih (fun s y hy => h s y (List.mem_cons_of_mem _ hy)) _

/-- Two nested loops over `A` and `B` values are one loop over `A * B` values. -/
theorem foldl_range_nested {β : Type} (f : β → Nat → Nat → β) (A B : Nat) (s0 : β) :
    (List.range A).foldl (fun s a => (List.range B).foldl (fun s b => f s a b) s) s0
      = (List.range (A * B)).foldl (fun s k => f s (k / B) (k % B)) s0 := by
  induction A with
  | zero => simp
  | succ A ih =>
    rw [List.range_succ, List.foldl_append, ih, Nat.succ_mul, List.range_add,
      List.foldl_append, List.foldl_map]
    simp only [List.foldl_cons, List.foldl_nil]
    apply foldl_congr_mem
    intro s b hb
    have hb2 : b < B := List.mem_range.mp hb
    obtain ⟨e1, e2⟩ := div_mod_of_decomp B A b (A * B + b) hb2 (Nat.add_comm _ _)
    rw [e1, e2]

theorem blockStarts_eq (n bs : Nat) (hbs : 1 ≤ bs) (hn : bs ≤ n) (hlt : n < 2 ^ 64) :
    blockStarts n bs = (List.range (n / bs)).map (fun k => k * bs) := by
  unfold blockStarts
  have h : ((n + 2 ^ 64 - bs + 1) % 2 ^ 64 + bs - 1) = n := by omega
  rw [h]

/-- The direct transform over the first `m` blocks of an image with rows of `n` pixels and `B`
blocks per row: block `b` has its seed at place `b` of the side information and its residuals
in the `bs * bs` bytes from `b * (bs * bs)` on. -/
theorem direct_blocks_spec (img : Mem) (n bs B : Nat) (hbs : 1 ≤ bs) (side0 pre0 : Mem) :
    ∀ m,
      ((List.range m).foldl
          (fun st k => directBlock img n bs B ((k / B) * bs) ((k % B) * bs) st)
          (0, side0, pre0)).1 = m * (bs * bs) ∧
      (∀ b, b < m →
        ((List.range m).foldl
            (fun st k => directBlock img n bs B ((k / B) * bs) ((k % B) * bs) st)
            (0, side0, pre0)).2.1 b
          = img (((b / B) * bs) * n + (b % B) * bs)) ∧
      (∀ b off, b < m → off < bs * bs →
        ((List.range m).foldl
            (fun st k => directBlock img n bs B ((k / B) * bs) ((k % B) * bs) st)
            (0, side0, pre0)).2.2 (b * (bs * bs) + off)
          = specResidual img n ((b / B) * bs) ((b % B) * bs) (off / bs) (off % bs)) := by
  intro m
  induction m with
  | zero =>
    refine ⟨by simp, fun b hb => ?_, fun b off hb => ?_⟩
    · omega
    · omega
  | succ m ih =>
    rw [List.range_succ, List.foldl_append]
    simp only [List.foldl_cons, List.foldl_nil]
    generalize (List.range m).foldl
      (fun st k => directBlock img n bs B ((k / B) * bs) ((k % B) * bs) st)
      (0, side0, pre0) = st at ih
    obtain ⟨t, side, pre⟩ := st
    obtain ⟨iht, ihs, ihp⟩ := ih
    simp only [] at iht ihs ihp
    obtain ⟨h1, h2, h3⟩ := directBlock_spec img n bs B ((m / B) * bs) ((m % B) * bs) t side pre
      hbs
    have hidx : ((m / B) * bs / bs) * B + (m % B) * bs / bs = m := by
      rw [Nat.mul_div_cancel _ (by omega), Nat.mul_div_cancel _ (by omega)]
      exact Nat.div_add_mod' m B
    have hsucc : (m + 1) * (bs * bs) = m * (bs * bs) + bs * bs := Nat.succ_mul _ _
    have hmono : ∀ b, b < m → b * (bs * bs) + bs * bs ≤ m * (bs * bs) := by
      intro b hb
      rw [← Nat.succ_mul]
      exact Nat.mul_le_mul_right _ hb
    refine ⟨?_, ?_, ?_⟩
    · rw [h1, iht, hsucc]
    · intro b hb
      rw [h2, hidx]
      by_cases hbm : b = m
      · subst hbm
        rw [store_same]
      · rw [store_other _ _ _ _ hbm]
        exact ihs b (by omega)
    · intro b off hb hoff
      rw [h3, iht]
      by_cases hbm : b = m
      · subst hbm
        rw [if_pos (by omega), Nat.add_sub_cancel_left]
      · have := hmono b (by omega)
        rw [if_neg (by omega)]
        exact ihp b off (by omega) hoff

/-- The inverse transform over the first `m` blocks, when the side information and the decoded
data are those of the image: the pixels of these blocks are those of the image. -/
theorem inverse_blocks_spec (img side dec : Mem) (n bs B : Nat) (hbs : 1 ≤ bs) (hn : bs ≤ n)
    (himg : ∀ a, img a < 256) (M : Nat)
    (hside : ∀ b, b < M → side b = img (((b / B) * bs) * n + (b % B) * bs))
    (hdec : ∀ b off, b < M → off < bs * bs →
      dec (b * (bs * bs) + off)
        = specResidual img n ((b / B) * bs) ((b % B) * bs) (off / bs) (off % bs))
    (rec0 : Mem) :
    ∀ m, m ≤ M →
      ((List.range m).foldl
          (fun st k => inverseBlock side dec n bs B ((k / B) * bs) ((k % B) * bs) st)
          (0, rec0)).1 = m * (bs * bs) ∧
      (∀ b r c, b < m → r < bs → c < bs →
        ((List.range m).foldl
            (fun st k => inverseBlock side dec n bs B ((k / B) * bs) ((k % B) * bs) st)
            (0, rec0)).2 (((b / B) * bs + r) * n + (b % B) * bs + c)
          = img (((b / B) * bs + r) * n + (b % B) * bs + c)) := by
  intro m
  induction m with
  | zero =>
    intro _
    refine ⟨by simp, fun b r c hb => ?_⟩
    omega
  | succ m ih =>
    intro hm
    have ihm := ih (Nat.le_of_succ_le hm)
    clear ih
    rw [List.range_succ, List.foldl_append]
    simp only [List.foldl_cons, List.foldl_nil]
    generalize (List.range m).foldl
      (fun st k => inverseBlock side dec n bs B ((k / B) * bs) ((k % B) * bs) st)
      (0, rec0) = st at ihm
    obtain ⟨t, rec1⟩ := st
    obtain ⟨iht, ihr⟩ := ihm
    simp only [] at iht ihr
    have hidx : ((m / B) * bs / bs) * B + (m % B) * bs / bs = m := by
      rw [Nat.mul_div_cancel _ (by omega), Nat.mul_div_cancel _ (by omega)]
      exact Nat.div_add_mod' m B
    have hsucc : (m + 1) * (bs * bs) = m * (bs * bs) + bs * bs := Nat.succ_mul _ _
    have hoff : ∀ r c, r < bs → c < bs → r * bs + c < bs * bs := by
      intro r c hr hc
      have h1 : (r + 1) * bs ≤ bs * bs := Nat.mul_le_mul_right bs hr
      rw [Nat.succ_mul] at h1
      omega
    obtain ⟨h1, h2, h3⟩ := inverseBlock_spec img side dec n bs B ((m / B) * bs) ((m % B) * bs)
      t rec1 hbs hn himg
      (by rw [hidx]; exact hside m (by omega))
      (by
        intro r c hr hc _
        obtain ⟨e1, e2⟩ := div_mod_of_decomp bs r c (r * bs + c) hc (Nat.add_comm _ _)
        have := hdec m (r * bs + c) (by omega) (hoff r c hr hc)
        rw [e1, e2] at this
        rw [iht, Nat.add_assoc]
        exact this)
    refine ⟨by rw [h1, iht, hsucc], ?_⟩
    intro b r c hb hr hc
    by_cases hbm : b = m
    · subst hbm
      exact h2 r c hr hc
    · by_cases hin : ∃ r2 c2, r2 < bs ∧ c2 < bs ∧
          ((b / B) * bs + r) * n + (b % B) * bs + c
            = ((m / B) * bs + r2) * n + (m % B) * bs + c2
      · obtain ⟨r2, c2, hr2, hc2, he⟩ := hin
        rw [he]
        exact h2 r2 c2 hr2 hc2
      · rw [h3 _ (fun r2 c2 hr2 hc2 he => hin ⟨r2, c2, hr2, hc2, he⟩)]
        exact ihr b r c (by omega) hr hc

theorem quantize_one (x : Nat) : quantize 1 x = x := by
  simp [quantize]

theorem dequantize_one (midpoint : Bool) (v : Nat) (hv : v < 256) :
    dequantize 1 midpoint v = v := by
  cases midpoint <;>
    simp [dequantize, reconstructionOffset, firstElementLastInterval, sizeLastQinterval,
      lastIntervalStart, intervalCount] <;>
    omega

/-- The direct transform of a square image in blocks, `qs = 1`: the two nested block loops as
one loop over the `B * B` blocks. -/
theorem direct_square_fold (header : ImageMarlinHeader) (img side0 pre0 : Mem) (B : Nat)
    (hsq : header.rows = header.cols) (hbs : 1 ≤ header.blocksize)
    (hB : B * header.blocksize = header.rows) (hBpos : 0 < B) (hlt : header.rows < 2 ^ 64) :
    predict_and_quantize_direct header 1 img side0 pre0
      = ((List.range (B * B)).foldl
          (fun st k => directBlock img header.rows header.blocksize B
            ((k / B) * header.blocksize) ((k % B) * header.blocksize) st)
          (0, side0, pre0)).2 := by
  have hle : header.blocksize ≤ header.rows := by
    rw [← hB]; exact Nat.le_mul_of_pos_left _ hBpos
  have hdiv : header.rows / header.blocksize = B := by
    rw [← hB]; exact Nat.mul_div_cancel _ (by omega)
  have hbcols : (header.cols + header.blocksize - 1) / header.blocksize = B :=
    (div_mod_of_decomp header.blocksize B (header.blocksize - 1)
      (header.cols + header.blocksize - 1) (by omega) (by rw [← hsq, ← hB]; omega)).1
  have hq : (fun a => if a < header.rows * header.cols * header.channels
      then quantize 1 (img a) else img a) = img := by
    funext a
    rw [quantize_one]
    split <;> rfl
  unfold predict_and_quantize_direct
  simp only []
  rw [hq, hbcols, blockStarts_eq _ _ hbs hle hlt, hdiv]
  simp only [List.foldl_map]
  rw [foldl_range_nested
    (fun st a b => directBlock img header.rows header.blocksize B (a * header.blocksize)
      (b * header.blocksize) st)]

/-- The inverse transform of a square image in blocks: the two nested block loops as one loop
over the `B * B` blocks, followed by the dequantisation of every pixel. -/
theorem inverse_square_fold (header : ImageMarlinHeader) (dec side rec0 : Mem) (B : Nat)
    (hch : header.channels = 1) (hsq : header.rows = header.cols)
    (hbs : 1 ≤ header.blocksize) (hB : B * header.blocksize = header.rows) (hBpos : 0 < B)
    (hlt : header.rows < 2 ^ 64) :
    transform_inverse header dec side rec0
      = some (fun a =>
          if a < header.rows * header.cols * header.channels then
            dequantize header.qstep header.midpoint
              (((List.range (B * B)).foldl
                (fun st k => inverseBlock side dec header.rows header.blocksize B
                  ((k / B) * header.blocksize) ((k % B) * header.blocksize) st)
                (0, rec0)).2 a)
          else
            ((List.range (B * B)).foldl
              (fun st k => inverseBlock side dec header.rows header.blocksize B
                ((k / B) * header.blocksize) ((k % B) * header.blocksize) st)
              (0, rec0)).2 a) := by
  have hle : header.blocksize ≤ header.rows := by
    rw [← hB]; exact Nat.le_mul_of_pos_left _ hBpos
  have hdiv : header.rows / header.blocksize = B := by
    rw [← hB]; exact Nat.mul_div_cancel _ (by omega)
  have hbcols : (header.rows + header.blocksize - 1) / header.blocksize = B :=
    (div_mod_of_decomp header.blocksize B (header.blocksize - 1)
      (header.rows + header.blocksize - 1) (by omega) (by rw [← hB]; omega)).1
  unfold transform_inverse
  rw [if_neg (by rw [hch]; exact fun h => h rfl)]
  simp only []
  rw [← hsq, hbcols, blockStarts_eq _ _ hbs hle hlt, hdiv]
  simp only [List.foldl_map]
  rw [foldl_range_nested
    (fun st a b => inverseBlock side dec header.rows header.blocksize B
      (a * header.blocksize) (b * header.blocksize) st)]

/-- For a square image whose side is a multiple of the block size, with one channel and
`qstep = 1`, the inverse transform of the direct transform gives the image back: with `rows`
equal to `cols` the row length the direct transform takes from `header.rows` is the right
one. -/
theorem transform_roundtrip_square (header : ImageMarlinHeader) (img : Mem)
    (hch : header.channels = 1) (hq : header.qstep = 1) (hsq : header.rows = header.cols)
    (hbs : 1 ≤ header.blocksize) (hmul : header.rows % header.blocksize = 0)
    (hlt : header.rows < 2 ^ 64) (himg : ∀ a, img a < 256) :
    ∃ r, roundTrip header img = some r ∧ ∀ a, a < header.rows * header.cols → r a = img a := by
  have hdir : transform_direct header img (fun _ => 0) (fun _ => 0)
      = some (predict_and_quantize_direct header 1 img (fun _ => 0) (fun _ => 0)) := by
    unfold transform_direct
    rw [if_neg (by rw [hch]; exact fun h => h rfl), if_neg (by omega), if_pos (by omega), hq]
  have hB : (header.rows / header.blocksize) * header.blocksize = header.rows :=
    Nat.div_mul_cancel (Nat.dvd_of_mod_eq_zero hmul)
  by_cases hzero : header.rows = 0
  · unfold roundTrip
    rw [hdir]
    cases hp : predict_and_quantize_direct header 1 img (fun _ => 0) (fun _ => 0) with
    | mk side pre =>
      simp only []
      unfold transform_inverse
      rw [if_neg (by rw [hch]; exact fun h => h rfl)]
      refine ⟨_, rfl, ?_⟩
      intro a ha
      rw [hzero, Nat.zero_mul] at ha
      omega
  · have hBpos : 0 < header.rows / header.blocksize := by
      rcases Nat.eq_zero_or_pos (header.rows / header.blocksize) with h | h
      · rw [h, Nat.zero_mul] at hB; omega
      · exact h
    have hle : header.blocksize ≤ header.rows := by
      have := Nat.le_mul_of_pos_left header.blocksize hBpos
      rw [hB] at this
      exact this
    have hfold := direct_square_fold header img (fun _ => 0) (fun _ => 0)
      (header.rows / header.blocksize) hsq hbs hB hBpos hlt
    obtain ⟨_, hside, hpre⟩ := direct_blocks_spec img header.rows header.blocksize
      (header.rows / header.blocksize) hbs (fun _ => 0) (fun _ => 0)
      (header.rows / header.blocksize * (header.rows / header.blocksize))
    rw [← hfold] at hside hpre
    unfold roundTrip
    rw [hdir]
    cases hp : predict_and_quantize_direct header 1 img (fun _ => 0) (fun _ => 0) with
    | mk side pre =>
      rw [hp] at hside hpre
      simp only [] at hside hpre ⊢
      rw [inverse_square_fold header pre side (fun _ => 0) (header.rows / header.blocksize)
        hch hsq hbs hB hBpos hlt]
      refine ⟨_, rfl, ?_⟩
      intro a ha
      obtain ⟨_, hrec⟩ := inverse_blocks_spec img side pre header.rows header.blocksize
        (header.rows / header.blocksize) hbs hle himg
        (header.rows / header.blocksize * (header.rows / header.blocksize)) hside hpre
        (fun _ => 0) (header.rows / header.blocksize * (header.rows / header.blocksize))
        (Nat.le_refl _)
      have hnpos : 0 < header.rows := Nat.pos_of_ne_zero hzero
      have hbpos : 0 < header.blocksize := hbs
      have hR : a / header.rows < header.rows := by
        rw [Nat.div_lt_iff_lt_mul hnpos, hsq]
        rw [hsq] at ha
        exact ha
      have hC : a % header.rows < header.rows := Nat.mod_lt _ hnpos
      have hbi : a / header.rows / header.blocksize < header.rows / header.blocksize := by
        rw [Nat.div_lt_iff_lt_mul hbpos, hB]; exact hR
      have hbj : a % header.rows / header.blocksize < header.rows / header.blocksize := by
        rw [Nat.div_lt_iff_lt_mul hbpos, hB]; exact hC
      obtain ⟨e1, e2⟩ := div_mod_of_decomp (header.rows / header.blocksize)
        (a / header.rows / header.blocksize) (a % header.rows / header.blocksize)
        (a / header.rows / header.blocksize * (header.rows / header.blocksize)
          + a % header.rows / header.blocksize) hbj (Nat.add_comm _ _)
      have hblt : a / header.rows / header.blocksize * (header.rows / header.blocksize)
          + a % header.rows / header.blocksize
          < header.rows / header.blocksize * (header.rows / header.blocksize) := by
        have h1 : (a / header.rows / header.blocksize + 1) * (header.rows / header.blocksize)
            ≤ header.rows / header.blocksize * (header.rows / header.blocksize) :=
          Nat.mul_le_mul_right _ hbi
        rw [Nat.succ_mul] at h1
        omega
      have hpix := hrec
        (a / header.rows / header.blocksize * (header.rows / header.blocksize)
          + a % header.rows / header.blocksize)
        (a / header.rows % header.blocksize) (a % header.rows % header.blocksize) hblt
        (Nat.mod_lt _ hbpos) (Nat.mod_lt _ hbpos)
      have haddr : (a / header.rows / header.blocksize * header.blocksize
            + a / header.rows % header.blocksize) * header.rows
          + a % header.rows / header.blocksize * header.blocksize
          + a % header.rows % header.blocksize = a := by
        rw [Nat.div_add_mod' (a / header.rows) header.blocksize, Nat.add_assoc,
          Nat.div_add_mod' (a % header.rows) header.blocksize]
        exact Nat.div_add_mod' a header.rows
      rw [e1, e2, haddr] at hpix
      show (if a < header.rows * header.cols * header.channels then _ else _) = img a
      rw [if_pos (by rw [hch, Nat.mul_one]; exact ha), hpix, hq]
      exact dequantize_one _ _ (himg a)

theorem transform_roundtrip_square_example :
    ∃ r, roundTrip squareHeader squareImage = some r ∧
      ∀ a, a < squareHeader.rows * squareHeader.cols → r a = squareImage a :=
  transform_roundtrip_square squareHeader squareImage rfl rfl rfl (by decide) (by decide)
    (by decide) (fun a => Nat.mod_lt _ (by decide))

end Marlin
